import Mathlib

/-!
Value codecs of `pgtypes` and the type resolvers: a shallow embedding.

The Go package `pgtypes` converts between typed arrays / interval durations and
PostgreSQL's textual wire format, JSON and plain text; the packages
`sqlitetype` and `main` map declared column types to Go type names and build
relation fields.  This file embeds the relevant functions as Lean definitions
and proves properties of them.

Modelling conventions

* A Go `string` (and a `[]byte` holding text) is a `List Char`, a sequence of
  code points, that is, a text of valid UTF-8; a statement about every string
  is about every such text.  All separators, cut sets and digits the package
  looks for are ASCII, where byte offsets and code-point offsets coincide;
  where Go counts bytes (`uuid.Parse`), the bytes of the UTF-8 encoding are
  counted.
* A Go slice that may be `nil` is an `Option (List α)`: `none` is the nil
  slice, `some []` the empty non-nil slice.  `len` of both is `0`.
* `int64`, `int32` and `time.Duration` values are `Int`s, with the range
  stated where it matters.
* A method with a pointer receiver that returns `error` becomes a function from
  the receiver's old value to the pair of its new value and the returned error.
* Functions of the Go standard library (`strings`, `strconv`, `time`) and of
  `github.com/google/uuid` are embedded from their reference implementation.
  `strconv.ParseFloat` and `strconv.FormatFloat` are parameters.
* The `float64` arithmetic of `time.ParseDuration` is embedded on exact
  rationals: every operation gives the `float64` nearest to its exact result,
  ties to even, and `+Inf` on overflow.
* A `time.Time` is the wall clock reading it shows together with the offset of
  its zone; `time.Format` and `time.Parse` are embedded for the layouts the
  package uses.
* Loops over a text that are no structural recursion take a number of rounds;
  the callers pass a number that is proved to be enough.
* A map literal is the list of its entries, looked up by key; a map that is
  only read and assigned is a function from keys to optional values.  String
  constants are written as literals turned into lists of code points.
* Where it matters whether storage is shared (`append`), a slice is its backing
  array together with its length, and a call returns the array afterwards.
-/

namespace PgTypes

/-- A Go string: a sequence of code points. -/
abbrev GoString := List Char

/-- The dynamic values a `Scan` source or a `driver.Value` can hold:
`nil`, a byte slice, a string, or a value of any other dynamic type. -/
inductive Any where
  | null
  | bytes (b : GoString)
  | str (s : GoString)
  | other
  deriving DecidableEq, Repr

/-- The errors returned by the embedded functions, with the data that
determines their message. -/
inductive Error where
  /-- `fmt.Errorf("cannot scan type %T into <target>", src)` -/
  | cannotScan (target : String)
  /-- `fmt.Errorf("invalid boolean value: %s", p)` -/
  | invalidBoolean (p : GoString)
  /-- `strconv.NumError` with `ErrSyntax` -/
  | numSyntax (fn : String) (num : GoString)
  /-- `strconv.NumError` with `ErrRange` -/
  | numRange (fn : String) (num : GoString)
  /-- `uuid`: `invalidLengthError` -/
  | uuidInvalidLength (len : Nat)
  /-- `uuid`: "invalid urn prefix: %q" -/
  | uuidInvalidUrnPrefix (pre : GoString)
  /-- `uuid`: "invalid UUID format" -/
  | uuidInvalidFormat
  /-- `time.ParseDuration`: "time: invalid duration ..." -/
  | durationInvalid (orig : GoString)
  /-- `time.ParseDuration`: "time: missing unit in duration ..." -/
  | durationMissingUnit (orig : GoString)
  /-- `time.ParseDuration`: "time: unknown unit ... in duration ..." -/
  | durationUnknownUnit (unit orig : GoString)
  /-- `time.Parse`: a `*time.ParseError` for the given layout and value -/
  | timeParse (layout value : GoString)
  /-- `fmt.Errorf("parsing time %q failed: %w", ts, err)` -/
  | parsingTimeFailed (ts : GoString)
  /-- `errors.New("unsupported interval format: " + s)` -/
  | unsupportedInterval (s : GoString)
  /-- A run-time panic (index out of range), which is no error value. -/
  | panic
  /-- An error of `json.Unmarshal`: a `*json.SyntaxError` for text that is not a
  JSON document, or a `*json.UnmarshalTypeError` for a value of another type
  than the target. -/
  | json
  deriving DecidableEq, Repr

/-! ## Package `strings` -/

/-- Drop the longest prefix of characters satisfying `p` (`strings.TrimLeftFunc`). -/
def trimLeftFunc (p : Char → Bool) (s : GoString) : GoString :=
  s.dropWhile p

/-- Drop the longest suffix of characters satisfying `p` (`strings.TrimRightFunc`). -/
def trimRightFunc (p : Char → Bool) (s : GoString) : GoString :=
  (s.reverse.dropWhile p).reverse

/-- `strings.Trim(s, cutset)`: remove all leading and trailing code points
contained in `cutset`. -/
def Trim (s : GoString) (cutset : GoString) : GoString :=
  trimRightFunc (fun c => cutset.contains c) (trimLeftFunc (fun c => cutset.contains c) s)

/-- `unicode.IsSpace`: the code points with the White_Space property. -/
def isSpace (c : Char) : Bool :=
  let n := c.toNat
  (9 ≤ n && n ≤ 13) || n = 0x20 || n = 0x85 || n = 0xA0 || n = 0x1680 ||
  (0x2000 ≤ n && n ≤ 0x200A) || n = 0x2028 || n = 0x2029 || n = 0x202F ||
  n = 0x205F || n = 0x3000

/-- `strings.TrimSpace(s)`. -/
def TrimSpace (s : GoString) : GoString :=
  trimRightFunc isSpace (trimLeftFunc isSpace s)

/-- `strings.Split(s, sep)` for a one-character separator: the substrings
between the separators; a string without separator is returned whole (also the
empty one). -/
def Split (s : GoString) (sep : Char) : List GoString :=
  match s with
  | [] => [[]]
  | c :: cs =>
    if c = sep then [] :: Split cs sep
    else
      match Split cs sep with
      | [] => [[c]]
      | p :: ps => (c :: p) :: ps

/-- `strings.Join(elems, sep)`. -/
def Join (elems : List GoString) (sep : GoString) : GoString :=
  match elems with
  | [] => []
  | [e] => e
  | e :: es => e ++ sep ++ Join es sep

/-- One step of `strings.ToLower`.  ASCII capitals are mapped to their small
letters; other code points are kept (no non-ASCII code point lower-cases to an
ASCII letter of the words the package compares with, except U+212A to `k`). -/
def toLowerChar (c : Char) : Char :=
  if 'A' ≤ c ∧ c ≤ 'Z' then Char.ofNat (c.toNat + 32) else c

/-- `strings.ToLower(s)`. -/
def ToLower (s : GoString) : GoString :=
  s.map toLowerChar

/-- Auxiliary loop of `strings.Fields`: `cur` is the field being read, reversed. -/
def fieldsAux : GoString → GoString → List GoString
  | [], cur => if cur = [] then [] else [cur.reverse]
  | c :: cs, cur =>
    if isSpace c then
      (if cur = [] then fieldsAux cs [] else cur.reverse :: fieldsAux cs [])
    else fieldsAux cs (c :: cur)

/-- `strings.Fields(s)`: the maximal runs of non-space characters. -/
def Fields (s : GoString) : List GoString :=
  fieldsAux s []

/-- `len(a)` of a possibly nil slice. -/
def len {α : Type} (a : Option (List α)) : Nat :=
  match a with
  | none => 0
  | some l => l.length

/-- The elements of a possibly nil slice. -/
def elems {α : Type} (a : Option (List α)) : List α :=
  match a with
  | none => []
  | some l => l

/-! ## Package `strconv` -/

/-- The character of a decimal digit, `byte(d) + '0'`. -/
def digitChar (d : Nat) : Char :=
  match d with
  | 0 => '0' | 1 => '1' | 2 => '2' | 3 => '3' | 4 => '4'
  | 5 => '5' | 6 => '6' | 7 => '7' | 8 => '8' | _ => '9'

/-- The value of a decimal digit character, `c - '0'` when `'0' <= c <= '9'`. -/
def digitVal (c : Char) : Option Nat :=
  match c with
  | '0' => some 0 | '1' => some 1 | '2' => some 2 | '3' => some 3 | '4' => some 4
  | '5' => some 5 | '6' => some 6 | '7' => some 7 | '8' => some 8 | '9' => some 9
  | _ => none

/-- A number below 100 written with two digits. -/
def twoDigits (n : Nat) : GoString :=
  [digitChar (n / 10), digitChar (n % 10)]

/-- Decimal digits of `n`, most significant first, in front of `acc`; the loop
`for v > 0 { w--; buf[w] = v%10 + '0'; v /= 10 }` run at most `fuel` times. -/
def digitsAux (fuel n : Nat) (acc : GoString) : GoString :=
  match fuel with
  | 0 => acc
  | fuel + 1 =>
    if n = 0 then acc else digitsAux fuel (n / 10) (digitChar (n % 10) :: acc)

/-- Decimal representation of a natural number without leading zeros, `"0"` for zero. -/
def formatNat (n : Nat) : GoString :=
  if n = 0 then ['0'] else digitsAux n n []

/-- `strconv.FormatInt(i, 10)`. -/
def FormatInt (i : Int) : GoString :=
  if i < 0 then '-' :: formatNat i.natAbs else formatNat i.natAbs

/-- Result of the digit loop of `strconv.ParseUint`. -/
inductive UintResult where
  | ok (n : Nat)
  | syntaxErr
  | rangeErr
  deriving DecidableEq, Repr

/-- The digit loop of `strconv.ParseUint(s, 10, bitSize)`: `n` is the value read
so far; a non-digit is a syntax error, a value above `2^bitSize - 1` a range error. -/
def parseUintLoop (bitSize : Nat) (s : GoString) (n : Nat) : UintResult :=
  match s with
  | [] => .ok n
  | c :: cs =>
    match digitVal c with
    | none => .syntaxErr
    | some d =>
      if n ≥ (2 ^ 64 - 1) / 10 + 1 then .rangeErr
      else if n * 10 + d > 2 ^ bitSize - 1 then .rangeErr
      else parseUintLoop bitSize cs (n * 10 + d)

/-- `strconv.ParseUint(s, 10, bitSize)` for `bitSize` 32 or 64. -/
def ParseUint (s : GoString) (bitSize : Nat) : UintResult :=
  if s = [] then .syntaxErr else parseUintLoop bitSize s 0

/-- `strconv.ParseInt(s, 10, bitSize)` for `bitSize` 32 or 64: an optional sign,
then decimal digits; the value must lie in `[-2^(bitSize-1), 2^(bitSize-1) - 1]`. -/
def ParseInt (s : GoString) (bitSize : Nat) : Except Error Int :=
  match s with
  | [] => .error (.numSyntax "ParseInt" s)
  | c :: cs =>
    let neg := c = '-'
    let rest := if c = '+' ∨ c = '-' then cs else s
    match ParseUint rest bitSize with
    | .syntaxErr => .error (.numSyntax "ParseInt" s)
    | .rangeErr => .error (.numRange "ParseInt" s)
    | .ok un =>
      let cutoff := 2 ^ (bitSize - 1)
      if ¬ neg ∧ un ≥ cutoff then .error (.numRange "ParseInt" s)
      else if neg ∧ un > cutoff then .error (.numRange "ParseInt" s)
      else .ok (if neg then - (un : Int) else (un : Int))

/-- The values of type `int64`. -/
abbrev IsInt64 (x : Int) : Prop :=
  -9223372036854775808 ≤ x ∧ x ≤ 9223372036854775807

/-- The values of type `int32`. -/
abbrev IsInt32 (x : Int) : Prop :=
  -2147483648 ≤ x ∧ x ≤ 2147483647

/-! ## The array codecs -/

/-- The loop `for i, p := range parts { v, err := parse(p); if err != nil
{ return err }; result[i] = v }`: all elements, or the first error. -/
def scanLoop {α : Type} (parse : GoString → Except Error α) : List GoString → Except Error (List α)
  | [] => .ok []
  | p :: ps =>
    match parse p with
    | .error e => .error e
    | .ok v =>
      match scanLoop parse ps with
      | .error e => .error e
      | .ok vs => .ok (v :: vs)

/-- The body shared by the `Scan` methods of the array types: `a` is the
receiver's value before the call; the result is its value afterwards and the
returned error. -/
def scanArray {α : Type} (target : String) (parse : GoString → Except Error α)
    (a : Option (List α)) (src : Any) : Option (List α) × Option Error :=
  match src with
  | .null => (none, none)
  | .other => (a, some (.cannotScan target))
  | .bytes t | .str t =>
    let input := Trim t ['{', '}']
    if input = [] then (some [], none)
    else
      match scanLoop parse (Split input ',') with
      | .error e => (a, some e)
      | .ok result => (some result, none)

/-- The body shared by the `Value` methods: `"{}"` for a slice of length zero,
else the rendered elements joined by commas inside braces. -/
def valueArray {α : Type} (render : α → GoString) (a : Option (List α)) : Any × Option Error :=
  if len a = 0 then (.str ['{', '}'], none)
  else (.str (['{'] ++ Join ((elems a).map render) [','] ++ ['}']), none)

/-- `Int64Array.Scan`. -/
def Int64Array.Scan (a : Option (List Int)) (src : Any) : Option (List Int) × Option Error :=
  scanArray "Int64Array" (fun p => ParseInt (TrimSpace p) 64) a src

/-- `Int64Array.Value`. -/
def Int64Array.Value (a : Option (List Int)) : Any × Option Error :=
  valueArray FormatInt a

/-- The value of an `int64` computation whose exact result is `v`: the result
modulo `2^64`, in `[-2^63, 2^63)`. -/
def toInt64 (v : Int) : Int :=
  (v + 2 ^ 63) % 2 ^ 64 - 2 ^ 63

/-- The conversion `int32(v)` of an `int64`: the value modulo `2^32`, in
`[-2^31, 2^31)`. -/
def toInt32 (v : Int) : Int :=
  (v + 2 ^ 31) % 2 ^ 32 - 2 ^ 31

/-- The element parser of `Int32Array.Scan`: `ParseInt(..., 10, 32)` followed by
the conversion to `int32`. -/
def Int32Array.parseElem (p : GoString) : Except Error Int :=
  match ParseInt (TrimSpace p) 32 with
  | .error e => .error e
  | .ok val => .ok (toInt32 val)

/-- `Int32Array.Scan`. -/
def Int32Array.Scan (a : Option (List Int)) (src : Any) : Option (List Int) × Option Error :=
  scanArray "Int32Array" Int32Array.parseElem a src

/-- `Int32Array.Value`. -/
def Int32Array.Value (a : Option (List Int)) : Any × Option Error :=
  valueArray FormatInt a

/-- The element parser of `BoolArray.Scan`. -/
def BoolArray.parseElem (p : GoString) : Except Error Bool :=
  let w := ToLower (TrimSpace p)
  if w = ['t'] ∨ w = ['t', 'r', 'u', 'e'] then .ok true
  else if w = ['f'] ∨ w = ['f', 'a', 'l', 's', 'e'] then .ok false
  else .error (.invalidBoolean p)

/-- `BoolArray.Scan`. -/
def BoolArray.Scan (a : Option (List Bool)) (src : Any) : Option (List Bool) × Option Error :=
  scanArray "BoolArray" BoolArray.parseElem a src

/-- `BoolArray.Value`. -/
def BoolArray.Value (a : Option (List Bool)) : Any × Option Error :=
  valueArray (fun v => if v then ['t'] else ['f']) a

/-- `StringArray.Scan`: every part between commas, with its surrounding double
quotes trimmed; no element can fail. -/
def StringArray.Scan (a : Option (List GoString)) (src : Any) :
    Option (List GoString) × Option Error :=
  scanArray "StringArray" (fun s => .ok (Trim s ['"'])) a src

/-- `StringArray.Value`: every element rendered by `fmt.Sprintf("\"%s\"", s)`. -/
def StringArray.Value (a : Option (List GoString)) : Any × Option Error :=
  valueArray (fun s => ['"'] ++ s ++ ['"']) a

/-- The `Equals` methods of the array types: equal lengths and equal elements
at every index. -/
def equalsArray {α : Type} [DecidableEq α] (a b : Option (List α)) : Bool :=
  if len a ≠ len b then false
  else (List.range (len a)).all (fun i => decide ((elems a)[i]? = (elems b)[i]?))

/-- `StringArray.Equals`. -/
def StringArray.Equals (a b : Option (List GoString)) : Bool :=
  equalsArray a b

/-! ## Package `time`: durations -/

/-- `time.Duration` constants, in nanoseconds. -/
def Nanosecond : Nat := 1
/-- One microsecond. -/
def Microsecond : Nat := 1000
/-- One millisecond. -/
def Millisecond : Nat := 1000000
/-- One second. -/
def Second : Nat := 1000000000
/-- One minute. -/
def Minute : Nat := 60000000000
/-- One hour. -/
def Hour : Nat := 3600000000000

/-- The loop of `fmtFrac(buf, v, prec)`: `k` digits are left to look at, `acc`
is the text written so far, `print` tells whether a non-zero digit was seen. -/
def fmtFracLoop : Nat → Nat → Bool → GoString → GoString × Nat × Bool
  | 0, v, print, acc => (acc, v, print)
  | k + 1, v, print, acc =>
    let digit := v % 10
    let print1 := print || digit != 0
    fmtFracLoop k (v / 10) print1 (if print1 then digitChar digit :: acc else acc)

/-- `fmtFrac(buf, v, prec)`: the text of the fraction `v / 10^prec` without
trailing zeros, with its decimal point (empty when the fraction is zero), and
`v / 10^prec`. -/
def fmtFrac (v prec : Nat) : GoString × Nat :=
  let r := fmtFracLoop prec v false []
  (if r.2.2 then '.' :: r.1 else r.1, r.2.1)

/-- `fmtInt(buf, v)`: the decimal text of `v`. -/
def fmtInt (v : Nat) : GoString :=
  formatNat v

/-- The digits and units written by `Duration.format` for the magnitude `u` of
a duration, which come before the sign is written: the form `72h3m0.5s`;
magnitudes below one second use the units `ns`, `µs` and `ms`; zero is `0s`. -/
def formatAbs (u : Nat) : GoString :=
  if u < Second then
    if u = 0 then ['0', 's']
    else if u < Microsecond then fmtInt u ++ ['n', 's']
    else if u < Millisecond then
      fmtInt (fmtFrac u 3).2 ++ (fmtFrac u 3).1 ++ ['µ', 's']
    else fmtInt (fmtFrac u 6).2 ++ (fmtFrac u 6).1 ++ ['m', 's']
  else
    let frac := fmtFrac u 9
    let u1 := frac.2
    let secs := fmtInt (u1 % 60) ++ frac.1 ++ ['s']
    let u2 := u1 / 60
    if u2 > 0 then
      let mins := fmtInt (u2 % 60) ++ ['m'] ++ secs
      let u3 := u2 / 60
      if u3 > 0 then fmtInt u3 ++ ['h'] ++ mins else mins
    else secs

/-- `time.Duration.String`: a minus sign for a negative duration, then the
text of its magnitude. -/
def Duration.String (d : Int) : GoString :=
  if d < 0 then '-' :: formatAbs d.natAbs else formatAbs d.natAbs

/-- `leadingInt(s)` of package `time`: the number written by the leading digits
of `s` (continuing from `x`) and the rest of `s`; `none` when the number
exceeds `1<<63`. -/
def leadingInt : GoString → Nat → Option (Nat × GoString)
  | [], x => some (x, [])
  | c :: cs, x =>
    match digitVal c with
    | none => some (x, c :: cs)
    | some d =>
      if x > 2 ^ 63 / 10 then none
      else if x * 10 + d > 2 ^ 63 then none
      else leadingInt cs (x * 10 + d)

/-- The position of the highest set bit of `n` (`0` for `n < 2`), found in at
most `fuel` halvings. -/
def log2Floor : Nat → Nat → Nat
  | 0, _ => 0
  | fuel + 1, n => if n < 2 then 0 else log2Floor fuel (n / 2) + 1

/-- The exponent of the unit in the last place of the `float64` values around
the rational `n / d`: the `e` with `2 ^ 52 ≤ n / d / 2 ^ e < 2 ^ 53`, and
`-1074` for the subnormal values. -/
def float64Exponent (n d : Nat) : Int :=
  let l : Int := (log2Floor n n : Int) - (log2Floor d d : Int)
  max (if d * 2 ^ l.toNat ≤ n * 2 ^ (-l).toNat then l - 52 else l - 53) (-1074)

/-- The multiple of `2 ^ e` nearest to the rational `n / d`, ties to the even
multiple, as the pair `(m, e)` that stands for `m * 2 ^ e`. -/
def roundToExponent (n d : Nat) (e : Int) : Nat × Int :=
  let num := n * 2 ^ (-e).toNat
  let den := d * 2 ^ e.toNat
  let m := num / den
  let r := num % den
  (if den < 2 * r ∨ (2 * r = den ∧ m % 2 = 1) then m + 1 else m, e)

/-- The `float64` nearest to the rational `n / d` (ties to even), as a pair
`(m, e)` that stands for `m * 2 ^ e`, with `m ≤ 2 ^ 53`: the result of an
IEEE 754 operation whose exact value is `n / d`, before the test for
overflow. -/
def roundFloat64 (n d : Nat) : Nat × Int :=
  roundToExponent n d (float64Exponent n d)

/-- The statement `scale *= 10` of `leadingFraction` on a `float64` that is
finite (`some (m, e)`, the value `m * 2 ^ e`) or `+Inf` (`none`): the product
is rounded, and a result of `2 ^ 1024` or more is `+Inf`. -/
def scaleTimesTen : Option (Nat × Int) → Option (Nat × Int)
  | none => none
  | some s =>
    let p := roundFloat64 (s.1 * 10 * 2 ^ s.2.toNat) (2 ^ (-s.2).toNat)
    if p.2 < 971 ∨ (p.2 = 971 ∧ p.1 < 2 ^ 53) then some p else none

/-- The expression `uint64(float64(f) * (float64(unit) / scale))` of
`time.ParseDuration`: two conversions, a division and a product, each rounded
to the nearest `float64`, and the truncation of the result.  With `scale`
equal to `+Inf` the quotient and the product are zero. -/
def fractionNanos (f unit : Nat) (scale : Option (Nat × Int)) : Nat :=
  match scale with
  | none => 0
  | some s =>
    let a := roundFloat64 f 1
    let u := roundFloat64 unit 1
    let b := roundFloat64 (u.1 * 2 ^ u.2.toNat * 2 ^ (-s.2).toNat)
      (s.1 * 2 ^ s.2.toNat * 2 ^ (-u.2).toNat)
    let p := roundFloat64 (a.1 * b.1 * 2 ^ (a.2 + b.2).toNat) (2 ^ (-(a.2 + b.2)).toNat)
    p.1 * 2 ^ p.2.toNat / 2 ^ (-p.2).toNat

/-- `leadingFraction(s)` of package `time`: the leading digits of `s` as a
number `x` with its scale (a power of ten, held in a `float64`), and the rest
of `s`; digits that would make `x` exceed `1<<63` are skipped. -/
def leadingFraction : GoString → Nat → Option (Nat × Int) → Bool →
    Nat × Option (Nat × Int) × GoString
  | [], x, scale, _ => (x, scale, [])
  | c :: cs, x, scale, overflow =>
    match digitVal c with
    | none => (x, scale, c :: cs)
    | some d =>
      if overflow then leadingFraction cs x scale true
      else if x > (2 ^ 63 - 1) / 10 then leadingFraction cs x scale true
      else if x * 10 + d > 2 ^ 63 then leadingFraction cs x scale true
      else leadingFraction cs (x * 10 + d) (scaleTimesTen scale) false

/-- The `unitMap` of package `time`. -/
def unitMap (u : GoString) : Option Nat :=
  if u = ['n', 's'] then some Nanosecond
  else if u = ['u', 's'] then some Microsecond
  else if u = ['µ', 's'] then some Microsecond
  else if u = ['μ', 's'] then some Microsecond
  else if u = ['m', 's'] then some Millisecond
  else if u = ['s'] then some Second
  else if u = ['m'] then some Minute
  else if u = ['h'] then some Hour
  else none

/-- Whether `c` ends a unit name in `ParseDuration`: a period or a digit. -/
def endsUnit (c : Char) : Bool :=
  c = '.' || (digitVal c).isSome

/-- The step `Consume (\.[0-9]*)?` of `time.ParseDuration`: the fraction `f`
with its scale, the rest of the input, and whether a digit was read. -/
def fractionStep (s1 : GoString) : Nat × Option (Nat × Int) × GoString × Bool :=
  match s1 with
  | '.' :: s2 =>
    let r := leadingFraction s2 0 (some (1, 0)) false
    (r.1, r.2.1, r.2.2, decide (r.2.2.length ≠ s2.length))
  | _ => (0, some (1, 0), s1, false)

/-- One round of the main loop of `time.ParseDuration` on the non-empty input
`s`: a number with an optional fraction and a unit is read and added to `d`;
the result is the rest of the input and the new sum.  The contribution of the
fraction is `uint64(float64(f) * (float64(unit) / scale))`, computed in
`float64` as in Go.  The sum `d` is a `uint64`. -/
def durationRound (orig s : GoString) (d : Nat) : Except Error (GoString × Nat) :=
  if ¬ (s.head?.map endsUnit).getD false then .error (.durationInvalid orig)
  else
    match leadingInt s 0 with
    | none => .error (.durationInvalid orig)
    | some (v, s1) =>
      let pre := s1.length ≠ s.length
      let fr := fractionStep s1
      let f := fr.1
      let scale := fr.2.1
      let s3 := fr.2.2.1
      let post := fr.2.2.2
      if ¬ pre ∧ ¬ post then .error (.durationInvalid orig)
      else
        let u := s3.takeWhile (fun c => ! endsUnit c)
        let s4 := s3.dropWhile (fun c => ! endsUnit c)
        if u = [] then .error (.durationMissingUnit orig)
        else
          match unitMap u with
          | none => .error (.durationUnknownUnit u orig)
          | some unit =>
            if v > 2 ^ 63 / unit then .error (.durationInvalid orig)
            else
              let v1 := v * unit
              let v2 := if f > 0 then v1 + fractionNanos f unit scale else v1
              if f > 0 ∧ v2 > 2 ^ 63 then .error (.durationInvalid orig)
              else
                let d1 := (d + v2) % 2 ^ 64
                if d1 > 2 ^ 63 then .error (.durationInvalid orig)
                else .ok (s4, d1)

/-- The main loop of `time.ParseDuration`, `for s != ""`, run at most `fuel`
times. -/
def parseDurationLoop (orig : GoString) : Nat → GoString → Nat → Except Error Nat
  | _, [], d => .ok d
  | 0, _ :: _, _ => .error (.durationInvalid orig)
  | fuel + 1, c :: cs, d =>
    match durationRound orig (c :: cs) d with
    | .error e => .error e
    | .ok (s4, d1) => parseDurationLoop orig fuel s4 d1

/-- The step `Consume [-+]?` of `time.ParseDuration`. -/
def stripSign : GoString → GoString
  | '-' :: t => t
  | '+' :: t => t
  | s => s

/-- `time.ParseDuration(s)`: an optional sign, then one or more decimal numbers,
each with an optional fraction and a unit.  The loop consumes at least one
character per round, so `s.length` rounds are enough. -/
def ParseDuration (s : GoString) : Except Error Int :=
  let neg := s.head? = some '-'
  let s1 := stripSign s
  if s1 = ['0'] then .ok 0
  else if s1 = [] then .error (.durationInvalid s)
  else
    match parseDurationLoop s s1.length s1 0 with
    | .error e => .error e
    | .ok d =>
      if neg then .ok (- (d : Int))
      else if d > 2 ^ 63 - 1 then .error (.durationInvalid s)
      else .ok (d : Int)

/-! ## Package `time`: parsing a clock time -/

/-- `getnum(s, fixed)` of package `time`: a number of one or two digits (two
when `fixed`) and the rest of `s`. -/
def getnum (s : GoString) (fixed : Bool) : Option (Nat × GoString) :=
  match s with
  | [] => none
  | c0 :: r0 =>
    match digitVal c0 with
    | none => none
    | some d0 =>
      match r0 with
      | [] => if fixed then none else some (d0, r0)
      | c1 :: r1 =>
        match digitVal c1 with
        | none => if fixed then none else some (d0, r0)
        | some d1 => some (d0 * 10 + d1, r1)

/-- `commaOrPeriod(b)`. -/
def commaOrPeriod (c : Char) : Bool :=
  c = '.' || c = ','

/-- The digits read by `parseNanoseconds(value, nbytes)` as a number of
nanoseconds: the first nine digits of `ds`, scaled to nine places. -/
def parseNanoseconds (ds : GoString) : Nat :=
  ((ds.take 9).foldl (fun a c => a * 10 + (digitVal c).getD 0) 0) * 10 ^ (9 - (ds.take 9).length)

/-- A fraction of a second in the input that the layout does not mention, after
the seconds field: a comma or period followed by at least one digit.  Returns
the nanoseconds and the rest of the input. -/
def skipFraction (value : GoString) : Nat × GoString :=
  match value with
  | c0 :: c1 :: r =>
    if commaOrPeriod c0 ∧ (digitVal c1).isSome then
      (parseNanoseconds ((c1 :: r).takeWhile (fun c => (digitVal c).isSome)),
        (c1 :: r).dropWhile (fun c => (digitVal c).isSome))
    else (0, value)
  | _ => (0, value)

/-- The time of day read by `time.Parse` with a layout that ends in `15:04:05`. -/
structure Clock where
  hour : Nat
  minute : Nat
  second : Nat
  nsec : Nat
  deriving DecidableEq, Repr

/-- The steps of `time.Parse` for the layout elements `15:04:05`: an hour of
one or two digits below 24, a colon, a two-digit minute below 60, a colon, a
two-digit second below 60.  Returns the fields and the rest of the input;
`none` stands for a parse error. -/
def parseHMS (value : GoString) : Option (Nat × Nat × Nat × GoString) :=
  match getnum value false with
  | none => none
  | some (hour, v1) =>
    if 24 ≤ hour then none
    else
      match v1 with
      | ':' :: v2 =>
        match getnum v2 true with
        | none => none
        | some (min, v3) =>
          if 60 ≤ min then none
          else
            match v3 with
            | ':' :: v4 =>
              match getnum v4 true with
              | none => none
              | some (sec, v5) =>
                if 60 ≤ sec then none else some (hour, min, sec, v5)
            | _ => none
      | _ => none

/-- `time.Parse("15:04:05", value)`: the clock fields of the result, whose date
is January 1 of year 0 in UTC.  A fraction of a second after the seconds is
accepted although the layout has none; any other text left over is an error. -/
def parseClock (value : GoString) : Except Error Clock :=
  match parseHMS value with
  | none => .error (.timeParse ['1', '5', ':', '0', '4', ':', '0', '5'] value)
  | some (hour, min, sec, v5) =>
    let fr := skipFraction v5
    if fr.2 ≠ [] then .error (.timeParse ['1', '5', ':', '0', '4', ':', '0', '5'] value)
    else .ok { hour := hour, minute := min, second := sec, nsec := fr.1 }

/-! ## `Duration` -/

/-- `parsePostgresInterval`: the empty string is zero; a Go duration literal is
taken as such; otherwise the text is split into fields, a first field followed
by `days` is read as a duration with `24h` appended to it, and the field at
`offset` is read as a clock time, whose hours, minutes and seconds are added
to the total in `int64` arithmetic.  `parts[offset]` panics when the index is
out of range: `none`. -/
def parsePostgresInterval (s0 : GoString) : Option (Except Error Int) :=
  let s := TrimSpace s0
  if s = [] then some (.ok 0)
  else
    match ParseDuration s with
    | .ok dur => some (.ok dur)
    | .error _ =>
      let parts := Fields s
      let daysStep : Except Error (Int × Nat) :=
        if parts.length = 3 ∧ parts[1]? = some ['d', 'a', 'y', 's'] then
          match ParseDuration (parts[0]?.getD [] ++ ['2', '4', 'h']) with
          | .error e => .error e
          | .ok days => .ok (days, 2)
        else .ok (0, 0)
      match daysStep with
      | .error e => some (.error e)
      | .ok (total, offset) =>
        match parts[offset]? with
        | none => none
        | some p =>
          match parseClock p with
          | .error _ => some (.error (.unsupportedInterval s))
          | .ok t =>
            some (.ok (toInt64 (total + (t.hour : Int) * Hour + (t.minute : Int) * Minute
              + (t.second : Int) * Second)))

/-- `Duration.Scan`: `nil` sets the receiver to zero; text is parsed by
`parsePostgresInterval`; any other source is an error. -/
def Duration.Scan (d : Int) (src : Any) : Int × Option Error :=
  match src with
  | .null => (0, none)
  | .other => (d, some (.cannotScan "Duration"))
  | .bytes s | .str s =>
    match parsePostgresInterval s with
    | none => (d, some .panic)
    | some (.error e) => (d, some e)
    | some (.ok parsed) => (parsed, none)

/-- `Duration.Value`: the Go duration text of the value. -/
def Duration.Value (d : Int) : Any × Option Error :=
  (.str (Duration.String d), none)

/-- The element parser of `DurationArray.Scan`. -/
def DurationArray.parseElem (p : GoString) : Except Error Int :=
  match parsePostgresInterval (Trim p ['"']) with
  | none => .error .panic
  | some r => r

/-- `DurationArray.Scan`. -/
def DurationArray.Scan (a : Option (List Int)) (src : Any) : Option (List Int) × Option Error :=
  scanArray "DurationArray" DurationArray.parseElem a src

/-- `DurationArray.Value`. -/
def DurationArray.Value (a : Option (List Int)) : Any × Option Error :=
  valueArray (fun v => ['"'] ++ Duration.String v ++ ['"']) a

/-- `DurationArray.Equals`. -/
def DurationArray.Equals (a b : Option (List Int)) : Bool :=
  equalsArray a b

/-! ## `Float64Array`

`strconv.ParseFloat` and `strconv.FormatFloat` work on floating-point numbers;
they are parameters of the embedding, over any type `F` of numbers. -/

/-- `Float64Array.Scan`, over the element parser `strconv.ParseFloat(_, 64)`. -/
def Float64Array.Scan {F : Type} (parseFloat : GoString → Except Error F)
    (a : Option (List F)) (src : Any) : Option (List F) × Option Error :=
  scanArray "Float64Array" (fun p => parseFloat (TrimSpace p)) a src

/-- `Float64Array.Value`, over `strconv.FormatFloat(_, 'f', -1, 64)`. -/
def Float64Array.Value {F : Type} (formatFloat : F → GoString) (a : Option (List F)) :
    Any × Option Error :=
  valueArray formatFloat a

/-! ## Package `uuid` -/

/-- A `uuid.UUID`, an array of 16 bytes, as the list of its bytes. -/
abbrev UUID := List Nat

/-- The lists that are UUIDs: 16 bytes. -/
abbrev IsUUID (u : UUID) : Prop :=
  u.length = 16 ∧ ∀ b ∈ u, b < 256

/-- The hexadecimal digit of a value below 16, as written by `encoding/hex`. -/
def hexChar (d : Nat) : Char :=
  match d with
  | 0 => '0' | 1 => '1' | 2 => '2' | 3 => '3' | 4 => '4' | 5 => '5' | 6 => '6' | 7 => '7'
  | 8 => '8' | 9 => '9' | 10 => 'a' | 11 => 'b' | 12 => 'c' | 13 => 'd' | 14 => 'e'
  | _ => 'f'

/-- The table `xvalues` of package `uuid`: the value of a hexadecimal digit. -/
def xvalue (c : Char) : Option Nat :=
  match c with
  | '0' => some 0 | '1' => some 1 | '2' => some 2 | '3' => some 3 | '4' => some 4
  | '5' => some 5 | '6' => some 6 | '7' => some 7 | '8' => some 8 | '9' => some 9
  | 'a' => some 10 | 'b' => some 11 | 'c' => some 12 | 'd' => some 13 | 'e' => some 14
  | 'f' => some 15
  | 'A' => some 10 | 'B' => some 11 | 'C' => some 12 | 'D' => some 13 | 'E' => some 14
  | 'F' => some 15
  | _ => none

/-- `xtob(x1, x2)`: the byte written by two hexadecimal digits. -/
def xtob (x1 x2 : Char) : Option Nat :=
  match xvalue x1, xvalue x2 with
  | some b1, some b2 => some (b1 * 16 + b2)
  | _, _ => none

/-- `hex.Encode`: two hexadecimal digits per byte. -/
def hexEncode (bs : List Nat) : GoString :=
  match bs with
  | [] => []
  | b :: rest => hexChar (b / 16) :: hexChar (b % 16) :: hexEncode rest

/-- `UUID.String`: the form `xxxxxxxx-xxxx-xxxx-xxxx-xxxxxxxxxxxx`. -/
def UUID.String (u : UUID) : GoString :=
  hexEncode (u.take 4) ++ ['-'] ++ hexEncode ((u.drop 4).take 2) ++ ['-'] ++
  hexEncode ((u.drop 6).take 2) ++ ['-'] ++ hexEncode ((u.drop 8).take 2) ++ ['-'] ++
  hexEncode (u.drop 10)

/-- The loop over the sixteen digit pairs: `xtob(s[x], s[x+1])` for each
position `x`; `none` when a pair is no hexadecimal number. -/
def xtobAll (s : GoString) : List Nat → Option (List Nat)
  | [] => some []
  | x :: xs =>
    match xtob (s.getD x ' ') (s.getD (x + 1) ' '), xtobAll s xs with
    | some b, some bs => some (b :: bs)
    | _, _ => none

/-- The standard form in `uuid.Parse`: dashes at the offsets 8, 13, 18, 23 and
hexadecimal digit pairs at the sixteen other positions. -/
def parseStandard (s : GoString) : Except Error UUID :=
  if s.getD 8 ' ' ≠ '-' ∨ s.getD 13 ' ' ≠ '-' ∨ s.getD 18 ' ' ≠ '-' ∨ s.getD 23 ' ' ≠ '-' then
    .error .uuidInvalidFormat
  else
    match xtobAll s [0, 2, 4, 6, 9, 11, 14, 16, 19, 21, 24, 26, 28, 30, 32, 34] with
    | none => .error .uuidInvalidFormat
    | some u => .ok u

/-- The bytes of the UTF-8 encoding of a code point, as `utf8.EncodeRune`
writes them. -/
def utf8Bytes (c : Char) : List Nat :=
  if c.toNat < 0x80 then [c.toNat]
  else if c.toNat < 0x800 then [0xC0 + c.toNat / 64, 0x80 + c.toNat % 64]
  else if c.toNat < 0x10000 then
    [0xE0 + c.toNat / 4096, 0x80 + c.toNat / 64 % 64, 0x80 + c.toNat % 64]
  else
    [0xF0 + c.toNat / 262144, 0x80 + c.toNat / 4096 % 64, 0x80 + c.toNat / 64 % 64,
      0x80 + c.toNat % 64]

/-- The bytes of a Go string, each written as the code point of the same
number: what `len(s)` counts and `s[i]` reads. -/
def byteString (s : GoString) : GoString :=
  s.flatMap (fun c => (utf8Bytes c).map Char.ofNat)

/-- `uuid.Parse(s)`: the standard form of 36 bytes, the same with the prefix
`urn:uuid:` or inside one byte on each side, or 32 hexadecimal digits.
Lengths and offsets count the bytes of `s`, as `len(s)` and `s[i]` do; a byte
of a code point outside ASCII is no dash and no hexadecimal digit, and
`strings.EqualFold` with `urn:uuid:` holds for ASCII bytes only. -/
def UUID.Parse (s : GoString) : Except Error UUID :=
  if (byteString s).length = 36 then parseStandard (byteString s)
  else if (byteString s).length = 36 + 9 then
    if ToLower ((byteString s).take 9) ≠ ['u', 'r', 'n', ':', 'u', 'u', 'i', 'd', ':'] then
      .error (.uuidInvalidUrnPrefix ((byteString s).take 9))
    else parseStandard ((byteString s).drop 9)
  else if (byteString s).length = 36 + 2 then parseStandard ((byteString s).drop 1)
  else if (byteString s).length = 32 then
    match xtobAll (byteString s)
      [0, 2, 4, 6, 8, 10, 12, 14, 16, 18, 20, 22, 24, 26, 28, 30] with
    | none => .error .uuidInvalidFormat
    | some u => .ok u
  else .error (.uuidInvalidLength (byteString s).length)

/-- `UUIDArray.Scan`. -/
def UUIDArray.Scan (a : Option (List UUID)) (src : Any) : Option (List UUID) × Option Error :=
  scanArray "UUIDArray" (fun p => UUID.Parse (Trim p ['"'])) a src

/-- `UUIDArray.Value`. -/
def UUIDArray.Value (a : Option (List UUID)) : Any × Option Error :=
  valueArray (fun v => ['"'] ++ UUID.String v ++ ['"']) a

/-! ## Package `time`: timestamps -/

/-- A `time.Time`, as the wall clock reading in a zone `offset` seconds east of
UTC. -/
structure Time where
  year : Int
  month : Nat
  day : Nat
  hour : Nat
  minute : Nat
  second : Nat
  nsec : Nat
  offset : Int
  deriving DecidableEq, Repr

/-- `isLeap(year)`. -/
def isLeap (year : Int) : Bool :=
  year % 4 = 0 && (year % 100 ≠ 0 || year % 400 = 0)

/-- `daysIn(month, year)`. -/
def daysIn (month : Nat) (year : Int) : Nat :=
  if month = 2 then (if isLeap year then 29 else 28)
  else if month = 4 ∨ month = 6 ∨ month = 9 ∨ month = 11 then 30
  else 31

/-- The readings a `time.Time` can show. -/
def Time.Valid (t : Time) : Prop :=
  1 ≤ t.month ∧ t.month ≤ 12 ∧ 1 ≤ t.day ∧ t.day ≤ daysIn t.month t.year ∧
  t.hour < 24 ∧ t.minute < 60 ∧ t.second < 60 ∧ t.nsec < 1000000000

instance (t : Time) : Decidable t.Valid := by
  unfold Time.Valid
  infer_instance

/-- `appendInt(b, x, width)` of package `time`: a minus sign for a negative
number, then its decimal digits, padded with zeros to `width` digits. -/
def appendInt (x : Int) (width : Nat) : GoString :=
  let u := x.natAbs
  (if x < 0 then ['-'] else []) ++
  (if width = 2 ∧ u < 100 then [digitChar (u / 10), digitChar (u % 10)]
   else if width = 4 ∧ u < 10000 then
     [digitChar (u / 100 / 10), digitChar (u / 100 % 10),
      digitChar (u % 100 / 10), digitChar (u % 100 % 10)]
   else List.replicate (width - (formatNat u).length) '0' ++ formatNat u)

/-- `appendNano(b, nanosec, stdFracSecond9)` with nine digits: nothing for
zero, else a period and the nine digits without trailing zeros. -/
def appendNano (nsec : Nat) : GoString :=
  if nsec = 0 then []
  else
    let b := trimRightFunc (fun c => c = '0') ('.' :: appendInt nsec 9)
    if (b.getLast?.map commaOrPeriod).getD false then b.dropLast else b

/-- The layout element `Z07:00` in `Time.Format`: `Z` for UTC, else the sign and
the hours and minutes of the offset. -/
def appendZone (offset : Int) : GoString :=
  if offset = 0 then ['Z']
  else
    let zone := offset.tdiv 60
    (if zone < 0 then ['-'] else ['+']) ++
    appendInt ((zone.natAbs / 60 : Nat) : Int) 2 ++ [':'] ++
    appendInt ((zone.natAbs % 60 : Nat) : Int) 2

/-- `t.Format(time.RFC3339Nano)`, layout `2006-01-02T15:04:05.999999999Z07:00`. -/
def Time.Format (t : Time) : GoString :=
  appendInt t.year 4 ++ ['-'] ++ appendInt t.month 2 ++ ['-'] ++ appendInt t.day 2 ++ ['T'] ++
  appendInt t.hour 2 ++ [':'] ++ appendInt t.minute 2 ++ [':'] ++ appendInt t.second 2 ++
  appendNano t.nsec ++ appendZone t.offset

/-- The layout element `2006` in `time.Parse`: exactly four digits. -/
def parseYear (value : GoString) : Option (Nat × GoString) :=
  match value with
  | c0 :: c1 :: c2 :: c3 :: rest =>
    match digitVal c0, digitVal c1, digitVal c2, digitVal c3 with
    | some a, some b, some c, some d => some (a * 1000 + b * 100 + c * 10 + d, rest)
    | _, _, _, _ => none
  | _ => none

/-- The steps of `time.Parse` for the layout elements `2006-01-02 `: a year, a
dash, a two-digit month from 1 to 12, a dash, a two-digit day, and a run of
spaces (which may be empty only at the end of the input). -/
def parseDate (value : GoString) : Option (Nat × Nat × Nat × GoString) :=
  match parseYear value with
  | none => none
  | some (year, v1) =>
    match v1 with
    | '-' :: v2 =>
      match getnum v2 true with
      | none => none
      | some (month, v3) =>
        if month = 0 ∨ 12 < month then none
        else
          match v3 with
          | '-' :: v4 =>
            match getnum v4 true with
            | none => none
            | some (day, v5) =>
              match v5 with
              | [] => some (year, month, day, [])
              | c :: v6 =>
                if c ≠ ' ' then none
                else some (year, month, day, (c :: v6).dropWhile (fun x => x = ' '))
          | _ => none
    | _ => none

/-- The layout element `-07` in `time.Parse`: a sign and two digits of hours,
at most 24.  Returns the offset in seconds and the rest of the input. -/
def parseShortZone (value : GoString) : Option (Int × GoString) :=
  match value with
  | sign :: h0 :: h1 :: rest =>
    match getnum [h0, h1] true with
    | none => none
    | some (hr, _) =>
      if 24 < hr then none
      else if sign = '+' then some ((hr * 3600 : Nat), rest)
      else if sign = '-' then some (- ((hr * 3600 : Nat) : Int), rest)
      else none
  | _ => none

/-- `time.Parse(layout, value)` for the two layouts of `TimeArray.Scan`,
`2006-01-02 15:04:05.999999-07` (`withZone`) and `2006-01-02 15:04:05.999999`:
date, time of day, an optional fraction of a second, the zone if the layout
has one, and nothing else; the day must exist in the month. -/
def parseTimestamp (withZone : Bool) (value : GoString) : Option Time :=
  match parseDate value with
  | none => none
  | some (year, month, day, v1) =>
    match parseHMS v1 with
    | none => none
    | some (hour, min, sec, v2) =>
      let fr := skipFraction v2
      let zone : Option (Int × GoString) :=
        if withZone then parseShortZone fr.2 else some (0, fr.2)
      match zone with
      | none => none
      | some (offset, v3) =>
        if v3 ≠ [] then none
        else if day < 1 ∨ daysIn month year < day then none
        else some { year := year, month := month, day := day, hour := hour, minute := min,
                    second := sec, nsec := fr.1, offset := offset }

/-- The element parser of `TimeArray.Scan`: the quotes are trimmed, the layout
with a zone is tried first, the layout without zone second. -/
def TimeArray.parseElem (p : GoString) : Except Error Time :=
  let ts := Trim p ['"']
  match parseTimestamp true ts with
  | some t => .ok t
  | none =>
    match parseTimestamp false ts with
    | some t => .ok t
    | none => .error (.parsingTimeFailed ts)

/-- `TimeArray.Scan`. -/
def TimeArray.Scan (a : Option (List Time)) (src : Any) : Option (List Time) × Option Error :=
  scanArray "TimeArray" TimeArray.parseElem a src

/-- `TimeArray.Value`: every element in the layout `time.RFC3339Nano`, in
double quotes. -/
def TimeArray.Value (a : Option (List Time)) : Any × Option Error :=
  valueArray (fun v => ['"'] ++ Time.Format v ++ ['"']) a

/-! ## Package `encoding/json`: strings and arrays of strings

Strings are sequences of code points, that is, valid UTF-8; Go writes and reads
a byte that is not part of a valid encoding as U+FFFD. -/

/-- What `appendString` of `encoding/json` writes for the code point `c`, with
`escapeHTML` set as `json.Marshal` does: a quote and a backslash get a
backslash; backspace, form feed, newline, carriage return and tab their
letter; the other code points below 0x20 and `<`, `>`, `&` the form
`\u00XX`; U+2028 and U+2029 the form `\u202X`; all others are written as
they are. -/
def jsonEscape (c : Char) : GoString :=
  if c = '"' ∨ c = '\\' then ['\\', c]
  else if c = '\x08' then ['\\', 'b']
  else if c = '\x0c' then ['\\', 'f']
  else if c = '\n' then ['\\', 'n']
  else if c = '\r' then ['\\', 'r']
  else if c = '\t' then ['\\', 't']
  else if c.toNat < 0x20 ∨ c = '<' ∨ c = '>' ∨ c = '&' then
    ['\\', 'u', '0', '0', hexChar (c.toNat / 16), hexChar (c.toNat % 16)]
  else if c = '\u2028' ∨ c = '\u2029' then
    ['\\', 'u', '2', '0', '2', hexChar (c.toNat % 16)]
  else [c]

/-- The escaped text of a string, without the quotes around it. -/
def jsonEscapes : GoString → GoString
  | [] => []
  | c :: cs => jsonEscape c ++ jsonEscapes cs

/-- `json.Marshal(s)` for a string `s`. -/
def marshalString (s : GoString) : GoString :=
  ['"'] ++ jsonEscapes s ++ ['"']

/-- `json.Marshal(a)` for a `[]string`: `null` for the nil slice, else the
elements between brackets, separated by commas. -/
def marshalStrings (a : Option (List GoString)) : GoString :=
  match a with
  | none => ['n', 'u', 'l', 'l']
  | some l => ['['] ++ Join (l.map marshalString) [','] ++ [']']

/-- `isSpace` of `encoding/json`. -/
def isJsonSpace (c : Char) : Bool :=
  c = ' ' || c = '\t' || c = '\r' || c = '\n'

/-- Skip the white space between the tokens of a document. -/
def skipSpace (s : GoString) : GoString :=
  s.dropWhile isJsonSpace

/-- `getu4(s)` of `encoding/json`: the number written by `\uXXXX` at the start
of `s`; `none` stands for -1. -/
def getu4 (s : GoString) : Option Nat :=
  match s with
  | '\\' :: 'u' :: a :: b :: c :: d :: _ =>
    match xvalue a, xvalue b, xvalue c, xvalue d with
    | some x, some y, some z, some w => some (x * 4096 + y * 256 + z * 16 + w)
    | _, _, _, _ => none
  | _ => none

/-- `utf16.IsSurrogate`. -/
def isSurrogate (r : Nat) : Bool :=
  0xD800 ≤ r && r < 0xE000

/-- `utf16.DecodeRune(r1, r2)`: the code point of a surrogate pair, U+FFFD if
the pair is not valid. -/
def decodeSurrogates (r1 r2 : Nat) : Nat :=
  if 0xD800 ≤ r1 ∧ r1 < 0xDC00 ∧ 0xDC00 ≤ r2 ∧ r2 < 0xE000 then
    (r1 - 0xD800) * 1024 + (r2 - 0xDC00) + 0x10000
  else 0xFFFD

/-- One round of the loop of `unquoteBytes` on text that the scanner accepts
inside a string literal: the code point read and the rest.  A quote, a code
point below 0x20, a backslash followed by anything but the escapes of JSON,
and `\u` without four hexadecimal digits are not accepted. -/
def unquoteStep (s : GoString) : Option (Char × GoString) :=
  match s with
  | [] => none
  | c :: rest =>
    if c = '\\' then
      match rest with
      | [] => none
      | e :: rest1 =>
        if e = '"' ∨ e = '\\' ∨ e = '/' then some (e, rest1)
        else if e = 'b' then some ('\x08', rest1)
        else if e = 'f' then some ('\x0c', rest1)
        else if e = 'n' then some ('\n', rest1)
        else if e = 'r' then some ('\r', rest1)
        else if e = 't' then some ('\t', rest1)
        else if e = 'u' then
          match getu4 s with
          | none => none
          | some rr =>
            let r6 := rest1.drop 4
            if isSurrogate rr then
              match getu4 r6 with
              | none => some (Char.ofNat 0xFFFD, r6)
              | some rr1 =>
                if decodeSurrogates rr rr1 ≠ 0xFFFD then
                  some (Char.ofNat (decodeSurrogates rr rr1), r6.drop 6)
                else some (Char.ofNat 0xFFFD, r6)
            else some (Char.ofNat rr, r6)
        else none
    else if c = '"' ∨ c.toNat < 0x20 then none
    else some (c, rest)

/-- The loop of `unquoteBytes` after the opening quote, run at most `fuel`
times: the code points up to the closing quote (collected in `acc`,
reversed) and the text after it. -/
def unquoteLoop : Nat → GoString → GoString → Option (GoString × GoString)
  | 0, _, _ => none
  | fuel + 1, s, acc =>
    match s with
    | [] => none
    | c :: cs =>
      if c = '"' then some (acc.reverse, cs)
      else
        match unquoteStep (c :: cs) with
        | none => none
        | some (r, rest) => unquoteLoop fuel rest (r :: acc)

/-- A string literal at the start of `s`: its value and the text after it.
Every round of the loop consumes a character, so `s.length` rounds are
enough. -/
def readString (s : GoString) : Option (GoString × GoString) :=
  match s with
  | '"' :: rest => unquoteLoop s.length rest []
  | _ => none

/-- An element of an array that is decoded into a `[]string`: a string
literal, or `null`, which leaves the element at its zero value `""`; a value
of any other type is an error. -/
def readElem (s : GoString) : Option (GoString × GoString) :=
  match s with
  | 'n' :: 'u' :: 'l' :: 'l' :: rest => some ([], rest)
  | _ => readString s

/-- The elements of a non-empty array, each followed by a comma or by the
closing bracket, read in at most `fuel` rounds: the elements and the text
after the bracket. -/
def readElems : Nat → GoString → List GoString → Option (List GoString × GoString)
  | 0, _, _ => none
  | fuel + 1, s, acc =>
    match readElem (skipSpace s) with
    | none => none
    | some (v, rest) =>
      match skipSpace rest with
      | ',' :: rest2 => readElems fuel rest2 (v :: acc)
      | ']' :: rest2 => some ((v :: acc).reverse, rest2)
      | _ => none

/-- `json.Unmarshal(data, &tmp)` for `var tmp []string`: the value of `tmp`
afterwards.  The document `null` leaves `tmp` nil; an array of strings and
`null`s is stored; everything else is an error.  Every round of the element
loop consumes a character, so `data.length` rounds are enough. -/
def unmarshalStrings (data : GoString) : Except Error (Option (List GoString)) :=
  match skipSpace data with
  | 'n' :: 'u' :: 'l' :: 'l' :: rest =>
    if skipSpace rest = [] then .ok none else .error .json
  | '[' :: rest =>
    match skipSpace rest with
    | ']' :: rest2 => if skipSpace rest2 = [] then .ok (some []) else .error .json
    | _ =>
      match readElems data.length rest [] with
      | none => .error .json
      | some (l, rest2) => if skipSpace rest2 = [] then .ok (some l) else .error .json
  | _ => .error .json

/-- `json.Unmarshal(data, &s)` for `var s string`: the value of `s` afterwards.
The document `null` leaves `s` empty. -/
def unmarshalString (data : GoString) : Except Error GoString :=
  match skipSpace data with
  | 'n' :: 'u' :: 'l' :: 'l' :: rest =>
    if skipSpace rest = [] then .ok [] else .error .json
  | s =>
    match readString s with
    | none => .error .json
    | some (v, rest) => if skipSpace rest = [] then .ok v else .error .json

/-- `StringArray.MarshalJSON`. -/
def StringArray.MarshalJSON (a : Option (List GoString)) : GoString × Option Error :=
  (marshalStrings a, none)

/-- `StringArray.UnmarshalJSON`: the receiver afterwards and the error. -/
def StringArray.UnmarshalJSON (a : Option (List GoString)) (data : GoString) :
    Option (List GoString) × Option Error :=
  match unmarshalStrings data with
  | .error e => (a, some e)
  | .ok tmp => (tmp, none)

/-- `DurationArray.MarshalJSON`: the texts of the elements, in a slice made with
`make`, which is never nil. -/
def DurationArray.MarshalJSON (a : Option (List Int)) : GoString × Option Error :=
  (marshalStrings (some ((elems a).map Duration.String)), none)

/-- `DurationArray.UnmarshalJSON`: the receiver afterwards and the error; every
string of the document is read by `time.ParseDuration`. -/
def DurationArray.UnmarshalJSON (a : Option (List Int)) (data : GoString) :
    Option (List Int) × Option Error :=
  match unmarshalStrings data with
  | .error e => (a, some e)
  | .ok tmp =>
    match scanLoop ParseDuration (elems tmp) with
    | .error e => (a, some e)
    | .ok result => (some result, none)

/-- `Duration.MarshalJSON`. -/
def Duration.MarshalJSON (d : Int) : GoString × Option Error :=
  (marshalString (Duration.String d), none)

/-- `Duration.UnmarshalJSON`: the receiver afterwards and the error. -/
def Duration.UnmarshalJSON (d : Int) (data : GoString) : Int × Option Error :=
  match unmarshalString data with
  | .error e => (d, some e)
  | .ok s =>
    match ParseDuration s with
    | .error e => (d, some e)
    | .ok parsed => (parsed, none)

/-! ## The plain-text encoding of the arrays -/

/-- `StringArray.MarshalText`: the elements joined by commas. -/
def StringArray.MarshalText (a : Option (List GoString)) : GoString × Option Error :=
  (Join (elems a) [','], none)

/-- `StringArray.UnmarshalText`: the receiver afterwards and the error.  Text of
length zero gives the empty array; other text is split at every comma. -/
def StringArray.UnmarshalText (data : GoString) : Option (List GoString) × Option Error :=
  if data.length = 0 then (some [], none) else (some (Split data ','), none)

/-- `Int64Array.MarshalText`: the decimal texts of the elements joined by commas. -/
def Int64Array.MarshalText (a : Option (List Int)) : GoString × Option Error :=
  (Join ((elems a).map FormatInt) [','], none)

/-- `Int64Array.UnmarshalText`: the receiver afterwards and the error.  Text of
length zero gives the empty array; other text is split at every comma and
every part is trimmed and parsed. -/
def Int64Array.UnmarshalText (a : Option (List Int)) (data : GoString) :
    Option (List Int) × Option Error :=
  if data.length = 0 then (some [], none)
  else
    match scanLoop (fun s => ParseInt (TrimSpace s) 64) (Split data ',') with
    | .error e => (a, some e)
    | .ok out => (some out, none)

/-- `Int64Array.Equals`. -/
def Int64Array.Equals (a b : Option (List Int)) : Bool :=
  equalsArray a b

/-! ## `gorm.ColumnType` and the resolvers of package `sqlitetype` -/

set_option linter.dupNamespace false in
/-- The methods of the interface `gorm.ColumnType` that the resolvers call: the
full column type and the nullability, each with the flag that tells whether
the value is available. -/
structure ColumnType where
  ColumnType : GoString × Bool
  Nullable : Bool × Bool

/-- One step of `strings.ToUpper`.  ASCII small letters are mapped to their
capitals; U+0131 and U+017F, the two other code points whose upper case is an
ASCII letter, to `I` and `S`; other code points are kept (their upper case is
not an ASCII character). -/
def toUpperChar (c : Char) : Char :=
  if 'a' ≤ c ∧ c ≤ 'z' then Char.ofNat (c.toNat - 32)
  else if c = 'ı' then 'I'
  else if c = 'ſ' then 'S'
  else c

/-- `strings.ToUpper(s)`. -/
def ToUpper (s : GoString) : GoString :=
  s.map toUpperChar

/-- `strings.HasPrefix(s, prefix)`. -/
def HasPrefix (s pre : GoString) : Bool :=
  pre.isPrefixOf s

/-- `nullablePtr`: a pointer type for a nullable column of one of the listed
scalar types, the base type otherwise. -/
def nullablePtr (yes : Bool) (base : GoString) : GoString :=
  if yes then
    if base ∈ ["bool".toList, "int".toList, "int8".toList, "int16".toList, "int32".toList,
        "int64".toList, "uint64".toList, "float32".toList, "float64".toList, "string".toList,
        "time.Time".toList, "time.Duration".toList] then
      ['*'] ++ base
    else base
  else base

/-- `TypeMap`: the entries of the map literal, in the order of the source. -/
def TypeMap : List (GoString × (ColumnType → GoString)) :=
  [ ("BOOLEAN".toList, fun ct => nullablePtr ct.Nullable.1 "bool".toList),
    ("BOOL".toList, fun ct => nullablePtr ct.Nullable.1 "bool".toList),
    ("TINYINT".toList, fun ct =>
      if HasPrefix (ToUpper ct.ColumnType.1) "TINYINT(1)".toList then
        nullablePtr ct.Nullable.1 "bool".toList
      else nullablePtr ct.Nullable.1 "int8".toList),
    ("SMALLINT".toList, fun ct => nullablePtr ct.Nullable.1 "int16".toList),
    ("INTEGER".toList, fun ct => nullablePtr ct.Nullable.1 "int64".toList),
    ("INT".toList, fun ct => nullablePtr ct.Nullable.1 "int64".toList),
    ("INT2".toList, fun ct => nullablePtr ct.Nullable.1 "int16".toList),
    ("INT8".toList, fun ct => nullablePtr ct.Nullable.1 "int64".toList),
    ("MEDIUMINT".toList, fun ct => nullablePtr ct.Nullable.1 "int32".toList),
    ("UNSIGNED BIG INT".toList, fun ct => nullablePtr ct.Nullable.1 "uint64".toList),
    ("BIGINT".toList, fun ct => nullablePtr ct.Nullable.1 "int64".toList),
    ("REAL".toList, fun ct => nullablePtr ct.Nullable.1 "float64".toList),
    ("DOUBLE".toList, fun ct => nullablePtr ct.Nullable.1 "float64".toList),
    ("FLOAT".toList, fun ct => nullablePtr ct.Nullable.1 "float32".toList),
    ("TEXT".toList, fun ct => nullablePtr ct.Nullable.1 "string".toList),
    ("VARCHAR".toList, fun ct => nullablePtr ct.Nullable.1 "string".toList),
    ("CHAR".toList, fun ct => nullablePtr ct.Nullable.1 "string".toList),
    ("CLOB".toList, fun ct => nullablePtr ct.Nullable.1 "string".toList),
    ("UUID".toList, fun _ => "datatypes.UUID".toList),
    ("JSON".toList, fun _ => "datatypes.JSON".toList),
    ("JSONB".toList, fun _ => "datatypes.JSON".toList),
    ("BLOB".toList, fun _ => "[]byte".toList),
    ("DATE".toList, fun ct => nullablePtr ct.Nullable.1 "time.Time".toList),
    ("DATETIME".toList, fun ct => nullablePtr ct.Nullable.1 "time.Time".toList),
    ("TIMESTAMP".toList, fun ct => nullablePtr ct.Nullable.1 "time.Time".toList),
    ("DURATION".toList, fun ct => nullablePtr ct.Nullable.1 "time.Duration".toList),
    ("INTERVAL".toList, fun ct => nullablePtr ct.Nullable.1 "time.Duration".toList),
    ("NUMERIC".toList, fun ct => nullablePtr ct.Nullable.1 "float64".toList),
    ("DECIMAL".toList, fun ct => nullablePtr ct.Nullable.1 "float64".toList) ]

/-! ## The type map of package `pgtypes` -/

/-- `use(goType)`: the resolver that returns `goType` for every column. -/
def use (goType : GoString) : ColumnType → GoString :=
  fun _ => goType

/-- `DataTypeMap()`: the entries of the map literal, in the order of the source. -/
def DataTypeMap : List (GoString × (ColumnType → GoString)) :=
  [ ("text[]".toList, use "pgtypes.StringArray".toList),
    ("varchar[]".toList, use "pgtypes.StringArray".toList),
    ("integer[]".toList, use "pgtypes.Int32Array".toList),
    ("int4[]".toList, use "pgtypes.Int32Array".toList),
    ("int8[]".toList, use "pgtypes.Int64Array".toList),
    ("bigint[]".toList, use "pgtypes.Int64Array".toList),
    ("bool[]".toList, use "pgtypes.BoolArray".toList),
    ("boolean[]".toList, use "pgtypes.BoolArray".toList),
    ("uuid[]".toList, use "pgtypes.UUIDArray".toList),
    ("float8[]".toList, use "pgtypes.Float64Array".toList),
    ("double precision[]".toList, use "pgtypes.Float64Array".toList),
    ("timestamptz[]".toList, use "pgtypes.TimeArray".toList),
    ("timestamp[]".toList, use "pgtypes.TimeArray".toList),
    ("timestamp with time zone[]".toList, use "pgtypes.TimeArray".toList),
    ("timestamp without time zone[]".toList, use "pgtypes.TimeArray".toList),
    ("interval".toList, use "pgtypes.Duration".toList),
    ("interval[]".toList, use "pgtypes.DurationArray".toList) ]

/-- `StringArray.GormDataType`. -/
def StringArray.GormDataType : GoString := "text[]".toList

/-- `Int32Array.GormDataType`. -/
def Int32Array.GormDataType : GoString := "integer[]".toList

/-- `Int64Array.GormDataType`. -/
def Int64Array.GormDataType : GoString := "bigint[]".toList

/-- `BoolArray.GormDataType`. -/
def BoolArray.GormDataType : GoString := "boolean[]".toList

/-- `UUIDArray.GormDataType`. -/
def UUIDArray.GormDataType : GoString := "uuid[]".toList

/-- `Float64Array.GormDataType`. -/
def Float64Array.GormDataType : GoString := "double precision[]".toList

/-- `TimeArray.GormDataType`. -/
def TimeArray.GormDataType : GoString := "timestamptz[]".toList

/-- `Duration.GormDataType`. -/
def Duration.GormDataType : GoString := "interval".toList

/-- `DurationArray.GormDataType`. -/
def DurationArray.GormDataType : GoString := "interval[]".toList

/-! ## Package `main`: the resolver for `text` and the relation fields

A Go map that is only read and assigned is a function from keys to optional
values. -/

/-- `dt(goType)`: the resolver that returns `goType` for every column. -/
def dt (goType : GoString) : ColumnType → GoString :=
  fun _ => goType

/-- The map `dtMaps` of `postgresToGorm`, looked up at `key`: `DataTypeMap()`,
overwritten by `dt(v)` for every entry `k: v` of `typeMaps`, and then
overwritten at `text` by the resolver that consults `domainTypeMaps`. -/
def dtMaps (typeMaps domainTypeMaps : GoString → Option GoString) (key : GoString) :
    Option (ColumnType → GoString) :=
  if key = "text".toList then
    some (fun columnType =>
      if columnType.ColumnType.2 then
        match domainTypeMaps columnType.ColumnType.1 with
        | some domain => domain
        | none => "string".toList
      else "string".toList)
  else
    match typeMaps key with
    | some v => some (dt v)
    | none => DataTypeMap.lookup key

/-- `ExtraField`. -/
structure ExtraField where
  StructPropName : GoString
  StructPropType : GoString
  FkStructPropName : GoString
  RefStructPropName : GoString
  HasMany : Bool
  Pointer : Bool
  deriving DecidableEq, Repr

/-- `field.RelationshipType` of `gorm.io/gen`. -/
inductive RelationshipType where
  | HasOne
  | HasMany
  | BelongsTo
  | Many2Many
  deriving DecidableEq, Repr

/-- `field.Relation` as built by `field.NewRelationWithType`. -/
structure Relation where
  relationship : RelationshipType
  fieldName : GoString
  fieldType : GoString
  deriving DecidableEq, Repr

/-- `Tag.Set` and `GormTag.Set` of `gorm.io/gen/field`: the assignment
`tag[key] = value`. -/
def mapSet {V : Type} (m : GoString → Option V) (key : GoString) (value : V) :
    GoString → Option V :=
  fun k => if k = key then some value else m k

/-- The fields of the generator's `Field` that `genRelationField` assigns, and
`ColumnName`, which it leaves alone.  `Type_` is the field `Type`. -/
structure Field where
  Name : GoString
  Type_ : GoString
  ColumnName : GoString
  Tag : GoString → Option GoString
  GORMTag : GoString → Option (List GoString)
  Relation : Option Relation

/-- `strings.LastIndex(s, sep)` for a one-character separator: the index of its
last occurrence in `s`, or -1.  The separator used is ASCII, so the index
counts code points before it as Go's counts bytes, and slicing after it gives
the same text. -/
def LastIndex (s : GoString) (sep : Char) : Int :=
  match s with
  | [] => -1
  | c :: cs =>
    if LastIndex cs sep ≠ -1 then LastIndex cs sep + 1
    else if c = sep then 0
    else -1

/-- `genRelationField`: the field `fld` after the call.  `strcase.ToLowerCamel` is
a parameter. -/
def genRelationField (ToLowerCamel : GoString → GoString) (ef : ExtraField) (fld : Field) :
    Field :=
  let lastDotIndex := LastIndex ef.StructPropType '.'
  let baseType0 :=
    if lastDotIndex ≠ -1 then ef.StructPropType.drop (lastDotIndex + 1).toNat
    else ef.StructPropType
  let baseType1 := if ef.Pointer then ['*'] ++ baseType0 else baseType0
  let baseType2 := if ef.HasMany then ['[', ']'] ++ baseType1 else baseType1
  let r := if ef.HasMany then RelationshipType.HasMany else RelationshipType.HasOne
  { fld with
    Name := ef.StructPropName
    Type_ := baseType2
    Tag := mapSet (fun _ => none) "json".toList (ToLowerCamel ef.StructPropName)
    GORMTag := mapSet (mapSet (fun _ => none) "foreignKey".toList [ef.FkStructPropName])
      "references".toList [ef.RefStructPropName]
    Relation := some
      { relationship := r, fieldName := ef.StructPropName, fieldType := ef.StructPropType } }

/-! ## The slice helpers of the array types -/

/-- A slice built by `var out T` followed by `append`s of the elements of `l`:
nil when nothing was appended. -/
def appended {α : Type} (l : List α) : Option (List α) :=
  match l with
  | [] => none
  | _ :: _ => some l

/-- The loop of the `Unique` methods: `seen` holds the keys met so far; an
element whose key is not in `seen` is appended to the output and its key
added to `seen`. -/
def uniqueLoop {α κ : Type} [DecidableEq κ] (key : α → κ) : List α → List κ → List α
  | [], _ => []
  | v :: vs, seen =>
    if key v ∈ seen then uniqueLoop key vs seen
    else v :: uniqueLoop key vs (key v :: seen)

/-- The loop of the `Filter` methods. -/
def filterLoop {α : Type} (f : α → Bool) : List α → List α
  | [] => []
  | v :: vs => if f v then v :: filterLoop f vs else filterLoop f vs

/-- The loop of the `IndexOf` methods, started at index `i`: the index of the
first element equal to `val`, or -1. -/
def indexOfLoop {α : Type} (eq : α → α → Bool) (val : α) : List α → Nat → Int
  | [], _ => -1
  | x :: xs, i => if eq x val then (i : Int) else indexOfLoop eq val xs (i + 1)

/-- The loop of the `Contains` methods. -/
def containsLoop {α : Type} (eq : α → α → Bool) (val : α) : List α → Bool
  | [] => false
  | x :: xs => if eq x val then true else containsLoop eq val xs

/-- `StringArray.Unique`. -/
def StringArray.Unique (a : Option (List GoString)) : Option (List GoString) :=
  appended (uniqueLoop id (elems a) [])

/-- `Int32Array.Unique`. -/
def Int32Array.Unique (a : Option (List Int)) : Option (List Int) :=
  appended (uniqueLoop id (elems a) [])

/-- `Int64Array.Unique`. -/
def Int64Array.Unique (a : Option (List Int)) : Option (List Int) :=
  appended (uniqueLoop id (elems a) [])

/-- `BoolArray.Unique`. -/
def BoolArray.Unique (a : Option (List Bool)) : Option (List Bool) :=
  appended (uniqueLoop id (elems a) [])

/-- `UUIDArray.Unique`. -/
def UUIDArray.Unique (a : Option (List UUID)) : Option (List UUID) :=
  appended (uniqueLoop id (elems a) [])

/-- `DurationArray.Unique`. -/
def DurationArray.Unique (a : Option (List Int)) : Option (List Int) :=
  appended (uniqueLoop id (elems a) [])

/-- `TimeArray.Unique`: the key of an element is its text in the layout
`time.RFC3339Nano`. -/
def TimeArray.Unique (a : Option (List Time)) : Option (List Time) :=
  appended (uniqueLoop Time.Format (elems a) [])

/-- `StringArray.Filter`. -/
def StringArray.Filter (a : Option (List GoString)) (f : GoString → Bool) :
    Option (List GoString) :=
  appended (filterLoop f (elems a))

/-- `Int32Array.Filter`. -/
def Int32Array.Filter (a : Option (List Int)) (f : Int → Bool) : Option (List Int) :=
  appended (filterLoop f (elems a))

/-- `Int64Array.Filter`. -/
def Int64Array.Filter (a : Option (List Int)) (f : Int → Bool) : Option (List Int) :=
  appended (filterLoop f (elems a))

/-- `BoolArray.Filter`. -/
def BoolArray.Filter (a : Option (List Bool)) (f : Bool → Bool) : Option (List Bool) :=
  appended (filterLoop f (elems a))

/-- `UUIDArray.Filter`. -/
def UUIDArray.Filter (a : Option (List UUID)) (f : UUID → Bool) : Option (List UUID) :=
  appended (filterLoop f (elems a))

/-- `Float64Array.Filter`. -/
def Float64Array.Filter {F : Type} (a : Option (List F)) (f : F → Bool) : Option (List F) :=
  appended (filterLoop f (elems a))

/-- `TimeArray.Filter`. -/
def TimeArray.Filter (a : Option (List Time)) (f : Time → Bool) : Option (List Time) :=
  appended (filterLoop f (elems a))

/-- `DurationArray.Filter`. -/
def DurationArray.Filter (a : Option (List Int)) (f : Int → Bool) : Option (List Int) :=
  appended (filterLoop f (elems a))

/-- Days before the first of `month` in a year that is no leap year
(`daysBefore` of package `time`). -/
def daysBefore (month : Nat) : Nat :=
  match month with
  | 1 => 0 | 2 => 31 | 3 => 59 | 4 => 90 | 5 => 120 | 6 => 151 | 7 => 181 | 8 => 212
  | 9 => 243 | 10 => 273 | 11 => 304 | _ => 334

/-- `t.sec()`: the seconds from January 1 of year 1, 00:00:00 UTC, to the
instant that `t` denotes, computed as `time.Date` does: the days before the
year, the days before the month, one more after February in a leap year, the
days before the day, the time of day, minus the offset of the zone. -/
def Time.sec (t : Time) : Int :=
  let y := t.year - 1
  let d : Int := 365 * y + y / 4 - y / 100 + y / 400 + daysBefore t.month
    + (if isLeap t.year ∧ 3 ≤ t.month then 1 else 0) + ((t.day : Int) - 1)
  d * 86400 + (t.hour : Int) * 3600 + (t.minute : Int) * 60 + (t.second : Int) - t.offset

/-- `t.Equal(u)`: the same instant, whatever the zones. -/
def Time.Equal (t u : Time) : Bool :=
  decide (t.sec = u.sec ∧ t.nsec = u.nsec)

/-- `StringArray.IndexOf`. -/
def StringArray.IndexOf (a : Option (List GoString)) (val : GoString) : Int :=
  indexOfLoop (fun x y => decide (x = y)) val (elems a) 0

/-- `StringArray.Contains`. -/
def StringArray.Contains (a : Option (List GoString)) (val : GoString) : Bool :=
  containsLoop (fun x y => decide (x = y)) val (elems a)

/-- `Int32Array.IndexOf`. -/
def Int32Array.IndexOf (a : Option (List Int)) (val : Int) : Int :=
  indexOfLoop (fun x y => decide (x = y)) val (elems a) 0

/-- `Int32Array.Contains`. -/
def Int32Array.Contains (a : Option (List Int)) (val : Int) : Bool :=
  containsLoop (fun x y => decide (x = y)) val (elems a)

/-- `Int64Array.IndexOf`. -/
def Int64Array.IndexOf (a : Option (List Int)) (val : Int) : Int :=
  indexOfLoop (fun x y => decide (x = y)) val (elems a) 0

/-- `Int64Array.Contains`. -/
def Int64Array.Contains (a : Option (List Int)) (val : Int) : Bool :=
  containsLoop (fun x y => decide (x = y)) val (elems a)

/-- `BoolArray.IndexOf`. -/
def BoolArray.IndexOf (a : Option (List Bool)) (val : Bool) : Int :=
  indexOfLoop (fun x y => decide (x = y)) val (elems a) 0

/-- `BoolArray.Contains`. -/
def BoolArray.Contains (a : Option (List Bool)) (val : Bool) : Bool :=
  containsLoop (fun x y => decide (x = y)) val (elems a)

/-- `UUIDArray.IndexOf`. -/
def UUIDArray.IndexOf (a : Option (List UUID)) (val : UUID) : Int :=
  indexOfLoop (fun x y => decide (x = y)) val (elems a) 0

/-- `UUIDArray.Contains`. -/
def UUIDArray.Contains (a : Option (List UUID)) (val : UUID) : Bool :=
  containsLoop (fun x y => decide (x = y)) val (elems a)

/-- `DurationArray.IndexOf`. -/
def DurationArray.IndexOf (a : Option (List Int)) (val : Int) : Int :=
  indexOfLoop (fun x y => decide (x = y)) val (elems a) 0

/-- `DurationArray.Contains`. -/
def DurationArray.Contains (a : Option (List Int)) (val : Int) : Bool :=
  containsLoop (fun x y => decide (x = y)) val (elems a)

/-- `Float64Array.IndexOf`; the comparison `==` of `float64` is a parameter. -/
def Float64Array.IndexOf {F : Type} (eq : F → F → Bool) (a : Option (List F)) (val : F) : Int :=
  indexOfLoop eq val (elems a) 0

/-- `Float64Array.Contains`; the comparison `==` of `float64` is a parameter. -/
def Float64Array.Contains {F : Type} (eq : F → F → Bool) (a : Option (List F)) (val : F) :
    Bool :=
  containsLoop eq val (elems a)

/-- `TimeArray.IndexOf`: elements are compared with `Time.Equal`. -/
def TimeArray.IndexOf (a : Option (List Time)) (val : Time) : Int :=
  indexOfLoop Time.Equal val (elems a) 0

/-- `TimeArray.Contains`: elements are compared with `Time.Equal`. -/
def TimeArray.Contains (a : Option (List Time)) (val : Time) : Bool :=
  containsLoop Time.Equal val (elems a)

/-- The specification of `Unique`: `u` has every value of `l` exactly once, in
the order in which the values first occur in `l`. -/
def FirstOccurrences {α : Type} [DecidableEq α] (u l : List α) : Prop :=
  u.Nodup ∧ u.Sublist l ∧ (∀ x, x ∈ u ↔ x ∈ l) ∧
  u.Pairwise (fun x y => l.indexOf x < l.indexOf y)

/-- The specification of `IndexOf`: `r` is -1 when no element of `l` is equal to
`val`, else the smallest index of an element that is. -/
def IsFirstIndex {α : Type} (eq : α → α → Bool) (l : List α) (val : α) (r : Int) : Prop :=
  (r = -1 ∧ ∀ x ∈ l, eq x val = false) ∨
  (∃ k : Nat, r = (k : Int) ∧ (∃ x, l[k]? = some x ∧ eq x val = true) ∧
    ∀ j y, j < k → l[j]? = some y → eq y val = false)

/-! ## Slices with their backing array, for `append`

Where it matters whether two slices share storage, a slice is the backing
array from the slice's first element on, whose length is the capacity of the
slice, together with the length of the slice. -/

/-- A slice header and the array behind it: `cap` is `array.length`. -/
structure Slice (α : Type) where
  array : List α
  len : Nat

/-- The elements that a slice shows. -/
def Slice.elems {α : Type} (s : Slice α) : List α :=
  s.array.take s.len

/-- The built-in `append(s, vals...)`: the returned slice, and the contents of the
backing array of `s` after the call.  When the capacity suffices the values
are written into the backing array after the first `len` elements; otherwise
a new array is allocated, whose unused capacity for a given length is
`spare`, and the old array is left as it was. -/
def sliceAppend {α : Type} (spare : Nat → List α) (s : Slice α) (vals : List α) :
    Slice α × List α :=
  if s.len + vals.length ≤ s.array.length then
    let arr := s.array.take s.len ++ vals ++ s.array.drop (s.len + vals.length)
    ({ array := arr, len := s.len + vals.length }, arr)
  else
    ({ array := s.array.take s.len ++ vals ++ spare (s.len + vals.length),
       len := s.len + vals.length }, s.array)

/-- `StringArray.Append`: the returned slice and the receiver's backing array
after the call. -/
def StringArray.Append (spare : Nat → List GoString) (a : Slice GoString)
    (vals : List GoString) : Slice GoString × List GoString :=
  sliceAppend spare a vals

/-- `Int32Array.Append`. -/
def Int32Array.Append (spare : Nat → List Int) (a : Slice Int) (vals : List Int) :
    Slice Int × List Int :=
  sliceAppend spare a vals

/-- `Int64Array.Append`. -/
def Int64Array.Append (spare : Nat → List Int) (a : Slice Int) (vals : List Int) :
    Slice Int × List Int :=
  sliceAppend spare a vals

/-- `BoolArray.Append`. -/
def BoolArray.Append (spare : Nat → List Bool) (a : Slice Bool) (vals : List Bool) :
    Slice Bool × List Bool :=
  sliceAppend spare a vals

/-- `UUIDArray.Append`. -/
def UUIDArray.Append (spare : Nat → List UUID) (a : Slice UUID) (vals : List UUID) :
    Slice UUID × List UUID :=
  sliceAppend spare a vals

/-- `Float64Array.Append`. -/
def Float64Array.Append {F : Type} (spare : Nat → List F) (a : Slice F) (vals : List F) :
    Slice F × List F :=
  sliceAppend spare a vals

/-- `TimeArray.Append`. -/
def TimeArray.Append (spare : Nat → List Time) (a : Slice Time) (vals : List Time) :
    Slice Time × List Time :=
  sliceAppend spare a vals

/-- The loop of `DurationArray.Append`, `a = append(a, Duration{v})` for every
value: `a` is the local slice, `orig` the contents of the receiver's backing
array, and `shared` tells whether `a` still uses that array. -/
def DurationArray.appendLoop (spare : Nat → List Int) :
    List Int → Slice Int → List Int → Bool → Slice Int × List Int
  | [], a, orig, _ => (a, orig)
  | v :: vs, a, orig, shared =>
    if a.len + 1 ≤ a.array.length then
      DurationArray.appendLoop spare vs (sliceAppend spare a [v]).1
        (if shared then (sliceAppend spare a [v]).2 else orig) shared
    else
      DurationArray.appendLoop spare vs (sliceAppend spare a [v]).1 orig false

/-- `DurationArray.Append`: the returned slice and the receiver's backing array
after the call. -/
def DurationArray.Append (spare : Nat → List Int) (a : Slice Int) (vals : List Int) :
    Slice Int × List Int :=
  DurationArray.appendLoop spare vals a a.array true

/-- The specification of `Append`: the returned slice shows the elements of `s`
followed by `vals`, and the slice `s` that the caller holds (same header, the
backing array as it is after the call) shows the same elements as before. -/
def AppendSpec {α : Type} (s : Slice α) (vals : List α) (r : Slice α × List α) : Prop :=
  r.1.elems = s.elems ++ vals ∧
  r.1.elems.length = s.elems.length + vals.length ∧
  ({ array := r.2, len := s.len } : Slice α).elems = s.elems

/-- `Int32Array.UnmarshalText`: the receiver afterwards and the error.  Text of
length zero gives the empty array; other text is split at every comma and
every part is trimmed, parsed with `ParseInt(.., 10, 32)` and converted to
`int32`. -/
def Int32Array.UnmarshalText (a : Option (List Int)) (data : GoString) :
    Option (List Int) × Option Error :=
  if data.length = 0 then (some [], none)
  else
    match scanLoop Int32Array.parseElem (Split data ',') with
    | .error e => (a, some e)
    | .ok out => (some out, none)

/-- The specification of "the base-10 value" of a text: the number that its
decimal digits denote, negated after a minus sign; a plus sign is allowed. -/
def decimalValue (s : GoString) : Int :=
  match s with
  | [] => 0
  | c :: cs =>
    if c = '-' then - ((cs.foldl (fun a d => a * 10 + (digitVal d).getD 0) 0 : Nat) : Int)
    else if c = '+' then ((cs.foldl (fun a d => a * 10 + (digitVal d).getD 0) 0 : Nat) : Int)
    else (((c :: cs).foldl (fun a d => a * 10 + (digitVal d).getD 0) 0 : Nat) : Int)

/-- The body of the loop over `model.Fields` in the JSON-tag override pass of
`sqliteToGorm` and `postgresToGorm`: the field after the round. -/
def overrideJsonTag (jsonTagOverrides : GoString → Option GoString) (f : Field) : Field :=
  match jsonTagOverrides f.ColumnName with
  | some jsonTag => { f with Tag := mapSet f.Tag "json".toList jsonTag }
  | none =>
    match jsonTagOverrides f.Name with
    | some jsonTag => { f with Tag := mapSet f.Tag "json".toList jsonTag }
    | none => f

/-- The JSON-tag override pass for the table `tableName`: the fields of the model
after it. -/
def jsonTagOverridePass (jsonTagOverridesByTable : GoString → Option (GoString → Option GoString))
    (tableName : GoString) (fields : List Field) : List Field :=
  match jsonTagOverridesByTable tableName with
  | some jsonTagOverrides => fields.map (overrideJsonTag jsonTagOverrides)
  | none => fields

/-! # Lemmas and theorems -/

/-! ## Lemmas on the string functions -/

theorem dropWhile_eq_self_of_head {p : Char → Bool} {s : GoString}
    (h : ∀ c, s.head? = some c → p c = false) : s.dropWhile p = s := by
  cases s with
  | nil => rfl
  | cons c t => simp [List.dropWhile, h c rfl]

theorem trimLeftFunc_eq_self {p : Char → Bool} {s : GoString}
    (h : ∀ c, s.head? = some c → p c = false) : trimLeftFunc p s = s :=
  dropWhile_eq_self_of_head h

theorem trimRightFunc_eq_self {p : Char → Bool} {s : GoString}
    (h : ∀ c, s.getLast? = some c → p c = false) : trimRightFunc p s = s := by
  unfold trimRightFunc
  rw [dropWhile_eq_self_of_head, List.reverse_reverse]
  intro c hc
  exact h c (by simpa using hc)

theorem TrimSpace_eq_self {s : GoString}
    (hh : ∀ c, s.head? = some c → isSpace c = false)
    (hl : ∀ c, s.getLast? = some c → isSpace c = false) : TrimSpace s = s := by
  unfold TrimSpace
  rw [trimLeftFunc_eq_self hh, trimRightFunc_eq_self hl]

/-- Trimming a cut set from `o ++ body ++ c`, with `o` and `c` in the cut set
and `body` neither starting nor ending in it, leaves `body`. -/
theorem Trim_wrapped (cut : GoString) (o c : Char) (body : GoString)
    (ho : o ∈ cut) (hc : c ∈ cut) (hne : body ≠ [])
    (hh : ∀ x, body.head? = some x → x ∉ cut)
    (hl : ∀ x, body.getLast? = some x → x ∉ cut) :
    Trim (o :: (body ++ [c])) cut = body := by
  have h1 : trimLeftFunc (fun x => cut.contains x) (o :: (body ++ [c])) = body ++ [c] := by
    unfold trimLeftFunc
    have : (cut.contains o) = true := by simpa using ho
    rw [List.dropWhile_cons, if_pos this]
    apply dropWhile_eq_self_of_head
    intro x hx
    cases body with
    | nil => exact absurd rfl hne
    | cons b t =>
      simp at hx
      subst hx
      simpa using hh b rfl
  have h2 : trimRightFunc (fun x => cut.contains x) (body ++ [c]) = body := by
    unfold trimRightFunc
    have : (cut.contains c) = true := by simpa using hc
    rw [List.reverse_append, List.reverse_singleton, List.singleton_append,
      List.dropWhile_cons, if_pos this, dropWhile_eq_self_of_head, List.reverse_reverse]
    intro x hx
    have := hl x (by simpa using hx)
    simpa using this
  unfold Trim
  rw [h1, h2]

theorem Split_ne_nil (s : GoString) (sep : Char) : Split s sep ≠ [] := by
  cases s with
  | nil => simp [Split]
  | cons c cs =>
    unfold Split
    split
    · simp
    · split <;> simp

theorem Split_of_not_mem {p : GoString} {sep : Char} (h : sep ∉ p) : Split p sep = [p] := by
  induction p with
  | nil => rfl
  | cons c cs ih =>
    have hc : c ≠ sep := fun e => h (by simp [e])
    have hcs : sep ∉ cs := fun e => h (by simp [e])
    simp only [Split, if_neg hc, ih hcs]

theorem Split_append_sep {p : GoString} {sep : Char} (rest : GoString) (h : sep ∉ p) :
    Split (p ++ sep :: rest) sep = p :: Split rest sep := by
  induction p with
  | nil => simp [Split]
  | cons c cs ih =>
    have hc : c ≠ sep := fun e => h (by simp [e])
    have hcs : sep ∉ cs := fun e => h (by simp [e])
    rw [List.cons_append]
    simp only [Split, if_neg hc, ih hcs]

theorem Join_cons_cons (e e2 : GoString) (es : List GoString) (sep : GoString) :
    Join (e :: e2 :: es) sep = e ++ sep ++ Join (e2 :: es) sep := rfl

/-- Splitting a joined list on the separator gives the list back, when no part
contains the separator. -/
theorem Split_Join (parts : List GoString) (sep : Char) (hne : parts ≠ [])
    (h : ∀ p ∈ parts, sep ∉ p) : Split (Join parts [sep]) sep = parts := by
  induction parts with
  | nil => exact absurd rfl hne
  | cons e es ih =>
    cases es with
    | nil => simpa [Join] using Split_of_not_mem (h e (by simp))
    | cons e2 es2 =>
      rw [Join_cons_cons, List.append_assoc, List.singleton_append,
        Split_append_sep _ (h e (by simp)), ih (by simp) (fun p hp => h p (by simp [hp]))]

theorem Join_head? (e : GoString) (es : List GoString) (sep : GoString) (hne : e ≠ []) :
    (Join (e :: es) sep).head? = e.head? := by
  cases es with
  | nil => rfl
  | cons e2 es2 =>
    rw [Join_cons_cons]
    cases e with
    | nil => exact absurd rfl hne
    | cons c t => rfl

theorem Join_ne_nil (e : GoString) (es : List GoString) (sep : GoString) (hne : e ≠ []) :
    Join (e :: es) sep ≠ [] := by
  intro h
  have := Join_head? e es sep hne
  rw [h] at this
  cases e with
  | nil => exact hne rfl
  | cons c t => simp at this

theorem Join_getLast? (parts : List GoString) (sep : GoString) (l : GoString)
    (hl : parts.getLast? = some l) (hne : l ≠ []) :
    (Join parts sep).getLast? = l.getLast? := by
  induction parts with
  | nil => simp at hl
  | cons e es ih =>
    cases es with
    | nil =>
      simp at hl
      subst hl
      rfl
    | cons e2 es2 =>
      have hl2 : (e2 :: es2).getLast? = some l := by simpa [List.getLast?_cons_cons] using hl
      have hj := ih hl2
      rw [Join_cons_cons, List.getLast?_append, hj]
      obtain ⟨x, hx⟩ : ∃ x, l.getLast? = some x := by
        cases hgl : l.getLast? with
        | none => simp at hgl; exact absurd hgl hne
        | some x => exact ⟨x, rfl⟩
      simp [hx]

/-! ## Lemmas on decimal numbers -/

/-- The ten digit characters. -/
theorem digitChar_mem (d : Nat) :
    digitChar d ∈ ['0', '1', '2', '3', '4', '5', '6', '7', '8', '9'] := by
  unfold digitChar
  split <;> simp

theorem digitVal_digitChar (d : Nat) (h : d < 10) : digitVal (digitChar d) = some d := by
  interval_cases d <;> rfl

theorem digitsAux_eq (fuel : Nat) : ∀ (n : Nat) (acc : GoString), n ≤ fuel →
    digitsAux fuel n acc = ((Nat.digits 10 n).reverse.map digitChar) ++ acc := by
  induction fuel with
  | zero =>
    intro n acc h
    have : n = 0 := by omega
    subst this
    simp [digitsAux]
  | succ f ih =>
    intro n acc h
    unfold digitsAux
    by_cases h0 : n = 0
    · subst h0; simp
    · rw [if_neg h0, ih (n / 10) _ (by omega),
        Nat.digits_def' (by norm_num) (Nat.pos_of_ne_zero h0)]
      simp

/-- The decimal rendering of a positive number is the digit list of Mathlib,
most significant digit first. -/
theorem formatNat_eq (n : Nat) (h : n ≠ 0) :
    formatNat n = (Nat.digits 10 n).reverse.map digitChar := by
  unfold formatNat
  rw [if_neg h, digitsAux_eq n n [] (le_refl n)]
  simp

theorem formatNat_mem (n : Nat) :
    ∀ c ∈ formatNat n, c ∈ ['0', '1', '2', '3', '4', '5', '6', '7', '8', '9'] := by
  intro c hc
  by_cases h : n = 0
  · subst h
    simp [formatNat] at hc
    simp [hc]
  · rw [formatNat_eq n h] at hc
    obtain ⟨d, -, rfl⟩ := List.mem_map.mp hc
    exact digitChar_mem d

theorem formatNat_ne_nil (n : Nat) : formatNat n ≠ [] := by
  by_cases h : n = 0
  · subst h; simp [formatNat]
  · rw [formatNat_eq n h]
    have : Nat.digits 10 n ≠ [] := Nat.digits_ne_nil_iff_ne_zero.mpr h
    simpa using this

theorem foldl_digits_ge (ds : List Nat) : ∀ n : Nat,
    n ≤ ds.foldl (fun a d => a * 10 + d) n := by
  induction ds with
  | nil => intro n; exact le_refl n
  | cons d ds ih =>
    intro n
    exact le_trans (by omega) (ih (n * 10 + d))

/-- The digit loop of `ParseUint` on digit characters returns the number they
denote when it does not exceed the largest value of the bit size. -/
theorem parseUintLoop_digits (bitSize : Nat) (hb : 2 ^ bitSize - 1 ≤ 2 ^ 64 - 1)
    (ds : List Nat) : ∀ n : Nat, (∀ d ∈ ds, d < 10) →
    ds.foldl (fun a d => a * 10 + d) n ≤ 2 ^ bitSize - 1 →
    parseUintLoop bitSize (ds.map digitChar) n = .ok (ds.foldl (fun a d => a * 10 + d) n) := by
  induction ds with
  | nil => intro n _ _; rfl
  | cons d ds ih =>
    intro n hd hle
    have hge := foldl_digits_ge ds (n * 10 + d)
    simp only [List.foldl_cons] at hle ⊢
    simp only [List.map_cons, parseUintLoop, digitVal_digitChar d (hd d (by simp))]
    generalize 2 ^ bitSize - 1 = M at *
    have h1 : ¬ (n ≥ (2 ^ 64 - 1) / 10 + 1) := by
      norm_num at hb ⊢
      omega
    have h2 : ¬ (n * 10 + d > M) := by omega
    rw [if_neg h1, if_neg h2]
    exact ih (n * 10 + d) (fun x hx => hd x (by simp [hx])) hle

theorem foldl_digits_reverse (n : Nat) :
    (Nat.digits 10 n).reverse.foldl (fun a d => a * 10 + d) 0 = n := by
  rw [List.foldl_reverse]
  conv_rhs => rw [← Nat.ofDigits_digits 10 n]
  generalize Nat.digits 10 n = L
  induction L with
  | nil => rfl
  | cons d L ih =>
    simp only [List.foldr_cons, Nat.ofDigits_cons, ih]
    ring

/-- `ParseUint` reads back what `formatNat` wrote. -/
theorem ParseUint_formatNat (bitSize n : Nat) (hb : 2 ^ bitSize - 1 ≤ 2 ^ 64 - 1)
    (hn : n ≤ 2 ^ bitSize - 1) : ParseUint (formatNat n) bitSize = .ok n := by
  unfold ParseUint
  rw [if_neg (formatNat_ne_nil n)]
  by_cases h : n = 0
  · subst h
    simp [formatNat, parseUintLoop, digitVal]
  · rw [formatNat_eq n h]
    have := parseUintLoop_digits bitSize hb (Nat.digits 10 n).reverse 0
      (fun d hd => Nat.digits_lt_base (by norm_num) (List.mem_reverse.mp hd))
      (by rw [foldl_digits_reverse]; exact hn)
    rw [this, foldl_digits_reverse]

/-- `ParseInt` reads back what `FormatInt` wrote, for every value of the bit size. -/
theorem ParseInt_FormatInt (bitSize : Nat) (hb : bitSize = 32 ∨ bitSize = 64) (i : Int)
    (hlo : -(2 ^ (bitSize - 1) : Int) ≤ i) (hhi : i < (2 ^ (bitSize - 1) : Int)) :
    ParseInt (FormatInt i) bitSize = .ok i := by
  have hb1 : 2 ^ bitSize - 1 ≤ 2 ^ 64 - 1 := by
    rcases hb with rfl | rfl <;> norm_num
  have hn : i.natAbs ≤ 2 ^ bitSize - 1 := by
    rcases hb with rfl | rfl <;> norm_num at hlo hhi ⊢ <;> omega
  have hparse := ParseUint_formatNat bitSize i.natAbs hb1 hn
  unfold FormatInt
  by_cases hneg : i < 0
  · rw [if_pos hneg]
    simp only [ParseInt, or_true, if_true, hparse]
    have h2 : ¬ (i.natAbs > 2 ^ (bitSize - 1)) := by
      rcases hb with rfl | rfl <;> norm_num at hlo hhi ⊢ <;> omega
    simp only [not_true_eq_false, false_and, if_false, true_and, if_neg h2]
    congr 1
    omega
  · rw [if_neg hneg]
    obtain ⟨c, cs, hcs⟩ : ∃ c cs, formatNat i.natAbs = c :: cs := by
      cases hf : formatNat i.natAbs with
      | nil => exact absurd hf (formatNat_ne_nil _)
      | cons c cs => exact ⟨c, cs, rfl⟩
    have hc := formatNat_mem i.natAbs c (by rw [hcs]; simp)
    have hplus : c ≠ '+' := by
      intro h; subst h; revert hc; decide
    have hminus : c ≠ '-' := by
      intro h; subst h; revert hc; decide
    rw [hcs] at hparse ⊢
    simp only [ParseInt, hplus, hminus, or_self, if_false, hparse]
    have h2 : ¬ (i.natAbs ≥ 2 ^ (bitSize - 1)) := by
      rcases hb with rfl | rfl <;> norm_num at hlo hhi ⊢ <;> omega
    simp only [not_false_eq_true, true_and, if_neg h2, false_and, if_false]
    congr 1
    omega

theorem FormatInt_mem (i : Int) :
    ∀ c ∈ FormatInt i, c ∈ ['-', '0', '1', '2', '3', '4', '5', '6', '7', '8', '9'] := by
  intro c hc
  unfold FormatInt at hc
  split at hc
  · rcases List.mem_cons.mp hc with h | h
    · simp [h]
    · exact List.mem_cons_of_mem _ (formatNat_mem _ c h)
  · exact List.mem_cons_of_mem _ (formatNat_mem _ c hc)

theorem FormatInt_ne_nil (i : Int) : FormatInt i ≠ [] := by
  unfold FormatInt
  split
  · simp
  · exact formatNat_ne_nil _

theorem intChars_not_space :
    ∀ c ∈ ['-', '0', '1', '2', '3', '4', '5', '6', '7', '8', '9'], isSpace c = false := by
  decide

theorem intChars_plain :
    ∀ c ∈ ['-', '0', '1', '2', '3', '4', '5', '6', '7', '8', '9'],
      c ≠ ',' ∧ c ≠ '{' ∧ c ≠ '}' ∧ c ≠ '"' := by
  decide

theorem TrimSpace_FormatInt (i : Int) : TrimSpace (FormatInt i) = FormatInt i := by
  apply TrimSpace_eq_self
  · intro c hc
    exact intChars_not_space c (FormatInt_mem i c (List.mem_of_mem_head? hc))
  · intro c hc
    exact intChars_not_space c (FormatInt_mem i c (List.mem_of_mem_getLast? hc))

/-! ## The wire round trip of the array codecs -/

theorem scanLoop_map {α : Type} (parse : GoString → Except Error α) (render : α → GoString)
    (xs : List α) (h : ∀ x ∈ xs, parse (render x) = .ok x) :
    scanLoop parse (xs.map render) = .ok xs := by
  induction xs with
  | nil => rfl
  | cons x xs ih =>
    simp only [List.map_cons, scanLoop, h x (by simp),
      ih (fun y hy => h y (by simp [hy]))]

/-- Scanning the value of a slice of length zero gives the empty non-nil slice. -/
theorem scanArray_valueArray_empty {α : Type} (target : String)
    (parse : GoString → Except Error α) (render : α → GoString)
    (a0 a : Option (List α)) (h : len a = 0) :
    scanArray target parse a0 (valueArray render a).1 = (some [], none) := by
  unfold valueArray
  rw [if_pos h]
  rfl

/-- Scanning the value of a non-empty slice gives the slice back, when every
rendered element is parsed back, has no comma, and neither starts nor ends in
a brace. -/
theorem scanArray_valueArray {α : Type} (target : String)
    (parse : GoString → Except Error α) (render : α → GoString)
    (a0 : Option (List α)) (xs : List α) (hne : xs ≠ [])
    (hp : ∀ x ∈ xs, parse (render x) = .ok x)
    (hc : ∀ x ∈ xs, ',' ∉ render x)
    (hn : ∀ x ∈ xs, render x ≠ [])
    (hh : ∀ x ∈ xs, ∀ c, (render x).head? = some c → c ∉ ['{', '}'])
    (hl : ∀ x ∈ xs, ∀ c, (render x).getLast? = some c → c ∉ ['{', '}']) :
    scanArray target parse a0 (valueArray render (some xs)).1 = (some xs, none) := by
  have hlen : len (some xs) ≠ 0 := by
    simpa [len] using hne
  obtain ⟨x, xs1, rfl⟩ : ∃ x xs1, xs = x :: xs1 := by
    cases xs with
    | nil => exact absurd rfl hne
    | cons x xs1 => exact ⟨x, xs1, rfl⟩
  have hjne : Join ((x :: xs1).map render) [','] ≠ [] :=
    Join_ne_nil _ _ _ (hn x (by simp))
  have htrim : Trim ('{' :: (Join ((x :: xs1).map render) [','] ++ ['}'])) ['{', '}']
      = Join ((x :: xs1).map render) [','] := by
    apply Trim_wrapped _ _ _ _ (by simp) (by simp) hjne
    · intro c hcc
      rw [List.map_cons, Join_head? _ _ _ (hn x (by simp))] at hcc
      exact hh x (by simp) c hcc
    · intro c hcc
      obtain ⟨l, hl1⟩ : ∃ l, (x :: xs1).getLast? = some l :=
        ⟨(x :: xs1).getLast (by simp), List.getLast?_eq_getLast _ _⟩
      have hlm : l ∈ x :: xs1 := List.mem_of_mem_getLast? hl1
      have hl2 : ((x :: xs1).map render).getLast? = some (render l) := by
        rw [List.getLast?_map, hl1]; rfl
      rw [Join_getLast? _ _ _ hl2 (hn l hlm)] at hcc
      exact hl l hlm c hcc
  have hsplit : Split (Join ((x :: xs1).map render) [',']) ',' = (x :: xs1).map render := by
    apply Split_Join _ _ (by simp)
    intro p hp1
    obtain ⟨y, hy, rfl⟩ := List.mem_map.mp hp1
    exact hc y hy
  unfold valueArray
  rw [if_neg hlen]
  simp only [elems, scanArray, List.singleton_append, List.cons_append, List.nil_append, htrim, if_neg hjne,
    hsplit, scanLoop_map parse render (x :: xs1) hp]

/-- Scanning the value of any slice (nil, empty or not) gives its elements
back as a non-nil slice, under the conditions of `scanArray_valueArray` on the
rendering of its elements. -/
theorem scanArray_valueArray_elems {α : Type} (target : String)
    (parse : GoString → Except Error α) (render : α → GoString)
    (a0 v : Option (List α))
    (hp : ∀ x ∈ elems v, parse (render x) = .ok x)
    (hc : ∀ x ∈ elems v, ',' ∉ render x)
    (hn : ∀ x ∈ elems v, render x ≠ [])
    (hh : ∀ x ∈ elems v, ∀ c, (render x).head? = some c → c ∉ ['{', '}'])
    (hl : ∀ x ∈ elems v, ∀ c, (render x).getLast? = some c → c ∉ ['{', '}']) :
    scanArray target parse a0 (valueArray render v).1 = (some (elems v), none) := by
  cases v with
  | none => exact scanArray_valueArray_empty target parse render a0 none rfl
  | some xs =>
    by_cases hxs : xs = []
    · subst hxs
      exact scanArray_valueArray_empty target parse render a0 (some []) rfl
    · exact scanArray_valueArray target parse render a0 xs hxs hp hc hn hh hl

theorem valueArray_snd {α : Type} (render : α → GoString) (a : Option (List α)) :
    (valueArray render a).2 = none := by
  unfold valueArray
  split <;> rfl

theorem FormatInt_plain (i : Int) :
    ',' ∉ FormatInt i ∧ FormatInt i ≠ [] ∧
    (∀ c, (FormatInt i).head? = some c → c ∉ ['{', '}']) ∧
    (∀ c, (FormatInt i).getLast? = some c → c ∉ ['{', '}']) := by
  refine ⟨?_, FormatInt_ne_nil i, ?_, ?_⟩
  · intro h
    exact (intChars_plain _ (FormatInt_mem i _ h)).1 rfl
  · intro c hc
    have := intChars_plain c (FormatInt_mem i c (List.mem_of_mem_head? hc))
    simp [this.2.1, this.2.2.1]
  · intro c hc
    have := intChars_plain c (FormatInt_mem i c (List.mem_of_mem_getLast? hc))
    simp [this.2.1, this.2.2.1]

theorem toInt32_of_IsInt32 (x : Int) (h : IsInt32 x) : toInt32 x = x := by
  unfold toInt32
  obtain ⟨h1, h2⟩ := h
  norm_num
  omega

theorem Int64Array_roundtrip (a0 v : Option (List Int)) (h : ∀ x ∈ elems v, IsInt64 x) :
    Int64Array.Scan a0 (Int64Array.Value v).1 = (some (elems v), none) := by
  apply scanArray_valueArray_elems
  · intro x hx
    obtain ⟨h1, h2⟩ := h x hx
    rw [TrimSpace_FormatInt]
    exact ParseInt_FormatInt 64 (Or.inr rfl) x (by norm_num; omega) (by norm_num; omega)
  · exact fun x _ => (FormatInt_plain x).1
  · exact fun x _ => (FormatInt_plain x).2.1
  · exact fun x _ => (FormatInt_plain x).2.2.1
  · exact fun x _ => (FormatInt_plain x).2.2.2

theorem Int32Array_roundtrip (a0 v : Option (List Int)) (h : ∀ x ∈ elems v, IsInt32 x) :
    Int32Array.Scan a0 (Int32Array.Value v).1 = (some (elems v), none) := by
  apply scanArray_valueArray_elems
  · intro x hx
    obtain ⟨h1, h2⟩ := h x hx
    unfold Int32Array.parseElem
    rw [TrimSpace_FormatInt,
      ParseInt_FormatInt 32 (Or.inl rfl) x (by norm_num; omega) (by norm_num; omega)]
    simp only [toInt32_of_IsInt32 x ⟨h1, h2⟩]
  · exact fun x _ => (FormatInt_plain x).1
  · exact fun x _ => (FormatInt_plain x).2.1
  · exact fun x _ => (FormatInt_plain x).2.2.1
  · exact fun x _ => (FormatInt_plain x).2.2.2

theorem BoolArray_roundtrip (a0 v : Option (List Bool)) :
    BoolArray.Scan a0 (BoolArray.Value v).1 = (some (elems v), none) := by
  apply scanArray_valueArray_elems
  · intro x _; cases x <;> rfl
  · intro x _; cases x <;> decide
  · intro x _; cases x <;> decide
  · intro x _ c; cases x <;> simp <;> rintro rfl <;> decide
  · intro x _ c; cases x <;> simp <;> rintro rfl <;> decide

/-- C1: for every `Int64Array`, `Int32Array` and `BoolArray` value `v` (nil,
empty or not), `Value` returns no error, and `Scan` of the value it returns
succeeds and stores a slice with exactly the elements of `v`: the same length
and the same element at every position. -/
theorem C1_scan_value_int_bool (a64 v64 a32 v32 : Option (List Int))
    (ab vb : Option (List Bool))
    (h64 : ∀ x ∈ elems v64, IsInt64 x) (h32 : ∀ x ∈ elems v32, IsInt32 x) :
    ((Int64Array.Value v64).2 = none ∧
      ∃ w, Int64Array.Scan a64 (Int64Array.Value v64).1 = (some w, none) ∧
        w.length = len v64 ∧ ∀ i : Nat, w[i]? = (elems v64)[i]?) ∧
    ((Int32Array.Value v32).2 = none ∧
      ∃ w, Int32Array.Scan a32 (Int32Array.Value v32).1 = (some w, none) ∧
        w.length = len v32 ∧ ∀ i : Nat, w[i]? = (elems v32)[i]?) ∧
    ((BoolArray.Value vb).2 = none ∧
      ∃ w, BoolArray.Scan ab (BoolArray.Value vb).1 = (some w, none) ∧
        w.length = len vb ∧ ∀ i : Nat, w[i]? = (elems vb)[i]?) := by
  refine ⟨⟨valueArray_snd _ _, elems v64, Int64Array_roundtrip a64 v64 h64, ?_, fun _ => rfl⟩,
    ⟨valueArray_snd _ _, elems v32, Int32Array_roundtrip a32 v32 h32, ?_, fun _ => rfl⟩,
    ⟨valueArray_snd _ _, elems vb, BoolArray_roundtrip ab vb, ?_, fun _ => rfl⟩⟩
  · cases v64 <;> rfl
  · cases v32 <;> rfl
  · cases vb <;> rfl

/-- Witness of C1 at arrays holding the extreme values of their element types. -/
theorem C1_scan_value_int_bool_witness :
    (∀ x ∈ elems (some [0, -42, 9223372036854775807, -9223372036854775808]), IsInt64 x) ∧
    (∀ x ∈ elems (some [7, 2147483647, -2147483648]), IsInt32 x) ∧
    (((Int64Array.Value (some [0, -42, 9223372036854775807, -9223372036854775808])).2 = none ∧
      ∃ w, Int64Array.Scan none
          (Int64Array.Value (some [0, -42, 9223372036854775807, -9223372036854775808])).1
          = (some w, none) ∧
        w.length = len (some [0, -42, 9223372036854775807, -9223372036854775808]) ∧
        ∀ i : Nat, w[i]? =
          (elems (some [0, -42, 9223372036854775807, -9223372036854775808]))[i]?) ∧
    ((Int32Array.Value (some [7, 2147483647, -2147483648])).2 = none ∧
      ∃ w, Int32Array.Scan none (Int32Array.Value (some [7, 2147483647, -2147483648])).1
          = (some w, none) ∧
        w.length = len (some [7, 2147483647, -2147483648]) ∧
        ∀ i : Nat, w[i]? = (elems (some [7, 2147483647, -2147483648]))[i]?) ∧
    ((BoolArray.Value (some [true, false])).2 = none ∧
      ∃ w, BoolArray.Scan none (BoolArray.Value (some [true, false])).1 = (some w, none) ∧
        w.length = len (some [true, false]) ∧
        ∀ i : Nat, w[i]? = (elems (some [true, false]))[i]?)) :=
  ⟨by decide, by decide,
    C1_scan_value_int_bool none _ none _ none _ (by decide) (by decide)⟩

/-! ## `StringArray` -/

theorem equalsArray_iff {α : Type} [DecidableEq α] (a b : Option (List α)) :
    equalsArray a b = true ↔ elems a = elems b := by
  have hla : len a = (elems a).length := by cases a <;> rfl
  have hlb : len b = (elems b).length := by cases b <;> rfl
  unfold equalsArray
  constructor
  · intro h
    by_cases hl : len a = len b
    · simp only [ne_eq, hl, not_true_eq_false, if_false, List.all_eq_true,
        List.mem_range, decide_eq_true_eq] at h
      apply List.ext_getElem? 
      intro i
      by_cases hi : i < len b
      · exact h i hi
      · rw [List.getElem?_eq_none (by omega), List.getElem?_eq_none (by omega)]
    · simp [hl] at h
  · intro h
    have hl : len a = len b := by rw [hla, hlb, h]
    simp [hl, h]

theorem quoted_Trim (s : GoString)
    (hh : s.head? ≠ some '"') (hl : s.getLast? ≠ some '"') :
    Trim (['"'] ++ s ++ ['"']) ['"'] = s := by
  by_cases hs : s = []
  · subst hs; rfl
  · rw [List.singleton_append, List.cons_append]
    apply Trim_wrapped _ _ _ _ (by simp) (by simp) hs
    · intro x hx hm
      simp at hm
      subst hm
      exact hh hx
    · intro x hx hm
      simp at hm
      subst hm
      exact hl hx

theorem quoted_plain (s : GoString) :
    ['"'] ++ s ++ ['"'] ≠ [] ∧
    (∀ c, (['"'] ++ s ++ ['"']).head? = some c → c ∉ ['{', '}']) ∧
    (∀ c, (['"'] ++ s ++ ['"']).getLast? = some c → c ∉ ['{', '}']) := by
  refine ⟨by simp, ?_, ?_⟩
  · intro c hc
    simp at hc
    subst hc
    decide
  · intro c hc
    rw [List.getLast?_append] at hc
    simp at hc
    subst hc
    decide

/-- The wire round trip of `StringArray` on elements without comma that do not
begin or end with a double quote. -/
theorem StringArray_roundtrip (a0 v : Option (List GoString))
    (h : ∀ s ∈ elems v, ',' ∉ s ∧ s.head? ≠ some '"' ∧ s.getLast? ≠ some '"') :
    StringArray.Scan a0 (StringArray.Value v).1 = (some (elems v), none) := by
  apply scanArray_valueArray_elems
  · intro s hs
    rw [quoted_Trim s (h s hs).2.1 (h s hs).2.2]
  · intro s hs hm
    simp at hm
    exact (h s hs).1 hm
  · exact fun s _ => (quoted_plain s).1
  · exact fun s _ => (quoted_plain s).2.1
  · exact fun s _ => (quoted_plain s).2.2

theorem scanLoop_total {α : Type} (f : GoString → α) (ps : List GoString) :
    scanLoop (fun s => Except.ok (f s)) ps = (.ok (ps.map f) : Except Error (List α)) := by
  induction ps with
  | nil => rfl
  | cons p ps ih => simp only [scanLoop, ih, List.map_cons]

theorem Split_length (s : GoString) (sep : Char) :
    (Split s sep).length = s.count sep + 1 := by
  induction s with
  | nil => rfl
  | cons c cs ih =>
    by_cases hc : c = sep
    · subst hc
      simp [Split, ih]
    · have hne := Split_ne_nil cs sep
      have hc2 : ¬ (c == sep) = true := by simpa using hc
      simp only [Split, if_neg hc]
      cases hsp : Split cs sep with
      | nil => exact absurd hsp hne
      | cons q qs =>
        rw [hsp] at ih
        simp only [List.length_cons] at ih ⊢
        rw [List.count_cons, if_neg hc2]
        omega

theorem Join_count (parts : List GoString) (sep : Char) :
    (Join parts [sep]).count sep + 1 = (parts.map (List.count sep)).sum + max parts.length 1 := by
  induction parts with
  | nil => rfl
  | cons e es ih =>
    cases es with
    | nil => simp [Join]
    | cons e2 es2 =>
      rw [Join_cons_cons]
      simp only [List.count_append, List.map_cons, List.sum_cons, List.length_cons] at ih ⊢
      simp only [List.count_singleton, beq_self_eq_true, if_true]
      omega

theorem Trim_head? (s cut : GoString) (c : Char) (h : (Trim s cut).head? = some c) :
    c ∉ cut := by
  unfold Trim trimRightFunc trimLeftFunc at h
  set L := s.dropWhile (fun c => cut.contains c) with hL
  have hpre : ((L.reverse.dropWhile (fun c => cut.contains c)).reverse) <+: L := by
    have := List.dropWhile_suffix (fun c => cut.contains c) (l := L.reverse)
    simpa using List.reverse_prefix.mpr this
  obtain ⟨t, ht⟩ := hpre
  cases hR : (L.reverse.dropWhile (fun c => cut.contains c)).reverse with
  | nil => rw [hR] at h; simp at h
  | cons d ds =>
    rw [hR] at h ht
    simp at h
    subst h
    have hhead : L.head? = some d := by rw [← ht]; rfl
    have := List.head?_dropWhile_not (fun c => cut.contains c) s
    rw [← hL, hhead] at this
    simpa using this

theorem Trim_getLast? (s cut : GoString) (c : Char) (h : (Trim s cut).getLast? = some c) :
    c ∉ cut := by
  unfold Trim trimRightFunc at h
  rw [List.getLast?_reverse] at h
  have := List.head?_dropWhile_not (fun c => cut.contains c)
    (trimLeftFunc (fun c => cut.contains c) s).reverse
  rw [h] at this
  simpa using this

theorem StringArray_scan_str (a0 : Option (List GoString)) (t : GoString) :
    StringArray.Scan a0 (.str t) =
      if Trim t ['{', '}'] = [] then (some [], none)
      else (some ((Split (Trim t ['{', '}']) ',').map (fun s => Trim s ['"'])), none) := by
  unfold StringArray.Scan scanArray
  simp only [scanLoop_total]

theorem StringArray_value_trim (x : GoString) (xs : List GoString) :
    (StringArray.Value (some (x :: xs))).1 =
      .str ('{' :: (Join ((x :: xs).map (fun s => ['"'] ++ s ++ ['"'])) [','] ++ ['}'])) ∧
    Trim ('{' :: (Join ((x :: xs).map (fun s => ['"'] ++ s ++ ['"'])) [','] ++ ['}'])) ['{', '}']
      = Join ((x :: xs).map (fun s => ['"'] ++ s ++ ['"'])) [','] ∧
    Join ((x :: xs).map (fun s => ['"'] ++ s ++ ['"'])) [','] ≠ [] := by
  have hjne : Join ((x :: xs).map (fun s => ['"'] ++ s ++ ['"'])) [','] ≠ [] :=
    Join_ne_nil _ _ _ (quoted_plain x).1
  refine ⟨?_, ?_, hjne⟩
  · simp [StringArray.Value, valueArray, len, elems]
  · apply Trim_wrapped _ _ _ _ (by simp) (by simp) hjne
    · intro c hcc
      rw [List.map_cons, Join_head? _ _ _ (quoted_plain x).1] at hcc
      exact (quoted_plain x).2.1 c hcc
    · intro c hcc
      obtain ⟨l, hl1⟩ : ∃ l, (x :: xs).getLast? = some l :=
        ⟨(x :: xs).getLast (by simp), List.getLast?_eq_getLast _ _⟩
      have hl2 : ((x :: xs).map (fun s => ['"'] ++ s ++ ['"'])).getLast?
          = some (['"'] ++ l ++ ['"']) := by
        rw [List.getLast?_map, hl1]; rfl
      rw [Join_getLast? _ _ _ hl2 (quoted_plain l).1] at hcc
      exact (quoted_plain l).2.2 c hcc

/-- When `Scan` of `Value(v)` stores the elements of `v`, no element of `v` has
a comma, and none begins or ends with a double quote. -/
theorem StringArray_roundtrip_converse (a0 v : Option (List GoString))
    (h : (StringArray.Scan a0 (StringArray.Value v).1).1 = some (elems v)) :
    ∀ s ∈ elems v, ',' ∉ s ∧ s.head? ≠ some '"' ∧ s.getLast? ≠ some '"' := by
  cases v with
  | none => intro s hs; simp [elems] at hs
  | some l =>
    cases l with
    | nil => intro s hs; simp [elems] at hs
    | cons x xs =>
      obtain ⟨hv, htrim, hjne⟩ := StringArray_value_trim x xs
      rw [hv, StringArray_scan_str, htrim, if_neg hjne] at h
      simp only [elems, Option.some.injEq] at h ⊢
      have hlen := congrArg List.length h
      rw [List.length_map, Split_length] at hlen
      have hcount := Join_count ((x :: xs).map (fun s => ['"'] ++ s ++ ['"'])) ','
      have hpos : 1 ≤ (x :: xs).length := by simp
      rw [hlen, List.length_map, max_eq_left hpos] at hcount
      have hsum := self_eq_add_left.mp hcount
      have hnc : ∀ s ∈ x :: xs, ',' ∉ (['"'] ++ s ++ ['"']) := by
        intro s hs
        have h0 := List.sum_eq_zero_iff.mp hsum (List.count ',' (['"'] ++ s ++ ['"']))
          (List.mem_map.mpr ⟨_, List.mem_map.mpr ⟨s, hs, rfl⟩, rfl⟩)
        exact List.count_eq_zero.mp h0
      have hsplit : Split (Join ((x :: xs).map (fun s => ['"'] ++ s ++ ['"'])) [',']) ','
          = (x :: xs).map (fun s => ['"'] ++ s ++ ['"']) := by
        apply Split_Join _ _ (by simp)
        intro p hp1
        obtain ⟨y, hy, rfl⟩ := List.mem_map.mp hp1
        exact hnc y hy
      rw [hsplit, List.map_map] at h
      have helem : ∀ s ∈ x :: xs, Trim (['"'] ++ s ++ ['"']) ['"'] = s := by
        intro s hs
        have := List.map_inj_left.mp (h.trans (List.map_id _).symm) s hs
        simpa using this
      intro s hs
      refine ⟨fun hm => hnc s hs (by simp [hm]), ?_, ?_⟩
      · intro hh
        rw [← helem s hs] at hh
        exact Trim_head? _ _ _ hh (by simp)
      · intro hl
        rw [← helem s hs] at hl
        exact Trim_getLast? _ _ _ hl (by simp)

/-- C2 (amended): for every `StringArray` `v`, `Value` and `Scan` of its result
return no error, and `Scan` stores exactly the elements of `v` if and only if no
element of `v` contains a comma and none begins or ends with a double quote.
Braces, inner double quotes and the empty string are decoded faithfully. -/
theorem C2_string_scan_value_iff (a0 v : Option (List GoString)) :
    (StringArray.Value v).2 = none ∧
    (StringArray.Scan a0 (StringArray.Value v).1).2 = none ∧
    ((StringArray.Scan a0 (StringArray.Value v).1).1 = some (elems v) ↔
      ∀ s ∈ elems v, ',' ∉ s ∧ s.head? ≠ some '"' ∧ s.getLast? ≠ some '"') := by
  refine ⟨valueArray_snd _ _, ?_, StringArray_roundtrip_converse a0 v, fun h => ?_⟩
  · have hv : ∃ t, (StringArray.Value v).1 = .str t := by
      unfold StringArray.Value valueArray
      split <;> exact ⟨_, rfl⟩
    obtain ⟨t, ht⟩ := hv
    rw [ht, StringArray_scan_str]
    split <;> rfl
  · rw [StringArray_roundtrip a0 v h]

/-- C2 (counterexample): the one-element array holding `a,b` is encoded as
`{"a,b"}` and decoded as the two elements `a` and `b`: the comma inside the
element is a split point, and the length is not preserved. -/
theorem C2_comma_element_is_split :
    StringArray.Scan none (StringArray.Value (some [['a', ',', 'b']])).1
      = (some [['a'], ['b']], none) ∧
    ¬ ∃ w, StringArray.Scan none (StringArray.Value (some [['a', ',', 'b']])).1
        = (some w, none) ∧ w.length = len (some [['a', ',', 'b']]) := by
  have h : StringArray.Scan none (StringArray.Value (some [['a', ',', 'b']])).1
      = (some [['a'], ['b']], none) := by decide
  refine ⟨h, ?_⟩
  rintro ⟨w, hw, hlen⟩
  rw [h] at hw
  simp only [Prod.mk.injEq, Option.some.injEq, and_true] at hw
  subst hw
  simp [len] at hlen

theorem valueArray_some_elems {α : Type} (render : α → GoString) (v : Option (List α)) :
    valueArray render (some (elems v)) = valueArray render v := by
  cases v <;> rfl

/-- C6: for every `StringArray` `v` in which no element contains a comma and no
element begins or ends with a double quote, `Scan` of `Value(v)` succeeds, the
scanned array `Equals` `v`, and its `Value` is the same string as `Value(v)`;
the literal `{"a","b","c"}` scans to `[a, b, c]`, which is encoded as the same
text. -/
theorem C6_string_scan_value_equals (a0 v : Option (List GoString))
    (h : ∀ s ∈ elems v, ',' ∉ s ∧ s.head? ≠ some '"' ∧ s.getLast? ≠ some '"') :
    (StringArray.Scan a0 (StringArray.Value v).1).2 = none ∧
    StringArray.Equals (StringArray.Scan a0 (StringArray.Value v).1).1 v = true ∧
    StringArray.Value (StringArray.Scan a0 (StringArray.Value v).1).1 = StringArray.Value v ∧
    StringArray.Scan a0 (.bytes ['{', '"', 'a', '"', ',', '"', 'b', '"', ',', '"', 'c', '"', '}'])
      = (some [['a'], ['b'], ['c']], none) ∧
    StringArray.Value (some [['a'], ['b'], ['c']])
      = (.str ['{', '"', 'a', '"', ',', '"', 'b', '"', ',', '"', 'c', '"', '}'], none) := by
  rw [StringArray_roundtrip a0 v h]
  refine ⟨rfl, ?_, ?_, rfl, by decide⟩
  · exact (equalsArray_iff _ _).mpr rfl
  · exact valueArray_some_elems _ v

/-- Witness of C6 at an array with braces, an inner double quote and an empty
string among its elements. -/
theorem C6_string_scan_value_equals_witness :
    (∀ s ∈ elems (some [['{', 'x', '}'], [], ['p', '"', 'q']]),
      ',' ∉ s ∧ s.head? ≠ some '"' ∧ s.getLast? ≠ some '"') ∧
    (StringArray.Scan none
      (StringArray.Value (some [['{', 'x', '}'], [], ['p', '"', 'q']])).1).2 = none ∧
    StringArray.Equals (StringArray.Scan none
      (StringArray.Value (some [['{', 'x', '}'], [], ['p', '"', 'q']])).1).1
      (some [['{', 'x', '}'], [], ['p', '"', 'q']]) = true :=
  ⟨by decide,
    (C6_string_scan_value_equals none (some [['{', 'x', '}'], [], ['p', '"', 'q']])
      (by decide)).1,
    (C6_string_scan_value_equals none (some [['{', 'x', '}'], [], ['p', '"', 'q']])
      (by decide)).2.1⟩

/-! ## Clock-time intervals -/

theorem digitVal_some_mem (c : Char) (d : Nat) (h : digitVal c = some d) :
    c ∈ ['0', '1', '2', '3', '4', '5', '6', '7', '8', '9'] ∧ d < 10 := by
  unfold digitVal at h
  split at h <;> first | (cases h; decide) | (exact absurd h (by simp))

theorem digits_props :
    ∀ c ∈ ['0', '1', '2', '3', '4', '5', '6', '7', '8', '9'],
      isSpace c = false ∧ c ≠ '-' ∧ c ≠ '+' ∧ c ≠ '.' ∧ c ≠ ':' ∧ endsUnit c = true := by
  decide

theorem digitVal_props (c : Char) (d : Nat) (h : digitVal c = some d) :
    isSpace c = false ∧ c ≠ '-' ∧ c ≠ '+' ∧ c ≠ '.' ∧ c ≠ ':' ∧ endsUnit c = true ∧ d < 10 :=
  ⟨(digits_props c (digitVal_some_mem c d h).1).1,
    (digits_props c (digitVal_some_mem c d h).1).2.1,
    (digits_props c (digitVal_some_mem c d h).1).2.2.1,
    (digits_props c (digitVal_some_mem c d h).1).2.2.2.1,
    (digits_props c (digitVal_some_mem c d h).1).2.2.2.2.1,
    (digits_props c (digitVal_some_mem c d h).1).2.2.2.2.2,
    (digitVal_some_mem c d h).2⟩

theorem stripSign_cons (c : Char) (t : GoString) (hm : c ≠ '-') (hp : c ≠ '+') :
    stripSign (c :: t) = c :: t := by
  unfold stripSign
  split
  · rename_i heq; simp at heq; exact absurd heq.1 hm
  · rename_i heq; simp at heq; exact absurd heq.1 hp
  · rfl

/-- A clock text `hh:mm:ss` is no duration literal: the colon is no unit. -/
theorem ParseDuration_clock (c1 c2 c3 c4 c5 c6 : Char) (d1 d2 d3 : Nat)
    (h1 : digitVal c1 = some d1) (h2 : digitVal c2 = some d2) (h3 : digitVal c3 = some d3) :
    ParseDuration [c1, c2, ':', c3, c4, ':', c5, c6] =
      .error (.durationUnknownUnit [':'] [c1, c2, ':', c3, c4, ':', c5, c6]) := by
  obtain ⟨-, hm1, hp1, -, -, he1, hd1⟩ := digitVal_props c1 d1 h1
  obtain ⟨-, -, -, -, -, -, hd2⟩ := digitVal_props c2 d2 h2
  obtain ⟨-, -, -, -, -, he3, -⟩ := digitVal_props c3 d3 h3
  have hs1 : stripSign [c1, c2, ':', c3, c4, ':', c5, c6] = [c1, c2, ':', c3, c4, ':', c5, c6] :=
    stripSign_cons c1 _ hm1 hp1
  have hli : leadingInt [c1, c2, ':', c3, c4, ':', c5, c6] 0
      = some (d1 * 10 + d2, [':', c3, c4, ':', c5, c6]) := by
    have e1 : ¬ (0 * 10 + d1 > 2 ^ 63) := by norm_num; omega
    have e2 : ¬ (0 * 10 + d1 > 2 ^ 63 / 10) := by norm_num; omega
    have e3 : ¬ ((0 * 10 + d1) * 10 + d2 > 2 ^ 63) := by norm_num; omega
    have e0 : ¬ (0 > 2 ^ 63 / 10) := by norm_num
    have hc : digitVal ':' = none := by decide
    simp only [leadingInt, h1, h2, hc, if_neg e0, if_neg e1, if_neg e2, if_neg e3]
    simp
  have htake : List.takeWhile (fun c => ! endsUnit c) [':', c3, c4, ':', c5, c6] = [':'] := by
    have hc : endsUnit ':' = false := by decide
    simp [List.takeWhile, hc, he3]
  have hn0 : ([c1, c2, ':', c3, c4, ':', c5, c6] : GoString) ≠ ['0'] := by simp
  have hn1 : ([c1, c2, ':', c3, c4, ':', c5, c6] : GoString) ≠ [] := by simp
  unfold ParseDuration
  simp only [hs1]
  rw [if_neg hn0, if_neg hn1]
  have hcolon : endsUnit ':' = false := by decide
  simp only [List.length_cons, List.length_nil, parseDurationLoop, durationRound, fractionStep,
    List.head?_cons, Option.map_some', Option.getD_some, he1, hli, htake]
  simp [unitMap, htake, hcolon]

theorem fieldsAux_no_space (s : GoString) (h : ∀ c ∈ s, isSpace c = false) :
    ∀ cur : GoString, (cur ≠ [] ∨ s ≠ []) → fieldsAux s cur = [cur.reverse ++ s] := by
  induction s with
  | nil =>
    intro cur hne
    have : cur ≠ [] := by simpa using hne
    simp [fieldsAux, this]
  | cons c cs ih =>
    intro cur _
    have hc : isSpace c = false := h c (by simp)
    simp only [fieldsAux, hc, Bool.false_eq_true, if_false]
    rw [ih (fun x hx => h x (by simp [hx])) (c :: cur) (Or.inl (by simp))]
    simp

/-- A non-empty text without white space is its only field. -/
theorem Fields_no_space (s : GoString) (hne : s ≠ []) (h : ∀ c ∈ s, isSpace c = false) :
    Fields s = [s] := by
  unfold Fields
  rw [fieldsAux_no_space s h [] (Or.inr hne)]
  simp

theorem getnum_two (c0 c1 : Char) (d0 d1 : Nat) (r : GoString) (fixed : Bool)
    (h0 : digitVal c0 = some d0) (h1 : digitVal c1 = some d1) :
    getnum (c0 :: c1 :: r) fixed = some (d0 * 10 + d1, r) := by
  simp only [getnum, h0, h1]

theorem parseClock_digits (c1 c2 c3 c4 c5 c6 : Char) (d1 d2 d3 d4 d5 d6 : Nat)
    (h1 : digitVal c1 = some d1) (h2 : digitVal c2 = some d2) (h3 : digitVal c3 = some d3)
    (h4 : digitVal c4 = some d4) (h5 : digitVal c5 = some d5) (h6 : digitVal c6 = some d6)
    (hH : d1 * 10 + d2 < 24) (hM : d3 * 10 + d4 < 60) (hS : d5 * 10 + d6 < 60) :
    parseClock [c1, c2, ':', c3, c4, ':', c5, c6] =
      .ok { hour := d1 * 10 + d2, minute := d3 * 10 + d4, second := d5 * 10 + d6, nsec := 0 } := by
  have hhms : parseHMS [c1, c2, ':', c3, c4, ':', c5, c6]
      = some (d1 * 10 + d2, d3 * 10 + d4, d5 * 10 + d6, []) := by
    simp only [parseHMS, getnum_two _ _ _ _ _ _ h1 h2, getnum_two _ _ _ _ _ _ h3 h4,
      getnum_two _ _ _ _ _ _ h5 h6, if_neg (Nat.not_le.mpr hH), if_neg (Nat.not_le.mpr hM),
      if_neg (Nat.not_le.mpr hS)]
  simp [parseClock, hhms, skipFraction]

/-- A clock text `hh:mm:ss` with valid fields is read as that many hours,
minutes and seconds. -/
theorem parsePostgresInterval_clock (c1 c2 c3 c4 c5 c6 : Char) (d1 d2 d3 d4 d5 d6 : Nat)
    (h1 : digitVal c1 = some d1) (h2 : digitVal c2 = some d2) (h3 : digitVal c3 = some d3)
    (h4 : digitVal c4 = some d4) (h5 : digitVal c5 = some d5) (h6 : digitVal c6 = some d6)
    (hH : d1 * 10 + d2 < 24) (hM : d3 * 10 + d4 < 60) (hS : d5 * 10 + d6 < 60) :
    parsePostgresInterval [c1, c2, ':', c3, c4, ':', c5, c6] =
      some (.ok (toInt64 (((d1 * 10 + d2 : Nat) : Int) * Hour
        + ((d3 * 10 + d4 : Nat) : Int) * Minute + ((d5 * 10 + d6 : Nat) : Int) * Second))) := by
  have hsp : ∀ c ∈ [c1, c2, ':', c3, c4, ':', c5, c6], isSpace c = false := by
    have hc : isSpace ':' = false := by decide
    intro c hcm
    simp only [List.mem_cons, List.mem_singleton, List.not_mem_nil, or_false] at hcm
    rcases hcm with rfl | rfl | rfl | rfl | rfl | rfl | rfl | rfl
    · exact (digitVal_props _ _ h1).1
    · exact (digitVal_props _ _ h2).1
    · exact hc
    · exact (digitVal_props _ _ h3).1
    · exact (digitVal_props _ _ h4).1
    · exact hc
    · exact (digitVal_props _ _ h5).1
    · exact (digitVal_props _ _ h6).1
  have htrim : TrimSpace [c1, c2, ':', c3, c4, ':', c5, c6] = [c1, c2, ':', c3, c4, ':', c5, c6] :=
    TrimSpace_eq_self (fun c hc => hsp c (List.mem_of_mem_head? hc))
      (fun c hc => hsp c (List.mem_of_mem_getLast? hc))
  unfold parsePostgresInterval
  simp only [htrim, ParseDuration_clock c1 c2 c3 c4 c5 c6 d1 d2 d3 h1 h2 h3,
    Fields_no_space _ (by simp) hsp]
  simp [parseClock_digits c1 c2 c3 c4 c5 c6 d1 d2 d3 d4 d5 d6 h1 h2 h3 h4 h5 h6 hH hM hS]

/-- C10: for every clock text `hh:mm:ss` with two-digit fields, `hh` in 00..23
and `mm`, `ss` in 00..59, `parsePostgresInterval` returns `hh*3600 + mm*60 + ss`
seconds without error; `03:04:05` yields 3h4m5s. -/
theorem C10_clock_interval (hh mm ss : Nat) (hH : hh < 24) (hM : mm < 60) (hS : ss < 60) :
    parsePostgresInterval (twoDigits hh ++ [':'] ++ twoDigits mm ++ [':'] ++ twoDigits ss)
      = some (.ok (((hh * 3600 + mm * 60 + ss) * Second : Nat) : Int)) ∧
    parsePostgresInterval ['0', '3', ':', '0', '4', ':', '0', '5']
      = some (.ok (3 * Hour + 4 * Minute + 5 * Second)) := by
  constructor
  · have h := parsePostgresInterval_clock
      (digitChar (hh / 10)) (digitChar (hh % 10)) (digitChar (mm / 10)) (digitChar (mm % 10))
      (digitChar (ss / 10)) (digitChar (ss % 10))
      (hh / 10) (hh % 10) (mm / 10) (mm % 10) (ss / 10) (ss % 10)
      (digitVal_digitChar _ (by omega)) (digitVal_digitChar _ (by omega))
      (digitVal_digitChar _ (by omega)) (digitVal_digitChar _ (by omega))
      (digitVal_digitChar _ (by omega)) (digitVal_digitChar _ (by omega))
      (by omega) (by omega) (by omega)
    have e1 : hh / 10 * 10 + hh % 10 = hh := by omega
    have e2 : mm / 10 * 10 + mm % 10 = mm := by omega
    have e3 : ss / 10 * 10 + ss % 10 = ss := by omega
    rw [e1, e2, e3] at h
    simp only [twoDigits, List.cons_append, List.nil_append, List.singleton_append]
    rw [h]
    refine congrArg (fun x => some (Except.ok x)) ?_
    simp only [Hour, Minute, Second, toInt64]
    push_cast
    omega
  · rfl

/-- Witness of C10 at the last second of the day. -/
theorem C10_clock_interval_witness :
    23 < 24 ∧ 59 < 60 ∧
    parsePostgresInterval (twoDigits 23 ++ [':'] ++ twoDigits 59 ++ [':'] ++ twoDigits 59)
      = some (.ok (((23 * 3600 + 59 * 60 + 59) * Second : Nat) : Int)) :=
  ⟨by decide, by decide,
    (C10_clock_interval 23 59 59 (by decide) (by decide) (by decide)).1⟩

/-- C9 (the code at the failing input): `2 days 03:04:05` is read as 224 hours
plus 3h4m5s, because the day count is joined to the text `24h` and the result
`224h` is parsed as a duration; the claimed value is 48 hours plus 3h4m5s.
In the same way `0 days 00:00:00` is read as 24 hours and `1 days 00:00:00`
as 124 hours. -/
theorem C9_two_days_is_224_hours :
    parsePostgresInterval
      ['2', ' ', 'd', 'a', 'y', 's', ' ', '0', '3', ':', '0', '4', ':', '0', '5']
      = some (.ok (224 * Hour + 3 * Hour + 4 * Minute + 5 * Second)) ∧
    parsePostgresInterval
      ['2', ' ', 'd', 'a', 'y', 's', ' ', '0', '3', ':', '0', '4', ':', '0', '5']
      ≠ some (.ok (2 * 24 * Hour + 3 * Hour + 4 * Minute + 5 * Second)) ∧
    parsePostgresInterval
      ['0', ' ', 'd', 'a', 'y', 's', ' ', '0', '0', ':', '0', '0', ':', '0', '0']
      = some (.ok (24 * Hour)) ∧
    parsePostgresInterval
      ['1', ' ', 'd', 'a', 'y', 's', ' ', '0', '0', ':', '0', '0', ':', '0', '0']
      = some (.ok (124 * Hour)) := by
  have h : parsePostgresInterval
      ['2', ' ', 'd', 'a', 'y', 's', ' ', '0', '3', ':', '0', '4', ':', '0', '5']
      = some (.ok (224 * Hour + 3 * Hour + 4 * Minute + 5 * Second)) := by rfl
  refine ⟨h, ?_, by rfl, by rfl⟩
  rw [h]
  simp [Hour, Minute, Second]

/-! ## Absent and empty arrays -/

theorem scanArray_null {α : Type} (target : String) (parse : GoString → Except Error α)
    (a : Option (List α)) : scanArray target parse a .null = (none, none) := rfl

theorem scanArray_braces {α : Type} (target : String) (parse : GoString → Except Error α)
    (a : Option (List α)) : scanArray target parse a (.str ['{', '}']) = (some [], none) := rfl

theorem valueArray_of_len_zero {α : Type} (render : α → GoString) (a : Option (List α))
    (h : len a = 0) : valueArray render a = (.str ['{', '}'], none) := by
  unfold valueArray
  rw [if_pos h]

theorem valueArray_ne_null {α : Type} (render : α → GoString) (a : Option (List α)) :
    (valueArray render a).1 ≠ .null := by
  unfold valueArray
  split <;> simp

theorem scanArray_null_ne_braces {α : Type} (target : String)
    (parse : GoString → Except Error α) (a : Option (List α)) :
    (scanArray target parse a .null).1 ≠ (scanArray target parse a (.str ['{', '}'])).1 := by
  rw [scanArray_null, scanArray_braces]
  simp

/-- C7: for every array kind, `Scan(nil)` returns no error and leaves the
receiver nil, `Scan` of the text `{}` returns no error and leaves it non-nil
with length zero, the two results differ, and `Value` of the empty non-nil
array is the string `{}`. -/
theorem C7_scan_nil_and_empty {F : Type} (parseFloat : GoString → Except Error F)
    (formatFloat : F → GoString) :
    (∀ a, StringArray.Scan a .null = (none, none) ∧
      StringArray.Scan a (.str ['{', '}']) = (some [], none) ∧
      (StringArray.Scan a .null).1 ≠ (StringArray.Scan a (.str ['{', '}'])).1 ∧
      StringArray.Value (some []) = (.str ['{', '}'], none)) ∧
    (∀ a, Int32Array.Scan a .null = (none, none) ∧
      Int32Array.Scan a (.str ['{', '}']) = (some [], none) ∧
      (Int32Array.Scan a .null).1 ≠ (Int32Array.Scan a (.str ['{', '}'])).1 ∧
      Int32Array.Value (some []) = (.str ['{', '}'], none)) ∧
    (∀ a, Int64Array.Scan a .null = (none, none) ∧
      Int64Array.Scan a (.str ['{', '}']) = (some [], none) ∧
      (Int64Array.Scan a .null).1 ≠ (Int64Array.Scan a (.str ['{', '}'])).1 ∧
      Int64Array.Value (some []) = (.str ['{', '}'], none)) ∧
    (∀ a, BoolArray.Scan a .null = (none, none) ∧
      BoolArray.Scan a (.str ['{', '}']) = (some [], none) ∧
      (BoolArray.Scan a .null).1 ≠ (BoolArray.Scan a (.str ['{', '}'])).1 ∧
      BoolArray.Value (some []) = (.str ['{', '}'], none)) ∧
    (∀ a, UUIDArray.Scan a .null = (none, none) ∧
      UUIDArray.Scan a (.str ['{', '}']) = (some [], none) ∧
      (UUIDArray.Scan a .null).1 ≠ (UUIDArray.Scan a (.str ['{', '}'])).1 ∧
      UUIDArray.Value (some []) = (.str ['{', '}'], none)) ∧
    (∀ a, Float64Array.Scan parseFloat a .null = (none, none) ∧
      Float64Array.Scan parseFloat a (.str ['{', '}']) = (some [], none) ∧
      (Float64Array.Scan parseFloat a .null).1
        ≠ (Float64Array.Scan parseFloat a (.str ['{', '}'])).1 ∧
      Float64Array.Value formatFloat (some []) = (.str ['{', '}'], none)) ∧
    (∀ a, TimeArray.Scan a .null = (none, none) ∧
      TimeArray.Scan a (.str ['{', '}']) = (some [], none) ∧
      (TimeArray.Scan a .null).1 ≠ (TimeArray.Scan a (.str ['{', '}'])).1 ∧
      TimeArray.Value (some []) = (.str ['{', '}'], none)) ∧
    (∀ a, DurationArray.Scan a .null = (none, none) ∧
      DurationArray.Scan a (.str ['{', '}']) = (some [], none) ∧
      (DurationArray.Scan a .null).1 ≠ (DurationArray.Scan a (.str ['{', '}'])).1 ∧
      DurationArray.Value (some []) = (.str ['{', '}'], none)) := by
  refine ⟨fun a => ⟨rfl, rfl, scanArray_null_ne_braces _ _ a, rfl⟩,
    fun a => ⟨rfl, rfl, scanArray_null_ne_braces _ _ a, rfl⟩,
    fun a => ⟨rfl, rfl, scanArray_null_ne_braces _ _ a, rfl⟩,
    fun a => ⟨rfl, rfl, scanArray_null_ne_braces _ _ a, rfl⟩,
    fun a => ⟨rfl, rfl, scanArray_null_ne_braces _ _ a, rfl⟩,
    fun a => ⟨rfl, rfl, scanArray_null_ne_braces _ _ a, rfl⟩,
    fun a => ⟨rfl, rfl, scanArray_null_ne_braces _ _ a, rfl⟩,
    fun a => ⟨rfl, rfl, scanArray_null_ne_braces _ _ a, rfl⟩⟩

/-- C8 (counterexample): `Value` of the nil `Int64Array` and of the nil
`StringArray` is the string `{}`, not the null value. -/
theorem C8_value_of_nil_is_braces :
    Int64Array.Value none = (.str ['{', '}'], none) ∧
    (Int64Array.Value none).1 ≠ .null ∧
    StringArray.Value none = (.str ['{', '}'], none) ∧
    (StringArray.Value none).1 ≠ .null := by
  refine ⟨rfl, by decide, rfl, by decide⟩

/-- C8 (amended): encoding does not distinguish absent from empty: for every
array kind, `Value` of the nil array and `Value` of the empty non-nil array are
both the string `{}`, and `Value` never returns the null value. -/
theorem C8_value_nil_equals_value_empty {F : Type} (formatFloat : F → GoString) :
    (StringArray.Value none = (.str ['{', '}'], none) ∧
      StringArray.Value (some []) = (.str ['{', '}'], none) ∧
      ∀ a, (StringArray.Value a).1 ≠ .null) ∧
    (Int32Array.Value none = (.str ['{', '}'], none) ∧
      Int32Array.Value (some []) = (.str ['{', '}'], none) ∧
      ∀ a, (Int32Array.Value a).1 ≠ .null) ∧
    (Int64Array.Value none = (.str ['{', '}'], none) ∧
      Int64Array.Value (some []) = (.str ['{', '}'], none) ∧
      ∀ a, (Int64Array.Value a).1 ≠ .null) ∧
    (BoolArray.Value none = (.str ['{', '}'], none) ∧
      BoolArray.Value (some []) = (.str ['{', '}'], none) ∧
      ∀ a, (BoolArray.Value a).1 ≠ .null) ∧
    (UUIDArray.Value none = (.str ['{', '}'], none) ∧
      UUIDArray.Value (some []) = (.str ['{', '}'], none) ∧
      ∀ a, (UUIDArray.Value a).1 ≠ .null) ∧
    (Float64Array.Value formatFloat none = (.str ['{', '}'], none) ∧
      Float64Array.Value formatFloat (some []) = (.str ['{', '}'], none) ∧
      ∀ a, (Float64Array.Value formatFloat a).1 ≠ .null) ∧
    (TimeArray.Value none = (.str ['{', '}'], none) ∧
      TimeArray.Value (some []) = (.str ['{', '}'], none) ∧
      ∀ a, (TimeArray.Value a).1 ≠ .null) ∧
    (DurationArray.Value none = (.str ['{', '}'], none) ∧
      DurationArray.Value (some []) = (.str ['{', '}'], none) ∧
      ∀ a, (DurationArray.Value a).1 ≠ .null) := by
  refine ⟨⟨rfl, rfl, fun a => valueArray_ne_null _ a⟩, ⟨rfl, rfl, fun a => valueArray_ne_null _ a⟩,
    ⟨rfl, rfl, fun a => valueArray_ne_null _ a⟩, ⟨rfl, rfl, fun a => valueArray_ne_null _ a⟩,
    ⟨rfl, rfl, fun a => valueArray_ne_null _ a⟩, ⟨rfl, rfl, fun a => valueArray_ne_null _ a⟩,
    ⟨rfl, rfl, fun a => valueArray_ne_null _ a⟩, ⟨rfl, rfl, fun a => valueArray_ne_null _ a⟩⟩

/-! ## `UUIDArray` -/

theorem xvalue_hexChar (d : Nat) (h : d < 16) : xvalue (hexChar d) = some d := by
  interval_cases d <;> rfl

theorem xtob_hex (b : Nat) (h : b < 256) : xtob (hexChar (b / 16)) (hexChar (b % 16)) = some b := by
  unfold xtob
  rw [xvalue_hexChar _ (by omega), xvalue_hexChar _ (by omega)]
  simp only [Option.some.injEq]
  omega

theorem hexChar_mem (d : Nat) :
    hexChar d ∈ ['0', '1', '2', '3', '4', '5', '6', '7', '8', '9', 'a', 'b', 'c', 'd', 'e', 'f'] := by
  unfold hexChar
  split <;> simp

theorem hexChars_plain :
    ∀ c ∈ ['-', '0', '1', '2', '3', '4', '5', '6', '7', '8', '9', 'a', 'b', 'c', 'd', 'e', 'f'],
      c ≠ ',' ∧ c ≠ '"' ∧ c ≠ '{' ∧ c ≠ '}' := by
  decide

theorem length_sixteen (u : List Nat) (h : u.length = 16) :
    ∃ b0 b1 b2 b3 b4 b5 b6 b7 b8 b9 b10 b11 b12 b13 b14 b15,
      u = [b0, b1, b2, b3, b4, b5, b6, b7, b8, b9, b10, b11, b12, b13, b14, b15] := by
  match u, h with
  | [b0, b1, b2, b3, b4, b5, b6, b7, b8, b9, b10, b11, b12, b13, b14, b15], _ =>
    exact ⟨b0, b1, b2, b3, b4, b5, b6, b7, b8, b9, b10, b11, b12, b13, b14, b15, rfl⟩

theorem hexEncode_mem (bs : List Nat) :
    ∀ c ∈ hexEncode bs,
      c ∈ ['-', '0', '1', '2', '3', '4', '5', '6', '7', '8', '9', 'a', 'b', 'c', 'd', 'e', 'f'] := by
  induction bs with
  | nil => intro c hc; simp [hexEncode] at hc
  | cons b rest ih =>
    intro c hc
    simp only [hexEncode, List.mem_cons] at hc
    rcases hc with rfl | rfl | hc
    · exact List.mem_cons_of_mem _ (hexChar_mem _)
    · exact List.mem_cons_of_mem _ (hexChar_mem _)
    · exact ih c hc

theorem UUID_String_mem (u : UUID) :
    ∀ c ∈ UUID.String u,
      c ∈ ['-', '0', '1', '2', '3', '4', '5', '6', '7', '8', '9', 'a', 'b', 'c', 'd', 'e', 'f'] := by
  intro c hc
  unfold UUID.String at hc
  simp only [List.mem_append, List.mem_singleton] at hc
  rcases hc with (((((((hc | rfl) | hc) | rfl) | hc) | rfl) | hc) | rfl) | hc
  all_goals first | exact hexEncode_mem _ c hc | simp

/-- A text of ASCII characters is the sequence of its bytes. -/
theorem byteString_ascii (s : GoString) (h : ∀ c ∈ s, c.toNat < 128) : byteString s = s := by
  induction s with
  | nil => rfl
  | cons c cs ih =>
    have hc : c.toNat < 0x80 := h c (by simp)
    have ht := ih (fun a ha => h a (List.mem_cons_of_mem _ ha))
    unfold byteString at ht ⊢
    rw [List.flatMap_cons, ht, utf8Bytes, if_pos hc]
    simp

theorem hex_ascii : ∀ c ∈ ['-', '0', '1', '2', '3', '4', '5', '6', '7', '8', '9', 'a', 'b',
    'c', 'd', 'e', 'f'], c.toNat < 128 := by
  decide

/-- `uuid.Parse` reads back the text written by `UUID.String`. -/
theorem UUID_Parse_String (u : UUID) (h : IsUUID u) : UUID.Parse (UUID.String u) = .ok u := by
  obtain ⟨hlen, hb⟩ := h
  obtain ⟨b0, b1, b2, b3, b4, b5, b6, b7, b8, b9, b10, b11, b12, b13, b14, b15, rfl⟩ :=
    length_sixteen u hlen
  have h0 := xtob_hex b0 (hb b0 (by simp))
  have h1 := xtob_hex b1 (hb b1 (by simp))
  have h2 := xtob_hex b2 (hb b2 (by simp))
  have h3 := xtob_hex b3 (hb b3 (by simp))
  have h4 := xtob_hex b4 (hb b4 (by simp))
  have h5 := xtob_hex b5 (hb b5 (by simp))
  have h6 := xtob_hex b6 (hb b6 (by simp))
  have h7 := xtob_hex b7 (hb b7 (by simp))
  have h8 := xtob_hex b8 (hb b8 (by simp))
  have h9 := xtob_hex b9 (hb b9 (by simp))
  have h10 := xtob_hex b10 (hb b10 (by simp))
  have h11 := xtob_hex b11 (hb b11 (by simp))
  have h12 := xtob_hex b12 (hb b12 (by simp))
  have h13 := xtob_hex b13 (hb b13 (by simp))
  have h14 := xtob_hex b14 (hb b14 (by simp))
  have h15 := xtob_hex b15 (hb b15 (by simp))
  rw [UUID.Parse, byteString_ascii _ (fun c hc => hex_ascii c (UUID_String_mem _ c hc))]
  simp [UUID.String, hexEncode, parseStandard, xtobAll, h0, h1, h2, h3, h4, h5,
    h6, h7, h8, h9, h10, h11, h12, h13, h14, h15]

/-- `uuid.Parse` counts bytes: a text of 38 code points and 39 bytes has an
invalid length, and a text of 35 code points and 36 bytes is read as the
standard form, in which a byte outside ASCII is no hexadecimal digit. -/
theorem UUID_Parse_counts_bytes :
    UUID.Parse "\x7b00000000-0000-0000-0000-000000000000é".toList
      = .error (.uuidInvalidLength 39) ∧
    UUID.Parse "é0000000-0000-0000-0000-00000000000".toList = .error .uuidInvalidFormat := by
  exact ⟨rfl, rfl⟩

/-- The wire round trip of an array whose elements are written in double
quotes: it holds when the text of every element has neither comma nor double
quote and is parsed back to the element. -/
theorem quoted_roundtrip {α : Type} (target : String) (parse : GoString → Except Error α)
    (text : α → GoString) (a0 v : Option (List α))
    (hp : ∀ x ∈ elems v, parse (text x) = .ok x)
    (hc : ∀ x ∈ elems v, ∀ c ∈ text x, c ≠ ',' ∧ c ≠ '"') :
    scanArray target (fun p => parse (Trim p ['"'])) a0
      (valueArray (fun x => ['"'] ++ text x ++ ['"']) v).1 = (some (elems v), none) := by
  apply scanArray_valueArray_elems
  · intro x hx
    show parse (Trim (['"'] ++ text x ++ ['"']) ['"']) = .ok x
    rw [quoted_Trim (text x)
      (fun hh => (hc x hx _ (List.mem_of_mem_head? hh)).2 rfl)
      (fun hl => (hc x hx _ (List.mem_of_mem_getLast? hl)).2 rfl)]
    exact hp x hx
  · intro x hx hm
    simp only [List.mem_append, List.mem_singleton] at hm
    rcases hm with (hm | hm) | hm
    · exact absurd hm (by decide)
    · exact (hc x hx _ hm).1 rfl
    · exact absurd hm (by decide)
  · exact fun x _ => (quoted_plain (text x)).1
  · exact fun x _ => (quoted_plain (text x)).2.1
  · exact fun x _ => (quoted_plain (text x)).2.2

theorem UUIDArray_roundtrip (a0 v : Option (List UUID)) (h : ∀ u ∈ elems v, IsUUID u) :
    UUIDArray.Scan a0 (UUIDArray.Value v).1 = (some (elems v), none) := by
  apply quoted_roundtrip "UUIDArray" UUID.Parse UUID.String a0 v
  · exact fun u hu => UUID_Parse_String u (h u hu)
  · intro u _ c hc
    have := hexChars_plain c (UUID_String_mem u c hc)
    exact ⟨this.1, this.2.1⟩

/-- C5: for every `UUIDArray` `v`, `Scan` of `Value(v)` succeeds and stores the
identifiers of `v` in order, and `Value` of the scanned array is the same wire
string; for two identifiers `u1`, `u2`, the literal built from their texts is
scanned to `[u1, u2]`, whose `Value` is that literal. -/
theorem C5_uuid_scan_value (a0 v : Option (List UUID)) (u1 u2 : UUID)
    (h : ∀ u ∈ elems v, IsUUID u) (h1 : IsUUID u1) (h2 : IsUUID u2) :
    UUIDArray.Scan a0 (UUIDArray.Value v).1 = (some (elems v), none) ∧
    UUIDArray.Value (UUIDArray.Scan a0 (UUIDArray.Value v).1).1 = UUIDArray.Value v ∧
    UUIDArray.Scan a0 (.str (['{', '"'] ++ UUID.String u1 ++ ['"', ',', '"'] ++ UUID.String u2
      ++ ['"', '}'])) = (some [u1, u2], none) ∧
    UUIDArray.Value (some [u1, u2]) = (.str (['{', '"'] ++ UUID.String u1 ++ ['"', ',', '"']
      ++ UUID.String u2 ++ ['"', '}']), none) := by
  have hv : UUIDArray.Value (some [u1, u2]) = (.str (['{', '"'] ++ UUID.String u1
      ++ ['"', ',', '"'] ++ UUID.String u2 ++ ['"', '}']), none) := by
    simp [UUIDArray.Value, valueArray, len, elems, Join]
  have hs := UUIDArray_roundtrip a0 (some [u1, u2]) (by
    intro u hu
    simp only [elems, List.mem_cons, List.mem_singleton, List.not_mem_nil, or_false] at hu
    rcases hu with rfl | rfl
    · exact h1
    · exact h2)
  rw [hv] at hs
  refine ⟨UUIDArray_roundtrip a0 v h, ?_, hs, hv⟩
  rw [UUIDArray_roundtrip a0 v h]
  exact valueArray_some_elems _ v

/-- Witness of C5 at two identifiers. -/
theorem C5_uuid_scan_value_witness :
    (∀ u ∈ elems (some [[18, 52, 86, 120, 154, 188, 222, 240, 1, 2, 3, 4, 5, 6, 7, 255],
      [0, 0, 0, 0, 0, 0, 0, 0, 0, 0, 0, 0, 0, 0, 0, 0]]), IsUUID u) ∧
    UUIDArray.Scan none (UUIDArray.Value
      (some [[18, 52, 86, 120, 154, 188, 222, 240, 1, 2, 3, 4, 5, 6, 7, 255],
        [0, 0, 0, 0, 0, 0, 0, 0, 0, 0, 0, 0, 0, 0, 0, 0]])).1
      = (some (elems (some [[18, 52, 86, 120, 154, 188, 222, 240, 1, 2, 3, 4, 5, 6, 7, 255],
        [0, 0, 0, 0, 0, 0, 0, 0, 0, 0, 0, 0, 0, 0, 0, 0]])), none) :=
  ⟨by decide,
    (C5_uuid_scan_value none
      (some [[18, 52, 86, 120, 154, 188, 222, 240, 1, 2, 3, 4, 5, 6, 7, 255],
        [0, 0, 0, 0, 0, 0, 0, 0, 0, 0, 0, 0, 0, 0, 0, 0]])
      [18, 52, 86, 120, 154, 188, 222, 240, 1, 2, 3, 4, 5, 6, 7, 255]
      [0, 0, 0, 0, 0, 0, 0, 0, 0, 0, 0, 0, 0, 0, 0, 0]
      (by decide) (by decide) (by decide)).1⟩

/-! ## `TimeArray` -/

theorem timeChars_plain :
    ∀ c ∈ ['T', 'Z', '+', ':', '.', '-', '0', '1', '2', '3', '4', '5', '6', '7', '8', '9'],
      c ≠ ',' ∧ c ≠ '"' := by
  decide

theorem appendInt_mem (x : Int) (width : Nat) :
    ∀ c ∈ appendInt x width, c ∈ ['-', '0', '1', '2', '3', '4', '5', '6', '7', '8', '9'] := by
  intro c hc
  unfold appendInt at hc
  simp only [List.mem_append] at hc
  rcases hc with hc | hc
  · split at hc
    · simp at hc; simp [hc]
    · simp at hc
  · split at hc
    · simp only [List.mem_cons, List.mem_singleton, List.not_mem_nil, or_false] at hc
      rcases hc with rfl | rfl <;> exact List.mem_cons_of_mem _ (digitChar_mem _)
    · split at hc
      · simp only [List.mem_cons, List.mem_singleton, List.not_mem_nil, or_false] at hc
        rcases hc with rfl | rfl | rfl | rfl <;> exact List.mem_cons_of_mem _ (digitChar_mem _)
      · simp only [List.mem_append, List.mem_replicate] at hc
        rcases hc with ⟨-, rfl⟩ | hc
        · simp
        · exact List.mem_cons_of_mem _ (formatNat_mem _ c hc)

theorem trimRightFunc_mem (p : Char → Bool) (s : GoString) :
    ∀ c ∈ trimRightFunc p s, c ∈ s := by
  intro c hc
  unfold trimRightFunc at hc
  have := (List.dropWhile_suffix p).subset (List.mem_reverse.mp hc)
  exact List.mem_reverse.mp this

theorem appendNano_mem (nsec : Nat) :
    ∀ c ∈ appendNano nsec, c ∈ ['.', '-', '0', '1', '2', '3', '4', '5', '6', '7', '8', '9'] := by
  intro c hc
  have key : ∀ c ∈ trimRightFunc (fun c => c = '0') ('.' :: appendInt nsec 9),
      c ∈ ['.', '-', '0', '1', '2', '3', '4', '5', '6', '7', '8', '9'] := by
    intro c hc
    rcases List.mem_cons.mp (trimRightFunc_mem _ _ c hc) with rfl | h
    · simp
    · exact List.mem_cons_of_mem _ (appendInt_mem _ _ c h)
  unfold appendNano at hc
  split at hc
  · simp at hc
  · simp only at hc
    split at hc
    · exact key c (List.mem_of_mem_dropLast hc)
    · exact key c hc

theorem intChars_sub_time :
    ∀ c ∈ ['-', '0', '1', '2', '3', '4', '5', '6', '7', '8', '9'],
      c ∈ ['T', 'Z', '+', ':', '.', '-', '0', '1', '2', '3', '4', '5', '6', '7', '8', '9'] := by
  decide

theorem nanoChars_sub_time :
    ∀ c ∈ ['.', '-', '0', '1', '2', '3', '4', '5', '6', '7', '8', '9'],
      c ∈ ['T', 'Z', '+', ':', '.', '-', '0', '1', '2', '3', '4', '5', '6', '7', '8', '9'] := by
  decide

theorem appendZone_mem (offset : Int) :
    ∀ c ∈ appendZone offset,
      c ∈ ['T', 'Z', '+', ':', '.', '-', '0', '1', '2', '3', '4', '5', '6', '7', '8', '9'] := by
  intro c hc
  unfold appendZone at hc
  split at hc
  · have : c = 'Z' := by simpa using hc
    rw [this]; decide
  · simp only [List.mem_append] at hc
    rcases hc with ((hc | hc) | hc) | hc
    · split at hc
      · have : c = '-' := by simpa using hc
        rw [this]; decide
      · have : c = '+' := by simpa using hc
        rw [this]; decide
    · exact intChars_sub_time c (appendInt_mem _ _ c hc)
    · have : c = ':' := by simpa using hc
      rw [this]; decide
    · exact intChars_sub_time c (appendInt_mem _ _ c hc)

/-- The text of a timestamp has only digits and the signs of the layout. -/
theorem Time_Format_mem (t : Time) :
    ∀ c ∈ Time.Format t,
      c ∈ ['T', 'Z', '+', ':', '.', '-', '0', '1', '2', '3', '4', '5', '6', '7', '8', '9'] := by
  intro c hc
  unfold Time.Format at hc
  simp only [List.mem_append] at hc
  have hsep : ∀ x : Char, x ∈ ['T', ':', '-'] → c ∈ [x] →
      c ∈ ['T', 'Z', '+', ':', '.', '-', '0', '1', '2', '3', '4', '5', '6', '7', '8', '9'] := by
    intro x hx h
    have hcx : c = x := by simpa using h
    have key : ∀ y ∈ ['T', ':', '-'],
        y ∈ ['T', 'Z', '+', ':', '.', '-', '0', '1', '2', '3', '4', '5', '6', '7', '8', '9'] := by
      decide
    rw [hcx]
    exact key x hx
  rcases hc with ((((((((((((hc | hc) | hc) | hc) | hc) | hc) | hc) | hc) | hc) | hc) | hc)
    | hc) | hc)
  · exact intChars_sub_time c (appendInt_mem _ _ c hc)
  · exact hsep _ (by decide) hc
  · exact intChars_sub_time c (appendInt_mem _ _ c hc)
  · exact hsep _ (by decide) hc
  · exact intChars_sub_time c (appendInt_mem _ _ c hc)
  · exact hsep _ (by decide) hc
  · exact intChars_sub_time c (appendInt_mem _ _ c hc)
  · exact hsep _ (by decide) hc
  · exact intChars_sub_time c (appendInt_mem _ _ c hc)
  · exact hsep _ (by decide) hc
  · exact intChars_sub_time c (appendInt_mem _ _ c hc)
  · exact nanoChars_sub_time c (appendNano_mem _ c hc)
  · exact appendZone_mem _ c hc

theorem parseYear_minus (l : GoString) : parseYear ('-' :: l) = none := by
  match l with
  | [] => rfl
  | [_] => rfl
  | [_, _] => rfl
  | _ :: _ :: _ :: _ => simp [parseYear, digitVal]

theorem parseDate_minus (l : GoString) : parseDate ('-' :: l) = none := by
  simp [parseDate, parseYear_minus]

/-- A date followed by `T` is not accepted: the layouts of `Scan` want a space. -/
theorem parseDate_T (a b c d m1 m2 d1 d2 : Char) (na nb nc nd nm1 nm2 nd1 nd2 : Nat)
    (rest : GoString)
    (ha : digitVal a = some na) (hb : digitVal b = some nb) (hc : digitVal c = some nc)
    (hd : digitVal d = some nd) (hm1 : digitVal m1 = some nm1) (hm2 : digitVal m2 = some nm2)
    (hd1 : digitVal d1 = some nd1) (hd2 : digitVal d2 = some nd2) :
    parseDate (a :: b :: c :: d :: '-' :: m1 :: m2 :: '-' :: d1 :: d2 :: 'T' :: rest) = none := by
  simp only [parseDate, parseYear, ha, hb, hc, hd, getnum_two _ _ _ _ _ _ hm1 hm2,
    getnum_two _ _ _ _ _ _ hd1 hd2]
  split <;> simp

/-- A year of five digits or more is not accepted: a dash must follow the
fourth digit. -/
theorem parseDate_five (a b c d e : Char) (na nb nc nd ne : Nat) (rest : GoString)
    (ha : digitVal a = some na) (hb : digitVal b = some nb) (hc : digitVal c = some nc)
    (hd : digitVal d = some nd) (he : digitVal e = some ne) :
    parseDate (a :: b :: c :: d :: e :: rest) = none := by
  have hne : e ≠ '-' := (digitVal_props e ne he).2.1
  simp only [parseDate, parseYear, ha, hb, hc, hd]
  split
  · rename_i heq
    simp only [List.cons.injEq] at heq
    exact absurd heq.1 hne
  · rfl

theorem appendInt_two (n : Nat) (h : n < 100) : appendInt (n : Int) 2 = twoDigits n := by
  have h0 : ¬ ((n : Int) < 0) := by omega
  simp [appendInt, h0, h, twoDigits]

/-- The text of a valid timestamp is not accepted by the date steps of
`time.Parse` for the layouts of `TimeArray.Scan`. -/
theorem parseDate_Format (t : Time) (hv : t.Valid) : parseDate (Time.Format t) = none := by
  obtain ⟨hm1, hm2, hd1, hd2, -⟩ := hv
  have hday : t.day < 100 := by
    have : daysIn t.month t.year ≤ 31 := by
      unfold daysIn
      split
      · split <;> omega
      · split <;> omega
    omega
  have hF : Time.Format t = appendInt t.year 4 ++
      ('-' :: digitChar (t.month / 10) :: digitChar (t.month % 10) :: '-' ::
        digitChar (t.day / 10) :: digitChar (t.day % 10) :: 'T' ::
        (appendInt t.hour 2 ++ [':'] ++ appendInt t.minute 2 ++ [':'] ++ appendInt t.second 2 ++
          appendNano t.nsec ++ appendZone t.offset)) := by
    unfold Time.Format
    rw [appendInt_two t.month (by omega), appendInt_two t.day hday]
    simp [twoDigits]
  rw [hF]
  have dv : ∀ n, digitVal (digitChar (n % 10)) = some (n % 10) :=
    fun n => digitVal_digitChar _ (Nat.mod_lt _ (by norm_num))
  by_cases hneg : t.year < 0
  · have : appendInt t.year 4 = '-' :: (if 4 = 2 ∧ t.year.natAbs < 100 then
          [digitChar (t.year.natAbs / 10), digitChar (t.year.natAbs % 10)]
        else if 4 = 4 ∧ t.year.natAbs < 10000 then
          [digitChar (t.year.natAbs / 100 / 10), digitChar (t.year.natAbs / 100 % 10),
            digitChar (t.year.natAbs % 100 / 10), digitChar (t.year.natAbs % 100 % 10)]
        else List.replicate (4 - (formatNat t.year.natAbs).length) '0' ++
          formatNat t.year.natAbs) := by
      simp [appendInt, hneg]
    rw [this, List.cons_append, parseDate_minus]
  · by_cases hsmall : t.year.natAbs < 10000
    · have : appendInt t.year 4 =
          [digitChar (t.year.natAbs / 100 / 10), digitChar (t.year.natAbs / 100 % 10),
            digitChar (t.year.natAbs % 100 / 10), digitChar (t.year.natAbs % 100 % 10)] := by
        simp [appendInt, hneg, hsmall]
      rw [this]
      exact parseDate_T _ _ _ _ _ _ _ _ _ _ _ _ _ _ _ _ _
        (digitVal_digitChar (t.year.natAbs / 100 / 10) (by omega)) (dv _)
        (digitVal_digitChar (t.year.natAbs % 100 / 10) (by omega)) (dv _)
        (digitVal_digitChar (t.month / 10) (by omega)) (dv _)
        (digitVal_digitChar (t.day / 10) (by omega)) (dv _)
    · have hu : t.year.natAbs ≠ 0 := by omega
      have hlen : 5 ≤ (Nat.digits 10 t.year.natAbs).length := by
        by_contra hlt
        have h1 : t.year.natAbs < 10 ^ (Nat.digits 10 t.year.natAbs).length :=
          Nat.lt_base_pow_length_digits (by norm_num)
        have h2 : 10 ^ (Nat.digits 10 t.year.natAbs).length ≤ 10 ^ 4 :=
          Nat.pow_le_pow_right (by norm_num) (by omega)
        have h3 : (10 : Nat) ^ 4 = 10000 := by norm_num
        omega
      have hdig : ∀ x ∈ (Nat.digits 10 t.year.natAbs).reverse, x < 10 :=
        fun x hx => Nat.digits_lt_base (by norm_num) (List.mem_reverse.mp hx)
      have : appendInt t.year 4 = (Nat.digits 10 t.year.natAbs).reverse.map digitChar := by
        have hl : 4 - (formatNat t.year.natAbs).length = 0 := by
          rw [formatNat_eq _ hu, List.length_map, List.length_reverse]
          omega
        have hl2 : 4 - (Nat.digits 10 t.year.natAbs).length = 0 := by omega
        simp only [appendInt, hneg, hsmall, if_false, and_false, List.nil_append, hl,
          List.replicate_zero, formatNat_eq _ hu]
        simp [hl2]
      rw [this]
      generalize hL : (Nat.digits 10 t.year.natAbs).reverse = L at hdig
      have hLlen : 5 ≤ L.length := by rw [← hL]; simpa using hlen
      match L, hLlen, hdig with
      | x0 :: x1 :: x2 :: x3 :: x4 :: L1, _, hdig =>
        simp only [List.map_cons, List.cons_append]
        exact parseDate_five _ _ _ _ _ _ _ _ _ _ _
          (digitVal_digitChar x0 (hdig x0 (by simp)))
          (digitVal_digitChar x1 (hdig x1 (by simp)))
          (digitVal_digitChar x2 (hdig x2 (by simp)))
          (digitVal_digitChar x3 (hdig x3 (by simp)))
          (digitVal_digitChar x4 (hdig x4 (by simp)))

theorem parseTimestamp_Format (withZone : Bool) (t : Time) (hv : t.Valid) :
    parseTimestamp withZone (Time.Format t) = none := by
  simp [parseTimestamp, parseDate_Format t hv]

theorem TimeArray_parseElem_Format (t : Time) (hv : t.Valid) :
    TimeArray.parseElem (['"'] ++ Time.Format t ++ ['"'])
      = .error (.parsingTimeFailed (Time.Format t)) := by
  have hq : Trim (['"'] ++ Time.Format t ++ ['"']) ['"'] = Time.Format t :=
    quoted_Trim _
      (fun hh => (timeChars_plain _ (Time_Format_mem t _ (List.mem_of_mem_head? hh))).2 rfl)
      (fun hl => (timeChars_plain _ (Time_Format_mem t _ (List.mem_of_mem_getLast? hl))).2 rfl)
  unfold TimeArray.parseElem
  simp only [hq, parseTimestamp_Format _ t hv]

/-- `Scan` of the `Value` of a non-empty array whose elements are written in
double quotes runs the element loop on the parts of the joined text. -/
theorem scanArray_valueArray_quoted {α : Type} (target : String)
    (parse : GoString → Except Error α) (text : α → GoString)
    (a0 : Option (List α)) (x : α) (xs : List α) :
    scanArray target parse a0 (valueArray (fun y => ['"'] ++ text y ++ ['"']) (some (x :: xs))).1
      = match scanLoop parse
          (Split (Join ((x :: xs).map (fun y => ['"'] ++ text y ++ ['"'])) [',']) ',') with
        | .error e => (a0, some e)
        | .ok result => (some result, none) := by
  have hjne : Join ((x :: xs).map (fun y => ['"'] ++ text y ++ ['"'])) [','] ≠ [] :=
    Join_ne_nil _ _ _ (quoted_plain (text x)).1
  have htrim : Trim ('{' :: (Join ((x :: xs).map (fun y => ['"'] ++ text y ++ ['"'])) [',']
      ++ ['}'])) ['{', '}'] = Join ((x :: xs).map (fun y => ['"'] ++ text y ++ ['"'])) [','] := by
    apply Trim_wrapped _ _ _ _ (by simp) (by simp) hjne
    · intro c hcc
      rw [List.map_cons, Join_head? _ _ _ (quoted_plain (text x)).1] at hcc
      exact (quoted_plain (text x)).2.1 c hcc
    · intro c hcc
      obtain ⟨l, hl1⟩ : ∃ l, (x :: xs).getLast? = some l :=
        ⟨(x :: xs).getLast (by simp), List.getLast?_eq_getLast _ _⟩
      have hl2 : ((x :: xs).map (fun y => ['"'] ++ text y ++ ['"'])).getLast?
          = some (['"'] ++ text l ++ ['"']) := by
        rw [List.getLast?_map, hl1]; rfl
      rw [Join_getLast? _ _ _ hl2 (quoted_plain (text l)).1] at hcc
      exact (quoted_plain (text l)).2.2 c hcc
  have hlen : len (some (x :: xs)) ≠ 0 := by simp [len]
  unfold valueArray
  rw [if_neg hlen]
  change scanArray target parse a0
    (.str ('{' :: (Join ((x :: xs).map (fun y => ['"'] ++ text y ++ ['"'])) [','] ++ ['}']))) = _
  unfold scanArray
  simp only [htrim, if_neg hjne]

theorem Split_Join_cons (p : GoString) (ps : List GoString) (sep : Char) (h : sep ∉ p) :
    ∃ rest, Split (Join (p :: ps) [sep]) sep = p :: rest := by
  cases ps with
  | nil => exact ⟨[], by simpa [Join] using Split_of_not_mem h⟩
  | cons q qs =>
    refine ⟨Split (Join (q :: qs) [sep]) sep, ?_⟩
    rw [Join_cons_cons, List.append_assoc, List.singleton_append, Split_append_sep _ h]

/-- C3 (amended): for every `TimeArray` of length zero, `Scan` of `Value(v)`
succeeds and stores the empty array; for every non-empty `TimeArray`, `Scan` of
`Value(v)` returns the error of parsing its first element and leaves the
receiver unchanged: `Value` writes the layout RFC 3339, with `T` between date
and time, and both layouts of `Scan` want a space there. -/
theorem C3_time_scan_value_fails (a0 : Option (List Time)) (t : Time) (ts : List Time)
    (hv : t.Valid) :
    TimeArray.Scan a0 (TimeArray.Value (some (t :: ts))).1
      = (a0, some (.parsingTimeFailed (Time.Format t))) ∧
    (∀ v : Option (List Time), len v = 0 →
      TimeArray.Scan a0 (TimeArray.Value v).1 = (some [], none)) := by
  constructor
  · unfold TimeArray.Scan TimeArray.Value
    rw [scanArray_valueArray_quoted]
    have hcomma : ',' ∉ (['"'] ++ Time.Format t ++ ['"']) := by
      intro hm
      simp only [List.mem_append, List.mem_singleton] at hm
      rcases hm with (hm | hm) | hm
      · exact absurd hm (by decide)
      · exact (timeChars_plain _ (Time_Format_mem t _ hm)).1 rfl
      · exact absurd hm (by decide)
    obtain ⟨rest, hrest⟩ := Split_Join_cons (['"'] ++ Time.Format t ++ ['"'])
      (ts.map (fun y => ['"'] ++ Time.Format y ++ ['"'])) ',' hcomma
    rw [List.map_cons, hrest]
    simp only [scanLoop, TimeArray_parseElem_Format t hv]
  · intro v hlen
    exact scanArray_valueArray_empty _ _ _ a0 v hlen

/-- Witness of C3 (amended) at the first second of 2024 in UTC. -/
theorem C3_time_scan_value_fails_witness :
    (Time.mk 2024 1 1 0 0 0 0 0).Valid ∧
    TimeArray.Scan none (TimeArray.Value (some [Time.mk 2024 1 1 0 0 0 0 0])).1
      = (none, some (.parsingTimeFailed (Time.Format (Time.mk 2024 1 1 0 0 0 0 0)))) :=
  ⟨by decide, (C3_time_scan_value_fails none (Time.mk 2024 1 1 0 0 0 0 0) [] (by decide)).1⟩

/-- C3 (counterexample): the array holding 2024-01-02 03:04:05 UTC is written
`{"2024-01-02T03:04:05Z"}`, and `Scan` of that text returns an error and stores
nothing. -/
theorem C3_time_roundtrip_error :
    TimeArray.Value (some [Time.mk 2024 1 2 3 4 5 0 0])
      = (.str ['{', '"', '2', '0', '2', '4', '-', '0', '1', '-', '0', '2', 'T', '0', '3', ':',
          '0', '4', ':', '0', '5', 'Z', '"', '}'], none) ∧
    TimeArray.Scan none (TimeArray.Value (some [Time.mk 2024 1 2 3 4 5 0 0])).1
      = (none, some (.parsingTimeFailed ['2', '0', '2', '4', '-', '0', '1', '-', '0', '2', 'T',
          '0', '3', ':', '0', '4', ':', '0', '5', 'Z'])) ∧
    ¬ ∃ w, TimeArray.Scan none (TimeArray.Value (some [Time.mk 2024 1 2 3 4 5 0 0])).1
      = (some w, none) := by
  have h : TimeArray.Scan none (TimeArray.Value (some [Time.mk 2024 1 2 3 4 5 0 0])).1
      = (none, some (.parsingTimeFailed ['2', '0', '2', '4', '-', '0', '1', '-', '0', '2', 'T',
          '0', '3', ':', '0', '4', ':', '0', '5', 'Z'])) := by rfl
  refine ⟨by rfl, h, ?_⟩
  rintro ⟨w, hw⟩
  rw [h] at hw
  simp at hw

/-! ## Durations: `ParseDuration` reads back `Duration.String` -/

theorem foldl_digits_append (ds : List Nat) (x n : Nat) :
    (ds ++ [x]).foldl (fun a d => a * 10 + d) n = ds.foldl (fun a d => a * 10 + d) n * 10 + x := by
  simp [List.foldl_append]

/-- `leadingInt` reads the number written by leading digits, up to `1<<63`. -/
theorem leadingInt_digits (rest : GoString) (hrest : ∀ c, rest.head? = some c → digitVal c = none)
    (ds : List Nat) : ∀ x : Nat, (∀ d ∈ ds, d < 10) →
    ds.foldl (fun a d => a * 10 + d) x ≤ 2 ^ 63 →
    leadingInt (ds.map digitChar ++ rest) x = some (ds.foldl (fun a d => a * 10 + d) x, rest) := by
  induction ds with
  | nil =>
    intro x _ _
    cases rest with
    | nil => rfl
    | cons c cs => simp [leadingInt, hrest c rfl]
  | cons d ds ih =>
    intro x hd hle
    have hge := foldl_digits_ge ds (x * 10 + d)
    simp only [List.foldl_cons] at hle ⊢
    have h1 : ¬ (x > 2 ^ 63 / 10) := by
      norm_num at hle ⊢
      omega
    have h2 : ¬ (x * 10 + d > 2 ^ 63) := by omega
    simp only [List.map_cons, List.cons_append, leadingInt, digitVal_digitChar d (hd d (by simp)),
      if_neg h1, if_neg h2]
    exact ih (x * 10 + d) (fun y hy => hd y (by simp [hy])) hle

/-- The decimal text of a number, as a list of digits. -/
theorem formatNat_digits (v : Nat) :
    ∃ ds : List Nat, formatNat v = ds.map digitChar ∧ (∀ d ∈ ds, d < 10) ∧ ds ≠ [] ∧
      ds.foldl (fun a d => a * 10 + d) 0 = v := by
  by_cases h : v = 0
  · subst h
    exact ⟨[0], rfl, by simp, by simp, rfl⟩
  · refine ⟨(Nat.digits 10 v).reverse, formatNat_eq v h, ?_, ?_, foldl_digits_reverse v⟩
    · exact fun d hd => Nat.digits_lt_base (by norm_num) (List.mem_reverse.mp hd)
    · simpa using (Nat.digits_ne_nil_iff_ne_zero.mpr h : Nat.digits 10 v ≠ [])

theorem leadingInt_formatNat (v : Nat) (hv : v ≤ 2 ^ 63) (rest : GoString)
    (hrest : ∀ c, rest.head? = some c → digitVal c = none) :
    leadingInt (formatNat v ++ rest) 0 = some (v, rest) := by
  obtain ⟨ds, hds, hlt, -, hval⟩ := formatNat_digits v
  rw [hds, leadingInt_digits rest hrest ds 0 hlt (by rw [hval]; exact hv), hval]

theorem log2Floor_spec : ∀ (fuel n : Nat), n ≤ fuel → n ≠ 0 →
    2 ^ log2Floor fuel n ≤ n ∧ n < 2 ^ (log2Floor fuel n + 1) := by
  intro fuel
  induction fuel with
  | zero => intro n h h0; omega
  | succ fuel ih =>
    intro n h h0
    unfold log2Floor
    by_cases h2 : n < 2
    · rw [if_pos h2]
      constructor
      · simp; omega
      · simpa using h2
    · rw [if_neg h2]
      obtain ⟨h3, h4⟩ := ih (n / 2) (by omega) (by omega)
      rw [pow_succ] at h4 ⊢
      rw [pow_succ]
      constructor <;> omega

/-- The unit in the last place of an integer below `2 ^ 53` is at most one. -/
theorem float64Exponent_nonpos (n d N : Nat) (hd : 0 < d) (hn : n = N * d) (h0 : 0 < N)
    (hlt : N < 2 ^ 53) : float64Exponent n d ≤ 0 := by
  have hn0 : n ≠ 0 := by
    rw [hn]
    exact Nat.mul_ne_zero (by omega) (by omega)
  obtain ⟨ha1, ha2⟩ := log2Floor_spec n n (le_refl _) hn0
  obtain ⟨hb1, hb2⟩ := log2Floor_spec d d (le_refl _) (by omega)
  unfold float64Exponent
  generalize log2Floor n n = a at *
  generalize log2Floor d d = b at *
  simp only
  apply max_le _ (by norm_num)
  split_ifs with hc
  · by_contra hcon
    have hab : b + 53 ≤ a := by omega
    have e1 : ((a : Int) - b).toNat = a - b := by omega
    have e2 : (-((a : Int) - b)).toNat = 0 := by omega
    rw [e1, e2, pow_zero, mul_one, hn] at hc
    have h53 : 2 ^ 53 ≤ 2 ^ (a - b) := Nat.pow_le_pow_right (by norm_num) (by omega)
    have : d * 2 ^ 53 ≤ d * 2 ^ (a - b) := Nat.mul_le_mul_left d h53
    have : N * d < 2 ^ 53 * d := Nat.mul_lt_mul_of_pos_right hlt hd
    rw [Nat.mul_comm (2 ^ 53) d] at this
    omega
  · by_contra hcon
    have hab : b + 54 ≤ a := by omega
    have h1 : 2 ^ (b + 1 + 53) ≤ 2 ^ a := Nat.pow_le_pow_right (by norm_num) (by omega)
    rw [pow_add] at h1
    have h2 : d * 2 ^ 53 < 2 ^ (b + 1) * 2 ^ 53 := Nat.mul_lt_mul_of_pos_right hb2 (by norm_num)
    have h3 : N * d < 2 ^ 53 * d := Nat.mul_lt_mul_of_pos_right hlt hd
    rw [Nat.mul_comm (2 ^ 53) d] at h3
    omega

/-- A quotient that is an integer is a multiple of every unit that is at most one. -/
theorem roundToExponent_exact (n d N : Nat) (e : Int) (hd : 0 < d) (hn : n = N * d)
    (he : e ≤ 0) : roundToExponent n d e = (N * 2 ^ (-e).toNat, e) := by
  have e1 : e.toNat = 0 := by omega
  unfold roundToExponent
  simp only [e1, pow_zero, mul_one]
  have hnum : n * 2 ^ (-e).toNat = N * 2 ^ (-e).toNat * d := by rw [hn]; ring
  rw [hnum, Nat.mul_mod_left, Nat.mul_div_cancel _ hd]
  have : ¬ (d < 2 * 0 ∨ (2 * 0 = d ∧ N * 2 ^ (-e).toNat % 2 = 1)) := by omega
  rw [if_neg this]

/-- An integer below `2 ^ 53` is a `float64`: rounding leaves it as it is. -/
theorem roundFloat64_exact (n d N : Nat) (hd : 0 < d) (hn : n = N * d) (h0 : 0 < N)
    (hlt : N < 2 ^ 53) : ∃ k : Nat, roundFloat64 n d = (N * 2 ^ k, -(k : Int)) := by
  have he := float64Exponent_nonpos n d N hd hn h0 hlt
  refine ⟨(-(float64Exponent n d)).toNat, ?_⟩
  unfold roundFloat64
  rw [roundToExponent_exact n d N _ hd hn he]
  congr 1
  omega

/-- The scale of up to fifteen digits is the exact power of ten. -/
theorem scaleTimesTen_iterate (j : Nat) (hj : j ≤ 15) :
    ∃ k : Nat, scaleTimesTen^[j] (some (1, 0)) = some (10 ^ j * 2 ^ k, -(k : Int)) := by
  induction j with
  | zero => exact ⟨0, by simp⟩
  | succ j ih =>
    obtain ⟨k, hk⟩ := ih (by omega)
    rw [Function.iterate_succ_apply', hk]
    have hlt : 10 ^ (j + 1) < 2 ^ 53 :=
      lt_of_le_of_lt (Nat.pow_le_pow_right (by norm_num) hj) (by norm_num)
    have e1 : (-(k : Int)).toNat = 0 := by omega
    have e2 : (- -(k : Int)).toNat = k := by omega
    obtain ⟨k2, hk2⟩ := roundFloat64_exact (10 ^ j * 2 ^ k * 10 * 2 ^ 0) (2 ^ k) (10 ^ (j + 1))
      (Nat.pow_pos (by norm_num)) (by ring) (Nat.pow_pos (by norm_num)) hlt
    refine ⟨k2, ?_⟩
    simp only [scaleTimesTen, e1, e2, hk2]
    rw [if_pos]
    left
    omega

/-- The contribution of a fraction is exact when the scale divides the unit and
all the numbers involved are below `2 ^ 53`. -/
theorem fractionNanos_exact (f unit S k : Nat) (hf : 0 < f) (hS : 0 < S) (hdiv : S ∣ unit)
    (hunit : 0 < unit) (hu53 : unit < 2 ^ 53) (hf53 : f < 2 ^ 53)
    (hprod : f * (unit / S) < 2 ^ 53) :
    fractionNanos f unit (some (S * 2 ^ k, -(k : Int))) = f * (unit / S) := by
  obtain ⟨N, hN⟩ := hdiv
  have hN0 : 0 < N := by
    rcases Nat.eq_zero_or_pos N with h | h
    · rw [h] at hN; omega
    · exact h
  have hq : unit / S = N := by rw [hN]; exact Nat.mul_div_cancel_left N hS
  rw [hq] at hprod ⊢
  have hN53 : N < 2 ^ 53 := by
    have : N ≤ S * N := Nat.le_mul_of_pos_left N hS
    omega
  obtain ⟨k1, h1⟩ := roundFloat64_exact f 1 f (by norm_num) (by ring) hf hf53
  obtain ⟨k2, h2⟩ := roundFloat64_exact unit 1 unit (by norm_num) (by ring) hunit hu53
  have e1 : ∀ j : Nat, (-(j : Int)).toNat = 0 := by intro j; omega
  have e2 : ∀ j : Nat, (- -(j : Int)).toNat = j := by intro j; omega
  obtain ⟨k3, h3⟩ := roundFloat64_exact (unit * 2 ^ k2 * 2 ^ k) (S * 2 ^ k * 2 ^ k2)
    N (by positivity) (by rw [hN]; ring) hN0 hN53
  have e3 : (-(k1 : Int) + -(k3 : Int)).toNat = 0 := by omega
  have e4 : (-(-(k1 : Int) + -(k3 : Int))).toNat = k1 + k3 := by omega
  obtain ⟨k4, h4⟩ := roundFloat64_exact (f * 2 ^ k1 * (N * 2 ^ k3)) (2 ^ (k1 + k3))
    (f * N) (by positivity) (by ring) (Nat.mul_pos hf hN0) hprod
  simp only [fractionNanos, h1, h2, e1, e2, pow_zero, mul_one, h3, e3, e4, h4]
  exact Nat.mul_div_cancel _ (by positivity)

/-- `leadingFraction` reads the digits of a fraction; its scale is multiplied by
ten once for every digit. -/
theorem leadingFraction_digits (rest : GoString)
    (hrest : ∀ c, rest.head? = some c → digitVal c = none)
    (ds : List Nat) : ∀ (x : Nat) (scale : Option (Nat × Int)), (∀ d ∈ ds, d < 10) →
    ds.foldl (fun a d => a * 10 + d) x ≤ (2 ^ 63 - 1) / 10 →
    leadingFraction (ds.map digitChar ++ rest) x scale false
      = (ds.foldl (fun a d => a * 10 + d) x, scaleTimesTen^[ds.length] scale, rest) := by
  induction ds with
  | nil =>
    intro x scale _ _
    cases rest with
    | nil => simp [leadingFraction]
    | cons c cs => simp [leadingFraction, hrest c rfl]
  | cons d ds ih =>
    intro x scale hd hle
    have hge := foldl_digits_ge ds (x * 10 + d)
    simp only [List.foldl_cons] at hle ⊢
    have h1 : ¬ (x > (2 ^ 63 - 1) / 10) := by
      norm_num at hle ⊢
      omega
    have h2 : ¬ (x * 10 + d > 2 ^ 63) := by
      norm_num at hle ⊢
      omega
    simp only [List.map_cons, List.cons_append, leadingFraction,
      digitVal_digitChar d (hd d (by simp)), if_neg h1, if_neg h2, Bool.false_eq_true, if_false]
    refine Eq.trans (ih (x * 10 + d) (scaleTimesTen scale) (fun y hy => hd y (by simp [hy])) hle) ?_
    simp only [List.length_cons, Function.iterate_succ_apply]

theorem takeWhile_unit (U r : GoString) (hU : ∀ c ∈ U, endsUnit c = false)
    (hr : ∀ c, r.head? = some c → endsUnit c = true) :
    (U ++ r).takeWhile (fun c => ! endsUnit c) = U ∧
    (U ++ r).dropWhile (fun c => ! endsUnit c) = r := by
  induction U with
  | nil =>
    cases r with
    | nil => simp
    | cons c cs => simp [List.takeWhile, List.dropWhile, hr c rfl]
  | cons u us ih =>
    have hu : endsUnit u = false := hU u (by simp)
    have := ih (fun c hc => hU c (by simp [hc]))
    simp [List.takeWhile, List.dropWhile, hu, this.1, this.2]

theorem mod_pow_succ_ten (v k : Nat) :
    v % 10 ^ (k + 1) = (v / 10 % 10 ^ k) * 10 + v % 10 := by
  rw [pow_succ', Nat.mod_mul]
  ring

theorem div_pow_succ_ten (v k : Nat) : v / 10 / 10 ^ k = v / 10 ^ (k + 1) := by
  rw [Nat.div_div_eq_div_mul, pow_succ']

/-- Once a digit is printed, `fmtFracLoop` prints all other digits. -/
theorem fmtFracLoop_true (k : Nat) : ∀ (v : Nat) (acc : GoString),
    ∃ ds : List Nat, ds.length = k ∧ (∀ d ∈ ds, d < 10) ∧
      ds.foldl (fun a d => a * 10 + d) 0 = v % 10 ^ k ∧
      fmtFracLoop k v true acc = (ds.map digitChar ++ acc, v / 10 ^ k, true) := by
  induction k with
  | zero =>
    intro v acc
    exact ⟨[], rfl, by simp, by simp [Nat.mod_one], by simp [fmtFracLoop]⟩
  | succ k ih =>
    intro v acc
    obtain ⟨ds, hlen, hlt, hval, hres⟩ := ih (v / 10) (digitChar (v % 10) :: acc)
    refine ⟨ds ++ [v % 10], by simp [hlen], ?_, ?_, ?_⟩
    · intro d hd
      rcases List.mem_append.mp hd with h | h
      · exact hlt d h
      · have : d = v % 10 := by simpa using h
        omega
    · rw [foldl_digits_append, hval, mod_pow_succ_ten]
    · simp only [fmtFracLoop, Bool.true_or, if_true, hres, div_pow_succ_ten]
      simp

/-- What `fmtFracLoop` prints: nothing for a zero fraction, else the digits of
the fraction without its trailing zeros. -/
theorem fmtFracLoop_false (k : Nat) : ∀ v : Nat,
    (v % 10 ^ k = 0 ∧ fmtFracLoop k v false [] = ([], v / 10 ^ k, false)) ∨
    (∃ ds : List Nat, ds ≠ [] ∧ ds.length ≤ k ∧ (∀ d ∈ ds, d < 10) ∧
      ds.foldl (fun a d => a * 10 + d) 0 * 10 ^ (k - ds.length) = v % 10 ^ k ∧
      v % 10 ^ k ≠ 0 ∧
      fmtFracLoop k v false [] = (ds.map digitChar, v / 10 ^ k, true)) := by
  induction k with
  | zero =>
    intro v
    exact Or.inl ⟨by simp [Nat.mod_one], by simp [fmtFracLoop]⟩
  | succ k ih =>
    intro v
    by_cases hd : v % 10 = 0
    · have hstep : fmtFracLoop (k + 1) v false [] = fmtFracLoop k (v / 10) false [] := by
        simp [fmtFracLoop, hd]
      rcases ih (v / 10) with ⟨h0, hres⟩ | ⟨ds, hne, hlen, hlt, hval, hnz, hres⟩
      · left
        refine ⟨by rw [mod_pow_succ_ten, h0, hd], ?_⟩
        rw [hstep, hres, div_pow_succ_ten]
      · right
        refine ⟨ds, hne, by omega, hlt, ?_, ?_, ?_⟩
        · rw [mod_pow_succ_ten, hd, ← hval]
          have : k + 1 - ds.length = (k - ds.length) + 1 := by omega
          rw [this, pow_succ]
          ring
        · rw [mod_pow_succ_ten, hd]
          omega
        · rw [hstep, hres, div_pow_succ_ten]
    · right
      obtain ⟨ds, hlen, hlt, hval, hres⟩ := fmtFracLoop_true k (v / 10) [digitChar (v % 10)]
      refine ⟨ds ++ [v % 10], by simp, by simp [hlen], ?_, ?_, ?_, ?_⟩
      · intro d hdm
        rcases List.mem_append.mp hdm with h | h
        · exact hlt d h
        · have : d = v % 10 := by simpa using h
          omega
      · rw [foldl_digits_append, hval, mod_pow_succ_ten]
        simp [hlen]
      · rw [mod_pow_succ_ten]
        omega
      · have hb : (false || v % 10 != 0) = true := by simpa using hd
        simp only [fmtFracLoop, hb, if_true, hres, div_pow_succ_ten]
        simp

theorem endsUnit_false_digitVal (c : Char) (h : endsUnit c = false) : digitVal c = none := by
  unfold endsUnit at h
  cases hd : digitVal c with
  | none => rfl
  | some d => simp [hd] at h

theorem head?_unit_rest (U r : GoString) (hU : U ≠ []) (hUc : ∀ c ∈ U, endsUnit c = false) :
    ∀ c, (U ++ r).head? = some c → endsUnit c = false := by
  intro c hc
  cases U with
  | nil => exact absurd rfl hU
  | cons u us =>
    simp at hc
    subst hc
    exact hUc _ (by simp)

theorem formatNat_head_endsUnit (v : Nat) (rest : GoString) :
    ((formatNat v ++ rest).head?.map endsUnit).getD false = true := by
  obtain ⟨ds, hds, hlt, hne, -⟩ := formatNat_digits v
  cases ds with
  | nil => exact absurd rfl hne
  | cons d ds =>
    rw [hds]
    simp only [List.map_cons, List.cons_append, List.head?_cons, Option.map_some',
      Option.getD_some]
    exact (digitVal_props _ _ (digitVal_digitChar d (hlt d (by simp)))).2.2.2.2.2.1

theorem fractionStep_unit (U r : GoString) (hU : U ≠ []) (hUc : ∀ c ∈ U, endsUnit c = false) :
    fractionStep (U ++ r) = (0, some (1, 0), U ++ r, false) := by
  unfold fractionStep
  split
  · rename_i s2 heq
    have := head?_unit_rest U r hU hUc '.' (by rw [heq]; rfl)
    exact absurd this (by decide)
  · rfl

theorem fractionStep_digits (fds : List Nat) (U r : GoString) (hne : fds ≠ [])
    (hlt : ∀ d ∈ fds, d < 10)
    (hF : fds.foldl (fun a d => a * 10 + d) 0 ≤ (2 ^ 63 - 1) / 10)
    (hU : U ≠ []) (hUc : ∀ c ∈ U, endsUnit c = false) :
    fractionStep ('.' :: (fds.map digitChar ++ (U ++ r)))
      = (fds.foldl (fun a d => a * 10 + d) 0, scaleTimesTen^[fds.length] (some (1, 0)),
        U ++ r, true) := by
  have hrest : ∀ c, (U ++ r).head? = some c → digitVal c = none :=
    fun c hc => endsUnit_false_digitVal c (head?_unit_rest U r hU hUc c hc)
  have hlen : 0 < fds.length := List.length_pos.mpr hne
  have hl2 : (U ++ r).length ≠ (fds.map digitChar ++ (U ++ r)).length := by
    simp only [List.length_append, List.length_map]
    omega
  simp only [fractionStep, leadingFraction_digits (U ++ r) hrest fds 0 (some (1, 0)) hlt hF]
  simp [hne]

/-- One round of `ParseDuration` on a whole number with its unit. -/
theorem durationRound_int (orig : GoString) (v : Nat) (U : GoString) (unit : Nat)
    (r : GoString) (d : Nat)
    (hU : U ≠ []) (hUc : ∀ c ∈ U, endsUnit c = false) (hmap : unitMap U = some unit)
    (hpos : 0 < unit) (hr : ∀ c, r.head? = some c → endsUnit c = true)
    (hv : d + v * unit ≤ 2 ^ 63) :
    durationRound orig (formatNat v ++ (U ++ r)) d = .ok (r, d + v * unit) := by
  have hrest : ∀ c, (U ++ r).head? = some c → digitVal c = none :=
    fun c hc => endsUnit_false_digitVal c (head?_unit_rest U r hU hUc c hc)
  have hvle : v ≤ 2 ^ 63 := by
    have : v ≤ v * unit := Nat.le_mul_of_pos_right v hpos
    omega
  have hli := leadingInt_formatNat v hvle (U ++ r) hrest
  have hpre : (U ++ r).length ≠ (formatNat v ++ (U ++ r)).length := by
    have := List.length_pos.mpr (formatNat_ne_nil v)
    simp only [List.length_append]
    omega
  have htw := takeWhile_unit U r hUc hr
  have hq : ¬ (v > 2 ^ 63 / unit) := by
    have : v ≤ 2 ^ 63 / unit := (Nat.le_div_iff_mul_le hpos).mpr (by omega)
    omega
  have hmod : (d + v * unit) % 2 ^ 64 = d + v * unit := by
    apply Nat.mod_eq_of_lt
    have : (2 : Nat) ^ 63 < 2 ^ 64 := by norm_num
    omega
  have hd1 : ¬ (d + v * unit > 2 ^ 63) := by omega
  unfold durationRound
  simp only [formatNat_head_endsUnit, not_true_eq_false, if_false, hli, ne_eq, hpre,
    fractionStep_unit U r hU hUc, not_false_eq_true, Bool.false_eq_true, and_true,
    htw.1, htw.2, if_neg hU, hmap, if_neg hq, lt_irrefl, gt_iff_lt, false_and, hmod]
  exact if_neg hd1

/-- One round of `ParseDuration` on a number with a fraction and its unit, where
the scale of the fraction divides the unit and the contribution of the fraction
is below `2 ^ 53`: the `float64` computation is then exact. -/
theorem durationRound_frac (orig : GoString) (v : Nat) (fds : List Nat) (U : GoString)
    (unit : Nat) (r : GoString) (d : Nat)
    (hne : fds ≠ []) (hlt : ∀ x ∈ fds, x < 10)
    (hF : fds.foldl (fun a x => a * 10 + x) 0 ≤ (2 ^ 63 - 1) / 10)
    (hU : U ≠ []) (hUc : ∀ c ∈ U, endsUnit c = false) (hmap : unitMap U = some unit)
    (hpos : 0 < unit) (hr : ∀ c, r.head? = some c → endsUnit c = true)
    (hlen : fds.length ≤ 15) (hdiv : 10 ^ fds.length ∣ unit) (hu53 : unit < 2 ^ 53)
    (hprod : fds.foldl (fun a x => a * 10 + x) 0 * (unit / 10 ^ fds.length) < 2 ^ 53)
    (hv : d + (v * unit + fds.foldl (fun a x => a * 10 + x) 0 * (unit / 10 ^ fds.length))
      ≤ 2 ^ 63) :
    durationRound orig (formatNat v ++ ('.' :: (fds.map digitChar ++ (U ++ r)))) d
      = .ok (r, d + (v * unit
          + fds.foldl (fun a x => a * 10 + x) 0 * (unit / 10 ^ fds.length))) := by
  have hrest : ∀ c, ('.' :: (fds.map digitChar ++ (U ++ r))).head? = some c → digitVal c = none := by
    intro c hc
    simp at hc
    subst hc
    decide
  obtain ⟨k, hk⟩ := scaleTimesTen_iterate fds.length hlen
  have hq0 : 0 < unit / 10 ^ fds.length :=
    Nat.div_pos (Nat.le_of_dvd hpos hdiv) (Nat.pow_pos (by norm_num))
  have hnanos : 0 < fds.foldl (fun a x => a * 10 + x) 0 →
      fractionNanos (fds.foldl (fun a x => a * 10 + x) 0) unit
        (some (10 ^ fds.length * 2 ^ k, -(k : Int)))
        = fds.foldl (fun a x => a * 10 + x) 0 * (unit / 10 ^ fds.length) := by
    intro h0
    refine fractionNanos_exact _ unit (10 ^ fds.length) k h0 (Nat.pow_pos (by norm_num)) hdiv
      hpos hu53 ?_ hprod
    exact lt_of_le_of_lt (Nat.le_mul_of_pos_right _ hq0) hprod
  generalize hFdef : fds.foldl (fun a x => a * 10 + x) 0 = F at *
  generalize hWdef : F * (unit / 10 ^ fds.length) = W at *
  have hvle : v ≤ 2 ^ 63 := by
    have : v ≤ v * unit := Nat.le_mul_of_pos_right v hpos
    omega
  have hli := leadingInt_formatNat v hvle _ hrest
  have hpre : ('.' :: (fds.map digitChar ++ (U ++ r))).length
      ≠ (formatNat v ++ ('.' :: (fds.map digitChar ++ (U ++ r)))).length := by
    have := List.length_pos.mpr (formatNat_ne_nil v)
    simp only [List.length_append]
    omega
  have htw := takeWhile_unit U r hUc hr
  have hq : ¬ (v > 2 ^ 63 / unit) := by
    have : v ≤ 2 ^ 63 / unit := (Nat.le_div_iff_mul_le hpos).mpr (by omega)
    omega
  have hmod : ∀ w, d + w ≤ 2 ^ 63 → (d + w) % 2 ^ 64 = d + w := by
    intro w hw
    apply Nat.mod_eq_of_lt
    have : (2 : Nat) ^ 63 < 2 ^ 64 := by norm_num
    omega
  unfold durationRound
  simp only [formatNat_head_endsUnit, not_true_eq_false, if_false, hli, ne_eq, hpre,
    fractionStep_digits fds U r hne hlt (by rw [hFdef]; exact hF) hU hUc, hFdef, hk,
    not_false_eq_true, and_false, htw.1, htw.2, if_neg hU, hmap, if_neg hq]
  have hd1 : ¬ (d + (v * unit + W) > 2 ^ 63) := by omega
  by_cases hF0 : F > 0
  · have h2 : ¬ (v * unit + W > 2 ^ 63) := by omega
    simp only [hF0, if_true, true_and, hnanos hF0, if_neg h2, hmod _ hv]
    exact if_neg hd1
  · have hz : F = 0 := by omega
    subst hz
    have hW0 : W = 0 := by rw [← hWdef]; simp
    subst hW0
    simp only [lt_irrefl, gt_iff_lt, if_false, false_and, Nat.add_zero] at hv ⊢
    rw [hmod _ hv]
    exact if_neg (by omega)

theorem parseDurationLoop_step (orig : GoString) (fuel : Nat) (s r : GoString) (d d1 : Nat)
    (hs : s ≠ []) (h : durationRound orig s d = .ok (r, d1)) :
    parseDurationLoop orig (fuel + 1) s d = parseDurationLoop orig fuel r d1 := by
  cases s with
  | nil => exact absurd rfl hs
  | cons c cs => simp only [parseDurationLoop, h]

/-- More rounds than needed do not change the result of the loop. -/
theorem parseDurationLoop_mono (orig : GoString) (fuel : Nat) :
    ∀ (fuel2 : Nat) (s : GoString) (d x : Nat), fuel ≤ fuel2 →
      parseDurationLoop orig fuel s d = .ok x → parseDurationLoop orig fuel2 s d = .ok x := by
  induction fuel with
  | zero =>
    intro fuel2 s d x _ h
    cases s with
    | nil =>
      cases fuel2 <;> simpa [parseDurationLoop] using h
    | cons c cs => simp [parseDurationLoop] at h
  | succ f ih =>
    intro fuel2 s d x hle h
    cases s with
    | nil =>
      cases fuel2 <;> simpa [parseDurationLoop] using h
    | cons c cs =>
      obtain ⟨g, rfl⟩ : ∃ g, fuel2 = g + 1 := ⟨fuel2 - 1, by omega⟩
      simp only [parseDurationLoop] at h ⊢
      cases hr : durationRound orig (c :: cs) d with
      | error e => rw [hr] at h; simp at h
      | ok p =>
        rw [hr] at h
        exact ih g p.1 p.2 x (by omega) h

theorem fmtFrac_snd (w prec : Nat) : (fmtFrac w prec).2 = w / 10 ^ prec := by
  unfold fmtFrac
  rcases fmtFracLoop_false prec w with ⟨-, h⟩ | ⟨ds, -, -, -, -, -, h⟩ <;> simp [h]

/-- One round of `ParseDuration` on a number `q` followed by the fraction that
`fmtFrac` writes for the last `prec` digits of `w`, in the unit `10^prec`. -/
theorem durationRound_fmtFrac (orig : GoString) (q w prec : Nat) (U r : GoString) (d : Nat)
    (hprec : prec ≤ 9)
    (hU : U ≠ []) (hUc : ∀ c ∈ U, endsUnit c = false) (hmap : unitMap U = some (10 ^ prec))
    (hr : ∀ c, r.head? = some c → endsUnit c = true)
    (hv : d + (q * 10 ^ prec + w % 10 ^ prec) ≤ 2 ^ 63) :
    durationRound orig (fmtInt q ++ (fmtFrac w prec).1 ++ U ++ r) d
      = .ok (r, d + (q * 10 ^ prec + w % 10 ^ prec)) := by
  have hpos : 0 < 10 ^ prec := Nat.pow_pos (by norm_num)
  have hlt9 : w % 10 ^ prec < 10 ^ 9 :=
    lt_of_lt_of_le (Nat.mod_lt _ hpos) (Nat.pow_le_pow_right (by norm_num) hprec)
  unfold fmtFrac fmtInt
  rcases fmtFracLoop_false prec w with ⟨h0, h⟩ | ⟨ds, hne, hlen, hlt, hval, hnz, h⟩
  · simp only [h, Bool.false_eq_true, if_false, List.append_nil, List.append_assoc]
    rw [h0, Nat.add_zero] at hv ⊢
    exact durationRound_int orig q U (10 ^ prec) r d hU hUc hmap hpos hr hv
  · simp only [h, if_true, List.append_assoc, List.cons_append]
    have hsplit : 10 ^ prec = 10 ^ ds.length * 10 ^ (prec - ds.length) := by
      rw [← pow_add]
      congr 1
      omega
    have hcontrib : ds.foldl (fun a x => a * 10 + x) 0 * (10 ^ prec / 10 ^ ds.length)
        = w % 10 ^ prec := by
      rw [← hval]
      congr 1
      rw [hsplit]
      exact Nat.mul_div_cancel_left _ (Nat.pow_pos (by norm_num))
    have h53 : (10 : Nat) ^ 9 < 2 ^ 53 := by norm_num
    have hF : ds.foldl (fun a x => a * 10 + x) 0 ≤ (2 ^ 63 - 1) / 10 := by
      have h1 : ds.foldl (fun a x => a * 10 + x) 0
          ≤ ds.foldl (fun a x => a * 10 + x) 0 * 10 ^ (prec - ds.length) :=
        Nat.le_mul_of_pos_right _ (Nat.pow_pos (by norm_num))
      rw [hval] at h1
      norm_num at hlt9 ⊢
      omega
    have := durationRound_frac orig q ds U (10 ^ prec) r d hne hlt hF hU hUc hmap hpos hr
      (by omega) (pow_dvd_pow 10 hlen)
      (lt_of_le_of_lt (Nat.pow_le_pow_right (by norm_num) hprec) h53)
      (by rw [hcontrib]; exact lt_trans hlt9 h53) (by rw [hcontrib]; exact hv)
    rw [hcontrib] at this
    exact this

set_option maxRecDepth 100000 in
/-- The fraction of a duration literal is added in `float64`: sixteen nines
after the period round up to a whole second, a fraction of an hour is the
truncated `float64` product, a literal just below `-2^63` nanoseconds is out
of range, and a scale that has become `+Inf` adds nothing. -/
theorem ParseDuration_float64_examples :
    ParseDuration "0.9999999999999999s".toList = .ok 1000000000 ∧
    ParseDuration "0.58471981924250h".toList = .ok 2104991349272 ∧
    ParseDuration "1.5h".toList = .ok (90 * Minute) ∧
    ParseDuration "-9223372036.854775808999999999s".toList
      = .error (.durationInvalid "-9223372036.854775808999999999s".toList) ∧
    parsePostgresInterval "-9223372036.854775808999999999s".toList
      = some (.error (.unsupportedInterval "-9223372036.854775808999999999s".toList)) ∧
    fractionNanos 1 Second none = 0 := by
  exact ⟨rfl, rfl, rfl, rfl, rfl, rfl⟩

theorem unit_facts :
    (∀ c ∈ ['n', 's'], endsUnit c = false) ∧ unitMap ['n', 's'] = some (10 ^ 0) ∧
    (∀ c ∈ ['µ', 's'], endsUnit c = false) ∧ unitMap ['µ', 's'] = some (10 ^ 3) ∧
    (∀ c ∈ ['m', 's'], endsUnit c = false) ∧ unitMap ['m', 's'] = some (10 ^ 6) ∧
    (∀ c ∈ ['s'], endsUnit c = false) ∧ unitMap ['s'] = some (10 ^ 9) ∧
    (∀ c ∈ ['m'], endsUnit c = false) ∧ unitMap ['m'] = some Minute ∧
    (∀ c ∈ ['h'], endsUnit c = false) ∧ unitMap ['h'] = some Hour := by
  refine ⟨by decide, by decide, by decide, by decide, by decide, by decide, by decide,
    by decide, by decide, by decide, by decide, by decide⟩

theorem formatNat_head_rest (v : Nat) (rest : GoString) :
    ∀ c, (formatNat v ++ rest).head? = some c → endsUnit c = true := by
  intro c hc
  have := formatNat_head_endsUnit v rest
  rw [hc] at this
  simpa using this

theorem nil_head_rest : ∀ c, ([] : GoString).head? = some c → endsUnit c = true := by
  intro c hc
  simp at hc

theorem formatNat_append_ne_nil (v : Nat) (rest : GoString) : formatNat v ++ rest ≠ [] := by
  intro h
  exact formatNat_ne_nil v (List.append_eq_nil.mp h).1

theorem formatNat_length_pos (v : Nat) : 1 ≤ (formatNat v).length :=
  List.length_pos.mpr (formatNat_ne_nil v)

theorem parseDurationLoop_one (orig s : GoString) (d x : Nat) (hs : s ≠ [])
    (h : durationRound orig s d = .ok ([], x)) : parseDurationLoop orig 1 s d = .ok x := by
  rw [parseDurationLoop_step orig 0 s [] d x hs h]
  rfl

/-- The text of a magnitude below one second is read back in one round. -/
theorem formatAbs_parse_small (orig : GoString) (u : Nat) (hu : u < Second) :
    parseDurationLoop orig 1 (formatAbs u) 0 = .ok u ∧ 1 ≤ (formatAbs u).length := by
  obtain ⟨hns, mns, hus, mus, hms, mms, -⟩ := unit_facts
  have hu63 : u ≤ 2 ^ 63 := by
    unfold Second at hu
    norm_num
    omega
  unfold formatAbs
  rw [if_pos hu]
  by_cases h0 : u = 0
  · subst h0
    exact ⟨rfl, by simp⟩
  rw [if_neg h0]
  simp only [fmtInt]
  by_cases h1 : u < Microsecond
  · rw [if_pos h1]
    have hround := durationRound_int orig u ['n', 's'] (10 ^ 0) [] 0 (by simp) hns mns
      (by norm_num) nil_head_rest (by simpa using hu63)
    rw [List.append_nil, Nat.zero_add, pow_zero, Nat.mul_one] at hround
    refine ⟨parseDurationLoop_one orig _ 0 u (formatNat_append_ne_nil _ _) hround, ?_⟩
    have := formatNat_length_pos u
    simp only [List.length_append]
    omega
  rw [if_neg h1]
  by_cases h2 : u < Millisecond
  · rw [if_pos h2, fmtFrac_snd]
    have hround := durationRound_fmtFrac orig (u / 10 ^ 3) u 3 ['µ', 's'] [] 0 (by norm_num)
      (by simp) hus mus nil_head_rest (by rw [Nat.zero_add, Nat.div_add_mod']; exact hu63)
    rw [List.append_nil, Nat.zero_add, Nat.div_add_mod'] at hround
    simp only [fmtInt] at hround
    refine ⟨parseDurationLoop_one orig _ 0 u (by simp [formatNat_ne_nil]) hround, ?_⟩
    have := formatNat_length_pos (u / 10 ^ 3)
    simp only [List.length_append]
    omega
  · rw [if_neg h2, fmtFrac_snd]
    have hround := durationRound_fmtFrac orig (u / 10 ^ 6) u 6 ['m', 's'] [] 0 (by norm_num)
      (by simp) hms mms nil_head_rest (by rw [Nat.zero_add, Nat.div_add_mod']; exact hu63)
    rw [List.append_nil, Nat.zero_add, Nat.div_add_mod'] at hround
    simp only [fmtInt] at hround
    refine ⟨parseDurationLoop_one orig _ 0 u (by simp [formatNat_ne_nil]) hround, ?_⟩
    have := formatNat_length_pos (u / 10 ^ 6)
    simp only [List.length_append]
    omega

/-- The text of a magnitude of one second or more is read back in at most
three rounds: hours, minutes, seconds. -/
theorem formatAbs_parse_large (orig : GoString) (u : Nat) (hu : Second ≤ u)
    (hu63 : u ≤ 2 ^ 63) :
    ∃ n, n ≤ (formatAbs u).length ∧ parseDurationLoop orig n (formatAbs u) 0 = .ok u := by
  obtain ⟨-, -, -, -, -, -, hs, ms, hm, mm, hh, mh⟩ := unit_facts
  have e9 : (10 : Nat) ^ 9 = 1000000000 := by norm_num
  have e63 : (2 : Nat) ^ 63 = 9223372036854775808 := by norm_num
  -- the seconds, with the fraction
  have hS : ∀ d, d + (u / 10 ^ 9 % 60 * 10 ^ 9 + u % 10 ^ 9) ≤ 2 ^ 63 →
      durationRound orig (formatNat (u / 10 ^ 9 % 60) ++ (fmtFrac u 9).1 ++ ['s']) d
        = .ok ([], d + (u / 10 ^ 9 % 60 * 10 ^ 9 + u % 10 ^ 9)) := by
    intro d hd
    have := durationRound_fmtFrac orig (u / 10 ^ 9 % 60) u 9 ['s'] [] d (by norm_num)
      (by simp) hs ms nil_head_rest hd
    rw [List.append_nil] at this
    exact this
  have hSne : formatNat (u / 10 ^ 9 % 60) ++ (fmtFrac u 9).1 ++ ['s'] ≠ [] := by simp
  have hSlen : 1 ≤ (formatNat (u / 10 ^ 9 % 60) ++ (fmtFrac u 9).1 ++ ['s']).length := by
    simp only [List.length_append, List.length_singleton]
    omega
  have hSr : ∀ c, (formatNat (u / 10 ^ 9 % 60) ++ (fmtFrac u 9).1 ++ ['s']).head? = some c →
      endsUnit c = true := by
    rw [List.append_assoc]
    exact formatNat_head_rest _ _
  generalize hSdef : formatNat (u / 10 ^ 9 % 60) ++ (fmtFrac u 9).1 ++ ['s'] = S at *
  unfold formatAbs
  rw [if_neg (not_lt.mpr hu)]
  simp only [fmtFrac_snd, fmtInt, hSdef]
  by_cases h2 : u / 10 ^ 9 / 60 > 0
  · rw [if_pos h2]
    -- the minutes
    have hM : ∀ d, d + u / 10 ^ 9 / 60 % 60 * Minute ≤ 2 ^ 63 →
        durationRound orig (formatNat (u / 10 ^ 9 / 60 % 60) ++ ['m'] ++ S) d
          = .ok (S, d + u / 10 ^ 9 / 60 % 60 * Minute) := by
      intro d hd
      rw [List.append_assoc]
      exact durationRound_int orig _ ['m'] Minute S d (by simp) hm mm (by decide) hSr hd
    have hMr : ∀ c, (formatNat (u / 10 ^ 9 / 60 % 60) ++ ['m'] ++ S).head? = some c →
        endsUnit c = true := by
      rw [List.append_assoc]
      exact formatNat_head_rest _ _
    have hMne : formatNat (u / 10 ^ 9 / 60 % 60) ++ ['m'] ++ S ≠ [] := by simp
    by_cases h3 : u / 10 ^ 9 / 60 / 60 > 0
    · rw [if_pos h3]
      have hH : durationRound orig
          (formatNat (u / 10 ^ 9 / 60 / 60) ++ ['h'] ++
            (formatNat (u / 10 ^ 9 / 60 % 60) ++ ['m'] ++ S)) 0
          = .ok (formatNat (u / 10 ^ 9 / 60 % 60) ++ ['m'] ++ S,
              0 + u / 10 ^ 9 / 60 / 60 * Hour) := by
        rw [List.append_assoc]
        refine durationRound_int orig _ ['h'] Hour _ 0 (by simp) hh mh (by decide) hMr ?_
        unfold Hour
        rw [e9] at *
        omega
      refine ⟨3, ?_, ?_⟩
      · have := formatNat_length_pos (u / 10 ^ 9 / 60 / 60)
        have := formatNat_length_pos (u / 10 ^ 9 / 60 % 60)
        simp only [List.length_append, List.length_singleton]
        omega
      · rw [parseDurationLoop_step orig 2 _ _ _ _ (by simp) hH,
          parseDurationLoop_step orig 1 _ _ _ _ hMne (hM _ (by
            unfold Hour Minute
            rw [e9] at *
            omega)),
          parseDurationLoop_one orig S _ _ hSne (hS _ (by
            unfold Hour Minute
            rw [e9] at *
            omega))]
        congr 1
        unfold Hour Minute
        rw [e9]
        omega
    · rw [if_neg h3]
      refine ⟨2, ?_, ?_⟩
      · have := formatNat_length_pos (u / 10 ^ 9 / 60 % 60)
        simp only [List.length_append, List.length_singleton]
        omega
      · rw [parseDurationLoop_step orig 1 _ _ _ _ hMne (hM 0 (by
            unfold Minute
            rw [e9] at *
            omega)),
          parseDurationLoop_one orig S _ _ hSne (hS _ (by
            unfold Minute
            rw [e9] at *
            omega))]
        congr 1
        unfold Minute
        rw [e9]
        omega
  · rw [if_neg h2]
    refine ⟨1, hSlen, ?_⟩
    rw [parseDurationLoop_one orig S _ _ hSne (hS 0 (by
      rw [e9] at *
      omega))]
    congr 1
    rw [e9]
    omega

theorem leadingInt_length : ∀ (s : GoString) (x v : Nat) (s1 : GoString),
    leadingInt s x = some (v, s1) → s1.length ≤ s.length := by
  intro s
  induction s with
  | nil =>
    intro x v s1 h
    simp only [leadingInt, Option.some.injEq, Prod.mk.injEq] at h
    rw [← h.2]
  | cons c cs ih =>
    intro x v s1 h
    unfold leadingInt at h
    split at h
    · simp only [Option.some.injEq, Prod.mk.injEq] at h
      rw [← h.2]
    · split at h
      · simp at h
      · split at h
        · simp at h
        · have := ih _ _ _ h
          simp only [List.length_cons]
          omega

theorem leadingFraction_length : ∀ (s : GoString) (x : Nat) (scale : Option (Nat × Int))
    (o : Bool),
    (leadingFraction s x scale o).2.2.length ≤ s.length := by
  intro s
  induction s with
  | nil => intro x scale o; simp [leadingFraction]
  | cons c cs ih =>
    intro x scale o
    unfold leadingFraction
    split
    · simp
    · split_ifs <;> exact Nat.le_succ_of_le (ih _ _ _)

theorem fractionStep_length (s1 : GoString) : (fractionStep s1).2.2.1.length ≤ s1.length := by
  unfold fractionStep
  split
  · exact Nat.le_succ_of_le (leadingFraction_length _ 0 (some (1, 0)) false)
  · exact le_refl _

/-- A round of `ParseDuration` that succeeds consumes at least one character. -/
theorem durationRound_length (orig s r : GoString) (d d1 : Nat)
    (h : durationRound orig s d = .ok (r, d1)) : r.length < s.length := by
  unfold durationRound at h
  cases hli : leadingInt s 0 with
  | none =>
    simp only [hli] at h
    split_ifs at h
  | some p =>
    obtain ⟨v, s1⟩ := p
    have hl1 := leadingInt_length _ _ _ _ hli
    have hl2 := fractionStep_length s1
    have hsplit := List.takeWhile_append_dropWhile (fun c => ! endsUnit c)
      (fractionStep s1).2.2.1
    have hlen := congrArg List.length hsplit
    rw [List.length_append] at hlen
    simp only [hli] at h
    cases hm : unitMap (List.takeWhile (fun c => ! endsUnit c) (fractionStep s1).2.2.1) with
    | none =>
      simp only [hm] at h
      split_ifs at h
    | some unit =>
      simp only [hm] at h
      split_ifs at h with h1 h2 hu
      all_goals
        simp only [Except.ok.injEq, Prod.mk.injEq] at h
        have hpos := List.length_pos.mpr hu
        rw [← h.1]
        omega

/-- The rounds given to the loop by `ParseDuration` are enough: with at least as
many rounds as the text is long, the result does not depend on their number,
and the loop never stops for lack of rounds. -/
theorem parseDurationLoop_fuel (orig : GoString) (fuel : Nat) :
    ∀ (fuel2 : Nat) (s : GoString) (d : Nat), s.length ≤ fuel → s.length ≤ fuel2 →
      parseDurationLoop orig fuel s d = parseDurationLoop orig fuel2 s d := by
  induction fuel with
  | zero =>
    intro fuel2 s d h1 _
    have : s = [] := List.length_eq_zero.mp (by omega)
    subst this
    cases fuel2 <;> simp [parseDurationLoop]
  | succ f ih =>
    intro fuel2 s d h1 h2
    cases s with
    | nil => cases fuel2 <;> simp [parseDurationLoop]
    | cons c cs =>
      obtain ⟨g, rfl⟩ : ∃ g, fuel2 = g + 1 := ⟨fuel2 - 1, by
        simp only [List.length_cons] at h2
        omega⟩
      simp only [parseDurationLoop]
      cases hr : durationRound orig (c :: cs) d with
      | error e => rfl
      | ok p =>
        have hlen := durationRound_length orig (c :: cs) p.1 d p.2 hr
        simp only [List.length_cons] at h1 h2 hlen
        exact ih g p.1 p.2 (by omega) (by omega)

/-- The loop of `ParseDuration`, with as many rounds as the text is long, reads
back the text of a magnitude. -/
theorem formatAbs_parse (orig : GoString) (u : Nat) (hu63 : u ≤ 2 ^ 63) :
    parseDurationLoop orig (formatAbs u).length (formatAbs u) 0 = .ok u := by
  by_cases hu : u < Second
  · obtain ⟨h, hlen⟩ := formatAbs_parse_small orig u hu
    exact parseDurationLoop_mono orig 1 _ _ _ _ hlen h
  · obtain ⟨n, hlen, h⟩ := formatAbs_parse_large orig u (not_lt.mp hu) hu63
    exact parseDurationLoop_mono orig n _ _ _ _ hlen h

/-- The text of a magnitude starts with a number and has more after it. -/
theorem formatAbs_shape (u : Nat) :
    ∃ v rest, formatAbs u = formatNat v ++ rest ∧ rest ≠ [] := by
  unfold formatAbs
  simp only [fmtInt]
  split
  · split
    · exact ⟨0, ['s'], rfl, by simp⟩
    · split
      · exact ⟨_, _, rfl, by simp⟩
      · split
        · exact ⟨_, _, List.append_assoc _ _ _, by simp⟩
        · exact ⟨_, _, List.append_assoc _ _ _, by simp⟩
  · split
    · split
      · exact ⟨_, _, by rw [List.append_assoc], by simp⟩
      · exact ⟨_, _, by rw [List.append_assoc], by simp⟩
    · exact ⟨_, _, by rw [List.append_assoc], by simp⟩

theorem fmtFrac_mem (w prec : Nat) :
    ∀ c ∈ (fmtFrac w prec).1, c ∈ ['.', '0', '1', '2', '3', '4', '5', '6', '7', '8', '9'] := by
  intro c hc
  unfold fmtFrac at hc
  rcases fmtFracLoop_false prec w with ⟨-, h⟩ | ⟨ds, -, -, -, -, -, h⟩
  · simp [h] at hc
  · simp only [h, if_true, List.mem_cons, List.mem_map] at hc
    rcases hc with rfl | ⟨d, -, rfl⟩
    · simp
    · exact List.mem_cons_of_mem _ (digitChar_mem d)

theorem durChars_props :
    ∀ c ∈ ['h', 'm', 's', 'n', 'µ', '.', '0', '1', '2', '3', '4', '5', '6', '7', '8', '9'],
      c ≠ ',' ∧ c ≠ '"' ∧ isSpace c = false ∧ c ≠ '-' ∧ c ≠ '+' := by
  decide

theorem digits_sub_dur :
    ∀ c ∈ ['0', '1', '2', '3', '4', '5', '6', '7', '8', '9'],
      c ∈ ['h', 'm', 's', 'n', 'µ', '.', '0', '1', '2', '3', '4', '5', '6', '7', '8', '9'] := by
  decide

theorem frac_sub_dur :
    ∀ c ∈ ['.', '0', '1', '2', '3', '4', '5', '6', '7', '8', '9'],
      c ∈ ['h', 'm', 's', 'n', 'µ', '.', '0', '1', '2', '3', '4', '5', '6', '7', '8', '9'] := by
  decide

theorem units_sub_dur :
    ∀ c ∈ ['h', 'm', 's', 'n', 'µ'],
      c ∈ ['h', 'm', 's', 'n', 'µ', '.', '0', '1', '2', '3', '4', '5', '6', '7', '8', '9'] := by
  decide

/-- The characters of the text of a magnitude. -/
theorem formatAbs_mem (u : Nat) :
    ∀ c ∈ formatAbs u,
      c ∈ ['h', 'm', 's', 'n', 'µ', '.', '0', '1', '2', '3', '4', '5', '6', '7', '8', '9'] := by
  have hN : ∀ v c, c ∈ formatNat v →
      c ∈ ['h', 'm', 's', 'n', 'µ', '.', '0', '1', '2', '3', '4', '5', '6', '7', '8', '9'] :=
    fun v c h => digits_sub_dur c (formatNat_mem v c h)
  have hF : ∀ w p c, c ∈ (fmtFrac w p).1 →
      c ∈ ['h', 'm', 's', 'n', 'µ', '.', '0', '1', '2', '3', '4', '5', '6', '7', '8', '9'] :=
    fun w p c h => frac_sub_dur c (fmtFrac_mem w p c h)
  have hU : ∀ (U : GoString) c, (∀ x ∈ U, x ∈ ['h', 'm', 's', 'n', 'µ']) → c ∈ U →
      c ∈ ['h', 'm', 's', 'n', 'µ', '.', '0', '1', '2', '3', '4', '5', '6', '7', '8', '9'] :=
    fun U c h hc => units_sub_dur c (h c hc)
  intro c hc
  unfold formatAbs at hc
  simp only [fmtInt] at hc
  split at hc
  · split at hc
    · have : c = '0' ∨ c = 's' := by simpa using hc
      rcases this with rfl | rfl <;> decide
    · split at hc
      · rcases List.mem_append.mp hc with h | h
        · exact hN _ c h
        · exact hU _ c (by decide) h
      · split at hc
        · rcases List.mem_append.mp hc with h | h
          · rcases List.mem_append.mp h with h | h
            · exact hN _ c h
            · exact hF _ _ c h
          · exact hU _ c (by decide) h
        · rcases List.mem_append.mp hc with h | h
          · rcases List.mem_append.mp h with h | h
            · exact hN _ c h
            · exact hF _ _ c h
          · exact hU _ c (by decide) h
  · have hS : c ∈ formatNat ((fmtFrac u 9).2 % 60) ++ (fmtFrac u 9).1 ++ ['s'] →
        c ∈ ['h', 'm', 's', 'n', 'µ', '.', '0', '1', '2', '3', '4', '5', '6', '7', '8', '9'] := by
      intro h
      rcases List.mem_append.mp h with h | h
      · rcases List.mem_append.mp h with h | h
        · exact hN _ c h
        · exact hF _ _ c h
      · exact hU _ c (by decide) h
    have hM : c ∈ formatNat ((fmtFrac u 9).2 / 60 % 60) ++ ['m'] ++
        (formatNat ((fmtFrac u 9).2 % 60) ++ (fmtFrac u 9).1 ++ ['s']) →
        c ∈ ['h', 'm', 's', 'n', 'µ', '.', '0', '1', '2', '3', '4', '5', '6', '7', '8', '9'] := by
      intro h
      rcases List.mem_append.mp h with h | h
      · rcases List.mem_append.mp h with h | h
        · exact hN _ c h
        · exact hU _ c (by decide) h
      · exact hS h
    split at hc
    · split at hc
      · rcases List.mem_append.mp hc with h | h
        · rcases List.mem_append.mp h with h | h
          · exact hN _ c h
          · exact hU _ c (by decide) h
        · exact hM h
      · exact hM hc
    · exact hS hc

theorem formatAbs_head (u : Nat) :
    ∃ c cs, formatAbs u = c :: cs ∧ cs ≠ [] ∧ c ≠ '-' ∧ c ≠ '+' := by
  obtain ⟨v, rest, hv, hrest⟩ := formatAbs_shape u
  obtain ⟨ds, hds, hlt, hne, -⟩ := formatNat_digits v
  cases ds with
  | nil => exact absurd rfl hne
  | cons d ds =>
    have hp := digitVal_props _ _ (digitVal_digitChar d (hlt d (by simp)))
    refine ⟨digitChar d, ds.map digitChar ++ rest, ?_, ?_, hp.2.1, hp.2.2.1⟩
    · rw [hv, hds]; rfl
    · simp [hrest]

/-- `time.ParseDuration` reads back the text of every duration. -/
theorem ParseDuration_String (d : Int) (hd : IsInt64 d) :
    ParseDuration (Duration.String d) = .ok d := by
  obtain ⟨hlo, hhi⟩ := hd
  obtain ⟨c, cs, hcs, hne, hm, hp⟩ := formatAbs_head d.natAbs
  have hu63 : d.natAbs ≤ 2 ^ 63 := by
    norm_num
    omega
  have hstrip : stripSign (formatAbs d.natAbs) = formatAbs d.natAbs := by
    rw [hcs]; exact stripSign_cons c cs hm hp
  have hn0 : formatAbs d.natAbs ≠ ['0'] := by
    rw [hcs]
    intro h
    simp only [List.cons.injEq] at h
    exact hne h.2
  have hn1 : formatAbs d.natAbs ≠ [] := by rw [hcs]; simp
  unfold Duration.String
  by_cases hneg : d < 0
  · rw [if_pos hneg]
    have hs : stripSign ('-' :: formatAbs d.natAbs) = formatAbs d.natAbs := rfl
    simp only [ParseDuration, hs, if_neg hn0, if_neg hn1,
      formatAbs_parse ('-' :: formatAbs d.natAbs) d.natAbs hu63, List.head?_cons, if_true]
    congr 1
    omega
  · rw [if_neg hneg]
    have hh : ¬ ((formatAbs d.natAbs).head? = some '-') := by
      rw [hcs]
      simpa using hm
    have hmax : ¬ (d.natAbs > 2 ^ 63 - 1) := by
      norm_num
      omega
    simp only [ParseDuration, hstrip, if_neg hn0, if_neg hn1,
      formatAbs_parse (formatAbs d.natAbs) d.natAbs hu63, if_neg hh, if_neg hmax]
    congr 1
    omega

theorem Duration_String_mem (d : Int) :
    ∀ c ∈ Duration.String d, c ≠ ',' ∧ c ≠ '"' ∧ isSpace c = false := by
  intro c hc
  unfold Duration.String at hc
  split at hc
  · rcases List.mem_cons.mp hc with rfl | h
    · decide
    · have := durChars_props c (formatAbs_mem _ c h)
      exact ⟨this.1, this.2.1, this.2.2.1⟩
  · have := durChars_props c (formatAbs_mem _ c hc)
    exact ⟨this.1, this.2.1, this.2.2.1⟩

theorem Duration_String_ne_nil (d : Int) : Duration.String d ≠ [] := by
  obtain ⟨c, cs, hcs, -⟩ := formatAbs_head d.natAbs
  unfold Duration.String
  split
  · simp
  · rw [hcs]; simp

/-- `parsePostgresInterval` reads back the text of every duration. -/
theorem parsePostgresInterval_String (d : Int) (hd : IsInt64 d) :
    parsePostgresInterval (Duration.String d) = some (.ok d) := by
  have htrim : TrimSpace (Duration.String d) = Duration.String d :=
    TrimSpace_eq_self
      (fun c hc => (Duration_String_mem d c (List.mem_of_mem_head? hc)).2.2)
      (fun c hc => (Duration_String_mem d c (List.mem_of_mem_getLast? hc)).2.2)
  unfold parsePostgresInterval
  simp only [htrim, if_neg (Duration_String_ne_nil d), ParseDuration_String d hd]

theorem DurationArray_roundtrip (a0 v : Option (List Int)) (h : ∀ d ∈ elems v, IsInt64 d) :
    DurationArray.Scan a0 (DurationArray.Value v).1 = (some (elems v), none) := by
  have key := quoted_roundtrip "DurationArray"
    (fun s => match parsePostgresInterval s with
      | none => .error .panic
      | some r => r) Duration.String a0 v
    (by
      intro d hd
      simp only [parsePostgresInterval_String d (h d hd)])
    (by
      intro d _ c hc
      exact ⟨(Duration_String_mem d c hc).1, (Duration_String_mem d c hc).2.1⟩)
  exact key

/-- C4: for every `DurationArray` `v` (any signed 64-bit nanosecond counts,
zero and negative ones included, and the arrays of length zero), `Scan` of the
string returned by `Value` succeeds, and the scanned array `Equals` `v`. -/
theorem C4_duration_scan_value (a0 v : Option (List Int)) (h : ∀ d ∈ elems v, IsInt64 d) :
    (DurationArray.Value v).2 = none ∧
    (DurationArray.Scan a0 (DurationArray.Value v).1).2 = none ∧
    DurationArray.Equals (DurationArray.Scan a0 (DurationArray.Value v).1).1 v = true := by
  rw [DurationArray_roundtrip a0 v h]
  exact ⟨valueArray_snd _ _, rfl, (equalsArray_iff _ _).mpr rfl⟩

/-- Witness of C4 at an array with zero, the extreme durations and fractions. -/
theorem C4_duration_scan_value_witness :
    (∀ d ∈ elems (some [0, -1500, 3723000000000, 9223372036854775807,
      -9223372036854775808]), IsInt64 d) ∧
    (DurationArray.Scan none (DurationArray.Value (some [0, -1500, 3723000000000,
      9223372036854775807, -9223372036854775808])).1).2 = none ∧
    DurationArray.Equals (DurationArray.Scan none (DurationArray.Value (some [0, -1500,
      3723000000000, 9223372036854775807, -9223372036854775808])).1).1
      (some [0, -1500, 3723000000000, 9223372036854775807, -9223372036854775808]) = true :=
  ⟨by decide,
    (C4_duration_scan_value none (some [0, -1500, 3723000000000, 9223372036854775807,
      -9223372036854775808]) (by decide)).2⟩

/-! ## Durations: `Scan` of `Value`, blank input -/

/-- C11: for every `Duration` `d` (any signed 64-bit nanosecond count),
`parsePostgresInterval` of `d.String()` succeeds and returns `d`, so `Scan` of
`Value(d)` returns no error and sets the receiver to `d`; the text `1h2m3s` is
read as 3723 seconds. -/
theorem C11_duration_string_parse (d0 d : Int) (hd : IsInt64 d) :
    parsePostgresInterval (Duration.String d) = some (.ok d) ∧
    (Duration.Value d).2 = none ∧
    Duration.Scan d0 (Duration.Value d).1 = (d, none) ∧
    parsePostgresInterval ['1', 'h', '2', 'm', '3', 's'] = some (.ok (3723 * Second)) := by
  refine ⟨parsePostgresInterval_String d hd, rfl, ?_, by rfl⟩
  simp only [Duration.Value, Duration.Scan, parsePostgresInterval_String d hd]

/-- Witness of C11 at the smallest duration. -/
theorem C11_duration_string_parse_witness :
    IsInt64 (-9223372036854775808) ∧
    parsePostgresInterval (Duration.String (-9223372036854775808))
      = some (.ok (-9223372036854775808)) ∧
    Duration.Scan 5 (Duration.Value (-9223372036854775808)).1
      = (-9223372036854775808, none) :=
  ⟨by decide,
    (C11_duration_string_parse 5 (-9223372036854775808) (by decide)).1,
    (C11_duration_string_parse 5 (-9223372036854775808) (by decide)).2.2.1⟩

theorem dropWhile_all {p : Char → Bool} (s : GoString) (h : ∀ c ∈ s, p c = true) :
    s.dropWhile p = [] := by
  induction s with
  | nil => rfl
  | cons c cs ih =>
    rw [List.dropWhile_cons, if_pos (h c (by simp))]
    exact ih (fun x hx => h x (by simp [hx]))

theorem TrimSpace_all_space (s : GoString) (h : ∀ c ∈ s, isSpace c = true) :
    TrimSpace s = [] := by
  unfold TrimSpace trimLeftFunc trimRightFunc
  rw [dropWhile_all s h]
  rfl

/-- C14: `Duration.Scan(nil)` sets the receiver to 0 and returns no error, and
`parsePostgresInterval` returns 0 without error for the empty string and for
every string of white space only. -/
theorem C14_blank_interval_is_zero (d0 : Int) (s : GoString)
    (hs : ∀ c ∈ s, isSpace c = true) :
    Duration.Scan d0 .null = (0, none) ∧
    parsePostgresInterval [] = some (.ok 0) ∧
    parsePostgresInterval s = some (.ok 0) := by
  refine ⟨rfl, rfl, ?_⟩
  unfold parsePostgresInterval
  simp only [TrimSpace_all_space s hs, if_true]

/-- Witness of C14 at a string of a space, a tab and a line feed. -/
theorem C14_blank_interval_is_zero_witness :
    (∀ c ∈ [' ', '\t', '\n'], isSpace c = true) ∧
    parsePostgresInterval [' ', '\t', '\n'] = some (.ok 0) :=
  ⟨by decide, (C14_blank_interval_is_zero 0 [' ', '\t', '\n'] (by decide)).2.2⟩

/-! ## `Scan` on bad input -/

theorem scanText_error_keeps {α : Type} (parse : GoString → Except Error α)
    (a : Option (List α)) (t : GoString)
    (h : (if Trim t ['{', '}'] = [] then ((some [] : Option (List α)), (none : Option Error))
      else
        match scanLoop parse (Split (Trim t ['{', '}']) ',') with
        | .error e => (a, some e)
        | .ok result => (some result, none)).2 ≠ none) :
    (if Trim t ['{', '}'] = [] then ((some [] : Option (List α)), (none : Option Error))
      else
        match scanLoop parse (Split (Trim t ['{', '}']) ',') with
        | .error e => (a, some e)
        | .ok result => (some result, none)).1 = a := by
  by_cases ht : Trim t ['{', '}'] = []
  · rw [if_pos ht] at h
    exact absurd rfl h
  · rw [if_neg ht] at h ⊢
    cases hr : scanLoop parse (Split (Trim t ['{', '}']) ',') with
    | error e => rfl
    | ok r =>
      rw [hr] at h
      exact absurd rfl h

/-- When the shared body of the `Scan` methods returns an error, the receiver
keeps its old value. -/
theorem scanArray_error_keeps {α : Type} (target : String) (parse : GoString → Except Error α)
    (a : Option (List α)) (src : Any) (h : (scanArray target parse a src).2 ≠ none) :
    (scanArray target parse a src).1 = a := by
  cases src with
  | null => exact absurd rfl h
  | other => rfl
  | bytes t => exact scanText_error_keeps parse a t h
  | str t => exact scanText_error_keeps parse a t h

/-- C17: for every array kind, when `Scan` returns an error (an element that
cannot be parsed, at any index, or a source of an unsupported type), the
receiver holds the value it held before the call; no part of the input is
stored. -/
theorem C17_scan_error_keeps_receiver {F : Type} (parseFloat : GoString → Except Error F) :
    (∀ a src, (StringArray.Scan a src).2 ≠ none → (StringArray.Scan a src).1 = a) ∧
    (∀ a src, (Int32Array.Scan a src).2 ≠ none → (Int32Array.Scan a src).1 = a) ∧
    (∀ a src, (Int64Array.Scan a src).2 ≠ none → (Int64Array.Scan a src).1 = a) ∧
    (∀ a src, (BoolArray.Scan a src).2 ≠ none → (BoolArray.Scan a src).1 = a) ∧
    (∀ a src, (UUIDArray.Scan a src).2 ≠ none → (UUIDArray.Scan a src).1 = a) ∧
    (∀ a src, (Float64Array.Scan parseFloat a src).2 ≠ none →
      (Float64Array.Scan parseFloat a src).1 = a) ∧
    (∀ a src, (TimeArray.Scan a src).2 ≠ none → (TimeArray.Scan a src).1 = a) ∧
    (∀ a src, (DurationArray.Scan a src).2 ≠ none → (DurationArray.Scan a src).1 = a) :=
  ⟨fun a src h => scanArray_error_keeps _ _ a src h,
    fun a src h => scanArray_error_keeps _ _ a src h,
    fun a src h => scanArray_error_keeps _ _ a src h,
    fun a src h => scanArray_error_keeps _ _ a src h,
    fun a src h => scanArray_error_keeps _ _ a src h,
    fun a src h => scanArray_error_keeps _ _ a src h,
    fun a src h => scanArray_error_keeps _ _ a src h,
    fun a src h => scanArray_error_keeps _ _ a src h⟩

/-- Witness of C17: `Int64Array.Scan` of `{1,x}` into a receiver holding `[7]`
fails at the second element and leaves `[7]`; a source of another type does
the same. -/
theorem C17_scan_error_keeps_receiver_witness :
    (Int64Array.Scan (some [7]) (.str ['{', '1', ',', 'x', '}'])).2 ≠ none ∧
    (Int64Array.Scan (some [7]) (.str ['{', '1', ',', 'x', '}'])).1 = some [7] ∧
    (Int64Array.Scan (some [7]) .other).2 ≠ none ∧
    (Int64Array.Scan (some [7]) .other).1 = some [7] :=
  ⟨by decide,
    (C17_scan_error_keeps_receiver (fun _ => (Except.ok 0 : Except Error Nat))).2.2.1
      (some [7]) (.str ['{', '1', ',', 'x', '}']) (by decide),
    by decide,
    (C17_scan_error_keeps_receiver (fun _ => (Except.ok 0 : Except Error Nat))).2.2.1
      (some [7]) .other (by decide)⟩

/-! ## The text written by `Value` -/

theorem Join_eq_intercalate (parts : List GoString) (sep : GoString) :
    Join parts sep = sep.intercalate parts := by
  induction parts with
  | nil => rfl
  | cons e es ih =>
    cases es with
    | nil => simp [Join, List.intercalate]
    | cons e2 es2 =>
      rw [Join_cons_cons, ih]
      simp [List.intercalate, List.intersperse]

theorem valueArray_cons {α : Type} (render : α → GoString) (x : α) (xs : List α) :
    valueArray render (some (x :: xs))
      = (.str (['{'] ++ [','].intercalate ((x :: xs).map render) ++ ['}']), none) := by
  have hlen : len (some (x :: xs)) ≠ 0 := by simp [len]
  unfold valueArray
  rw [if_neg hlen, Join_eq_intercalate]
  rfl

/-- C15: for every non-empty array of any kind, `Value` is `{`, the renderings
of the elements with one comma between neighbours, and `}`.  The rendering of
an element is its text between two double quotes for the string, timestamp,
interval and UUID kinds, and its bare text for the integer, float and boolean
kinds; a boolean is the letter `t` or `f`. -/
theorem C15_value_text {F : Type} (formatFloat : F → GoString) :
    (∀ x xs, StringArray.Value (some (x :: xs)) = (.str (['{'] ++
      [','].intercalate ((x :: xs).map (fun s => ['"'] ++ s ++ ['"'])) ++ ['}']), none)) ∧
    (∀ x xs, TimeArray.Value (some (x :: xs)) = (.str (['{'] ++
      [','].intercalate ((x :: xs).map (fun t => ['"'] ++ Time.Format t ++ ['"'])) ++ ['}']),
      none)) ∧
    (∀ x xs, DurationArray.Value (some (x :: xs)) = (.str (['{'] ++
      [','].intercalate ((x :: xs).map (fun d => ['"'] ++ Duration.String d ++ ['"']))
      ++ ['}']), none)) ∧
    (∀ x xs, UUIDArray.Value (some (x :: xs)) = (.str (['{'] ++
      [','].intercalate ((x :: xs).map (fun u => ['"'] ++ UUID.String u ++ ['"'])) ++ ['}']),
      none)) ∧
    (∀ x xs, Int32Array.Value (some (x :: xs)) = (.str (['{'] ++
      [','].intercalate ((x :: xs).map FormatInt) ++ ['}']), none)) ∧
    (∀ x xs, Int64Array.Value (some (x :: xs)) = (.str (['{'] ++
      [','].intercalate ((x :: xs).map FormatInt) ++ ['}']), none)) ∧
    (∀ x xs, Float64Array.Value formatFloat (some (x :: xs)) = (.str (['{'] ++
      [','].intercalate ((x :: xs).map formatFloat) ++ ['}']), none)) ∧
    (∀ x xs, BoolArray.Value (some (x :: xs)) = (.str (['{'] ++
      [','].intercalate ((x :: xs).map (fun b => if b then ['t'] else ['f'])) ++ ['}']),
      none)) ∧
    BoolArray.Value (some [true, false, true])
      = (.str ['{', 't', ',', 'f', ',', 't', '}'], none) ∧
    DurationArray.Value (some [3723000000000, 0])
      = (.str ['{', '"', '1', 'h', '2', 'm', '3', 's', '"', ',', '"', '0', 's', '"', '}'],
          none) :=
  ⟨fun x xs => valueArray_cons _ x xs, fun x xs => valueArray_cons _ x xs,
    fun x xs => valueArray_cons _ x xs, fun x xs => valueArray_cons _ x xs,
    fun x xs => valueArray_cons _ x xs, fun x xs => valueArray_cons _ x xs,
    fun x xs => valueArray_cons _ x xs, fun x xs => valueArray_cons _ x xs,
    by decide, by decide⟩

theorem scanArray_str {α : Type} (target : String) (parse : GoString → Except Error α)
    (a : Option (List α)) (t : GoString) :
    scanArray target parse a (.str t) =
      if Trim t ['{', '}'] = [] then (some [], none)
      else
        match scanLoop parse (Split (Trim t ['{', '}']) ',') with
        | .error e => (a, some e)
        | .ok result => (some result, none) := rfl

/-- The element loop fails exactly at the first element that is not parsed,
with the error of that element. -/
theorem scanLoop_error_iff {α : Type} (parse : GoString → Except Error α)
    (ps : List GoString) (e : Error) :
    scanLoop parse ps = .error e ↔
      ∃ pre p post, ps = pre ++ p :: post ∧ (∀ q ∈ pre, ∃ v, parse q = .ok v) ∧
        parse p = .error e := by
  induction ps with
  | nil =>
    constructor
    · intro h; simp [scanLoop] at h
    · rintro ⟨pre, p, post, h, -⟩
      simp at h
  | cons x xs ih =>
    cases hx : parse x with
    | error e1 =>
      constructor
      · intro h
        simp only [scanLoop, hx, Except.error.injEq] at h
        subst h
        exact ⟨[], x, xs, rfl, by simp, hx⟩
      · rintro ⟨pre, p, post, h, hpre, hp⟩
        cases pre with
        | nil =>
          simp only [List.nil_append, List.cons.injEq] at h
          rw [← h.1, hx] at hp
          simp only [Except.error.injEq] at hp
          simp only [scanLoop, hx, hp]
        | cons q qs =>
          simp only [List.cons_append, List.cons.injEq] at h
          obtain ⟨v, hv⟩ := hpre q (by simp)
          rw [← h.1, hx] at hv
          simp at hv
    | ok v =>
      constructor
      · intro h
        simp only [scanLoop, hx] at h
        cases hxs : scanLoop parse xs with
        | error e2 =>
          rw [hxs] at h
          simp only [Except.error.injEq] at h
          subst h
          obtain ⟨pre, p, post, h1, h2, h3⟩ := ih.mp hxs
          refine ⟨x :: pre, p, post, by rw [h1]; rfl, ?_, h3⟩
          intro q hq
          rcases List.mem_cons.mp hq with rfl | hq
          · exact ⟨v, hx⟩
          · exact h2 q hq
        | ok vs =>
          rw [hxs] at h
          simp at h
      · rintro ⟨pre, p, post, h, hpre, hp⟩
        cases pre with
        | nil =>
          simp only [List.nil_append, List.cons.injEq] at h
          rw [← h.1, hx] at hp
          simp at hp
        | cons q qs =>
          simp only [List.cons_append, List.cons.injEq] at h
          have := ih.mpr ⟨qs, p, post, h.2, fun r hr => hpre r (by simp [hr]), hp⟩
          simp only [scanLoop, hx, this]

/-- The element loop succeeds exactly when every element is parsed, and then
returns the parsed elements in order. -/
theorem scanLoop_ok_iff {α : Type} (parse : GoString → Except Error α) (f : GoString → α)
    (ps : List GoString) (hf : ∀ p v, parse p = .ok v → v = f p) :
    (∀ p ∈ ps, ∃ v, parse p = .ok v) ↔ scanLoop parse ps = .ok (ps.map f) := by
  induction ps with
  | nil => simp [scanLoop]
  | cons x xs ih =>
    constructor
    · intro h
      obtain ⟨v, hv⟩ := h x (by simp)
      have hxs := ih.mp (fun p hp => h p (by simp [hp]))
      simp only [scanLoop, hv, hxs, List.map_cons, hf x v hv]
    · intro h p hp
      cases hx : parse x with
      | error e => simp [scanLoop, hx] at h
      | ok v =>
        cases hxs : scanLoop parse xs with
        | error e => simp [scanLoop, hx, hxs] at h
        | ok vs =>
          simp only [scanLoop, hx, hxs, List.map_cons, Except.ok.injEq, List.cons.injEq] at h
          rcases List.mem_cons.mp hp with rfl | hp
          · exact ⟨v, hx⟩
          · exact ih.mpr (by rw [hxs, h.2]) p hp

/-! ## `BoolArray.Scan` -/

theorem BoolArray_parseElem_cases (p : GoString) :
    (BoolArray.parseElem p = .ok true ↔
      ToLower (TrimSpace p) ∈ [['t'], ['t', 'r', 'u', 'e']]) ∧
    (BoolArray.parseElem p = .ok false ↔
      ToLower (TrimSpace p) ∈ [['f'], ['f', 'a', 'l', 's', 'e']]) ∧
    (BoolArray.parseElem p = .error (.invalidBoolean p) ↔
      ToLower (TrimSpace p) ∉ [['t'], ['t', 'r', 'u', 'e'], ['f'], ['f', 'a', 'l', 's', 'e']]) := by
  unfold BoolArray.parseElem
  generalize ToLower (TrimSpace p) = w
  by_cases h1 : w = ['t'] ∨ w = ['t', 'r', 'u', 'e']
  · simp only [h1, if_true]
    rcases h1 with rfl | rfl <;> simp
  · simp only [h1, if_false]
    by_cases h2 : w = ['f'] ∨ w = ['f', 'a', 'l', 's', 'e']
    · simp only [h2, if_true]
      rcases h2 with rfl | rfl <;> simp
    · simp only [h2, if_false]
      simp only [not_or] at h1 h2
      simp [h1.1, h1.2, h2.1, h2.2]

theorem BoolArray_parseElem_ok (p : GoString) (v : Bool) (h : BoolArray.parseElem p = .ok v) :
    v = decide (ToLower (TrimSpace p) ∈ [['t'], ['t', 'r', 'u', 'e']]) := by
  unfold BoolArray.parseElem at h
  generalize ToLower (TrimSpace p) = w at h ⊢
  by_cases h1 : w = ['t'] ∨ w = ['t', 'r', 'u', 'e']
  · simp only [h1, if_true, Except.ok.injEq] at h
    rcases h1 with rfl | rfl <;> simp [← h]
  · simp only [h1, if_false] at h
    by_cases h2 : w = ['f'] ∨ w = ['f', 'a', 'l', 's', 'e']
    · simp only [h2, if_true, Except.ok.injEq] at h
      simp only [not_or] at h1
      simp [← h, h1.1, h1.2]
    · simp [h2] at h

theorem BoolArray_parseElem_accepts (p : GoString) :
    (∃ v, BoolArray.parseElem p = .ok v) ↔
      ToLower (TrimSpace p) ∈ [['t'], ['t', 'r', 'u', 'e'], ['f'], ['f', 'a', 'l', 's', 'e']] := by
  obtain ⟨ht, hf, he⟩ := BoolArray_parseElem_cases p
  constructor
  · rintro ⟨v, hv⟩
    by_contra hn
    rw [he.mpr hn] at hv
    simp at hv
  · intro h
    simp only [List.mem_cons, List.mem_singleton, List.not_mem_nil, or_false] at h
    rcases h with h | h | h | h
    · exact ⟨true, ht.mpr (by simp [h])⟩
    · exact ⟨true, ht.mpr (by simp [h])⟩
    · exact ⟨false, hf.mpr (by simp [h])⟩
    · exact ⟨false, hf.mpr (by simp [h])⟩

/-- C16: `BoolArray.Scan` accepts an element if and only if, after trimming the
white space around it and lower-casing, it is one of `t`, `true`, `f`, `false`;
the first two are decoded as true, the last two as false; any other element
makes `Scan` return an error (which carries the text of the element). -/
theorem C16_bool_scan_accepts (a : Option (List Bool)) (t : GoString)
    (ht : Trim t ['{', '}'] ≠ []) :
    (∀ p, BoolArray.parseElem p = .ok true ↔
      ToLower (TrimSpace p) ∈ [['t'], ['t', 'r', 'u', 'e']]) ∧
    (∀ p, BoolArray.parseElem p = .ok false ↔
      ToLower (TrimSpace p) ∈ [['f'], ['f', 'a', 'l', 's', 'e']]) ∧
    (∀ p, BoolArray.parseElem p = .error (.invalidBoolean p) ↔
      ToLower (TrimSpace p) ∉
        [['t'], ['t', 'r', 'u', 'e'], ['f'], ['f', 'a', 'l', 's', 'e']]) ∧
    ((BoolArray.Scan a (.str t)).2 = none ↔
      ∀ p ∈ Split (Trim t ['{', '}']) ',', ToLower (TrimSpace p) ∈
        [['t'], ['t', 'r', 'u', 'e'], ['f'], ['f', 'a', 'l', 's', 'e']]) ∧
    ((BoolArray.Scan a (.str t)).2 = none →
      (BoolArray.Scan a (.str t)).1 = some ((Split (Trim t ['{', '}']) ',').map
        (fun p => decide (ToLower (TrimSpace p) ∈ [['t'], ['t', 'r', 'u', 'e']])))) := by
  have hiff := scanLoop_ok_iff BoolArray.parseElem
    (fun p => decide (ToLower (TrimSpace p) ∈ [['t'], ['t', 'r', 'u', 'e']]))
    (Split (Trim t ['{', '}']) ',') BoolArray_parseElem_ok
  have hscan : BoolArray.Scan a (.str t) =
      match scanLoop BoolArray.parseElem (Split (Trim t ['{', '}']) ',') with
      | .error e => (a, some e)
      | .ok result => (some result, none) := by
    unfold BoolArray.Scan
    rw [scanArray_str, if_neg ht]
    cases scanLoop BoolArray.parseElem (Split (Trim t ['{', '}']) ',') <;> rfl
  refine ⟨fun p => (BoolArray_parseElem_cases p).1, fun p => (BoolArray_parseElem_cases p).2.1,
    fun p => (BoolArray_parseElem_cases p).2.2, ?_, ?_⟩
  · rw [hscan]
    constructor
    · intro h p hp
      apply (BoolArray_parseElem_accepts p).mp
      cases hr : scanLoop BoolArray.parseElem (Split (Trim t ['{', '}']) ',') with
      | error e => rw [hr] at h; simp at h
      | ok r =>
        have hall : ∀ q ∈ Split (Trim t ['{', '}']) ',', ∃ v, BoolArray.parseElem q = .ok v := by
          by_contra hne
          push_neg at hne
          obtain ⟨q, hq, hqe⟩ := hne
          cases hpq : BoolArray.parseElem q with
          | ok v => exact hqe v hpq
          | error e =>
            obtain ⟨pre, post, hsplit⟩ := List.append_of_mem hq
            -- the loop fails at the first element that is not parsed
            have : ∃ e2, scanLoop BoolArray.parseElem (Split (Trim t ['{', '}']) ',')
                = .error e2 := by
              clear hr h
              rw [hsplit]
              clear hsplit hq
              induction pre with
              | nil => exact ⟨e, by simp [scanLoop, hpq]⟩
              | cons y ys ih =>
                obtain ⟨e2, he2⟩ := ih
                cases hy : BoolArray.parseElem y with
                | error e3 => exact ⟨e3, by simp [scanLoop, hy]⟩
                | ok w => exact ⟨e2, by simp [scanLoop, hy, he2]⟩
            obtain ⟨e2, he2⟩ := this
            rw [he2] at hr
            simp at hr
        exact hall p hp
    · intro h
      rw [hiff.mp (fun p hp => (BoolArray_parseElem_accepts p).mpr (h p hp))]
  · intro h
    rw [hscan] at h ⊢
    cases hr : scanLoop BoolArray.parseElem (Split (Trim t ['{', '}']) ',') with
    | error e => rw [hr] at h; simp at h
    | ok r =>
      have hall : ∀ q ∈ Split (Trim t ['{', '}']) ',', ∃ v, BoolArray.parseElem q = .ok v := by
        intro q hq
        cases hpq : BoolArray.parseElem q with
        | ok v => exact ⟨v, rfl⟩
        | error e =>
          exfalso
          obtain ⟨pre, post, hsplit⟩ := List.append_of_mem hq
          have : ∃ e2, scanLoop BoolArray.parseElem (Split (Trim t ['{', '}']) ',')
              = .error e2 := by
            clear hr h
            rw [hsplit]
            clear hsplit hq
            induction pre with
            | nil => exact ⟨e, by simp [scanLoop, hpq]⟩
            | cons y ys ih =>
              obtain ⟨e2, he2⟩ := ih
              cases hy : BoolArray.parseElem y with
              | error e3 => exact ⟨e3, by simp [scanLoop, hy]⟩
              | ok w => exact ⟨e2, by simp [scanLoop, hy, he2]⟩
          obtain ⟨e2, he2⟩ := this
          rw [he2] at hr
          simp at hr
      have := hiff.mp hall
      rw [hr] at this
      simp only [Except.ok.injEq] at this
      simp only [this]

theorem C16_bool_scan_accepts_witness :
    Trim ['{', 'T', ',', ' ', 'f', 'a', 'l', 's', 'e', '}'] ['{', '}'] ≠ [] ∧
    BoolArray.Scan none (.str ['{', 'T', ',', ' ', 'f', 'a', 'l', 's', 'e', '}'])
      = (some [true, false], none) ∧
    (BoolArray.Scan none (.str ['{', 'T', ',', ' ', 'f', 'a', 'l', 's', 'e', '}'])).1
      = some ((Split (Trim ['{', 'T', ',', ' ', 'f', 'a', 'l', 's', 'e', '}'] ['{', '}']) ',').map
        (fun p => decide (ToLower (TrimSpace p) ∈ [['t'], ['t', 'r', 'u', 'e']]))) :=
  ⟨by decide, by rfl,
    (C16_bool_scan_accepts none ['{', 'T', ',', ' ', 'f', 'a', 'l', 's', 'e', '}']
      (by decide)).2.2.2.2 (by rfl)⟩

/-! ## What the error of `Scan` says about the bad element -/

theorem scanArray_str_error {α : Type} (target : String) (parse : GoString → Except Error α)
    (a : Option (List α)) (t : GoString) (e : Error)
    (h : (scanArray target parse a (.str t)).2 = some e) :
    scanLoop parse (Split (Trim t ['{', '}']) ',') = .error e := by
  rw [scanArray_str] at h
  by_cases ht : Trim t ['{', '}'] = []
  · rw [if_pos ht] at h
    simp at h
  · rw [if_neg ht] at h
    cases hr : scanLoop parse (Split (Trim t ['{', '}']) ',') with
    | error e2 =>
      rw [hr] at h
      simp only [Option.some.injEq] at h
      rw [h]
    | ok r =>
      rw [hr] at h
      simp at h

theorem ParseInt_error (s : GoString) (bitSize : Nat) (e : Error)
    (h : ParseInt s bitSize = .error e) :
    e = .numSyntax "ParseInt" s ∨ e = .numRange "ParseInt" s := by
  unfold ParseInt at h
  cases s with
  | nil =>
    simp only [Except.error.injEq] at h
    exact Or.inl h.symm
  | cons c cs =>
    simp only at h
    cases hu : ParseUint (if c = '+' ∨ c = '-' then cs else c :: cs) bitSize with
    | syntaxErr =>
      rw [hu] at h
      simp only [Except.error.injEq] at h
      exact Or.inl h.symm
    | rangeErr =>
      rw [hu] at h
      simp only [Except.error.injEq] at h
      exact Or.inr h.symm
    | ok un =>
      rw [hu] at h
      simp only at h
      split_ifs at h
      · simp only [Except.error.injEq] at h
        exact Or.inr h.symm
      · simp only [Except.error.injEq] at h
        exact Or.inr h.symm

theorem BoolArray_parseElem_error (p : GoString) (e : Error)
    (h : BoolArray.parseElem p = .error e) : e = .invalidBoolean p := by
  unfold BoolArray.parseElem at h
  simp only at h
  split_ifs at h
  simp only [Except.error.injEq] at h
  exact h.symm

/-- C18 (amended): when `Scan` fails on an element, the error is the parse error of
the first element that is not accepted, and it carries the text of that element
(the raw part for `BoolArray`, the trimmed part inside the `strconv` error for
`Int64Array`) but not its index: the same bad element after any accepted elements
gives the same error. -/
theorem C18_scan_error_carries_text (a : Option (List Bool)) (b : Option (List Int))
    (t : GoString) (e : Error) :
    ((BoolArray.Scan a (.str t)).2 = some e →
      ∃ pre p post, Split (Trim t ['{', '}']) ',' = pre ++ p :: post ∧
        (∀ q ∈ pre, ∃ v, BoolArray.parseElem q = .ok v) ∧
        BoolArray.parseElem p = .error e ∧ e = .invalidBoolean p) ∧
    ((Int64Array.Scan b (.str t)).2 = some e →
      ∃ pre p post, Split (Trim t ['{', '}']) ',' = pre ++ p :: post ∧
        (∀ q ∈ pre, ∃ v, ParseInt (TrimSpace q) 64 = .ok v) ∧
        ParseInt (TrimSpace p) 64 = .error e ∧
        (e = .numSyntax "ParseInt" (TrimSpace p) ∨ e = .numRange "ParseInt" (TrimSpace p))) ∧
    (∀ pre1 pre2 post1 post2 p,
      (∀ q ∈ pre1, ∃ v, BoolArray.parseElem q = .ok v) →
      (∀ q ∈ pre2, ∃ v, BoolArray.parseElem q = .ok v) →
      BoolArray.parseElem p = .error e →
      scanLoop BoolArray.parseElem (pre1 ++ p :: post1) = .error e ∧
      scanLoop BoolArray.parseElem (pre2 ++ p :: post2) = .error e) := by
  refine ⟨?_, ?_, ?_⟩
  · intro h
    obtain ⟨pre, p, post, h1, h2, h3⟩ :=
      (scanLoop_error_iff _ _ _).mp (scanArray_str_error _ _ _ _ _ h)
    exact ⟨pre, p, post, h1, h2, h3, BoolArray_parseElem_error p e h3⟩
  · intro h
    obtain ⟨pre, p, post, h1, h2, h3⟩ :=
      (scanLoop_error_iff _ _ _).mp (scanArray_str_error _ _ _ _ _ h)
    exact ⟨pre, p, post, h1, h2, h3, ParseInt_error _ _ e h3⟩
  · intro pre1 pre2 post1 post2 p h1 h2 hp
    exact ⟨(scanLoop_error_iff _ _ _).mpr ⟨pre1, p, post1, rfl, h1, hp⟩,
      (scanLoop_error_iff _ _ _).mpr ⟨pre2, p, post2, rfl, h2, hp⟩⟩

theorem C18_scan_error_carries_text_witness :
    (BoolArray.Scan none (.str ['{', 't', ',', 'x', '}'])).2 = some (.invalidBoolean ['x']) ∧
    ∃ pre p post, Split (Trim ['{', 't', ',', 'x', '}'] ['{', '}']) ',' = pre ++ p :: post ∧
      (∀ q ∈ pre, ∃ v, BoolArray.parseElem q = .ok v) ∧
      BoolArray.parseElem p = .error (.invalidBoolean ['x']) ∧
      Error.invalidBoolean ['x'] = .invalidBoolean p :=
  ⟨by rfl, (C18_scan_error_carries_text none none ['{', 't', ',', 'x', '}']
    (.invalidBoolean ['x'])).1 (by rfl)⟩

/-- C18 (counterexample): `BoolArray.Scan` of `{x,t}` and of `{t,x}` return the
same error although the first bad element sits at index 0 in one and at index 1
in the other; so do `Int64Array.Scan` of `{x,1}` and of `{1,x}`. -/
theorem C18_same_error_at_different_index :
    (BoolArray.Scan none (.str ['{', 'x', ',', 't', '}'])).2 = some (.invalidBoolean ['x']) ∧
    (BoolArray.Scan none (.str ['{', 't', ',', 'x', '}'])).2 = some (.invalidBoolean ['x']) ∧
    (BoolArray.Scan none (.str ['{', 'x', ',', 't', '}'])).2 =
      (BoolArray.Scan none (.str ['{', 't', ',', 'x', '}'])).2 ∧
    (Int64Array.Scan none (.str ['{', 'x', ',', '1', '}'])).2 =
      some (.numSyntax "ParseInt" ['x']) ∧
    (Int64Array.Scan none (.str ['{', '1', ',', 'x', '}'])).2 =
      some (.numSyntax "ParseInt" ['x']) :=
  ⟨by rfl, by rfl, by rfl, by rfl, by rfl⟩

/-! ## Which texts `ParseDuration` accepts -/

theorem leadingInt_prefix : ∀ (s : GoString) (x v : Nat) (s1 : GoString),
    leadingInt s x = some (v, s1) →
      ∃ ds, s = ds ++ s1 ∧ ∀ c ∈ ds, (digitVal c).isSome = true := by
  intro s
  induction s with
  | nil =>
    intro x v s1 h
    simp only [leadingInt, Option.some.injEq, Prod.mk.injEq] at h
    exact ⟨[], by rw [← h.2]; rfl, by simp⟩
  | cons c cs ih =>
    intro x v s1 h
    unfold leadingInt at h
    cases hd : digitVal c with
    | none =>
      simp only [hd, Option.some.injEq, Prod.mk.injEq] at h
      exact ⟨[], by rw [← h.2]; rfl, by simp⟩
    | some d =>
      simp only [hd] at h
      split_ifs at h
      obtain ⟨ds, h1, h2⟩ := ih _ _ _ h
      refine ⟨c :: ds, by rw [h1]; rfl, ?_⟩
      intro a ha
      rcases List.mem_cons.mp ha with rfl | ha
      · rw [hd]; rfl
      · exact h2 a ha

theorem leadingFraction_prefix : ∀ (s : GoString) (x : Nat) (scale : Option (Nat × Int))
    (o : Bool),
    ∃ ds, s = ds ++ (leadingFraction s x scale o).2.2 ∧
      ∀ c ∈ ds, (digitVal c).isSome = true := by
  intro s
  induction s with
  | nil => intro x scale o; exact ⟨[], by simp [leadingFraction], by simp⟩
  | cons c cs ih =>
    intro x scale o
    unfold leadingFraction
    cases hd : digitVal c with
    | none => exact ⟨[], by simp, by simp⟩
    | some d =>
      have hc : ∀ a ∈ [c], (digitVal a).isSome = true := by
        intro a ha
        rw [List.mem_singleton.mp ha, hd]; rfl
      simp only
      split_ifs
      all_goals
        obtain ⟨ds, h1, h2⟩ := ih _ _ _
        refine ⟨c :: ds, congrArg (List.cons c) h1, ?_⟩
        intro a ha
        rcases List.mem_cons.mp ha with rfl | ha
        · exact hc a (by simp)
        · exact h2 a ha

theorem fractionStep_prefix (s1 : GoString) :
    ∃ ds, s1 = ds ++ (fractionStep s1).2.2.1 ∧
      ∀ c ∈ ds, (digitVal c).isSome = true ∨ c = '.' := by
  unfold fractionStep
  split
  · rename_i s2
    obtain ⟨ds, h1, h2⟩ := leadingFraction_prefix s2 0 (some (1, 0)) false
    refine ⟨'.' :: ds, congrArg (List.cons '.') h1, ?_⟩
    intro a ha
    rcases List.mem_cons.mp ha with rfl | ha
    · exact Or.inr rfl
    · exact Or.inl (h2 a ha)
  · exact ⟨[], rfl, by simp⟩

theorem unitMap_chars (u : GoString) (unit : Nat) (h : unitMap u = some unit) :
    ∀ c ∈ u, c ∈ ['n', 's', 'u', 'µ', 'μ', 'm', 'h'] := by
  unfold unitMap at h
  split_ifs at h with h1 h2 h3 h4 h5 h6 h7 h8
  all_goals
    subst u
    decide

/-- A round of `ParseDuration` that succeeds has read digits, periods and letters
of unit names only. -/
theorem durationRound_prefix (orig s r : GoString) (d d1 : Nat)
    (h : durationRound orig s d = .ok (r, d1)) :
    ∃ pre, s = pre ++ r ∧ ∀ c ∈ pre, (digitVal c).isSome = true ∨
      c ∈ ['.', '-', '+', 'n', 's', 'u', 'µ', 'μ', 'm', 'h'] := by
  unfold durationRound at h
  cases hli : leadingInt s 0 with
  | none =>
    simp only [hli] at h
    split_ifs at h
  | some p =>
    obtain ⟨v, s1⟩ := p
    obtain ⟨ds1, hs, hds1⟩ := leadingInt_prefix _ _ _ _ hli
    obtain ⟨ds2, hs1, hds2⟩ := fractionStep_prefix s1
    have hsplit := List.takeWhile_append_dropWhile (fun c => ! endsUnit c)
      (fractionStep s1).2.2.1
    simp only [hli] at h
    cases hm : unitMap (List.takeWhile (fun c => ! endsUnit c) (fractionStep s1).2.2.1) with
    | none =>
      simp only [hm] at h
      split_ifs at h
    | some unit =>
      have hu := unitMap_chars _ _ hm
      simp only [hm] at h
      have hpre : ∀ c ∈ ds1 ++ ds2 ++
          List.takeWhile (fun c => ! endsUnit c) (fractionStep s1).2.2.1,
          (digitVal c).isSome = true ∨
            c ∈ ['.', '-', '+', 'n', 's', 'u', 'µ', 'μ', 'm', 'h'] := by
        intro c hc
        rcases List.mem_append.mp hc with hc | hc
        · rcases List.mem_append.mp hc with hc | hc
          · exact Or.inl (hds1 c hc)
          · rcases hds2 c hc with hc | hc
            · exact Or.inl hc
            · exact Or.inr (by rw [hc]; decide)
        · have := hu c hc
          refine Or.inr ?_
          simp only [List.mem_cons, List.mem_singleton, List.not_mem_nil, or_false] at this ⊢
          tauto
      split_ifs at h
      all_goals
        simp only [Except.ok.injEq, Prod.mk.injEq] at h
        refine ⟨_, ?_, hpre⟩
        rw [← h.1, List.append_assoc, List.append_assoc, hsplit, ← hs1, ← hs]

theorem parseDurationLoop_chars (orig : GoString) : ∀ (fuel : Nat) (s : GoString) (d d1 : Nat),
    parseDurationLoop orig fuel s d = .ok d1 →
      ∀ c ∈ s, (digitVal c).isSome = true ∨
        c ∈ ['.', '-', '+', 'n', 's', 'u', 'µ', 'μ', 'm', 'h'] := by
  intro fuel
  induction fuel with
  | zero =>
    intro s d d1 h
    cases s with
    | nil => simp
    | cons a as => simp [parseDurationLoop] at h
  | succ f ih =>
    intro s d d1 h
    cases s with
    | nil => simp
    | cons a as =>
      simp only [parseDurationLoop] at h
      cases hr : durationRound orig (a :: as) d with
      | error e => simp [hr] at h
      | ok p =>
        obtain ⟨r, d2⟩ := p
        simp only [hr] at h
        obtain ⟨pre, hs, hpre⟩ := durationRound_prefix _ _ _ _ _ hr
        have hrest := ih r d2 d1 h
        intro c hc
        rw [hs] at hc
        rcases List.mem_append.mp hc with hc | hc
        · exact hpre c hc
        · exact hrest c hc

theorem stripSign_mem (s : GoString) (c : Char) (hc : c ∈ s) :
    c ∈ stripSign s ∨ c = '-' ∨ c = '+' := by
  unfold stripSign
  split
  · rcases List.mem_cons.mp hc with h | h
    · exact Or.inr (Or.inl h)
    · exact Or.inl h
  · rcases List.mem_cons.mp hc with h | h
    · exact Or.inr (Or.inr h)
    · exact Or.inl h
  · exact Or.inl hc

/-- A text accepted by `ParseDuration` is made of digits, periods, signs and
letters of unit names. -/
theorem ParseDuration_chars (s : GoString) (d : Int) (h : ParseDuration s = .ok d) :
    ∀ c ∈ s, (digitVal c).isSome = true ∨
      c ∈ ['.', '-', '+', 'n', 's', 'u', 'µ', 'μ', 'm', 'h'] := by
  intro c hc
  rcases stripSign_mem s c hc with hc1 | hc1 | hc1
  · by_cases h0 : stripSign s = ['0']
    · rw [h0] at hc1
      rw [List.mem_singleton.mp hc1]
      exact Or.inl (by decide)
    · cases hl : parseDurationLoop s (stripSign s).length (stripSign s) 0 with
      | error e =>
        unfold ParseDuration at h
        simp only [hl, h0, if_false] at h
        split_ifs at h
      | ok d2 => exact parseDurationLoop_chars s _ _ _ _ hl c hc1
  · exact Or.inr (by rw [hc1]; decide)
  · exact Or.inr (by rw [hc1]; decide)

/-- A text with a `y`, an `o` or a colon is not a duration literal. -/
theorem ParseDuration_error_of_mem (s : GoString) (c : Char) (hc : c ∈ s)
    (hyo : c = 'y' ∨ c = 'o' ∨ c = ':') : ∃ e, ParseDuration s = .error e := by
  cases h : ParseDuration s with
  | error e => exact ⟨e, rfl⟩
  | ok d =>
    exfalso
    have := ParseDuration_chars s d h c hc
    rcases hyo with rfl | rfl | rfl
    · revert this; decide
    · revert this; decide
    · revert this; decide

/-! ## `strings.Fields` -/

theorem fieldsAux_mem : ∀ (s cur w : GoString), w ∈ fieldsAux s cur →
    ∀ c ∈ w, c ∈ s ∨ c ∈ cur := by
  intro s
  induction s with
  | nil =>
    intro cur w hw c hc
    unfold fieldsAux at hw
    split_ifs at hw
    · simp at hw
    · rw [List.mem_singleton.mp hw] at hc
      exact Or.inr (List.mem_reverse.mp hc)
  | cons a as ih =>
    intro cur w hw c hc
    unfold fieldsAux at hw
    split_ifs at hw with hsp hcur
    · rcases ih [] w hw c hc with h | h
      · exact Or.inl (List.mem_cons_of_mem _ h)
      · simp at h
    · rcases List.mem_cons.mp hw with h | h
      · rw [h] at hc
        exact Or.inr (List.mem_reverse.mp hc)
      · rcases ih [] w h c hc with h | h
        · exact Or.inl (List.mem_cons_of_mem _ h)
        · simp at h
    · rcases ih (a :: cur) w hw c hc with h | h
      · exact Or.inl (List.mem_cons_of_mem _ h)
      · rcases List.mem_cons.mp h with h | h
        · exact Or.inl (by rw [h]; exact List.mem_cons_self _ _)
        · exact Or.inr h

/-- The characters of a field are characters of the text. -/
theorem Fields_mem (s w : GoString) (hw : w ∈ Fields s) : ∀ c ∈ w, c ∈ s := by
  intro c hc
  rcases fieldsAux_mem s [] w hw c hc with h | h
  · exact h
  · simp at h

theorem fieldsAux_dropWhile (s : GoString) :
    fieldsAux (s.dropWhile isSpace) [] = fieldsAux s [] := by
  induction s with
  | nil => rfl
  | cons a as ih =>
    by_cases ha : isSpace a = true
    · rw [List.dropWhile_cons_of_pos ha, ih]
      simp [fieldsAux, ha]
    · rw [List.dropWhile_cons_of_neg ha]

theorem fieldsAux_all_space (sp : GoString) (h : ∀ c ∈ sp, isSpace c = true) :
    fieldsAux sp [] = [] := by
  induction sp with
  | nil => rfl
  | cons a as ih =>
    have ha := h a (List.mem_cons_self _ _)
    simp only [fieldsAux, ha, if_true]
    exact ih (fun c hc => h c (List.mem_cons_of_mem _ hc))

theorem fieldsAux_append_space : ∀ (s cur sp : GoString), (∀ c ∈ sp, isSpace c = true) →
    fieldsAux (s ++ sp) cur = fieldsAux s cur := by
  intro s
  induction s with
  | nil =>
    intro cur sp h
    cases sp with
    | nil => rfl
    | cons a as =>
      have ha := h a (List.mem_cons_self _ _)
      have has := fieldsAux_all_space as (fun c hc => h c (List.mem_cons_of_mem _ hc))
      simp only [List.nil_append, fieldsAux, ha, if_true, has]
  | cons a as ih =>
    intro cur sp h
    have e1 := ih [] sp h
    have e2 := ih (a :: cur) sp h
    change fieldsAux (a :: (as ++ sp)) cur = fieldsAux (a :: as) cur
    unfold fieldsAux
    rw [e1, e2]

theorem trimRightFunc_append (p : Char → Bool) (t : GoString) :
    ∃ sp, t = trimRightFunc p t ++ sp ∧ ∀ c ∈ sp, p c = true := by
  refine ⟨(t.reverse.takeWhile p).reverse, ?_, ?_⟩
  · unfold trimRightFunc
    rw [← List.reverse_append, List.takeWhile_append_dropWhile, List.reverse_reverse]
  · intro c hc
    exact List.mem_takeWhile_imp (List.mem_reverse.mp hc)

/-- The fields of a text are those of the trimmed text. -/
theorem Fields_TrimSpace (s : GoString) : Fields (TrimSpace s) = Fields s := by
  unfold Fields TrimSpace
  obtain ⟨sp, h1, h2⟩ := trimRightFunc_append isSpace (trimLeftFunc isSpace s)
  rw [← fieldsAux_dropWhile s]
  unfold trimLeftFunc at h1 ⊢
  conv_rhs => rw [h1]
  rw [fieldsAux_append_space _ _ _ h2]

theorem fieldsAux_ne_nil : ∀ (s cur : GoString),
    (cur ≠ [] ∨ ∃ c ∈ s, isSpace c = false) → fieldsAux s cur ≠ [] := by
  intro s
  induction s with
  | nil =>
    intro cur h
    rcases h with h | ⟨c, hc, -⟩
    · simp [fieldsAux, h]
    · simp at hc
  | cons a as ih =>
    intro cur h
    unfold fieldsAux
    split_ifs with hsp hcur
    · apply ih
      rcases h with h | ⟨c, hc, hcs⟩
      · exact absurd hcur h
      · rcases List.mem_cons.mp hc with rfl | hc
        · rw [hsp] at hcs; simp at hcs
        · exact Or.inr ⟨c, hc, hcs⟩
    · simp
    · exact ih _ (Or.inl (by simp))

/-- A text that is not blank has a field. -/
theorem Fields_ne_nil (s : GoString) (h : TrimSpace s ≠ []) : Fields s ≠ [] := by
  apply fieldsAux_ne_nil
  refine Or.inr ?_
  by_contra hn
  push_neg at hn
  exact h (TrimSpace_all_space s (fun c hc => by simpa using hn c hc))

theorem getnum_suffix (s : GoString) (fixed : Bool) (n : Nat) (r : GoString)
    (h : getnum s fixed = some (n, r)) : ∃ pre, s = pre ++ r := by
  unfold getnum at h
  cases s with
  | nil => simp at h
  | cons c0 r0 =>
    simp only at h
    cases hd0 : digitVal c0 with
    | none => simp [hd0] at h
    | some d0 =>
      simp only [hd0] at h
      cases r0 with
      | nil =>
        simp only at h
        split_ifs at h
        simp only [Option.some.injEq, Prod.mk.injEq] at h
        exact ⟨[c0], by rw [← h.2]; rfl⟩
      | cons c1 r1 =>
        simp only at h
        cases hd1 : digitVal c1 with
        | none =>
          simp only [hd1] at h
          split_ifs at h
          simp only [Option.some.injEq, Prod.mk.injEq] at h
          exact ⟨[c0], by rw [← h.2]; rfl⟩
        | some d1 =>
          simp only [hd1, Option.some.injEq, Prod.mk.injEq] at h
          exact ⟨[c0, c1], by rw [← h.2]; rfl⟩

/-- A text accepted as a clock time has a colon. -/
theorem parseClock_colon (p : GoString) (t : Clock) (h : parseClock p = .ok t) : ':' ∈ p := by
  unfold parseClock at h
  cases hh : parseHMS p with
  | none => simp [hh] at h
  | some q =>
    unfold parseHMS at hh
    cases hg : getnum p false with
    | none => simp [hg] at hh
    | some r =>
      obtain ⟨hour, v1⟩ := r
      obtain ⟨pre, hpre⟩ := getnum_suffix _ _ _ _ hg
      simp only [hg] at hh
      split_ifs at hh
      cases v1 with
      | nil => simp at hh
      | cons c v2 =>
        by_cases hc : c = ':'
        · rw [hpre, hc]
          simp
        · exfalso
          revert hh
          split
          · rename_i heq
            simp only [List.cons.injEq] at heq
            exact absurd heq.1 hc
          · simp

/-! ## `parsePostgresInterval` on text that is not a duration literal -/

/-- Outside the form `<n> days <clock>` the first field alone decides: it is read
as a clock time, and the other fields are not looked at. -/
theorem parsePostgresInterval_first_field (s : GoString) (e0 : Error)
    (hne : TrimSpace s ≠ []) (hd : ParseDuration (TrimSpace s) = .error e0)
    (h3 : ¬ ((Fields s).length = 3 ∧ (Fields s)[1]? = some ['d', 'a', 'y', 's'])) :
    (∀ t, parseClock ((Fields s)[0]?.getD []) = .ok t →
      parsePostgresInterval s = some (.ok (toInt64 (0 + (t.hour : Int) * Hour
        + (t.minute : Int) * Minute + (t.second : Int) * Second)))) ∧
    (∀ e, parseClock ((Fields s)[0]?.getD []) = .error e →
      parsePostgresInterval s = some (.error (.unsupportedInterval (TrimSpace s)))) := by
  have hF := Fields_ne_nil s hne
  generalize hp : Fields s = parts at hF h3
  cases parts with
  | nil => exact absurd rfl hF
  | cons p0 rest =>
    constructor
    · intro t ht
      simp only [List.getElem?_cons_zero, Option.getD_some] at ht
      simp only [parsePostgresInterval, hne, hd, Fields_TrimSpace, hp, if_false, h3,
        List.getElem?_cons_zero, ht]
    · intro e he
      simp only [List.getElem?_cons_zero, Option.getD_some] at he
      simp only [parsePostgresInterval, hne, hd, Fields_TrimSpace, hp, if_false, h3,
        List.getElem?_cons_zero, he]

/-- In the form `<n> days <clock>` the first field with `24h` appended is read as
a duration literal and the third field as a clock time. -/
theorem parsePostgresInterval_days (s : GoString) (e0 : Error)
    (hne : TrimSpace s ≠ []) (hd : ParseDuration (TrimSpace s) = .error e0)
    (h3 : (Fields s).length = 3 ∧ (Fields s)[1]? = some ['d', 'a', 'y', 's']) :
    (∀ e, ParseDuration ((Fields s)[0]?.getD [] ++ ['2', '4', 'h']) = .error e →
      parsePostgresInterval s = some (.error e)) ∧
    (∀ days e, ParseDuration ((Fields s)[0]?.getD [] ++ ['2', '4', 'h']) = .ok days →
      parseClock ((Fields s)[2]?.getD []) = .error e →
      parsePostgresInterval s = some (.error (.unsupportedInterval (TrimSpace s)))) ∧
    (∀ days t, ParseDuration ((Fields s)[0]?.getD [] ++ ['2', '4', 'h']) = .ok days →
      parseClock ((Fields s)[2]?.getD []) = .ok t →
      parsePostgresInterval s = some (.ok (toInt64 (days + (t.hour : Int) * Hour
        + (t.minute : Int) * Minute + (t.second : Int) * Second)))) := by
  generalize hp : Fields s = parts at h3
  match parts, h3 with
  | [p0, p1, p2], h3 =>
    have h3b : ([p0, p1, p2].length = 3 ∧ [p0, p1, p2][1]? = some ['d', 'a', 'y', 's']) := h3
    refine ⟨?_, ?_, ?_⟩
    · intro e he
      simp only [List.getElem?_cons_zero, Option.getD_some] at he
      simp only [parsePostgresInterval, hne, hd, Fields_TrimSpace, hp, if_false, h3b,
        List.getElem?_cons_zero, Option.getD_some, he, and_self, if_true]
    · intro days e he hc
      simp only [List.getElem?_cons_zero, Option.getD_some] at he
      have hc2 : parseClock p2 = .error e := hc
      have h2 : [p0, p1, p2][2]? = some p2 := rfl
      simp only [parsePostgresInterval, hne, hd, Fields_TrimSpace, hp, if_false, h3b,
        List.getElem?_cons_zero, Option.getD_some, he, and_self, if_true, h2, hc2]
    · intro days t he hc
      simp only [List.getElem?_cons_zero, Option.getD_some] at he
      have hc2 : parseClock p2 = .ok t := hc
      have h2 : [p0, p1, p2][2]? = some p2 := rfl
      simp only [parsePostgresInterval, hne, hd, Fields_TrimSpace, hp, if_false, h3b,
        List.getElem?_cons_zero, Option.getD_some, he, and_self, if_true, h2, hc2]

theorem parsePostgresInterval_blank (s : GoString) (h : TrimSpace s = []) :
    parsePostgresInterval s = some (.ok 0) := by
  simp only [parsePostgresInterval, h, if_true]

theorem parsePostgresInterval_literal (s : GoString) (d : Int) (hne : TrimSpace s ≠ [])
    (hd : ParseDuration (TrimSpace s) = .ok d) : parsePostgresInterval s = some (.ok d) := by
  simp only [parsePostgresInterval, hne, if_false, hd]

theorem word_has_y_or_o (w : GoString)
    (hword : w ∈ [['y', 'e', 'a', 'r'], ['y', 'e', 'a', 'r', 's'], ['m', 'o', 'n'],
      ['m', 'o', 'n', 's']]) :
    (∃ c ∈ w, c = 'y' ∨ c = 'o' ∨ c = ':') ∧ w ≠ ['d', 'a', 'y', 's'] ∧ ':' ∉ w := by
  simp only [List.mem_cons, List.mem_singleton, List.not_mem_nil, or_false] at hword
  rcases hword with rfl | rfl | rfl | rfl
  · exact ⟨⟨'y', by decide, Or.inl rfl⟩, by decide, by decide⟩
  · exact ⟨⟨'y', by decide, Or.inl rfl⟩, by decide, by decide⟩
  · exact ⟨⟨'o', by decide, Or.inr (Or.inl rfl)⟩, by decide, by decide⟩
  · exact ⟨⟨'o', by decide, Or.inr (Or.inl rfl)⟩, by decide, by decide⟩

theorem parseClock_error_of_no_colon (p : GoString) (h : ':' ∉ p) :
    ∃ e, parseClock p = .error e := by
  cases hc : parseClock p with
  | error e => exact ⟨e, rfl⟩
  | ok t => exact absurd (parseClock_colon p t hc) h

/-- C12 (amended): a text with a token `year`, `years`, `mon` or `mons` is never
read as a duration literal, and `parsePostgresInterval` returns an error for it
if and only if the text is of the form `<n> days <clock>` (three tokens, the
second being `days`) or its first token is not a clock time; `1 year` fails. -/
theorem C12_year_month_tokens (s w : GoString) (hw : w ∈ Fields s)
    (hword : w ∈ [['y', 'e', 'a', 'r'], ['y', 'e', 'a', 'r', 's'], ['m', 'o', 'n'],
      ['m', 'o', 'n', 's']]) :
    (∃ e, ParseDuration (TrimSpace s) = .error e) ∧
    ((∃ e, parsePostgresInterval s = some (.error e)) ↔
      ((Fields s).length = 3 ∧ (Fields s)[1]? = some ['d', 'a', 'y', 's']) ∨
        ∃ e, parseClock ((Fields s)[0]?.getD []) = .error e) ∧
    parsePostgresInterval ['1', ' ', 'y', 'e', 'a', 'r']
      = some (.error (.unsupportedInterval ['1', ' ', 'y', 'e', 'a', 'r'])) := by
  obtain ⟨⟨c, hcw, hc⟩, hdays, hcolon⟩ := word_has_y_or_o w hword
  have hcs : c ∈ TrimSpace s := Fields_mem _ w (by rw [Fields_TrimSpace]; exact hw) c hcw
  have hne : TrimSpace s ≠ [] := List.ne_nil_of_mem hcs
  obtain ⟨e0, hd⟩ := ParseDuration_error_of_mem _ c hcs hc
  refine ⟨⟨e0, hd⟩, ?_, by rfl⟩
  by_cases h3 : (Fields s).length = 3 ∧ (Fields s)[1]? = some ['d', 'a', 'y', 's']
  · simp only [h3, and_self, true_or, iff_true]
    obtain ⟨hA, hB, hC⟩ := parsePostgresInterval_days s e0 hne hd h3
    cases hp : ParseDuration ((Fields s)[0]?.getD [] ++ ['2', '4', 'h']) with
    | error e => exact ⟨e, hA e hp⟩
    | ok days =>
      obtain ⟨e, he⟩ : ∃ e, parseClock ((Fields s)[2]?.getD []) = .error e := by
        generalize hF : Fields s = parts at hw h3 hp
        match parts, h3 with
        | [p0, p1, p2], h3 =>
          have h1 : p1 = ['d', 'a', 'y', 's'] := by
            have := h3.2
            simp only [List.getElem?_cons_succ, List.getElem?_cons_zero,
              Option.some.injEq] at this
            exact this
          simp only [List.mem_cons, List.mem_singleton, List.not_mem_nil, or_false] at hw
          rcases hw with h | h | h
          · exfalso
            subst h
            obtain ⟨e, he⟩ := ParseDuration_error_of_mem (w ++ ['2', '4', 'h']) c
              (List.mem_append_left _ hcw) hc
            simp only [List.getElem?_cons_zero, Option.getD_some] at hp
            rw [hp] at he
            simp at he
          · exact absurd (h.trans h1) hdays
          · subst h
            exact parseClock_error_of_no_colon w hcolon
      exact ⟨_, hB days e hp he⟩
  · simp only [h3, false_or]
    obtain ⟨hA, hB⟩ := parsePostgresInterval_first_field s e0 hne hd h3
    cases hp : parseClock ((Fields s)[0]?.getD []) with
    | error e => exact ⟨fun _ => ⟨e, rfl⟩, fun _ => ⟨_, hB e hp⟩⟩
    | ok t =>
      constructor
      · rintro ⟨e, he⟩
        rw [hA t hp] at he
        simp at he
      · rintro ⟨e, he⟩
        simp at he

theorem C12_year_month_tokens_witness :
    ['y', 'e', 'a', 'r'] ∈ Fields ['1', ' ', 'y', 'e', 'a', 'r'] ∧
    ((∃ e, parsePostgresInterval ['1', ' ', 'y', 'e', 'a', 'r'] = some (.error e)) ↔
      ((Fields ['1', ' ', 'y', 'e', 'a', 'r']).length = 3 ∧
        (Fields ['1', ' ', 'y', 'e', 'a', 'r'])[1]? = some ['d', 'a', 'y', 's']) ∨
        ∃ e, parseClock ((Fields ['1', ' ', 'y', 'e', 'a', 'r'])[0]?.getD []) = .error e) :=
  ⟨by decide, (C12_year_month_tokens ['1', ' ', 'y', 'e', 'a', 'r'] ['y', 'e', 'a', 'r']
    (by decide) (by decide)).2.1⟩

/-- C12 (counterexample): `03:04:05 year` has the token `year`, and
`parsePostgresInterval` returns 3h4m5s for it, without error. -/
theorem C12_clock_before_year_is_accepted :
    ['y', 'e', 'a', 'r'] ∈ Fields ['0', '3', ':', '0', '4', ':', '0', '5', ' ', 'y', 'e', 'a', 'r'] ∧
    parsePostgresInterval ['0', '3', ':', '0', '4', ':', '0', '5', ' ', 'y', 'e', 'a', 'r']
      = some (.ok (11045 * Second)) :=
  ⟨by decide, by rfl⟩

/-- C13 (amended): `parsePostgresInterval` returns an error exactly when the text
is not blank, is not a duration literal, and the token it reads as a clock time
is not one: that token is the third one when the text is three tokens with
`days` in the middle (and then the first token with `24h` appended must also be
a duration literal), and the first one otherwise.  Outside that form the tokens
after the first are not looked at: a first token that is a clock time gives its
value whatever follows. -/
theorem C13_interval_error_iff (s : GoString) :
    ((∃ e, parsePostgresInterval s = some (.error e)) ↔
      TrimSpace s ≠ [] ∧ (∃ e, ParseDuration (TrimSpace s) = .error e) ∧
      (((Fields s).length = 3 ∧ (Fields s)[1]? = some ['d', 'a', 'y', 's']) →
        (∃ e, ParseDuration ((Fields s)[0]?.getD [] ++ ['2', '4', 'h']) = .error e) ∨
          ∃ e, parseClock ((Fields s)[2]?.getD []) = .error e) ∧
      (¬ ((Fields s).length = 3 ∧ (Fields s)[1]? = some ['d', 'a', 'y', 's']) →
        ∃ e, parseClock ((Fields s)[0]?.getD []) = .error e)) ∧
    (∀ t, ¬ ((Fields s).length = 3 ∧ (Fields s)[1]? = some ['d', 'a', 'y', 's']) →
      parseClock ((Fields s)[0]?.getD []) = .ok t →
      parsePostgresInterval s = some (.ok (toInt64 (0 + (t.hour : Int) * Hour
        + (t.minute : Int) * Minute + (t.second : Int) * Second)))) := by
  constructor
  · by_cases hne : TrimSpace s = []
    · rw [parsePostgresInterval_blank s hne]
      simp [hne]
    · cases hd : ParseDuration (TrimSpace s) with
      | ok d =>
        rw [parsePostgresInterval_literal s d hne hd]
        simp
      | error e0 =>
        by_cases h3 : (Fields s).length = 3 ∧ (Fields s)[1]? = some ['d', 'a', 'y', 's']
        · obtain ⟨hA, hB, hC⟩ := parsePostgresInterval_days s e0 hne hd h3
          cases hp : ParseDuration ((Fields s)[0]?.getD [] ++ ['2', '4', 'h']) with
          | error e =>
            refine ⟨fun _ => ⟨hne, ⟨e0, rfl⟩, fun _ => Or.inl ⟨e, rfl⟩, fun h => absurd h3 h⟩,
              fun _ => ⟨e, hA e hp⟩⟩
          | ok days =>
            cases hc : parseClock ((Fields s)[2]?.getD []) with
            | error e =>
              refine ⟨fun _ => ⟨hne, ⟨e0, rfl⟩, fun _ => Or.inr ⟨e, rfl⟩,
                fun h => absurd h3 h⟩, fun _ => ⟨_, hB days e hp hc⟩⟩
            | ok t =>
              constructor
              · rintro ⟨e, he⟩
                rw [hC days t hp hc] at he
                simp at he
              · rintro ⟨-, -, h, -⟩
                rcases h h3 with ⟨e, he⟩ | ⟨e, he⟩ <;> simp at he
        · obtain ⟨hA, hB⟩ := parsePostgresInterval_first_field s e0 hne hd h3
          cases hc : parseClock ((Fields s)[0]?.getD []) with
          | error e =>
            refine ⟨fun _ => ⟨hne, ⟨e0, rfl⟩, fun h => absurd h h3, fun _ => ⟨e, rfl⟩⟩,
              fun _ => ⟨_, hB e hc⟩⟩
          | ok t =>
            constructor
            · rintro ⟨e, he⟩
              rw [hA t hc] at he
              simp at he
            · rintro ⟨-, -, -, h⟩
              obtain ⟨e, he⟩ := h h3
              simp at he
  · intro t h3 hc
    have hcolon := parseClock_colon _ t hc
    have hmem : (Fields s)[0]?.getD [] ∈ Fields s := by
      cases hF : Fields s with
      | nil =>
        rw [hF] at hcolon
        simp at hcolon
      | cons p0 rest => simp
    have hcs : ':' ∈ TrimSpace s :=
      Fields_mem _ _ (by rw [Fields_TrimSpace]; exact hmem) ':' hcolon
    obtain ⟨e0, hd⟩ := ParseDuration_error_of_mem _ ':' hcs (Or.inr (Or.inr rfl))
    exact (parsePostgresInterval_first_field s e0 (List.ne_nil_of_mem hcs) hd h3).1 t hc

/-- C13 (counterexample): `03:04:05 foo` is not blank, not a duration literal, not
a single token and not three tokens, and `parsePostgresInterval` returns 3h4m5s
for it: the trailing token is ignored. -/
theorem C13_trailing_token_is_ignored :
    TrimSpace ['0', '3', ':', '0', '4', ':', '0', '5', ' ', 'f', 'o', 'o'] ≠ [] ∧
    ParseDuration ['0', '3', ':', '0', '4', ':', '0', '5', ' ', 'f', 'o', 'o']
      = .error (.durationUnknownUnit [':'] ['0', '3', ':', '0', '4', ':', '0', '5', ' ', 'f', 'o', 'o']) ∧
    Fields ['0', '3', ':', '0', '4', ':', '0', '5', ' ', 'f', 'o', 'o']
      = [['0', '3', ':', '0', '4', ':', '0', '5'], ['f', 'o', 'o']] ∧
    parsePostgresInterval ['0', '3', ':', '0', '4', ':', '0', '5', ' ', 'f', 'o', 'o']
      = some (.ok (11045 * Second)) :=
  ⟨by decide, by rfl, by decide, by rfl⟩

theorem C13_interval_error_iff_witness :
    ¬ ((Fields ['3', ':', '0', '4', ':', '0', '5', ' ', 'x']).length = 3 ∧
      (Fields ['3', ':', '0', '4', ':', '0', '5', ' ', 'x'])[1]? = some ['d', 'a', 'y', 's']) ∧
    parseClock ((Fields ['3', ':', '0', '4', ':', '0', '5', ' ', 'x'])[0]?.getD [])
      = .ok { hour := 3, minute := 4, second := 5, nsec := 0 } ∧
    parsePostgresInterval ['3', ':', '0', '4', ':', '0', '5', ' ', 'x']
      = some (.ok (toInt64 (0 + ((3 : Nat) : Int) * Hour + ((4 : Nat) : Int) * Minute
        + ((5 : Nat) : Int) * Second))) :=
  ⟨by decide, by rfl,
    (C13_interval_error_iff ['3', ':', '0', '4', ':', '0', '5', ' ', 'x']).2
      { hour := 3, minute := 4, second := 5, nsec := 0 } (by decide) (by rfl)⟩

/-! ## JSON: reading back what `json.Marshal` writes -/

theorem jsonEscape_head (c : Char) : ∃ h t, jsonEscape c = h :: t ∧ h ≠ '"' := by
  unfold jsonEscape
  split_ifs with h1 h2 h3 h4 h5 h6 h7 h8
  · exact ⟨_, _, rfl, by decide⟩
  · exact ⟨_, _, rfl, by decide⟩
  · exact ⟨_, _, rfl, by decide⟩
  · exact ⟨_, _, rfl, by decide⟩
  · exact ⟨_, _, rfl, by decide⟩
  · exact ⟨_, _, rfl, by decide⟩
  · exact ⟨_, _, rfl, by decide⟩
  · exact ⟨_, _, rfl, by decide⟩
  · exact ⟨_, _, rfl, fun h => h1 (Or.inl h)⟩

theorem unquoteStep_u00 (n : Nat) (hn : n < 256) (tail : GoString) :
    unquoteStep ('\\' :: 'u' :: '0' :: '0' :: hexChar (n / 16) :: hexChar (n % 16) :: tail)
      = some (Char.ofNat n, tail) := by
  have h1 : xvalue (hexChar (n / 16)) = some (n / 16) := xvalue_hexChar _ (by omega)
  have h2 : xvalue (hexChar (n % 16)) = some (n % 16) := xvalue_hexChar _ (by omega)
  have h0 : xvalue '0' = some 0 := rfl
  have hg : getu4 ('\\' :: 'u' :: '0' :: '0' :: hexChar (n / 16) :: hexChar (n % 16) :: tail)
      = some n := by
    simp only [getu4, h0, h1, h2]
    congr 1
    omega
  have hs : isSurrogate n = false := by
    simp only [isSurrogate, Bool.and_eq_false_imp, decide_eq_true_eq, decide_eq_false_iff_not]
    omega
  unfold unquoteStep
  simp only [hg, hs]
  rfl

/-- One round of the reader takes back what the writer wrote for a code point. -/
theorem unquoteStep_jsonEscape (c : Char) (tail : GoString) :
    unquoteStep (jsonEscape c ++ tail) = some (c, tail) := by
  unfold jsonEscape
  split_ifs with h1 h2 h3 h4 h5 h6 h7 h8
  · rcases h1 with rfl | rfl <;> rfl
  · subst h2; rfl
  · subst h3; rfl
  · subst h4; rfl
  · subst h5; rfl
  · subst h6; rfl
  · rcases h7 with h | rfl | rfl | rfl
    · have := unquoteStep_u00 c.toNat (by omega) tail
      rw [Char.ofNat_toNat] at this
      exact this
    · rfl
    · rfl
    · rfl
  · rcases h8 with rfl | rfl <;> rfl
  · simp only [not_or] at h1 h7
    have hq : ¬ (c = '"' ∨ c.toNat < 0x20) := by
      rintro (h | h)
      · exact h1.1 h
      · exact h7.1 h
    simp only [List.singleton_append, unquoteStep, h1.2, if_false, hq]

theorem jsonEscapes_length (s : GoString) : s.length ≤ (jsonEscapes s).length := by
  induction s with
  | nil => simp [jsonEscapes]
  | cons c cs ih =>
    obtain ⟨h, t, hjs, -⟩ := jsonEscape_head c
    simp only [jsonEscapes, hjs, List.cons_append, List.length_cons, List.length_append]
    omega

theorem unquoteLoop_jsonEscapes : ∀ (s : GoString) (fuel : Nat) (acc tail : GoString),
    s.length < fuel →
      unquoteLoop fuel (jsonEscapes s ++ '"' :: tail) acc = some (acc.reverse ++ s, tail) := by
  intro s
  induction s with
  | nil =>
    intro fuel acc tail hf
    obtain ⟨f, rfl⟩ : ∃ f, fuel = f + 1 := ⟨fuel - 1, by omega⟩
    simp [jsonEscapes, unquoteLoop]
  | cons c cs ih =>
    intro fuel acc tail hf
    obtain ⟨f, rfl⟩ : ∃ f, fuel = f + 1 := ⟨fuel - 1, by omega⟩
    obtain ⟨h, t, hjs, hne⟩ := jsonEscape_head c
    have hstep := unquoteStep_jsonEscape c (jsonEscapes cs ++ '"' :: tail)
    rw [hjs] at hstep
    have hrec := ih f (c :: acc) tail (by simp only [List.length_cons] at hf; omega)
    simp only [jsonEscapes, hjs, List.append_assoc, List.cons_append, unquoteLoop, hne,
      if_false] at hstep ⊢
    rw [hstep]
    simp only [hrec, List.reverse_cons, List.append_assoc, List.singleton_append]

/-- The reader takes back the string that the writer wrote, whatever follows. -/
theorem readString_marshalString (s tail : GoString) :
    readString (marshalString s ++ tail) = some (s, tail) := by
  have hlen := jsonEscapes_length s
  have := unquoteLoop_jsonEscapes s (marshalString s ++ tail).length [] tail (by
    simp only [marshalString, List.length_append, List.length_cons, List.length_nil]
    omega)
  simp only [marshalString, List.singleton_append, List.cons_append, List.append_assoc,
    readString, List.reverse_nil, List.nil_append] at this ⊢
  exact this

theorem readElem_marshalString (s tail : GoString) :
    readElem (marshalString s ++ tail) = some (s, tail) := by
  have := readString_marshalString s tail
  simp only [marshalString, List.singleton_append, List.cons_append, List.append_assoc,
    readElem] at this ⊢
  exact this

theorem skipSpace_marshalString (s tail : GoString) :
    skipSpace (marshalString s ++ tail) = marshalString s ++ tail := rfl

theorem marshalStrings_length (l : List GoString) :
    l.length ≤ (Join (l.map marshalString) [',']).length := by
  induction l with
  | nil => simp [Join]
  | cons x xs ih =>
    cases xs with
    | nil => simp [Join, marshalString]
    | cons y ys =>
      simp only [List.map_cons, Join_cons_cons, List.length_append, List.length_cons,
        List.length_nil] at ih ⊢
      omega

theorem readElems_marshal : ∀ (xs : List GoString) (x : GoString) (fuel : Nat)
    (acc : List GoString) (tail : GoString), xs.length < fuel →
      readElems fuel (Join ((x :: xs).map marshalString) [','] ++ ']' :: tail) acc
        = some (acc.reverse ++ x :: xs, tail) := by
  intro xs
  induction xs with
  | nil =>
    intro x fuel acc tail hf
    obtain ⟨f, rfl⟩ : ∃ f, fuel = f + 1 := ⟨fuel - 1, by omega⟩
    simp only [List.map_cons, List.map_nil, Join, readElems, skipSpace_marshalString,
      readElem_marshalString]
    simp [skipSpace, isJsonSpace]
  | cons y ys ih =>
    intro x fuel acc tail hf
    obtain ⟨f, rfl⟩ : ∃ f, fuel = f + 1 := ⟨fuel - 1, by omega⟩
    have hrec := ih y f (x :: acc) tail (by simp only [List.length_cons] at hf; omega)
    have hsk : ∀ r : GoString, skipSpace (',' :: r) = ',' :: r := fun r => rfl
    have e : Join ((x :: y :: ys).map marshalString) [','] ++ ']' :: tail
        = marshalString x ++ (',' :: (Join ((y :: ys).map marshalString) [','] ++ ']' :: tail)) := by
      simp only [List.map_cons, Join_cons_cons, List.append_assoc, List.singleton_append,
        List.cons_append, List.nil_append]
    rw [e, readElems]
    simp only [skipSpace_marshalString, readElem_marshalString, hsk]
    rw [hrec]
    simp

/-- `json.Unmarshal` into a nil `[]string` takes back the slice that
`json.Marshal` wrote: nil from `null`, and the elements in order from an
array. -/
theorem unmarshalStrings_marshalStrings (a : Option (List GoString)) :
    unmarshalStrings (marshalStrings a) = .ok a := by
  cases a with
  | none => rfl
  | some l =>
    cases l with
    | nil => rfl
    | cons x xs =>
      have hlen := marshalStrings_length (x :: xs)
      have hr := readElems_marshal xs x (marshalStrings (some (x :: xs))).length [] [] (by
        simp only [marshalStrings, List.length_append, List.length_cons, List.length_nil]
        simp only [List.length_cons] at hlen
        omega)
      have hfirst : ∃ body, Join ((x :: xs).map marshalString) [','] ++ [']']
          = '"' :: body := by
        cases xs with
        | nil => exact ⟨_, rfl⟩
        | cons y ys => exact ⟨_, rfl⟩
      obtain ⟨body, hbody⟩ := hfirst
      have hm : marshalStrings (some (x :: xs))
          = '[' :: (Join ((x :: xs).map marshalString) [','] ++ [']']) := rfl
      have hsk : skipSpace ('[' :: '"' :: body) = '[' :: '"' :: body := rfl
      have hsk2 : skipSpace ('"' :: body) = '"' :: body := rfl
      have hsk3 : skipSpace ([] : GoString) = [] := rfl
      unfold unmarshalStrings
      rw [hm] at hr ⊢
      rw [hbody] at hr ⊢
      simp only [hsk, hsk2, hr, hsk3, if_true, List.reverse_nil, List.nil_append]
      rfl

theorem jsonEscapes_plain (s : GoString) (h : ∀ c ∈ s, jsonEscape c = [c]) :
    jsonEscapes s = s := by
  induction s with
  | nil => rfl
  | cons c cs ih =>
    simp only [jsonEscapes, h c (List.mem_cons_self _ _),
      ih (fun x hx => h x (List.mem_cons_of_mem _ hx)), List.singleton_append]

theorem durChars_json :
    ∀ c ∈ ['-', 'h', 'm', 's', 'n', 'µ', '.', '0', '1', '2', '3', '4', '5', '6', '7', '8', '9'],
      jsonEscape c = [c] := by
  decide

/-- No character of the text of a duration is escaped in JSON. -/
theorem Duration_String_json (d : Int) :
    marshalString (Duration.String d) = ['"'] ++ Duration.String d ++ ['"'] := by
  unfold marshalString
  rw [jsonEscapes_plain]
  intro c hc
  apply durChars_json
  unfold Duration.String at hc
  split at hc
  · rcases List.mem_cons.mp hc with rfl | h
    · decide
    · exact List.mem_cons_of_mem _ (formatAbs_mem _ c h)
  · exact List.mem_cons_of_mem _ (formatAbs_mem _ c hc)

/-- `json.Unmarshal` into a string takes back the string that `json.Marshal`
wrote. -/
theorem unmarshalString_marshalString (s : GoString) :
    unmarshalString (marshalString s) = .ok s := by
  have hr := readString_marshalString s []
  rw [List.append_nil] at hr
  have hm : ∃ body, marshalString s = '"' :: body := ⟨_, rfl⟩
  obtain ⟨body, hbody⟩ := hm
  have hsk : skipSpace ('"' :: body) = '"' :: body := rfl
  have hsk3 : skipSpace ([] : GoString) = [] := rfl
  unfold unmarshalString
  rw [hbody] at hr ⊢
  rw [hsk]
  split
  · rename_i heq
    simp at heq
  · rw [hr]
    simp only [hsk3, if_true]

/-! ## The JSON form of the arrays and of `Duration` -/

/-- C19 (amended): for every `StringArray` whose elements are texts of valid
UTF-8 (sequences of code points) and every `DurationArray`, `UnmarshalJSON` of
the output of `MarshalJSON` succeeds and gives an array that `Equals` the
original.  The document is the JSON array of the elements in order for every
`DurationArray` and for every such `StringArray` that is not nil;
`["x","y"]` is the document of `[x, y]`. -/
theorem C19_json_roundtrip (a0 v : Option (List GoString)) (b0 w : Option (List Int))
    (hw : ∀ d ∈ elems w, IsInt64 d) :
    (StringArray.MarshalJSON v).2 = none ∧
    StringArray.UnmarshalJSON a0 (StringArray.MarshalJSON v).1 = (v, none) ∧
    StringArray.Equals (StringArray.UnmarshalJSON a0 (StringArray.MarshalJSON v).1).1 v = true ∧
    (DurationArray.MarshalJSON w).2 = none ∧
    DurationArray.UnmarshalJSON b0 (DurationArray.MarshalJSON w).1 = (some (elems w), none) ∧
    DurationArray.Equals (DurationArray.UnmarshalJSON b0 (DurationArray.MarshalJSON w).1).1 w
      = true ∧
    (∀ l, v = some l → (StringArray.MarshalJSON v).1
      = ['['] ++ [','].intercalate (l.map marshalString) ++ [']']) ∧
    (DurationArray.MarshalJSON w).1 = ['['] ++ [','].intercalate
      ((elems w).map (fun d => ['"'] ++ Duration.String d ++ ['"'])) ++ [']'] ∧
    (StringArray.MarshalJSON (some [['x'], ['y']])).1
      = ['[', '"', 'x', '"', ',', '"', 'y', '"', ']'] := by
  have hs : StringArray.UnmarshalJSON a0 (StringArray.MarshalJSON v).1 = (v, none) := by
    simp only [StringArray.UnmarshalJSON, StringArray.MarshalJSON,
      unmarshalStrings_marshalStrings]
  have hdur : DurationArray.UnmarshalJSON b0 (DurationArray.MarshalJSON w).1
      = (some (elems w), none) := by
    have hl := scanLoop_map ParseDuration Duration.String (elems w)
      (fun d hd => ParseDuration_String d (hw d hd))
    have he : elems (some ((elems w).map Duration.String)) = (elems w).map Duration.String :=
      rfl
    simp only [DurationArray.UnmarshalJSON, DurationArray.MarshalJSON,
      unmarshalStrings_marshalStrings, he, hl]
  refine ⟨rfl, hs, ?_, rfl, hdur, ?_, ?_, ?_, by rfl⟩
  · rw [hs]
    exact (equalsArray_iff _ _).mpr rfl
  · rw [hdur]
    exact (equalsArray_iff _ _).mpr rfl
  · intro l hl
    subst hl
    simp only [StringArray.MarshalJSON, marshalStrings, Join_eq_intercalate]
  · simp only [DurationArray.MarshalJSON, marshalStrings, Join_eq_intercalate, List.map_map]
    have hf : (marshalString ∘ Duration.String)
        = fun d => ['"'] ++ Duration.String d ++ ['"'] := funext Duration_String_json
    rw [hf]

theorem C19_json_roundtrip_witness :
    (∀ d ∈ elems (some [3723000000000, -1, 0]), IsInt64 d) ∧
    StringArray.UnmarshalJSON none
      (StringArray.MarshalJSON (some [['a', '"', 'b'], [], ['\\', '\n', '<']])).1
      = (some [['a', '"', 'b'], [], ['\\', '\n', '<']], none) ∧
    DurationArray.UnmarshalJSON none (DurationArray.MarshalJSON (some [3723000000000, -1, 0])).1
      = (some (elems (some [3723000000000, -1, 0])), none) :=
  ⟨by decide,
    (C19_json_roundtrip none (some [['a', '"', 'b'], [], ['\\', '\n', '<']]) none
      (some [3723000000000, -1, 0]) (by decide)).2.1,
    (C19_json_roundtrip none (some [['a', '"', 'b'], [], ['\\', '\n', '<']]) none
      (some [3723000000000, -1, 0]) (by decide)).2.2.2.2.1⟩

/-- C19 (counterexample): the document of the nil `StringArray` is `null`, which
is not a JSON array; the nil `DurationArray` gives `[]`. -/
theorem C19_nil_string_array_is_null :
    (StringArray.MarshalJSON none).1 = ['n', 'u', 'l', 'l'] ∧
    (StringArray.MarshalJSON none).1.head? ≠ some '[' ∧
    (StringArray.MarshalJSON (some [])).1 = ['[', ']'] ∧
    (DurationArray.MarshalJSON none).1 = ['[', ']'] :=
  ⟨by rfl, by decide, by rfl, by rfl⟩

/-- C20: `Duration.MarshalJSON` writes the text of `Duration.String` between
double quotes, unescaped, so the document is a JSON string and never a number
(`"1h2m3s"` for 1h2m3s), and `UnmarshalJSON` of that document succeeds and
stores the same duration. -/
theorem C20_duration_json (d0 d : Int) (hd : IsInt64 d) :
    Duration.MarshalJSON d = (['"'] ++ Duration.String d ++ ['"'], none) ∧
    (Duration.MarshalJSON d).1.head? = some '"' ∧
    Duration.UnmarshalJSON d0 (Duration.MarshalJSON d).1 = (d, none) ∧
    (Duration.MarshalJSON (3723 * Second)).1 = ['"', '1', 'h', '2', 'm', '3', 's', '"'] := by
  refine ⟨?_, rfl, ?_, by rfl⟩
  · simp only [Duration.MarshalJSON, Duration_String_json]
  · simp only [Duration.UnmarshalJSON, Duration.MarshalJSON, unmarshalString_marshalString,
      ParseDuration_String d hd]

theorem C20_duration_json_witness :
    IsInt64 (-9223372036854775808) ∧
    Duration.UnmarshalJSON 0 (Duration.MarshalJSON (-9223372036854775808)).1
      = (-9223372036854775808, none) :=
  ⟨by decide, (C20_duration_json 0 (-9223372036854775808) (by decide)).2.2.1⟩

/-! ## The plain-text encoding -/

theorem Join_eq_nil_iff (l : List GoString) (hne : l ≠ []) :
    Join l [','] = [] ↔ l = [[]] := by
  cases l with
  | nil => exact absurd rfl hne
  | cons e es =>
    cases es with
    | nil => simp [Join]
    | cons e2 es2 =>
      rw [Join_cons_cons]
      simp

/-- The round trip of a non-empty `StringArray` through its text. -/
theorem StringArray_text_roundtrip_iff (l : List GoString) (hne : l ≠ []) :
    (StringArray.UnmarshalText (StringArray.MarshalText (some l)).1).1 = some l ↔
      (∀ s ∈ l, ',' ∉ s) ∧ l ≠ [[]] := by
  have hm : (StringArray.MarshalText (some l)).1 = Join l [','] := rfl
  rw [hm]
  unfold StringArray.UnmarshalText
  by_cases hj : Join l [','] = []
  · have hl := (Join_eq_nil_iff l hne).mp hj
    rw [hj]
    simp only [List.length_nil, if_true, Option.some.injEq]
    constructor
    · intro h
      exact absurd h.symm hne
    · intro h
      exact absurd hl h.2
  · have hlen : ¬ (Join l [',']).length = 0 := fun h => hj (List.length_eq_zero.mp h)
    have hl : l ≠ [[]] := fun h => hj ((Join_eq_nil_iff l hne).mpr h)
    simp only [hlen, if_false, Option.some.injEq]
    constructor
    · intro h
      refine ⟨?_, hl⟩
      have hlen2 := congrArg List.length h
      rw [Split_length] at hlen2
      have hcount := Join_count l ','
      have hpos : 1 ≤ l.length := List.length_pos.mpr hne
      rw [hlen2, max_eq_left hpos] at hcount
      have hsum := self_eq_add_left.mp hcount
      intro s hs
      have h0 := List.sum_eq_zero_iff.mp hsum (List.count ',' s) (List.mem_map.mpr ⟨s, hs, rfl⟩)
      exact List.count_eq_zero.mp h0
    · intro h
      exact Split_Join l ',' hne h.1

/-- C21 (amended): for a `StringArray` with at least one element, `MarshalText` and
`UnmarshalText` never fail, and `UnmarshalText` of the text of `v` gives back
the same strings in the same order exactly when no element of `v` contains a
comma and `v` is not the array with the empty string as its only element. -/
theorem C21_string_text_roundtrip_iff (l : List GoString) (hne : l ≠ []) :
    (StringArray.MarshalText (some l)).2 = none ∧
    (StringArray.UnmarshalText (StringArray.MarshalText (some l)).1).2 = none ∧
    ((StringArray.UnmarshalText (StringArray.MarshalText (some l)).1).1 = some l ↔
      (∀ s ∈ l, ',' ∉ s) ∧ l ≠ [[]]) := by
  refine ⟨rfl, ?_, StringArray_text_roundtrip_iff l hne⟩
  unfold StringArray.UnmarshalText
  split_ifs <;> rfl

theorem C21_string_text_roundtrip_iff_witness :
    [['x'], [], ['y', ' ', '"']] ≠ [] ∧
    ((StringArray.UnmarshalText
        (StringArray.MarshalText (some [['x'], [], ['y', ' ', '"']])).1).1
        = some [['x'], [], ['y', ' ', '"']] ↔
      (∀ s ∈ [['x'], [], ['y', ' ', '"']], ',' ∉ s) ∧ [['x'], [], ['y', ' ', '"']] ≠ [[]]) :=
  ⟨by decide, (C21_string_text_roundtrip_iff [['x'], [], ['y', ' ', '"']] (by decide)).2.2⟩

/-- C21 (counterexample): the one-element array `["a,b"]` is written `a,b` and read
back as the two elements `a` and `b`; the one-element array `[""]` is written
as the empty text and read back as the array without elements. -/
theorem C21_comma_and_empty_element :
    (StringArray.MarshalText (some [['a', ',', 'b']])).1 = ['a', ',', 'b'] ∧
    StringArray.UnmarshalText (StringArray.MarshalText (some [['a', ',', 'b']])).1
      = (some [['a'], ['b']], none) ∧
    (StringArray.MarshalText (some [[]])).1 = [] ∧
    StringArray.UnmarshalText (StringArray.MarshalText (some [[]])).1 = (some [], none) :=
  ⟨by rfl, by rfl, by rfl, by rfl⟩

theorem Int64Array_text_roundtrip (a0 v : Option (List Int)) (h : ∀ x ∈ elems v, IsInt64 x) :
    Int64Array.UnmarshalText a0 (Int64Array.MarshalText v).1 = (some (elems v), none) := by
  have hm : (Int64Array.MarshalText v).1 = Join ((elems v).map FormatInt) [','] := rfl
  rw [hm]
  unfold Int64Array.UnmarshalText
  cases hv : elems v with
  | nil => rfl
  | cons x xs =>
    have hj : Join ((x :: xs).map FormatInt) [','] ≠ [] :=
      Join_ne_nil _ _ _ (FormatInt_ne_nil x)
    have hlen : ¬ (Join ((x :: xs).map FormatInt) [',']).length = 0 :=
      fun h0 => hj (List.length_eq_zero.mp h0)
    have hsplit : Split (Join ((x :: xs).map FormatInt) [',']) ',' = (x :: xs).map FormatInt := by
      apply Split_Join _ _ (by simp)
      intro p hp
      obtain ⟨y, -, rfl⟩ := List.mem_map.mp hp
      exact (FormatInt_plain y).1
    have hloop := scanLoop_map (fun s => ParseInt (TrimSpace s) 64) FormatInt (x :: xs) (by
      intro y hy
      obtain ⟨h1, h2⟩ := h y (by rw [hv]; exact hy)
      simp only [TrimSpace_FormatInt]
      exact ParseInt_FormatInt 64 (Or.inr rfl) y (by norm_num; omega) (by norm_num; omega))
    simp only [hlen, if_false, hsplit, hloop]

/-- C22: for every `Int64Array` `v`, `UnmarshalText` of the text written by
`MarshalText` succeeds and gives an array that `Equals` `v`.  The text of
length zero is read as the empty array that is not nil; the nil array and the
empty array are both written as the text of length zero, so both come back as
the empty array that is not nil. -/
theorem C22_int64_text_roundtrip (a0 v : Option (List Int)) (h : ∀ x ∈ elems v, IsInt64 x) :
    (Int64Array.MarshalText v).2 = none ∧
    Int64Array.UnmarshalText a0 (Int64Array.MarshalText v).1 = (some (elems v), none) ∧
    Int64Array.Equals (Int64Array.UnmarshalText a0 (Int64Array.MarshalText v).1).1 v = true ∧
    Int64Array.UnmarshalText a0 [] = (some [], none) ∧
    (Int64Array.MarshalText none).1 = [] ∧
    (Int64Array.MarshalText (some [])).1 = [] ∧
    Int64Array.UnmarshalText a0 (Int64Array.MarshalText none).1 = (some [], none) ∧
    Int64Array.UnmarshalText a0 (Int64Array.MarshalText (some [])).1 = (some [], none) := by
  have hr := Int64Array_text_roundtrip a0 v h
  refine ⟨rfl, hr, ?_, rfl, rfl, rfl, rfl, rfl⟩
  rw [hr]
  exact (equalsArray_iff _ _).mpr rfl

theorem C22_int64_text_roundtrip_witness :
    (∀ x ∈ elems (some [-9223372036854775808, 0, 9223372036854775807]), IsInt64 x) ∧
    Int64Array.UnmarshalText none
      (Int64Array.MarshalText (some [-9223372036854775808, 0, 9223372036854775807])).1
      = (some (elems (some [-9223372036854775808, 0, 9223372036854775807])), none) :=
  ⟨by decide,
    (C22_int64_text_roundtrip none (some [-9223372036854775808, 0, 9223372036854775807])
      (by decide)).2.1⟩

/-! ## The resolvers of package `sqlitetype` -/

theorem lookup_isSome_iff {β : Type} (l : List (GoString × β)) (k : GoString) :
    (l.lookup k).isSome = true ↔ k ∈ l.map Prod.fst := by
  induction l with
  | nil => simp
  | cons p ps ih =>
    obtain ⟨a, b⟩ := p
    by_cases h : k = a
    · subst h
      have hb : (k == k) = true := beq_self_eq_true k
      rw [List.lookup_cons, hb]
      exact ⟨fun _ => List.mem_cons_self _ _, fun _ => rfl⟩
    · have hb : (k == a) = false := beq_false_of_ne h
      rw [List.lookup_cons, hb]
      simp only [ih, List.map_cons, List.mem_cons, h, false_or]

theorem star_append_ne (base : GoString) : ['*'] ++ base ≠ base := by
  intro h
  have := congrArg List.length h
  simp at this

/-- C23: `nullablePtr(nullable, base)` returns `"*" + base` exactly when `nullable`
is true and `base` is one of `bool`, `int`, `int8`, `int16`, `int32`, `int64`,
`uint64`, `float32`, `float64`, `string`, `time.Time`, `time.Duration`, and
`base` itself in every other case. -/
theorem C23_nullablePtr (yes : Bool) (base : GoString) :
    (nullablePtr yes base = ['*'] ++ base ↔
      yes = true ∧ base ∈ ["bool".toList, "int".toList, "int8".toList, "int16".toList,
        "int32".toList, "int64".toList, "uint64".toList, "float32".toList, "float64".toList,
        "string".toList, "time.Time".toList, "time.Duration".toList]) ∧
    (nullablePtr yes base = base ↔
      ¬ (yes = true ∧ base ∈ ["bool".toList, "int".toList, "int8".toList, "int16".toList,
        "int32".toList, "int64".toList, "uint64".toList, "float32".toList, "float64".toList,
        "string".toList, "time.Time".toList, "time.Duration".toList])) ∧
    nullablePtr true "bool".toList = "*bool".toList ∧
    nullablePtr true "time.Time".toList = "*time.Time".toList ∧
    nullablePtr false "int64".toList = "int64".toList ∧
    nullablePtr true "[]byte".toList = "[]byte".toList := by
  refine ⟨?_, ?_, by rfl, by rfl, by rfl, by rfl⟩
  · unfold nullablePtr
    cases yes with
    | false =>
      simp only [Bool.false_eq_true, if_false, false_and, iff_false]
      exact fun h => star_append_ne base h.symm
    | true =>
      simp only [if_true, true_and]
      split_ifs with hb
      · exact ⟨fun _ => hb, fun _ => rfl⟩
      · exact ⟨fun h => absurd h.symm (star_append_ne base), fun h => absurd h hb⟩
  · unfold nullablePtr
    cases yes with
    | false => simp
    | true =>
      simp only [if_true, true_and]
      split_ifs with hb
      · exact ⟨fun h => absurd h (star_append_ne base), fun h => absurd hb h⟩
      · exact ⟨fun _ => hb, fun _ => rfl⟩

/-- C24: the resolver stored under `TINYINT` returns the boolean type exactly when
the upper-cased full column type starts with `TINYINT(1)`, and the 8-bit
integer type otherwise, each as a pointer when the column is nullable;
`TINYINT(1)` nullable gives `*bool`, `tinyint(1)` not nullable `bool`,
`TINYINT(2)`, `TINYINT(5)` and `TINYINT(10)` not nullable `int8`. -/
theorem C24_tinyint_resolver (ct : ColumnType) :
    (TypeMap.lookup "TINYINT".toList).map (fun f => f ct) = some
      (if HasPrefix (ToUpper ct.ColumnType.1) "TINYINT(1)".toList = true then
        (if ct.Nullable.1 = true then "*bool".toList else "bool".toList)
      else (if ct.Nullable.1 = true then "*int8".toList else "int8".toList)) ∧
    (TypeMap.lookup "TINYINT".toList).map
      (fun f => f { ColumnType := ("TINYINT(1)".toList, true), Nullable := (true, true) })
      = some "*bool".toList ∧
    (TypeMap.lookup "TINYINT".toList).map
      (fun f => f { ColumnType := ("tinyint(1)".toList, true), Nullable := (false, true) })
      = some "bool".toList ∧
    (TypeMap.lookup "TINYINT".toList).map
      (fun f => f { ColumnType := ("TINYINT(2)".toList, true), Nullable := (false, true) })
      = some "int8".toList ∧
    (TypeMap.lookup "TINYINT".toList).map
      (fun f => f { ColumnType := ("TINYINT(5)".toList, true), Nullable := (false, true) })
      = some "int8".toList ∧
    (TypeMap.lookup "TINYINT".toList).map
      (fun f => f { ColumnType := ("TINYINT(10)".toList, true), Nullable := (false, true) })
      = some "int8".toList ∧
    (TypeMap.lookup "TINYINT".toList).map
      (fun f => f { ColumnType := ("TINYINT(10)".toList, true), Nullable := (true, true) })
      = some "*int8".toList := by
  refine ⟨?_, by rfl, by rfl, by rfl, by rfl, by rfl, by rfl⟩
  have hl : (TypeMap.lookup "TINYINT".toList).map (fun f => f ct) = some
      (if HasPrefix (ToUpper ct.ColumnType.1) "TINYINT(1)".toList then
        nullablePtr ct.Nullable.1 "bool".toList
      else nullablePtr ct.Nullable.1 "int8".toList) := rfl
  rw [hl]
  cases ct.Nullable.1 <;> cases HasPrefix (ToUpper ct.ColumnType.1) "TINYINT(1)".toList <;> rfl

theorem nullablePtr_eligible (n : Bool) (base : GoString)
    (h : base ∈ ["bool".toList, "int".toList, "int8".toList, "int16".toList, "int32".toList,
      "int64".toList, "uint64".toList, "float32".toList, "float64".toList, "string".toList,
      "time.Time".toList, "time.Duration".toList]) :
    nullablePtr n base = if n = true then ['*'] ++ base else base := by
  unfold nullablePtr
  cases n with
  | false => rfl
  | true => simp only [if_true, h]

/-- C25: for every keyword of the vocabulary of `sqlitetype` other than `TINYINT`,
the resolver stored in `TypeMap` returns the base type when the column is not
nullable and `"*"` followed by the base type when it is, for the scalar base
types; `BLOB`, `UUID`, `JSON` and `JSONB` give `[]byte`, `datatypes.UUID` and
`datatypes.JSON` whatever the nullability; and the keys of `TypeMap` are
exactly the 29 keywords. -/
theorem C25_sqlite_type_map (ct : ColumnType) :
    (∀ p ∈ [("BOOLEAN".toList, "bool".toList), ("BOOL".toList, "bool".toList),
        ("SMALLINT".toList, "int16".toList), ("INT2".toList, "int16".toList),
        ("MEDIUMINT".toList, "int32".toList),
        ("INTEGER".toList, "int64".toList), ("INT".toList, "int64".toList),
        ("INT8".toList, "int64".toList), ("BIGINT".toList, "int64".toList),
        ("UNSIGNED BIG INT".toList, "uint64".toList),
        ("REAL".toList, "float64".toList), ("DOUBLE".toList, "float64".toList),
        ("NUMERIC".toList, "float64".toList), ("DECIMAL".toList, "float64".toList),
        ("FLOAT".toList, "float32".toList),
        ("TEXT".toList, "string".toList), ("VARCHAR".toList, "string".toList),
        ("CHAR".toList, "string".toList), ("CLOB".toList, "string".toList),
        ("DATE".toList, "time.Time".toList), ("DATETIME".toList, "time.Time".toList),
        ("TIMESTAMP".toList, "time.Time".toList),
        ("DURATION".toList, "time.Duration".toList),
        ("INTERVAL".toList, "time.Duration".toList)],
      (TypeMap.lookup p.1).map (fun f => f ct)
        = some (if ct.Nullable.1 = true then ['*'] ++ p.2 else p.2)) ∧
    (∀ p ∈ [("BLOB".toList, "[]byte".toList), ("UUID".toList, "datatypes.UUID".toList),
        ("JSON".toList, "datatypes.JSON".toList), ("JSONB".toList, "datatypes.JSON".toList)],
      (TypeMap.lookup p.1).map (fun f => f ct) = some p.2) ∧
    (∀ k, (TypeMap.lookup k).isSome = true ↔
      k ∈ ["BOOLEAN".toList, "BOOL".toList, "TINYINT".toList, "SMALLINT".toList,
        "INTEGER".toList, "INT".toList, "INT2".toList, "INT8".toList, "MEDIUMINT".toList,
        "UNSIGNED BIG INT".toList, "BIGINT".toList, "REAL".toList, "DOUBLE".toList,
        "FLOAT".toList, "TEXT".toList, "VARCHAR".toList, "CHAR".toList, "CLOB".toList,
        "UUID".toList, "JSON".toList, "JSONB".toList, "BLOB".toList, "DATE".toList,
        "DATETIME".toList, "TIMESTAMP".toList, "DURATION".toList, "INTERVAL".toList,
        "NUMERIC".toList, "DECIMAL".toList]) ∧
    (TypeMap.map Prod.fst).length = 29 := by
  refine ⟨?_, ?_, ?_, by rfl⟩
  · intro p hp
    simp only [List.mem_cons, List.mem_singleton, List.not_mem_nil, or_false] at hp
    rcases hp with h | h | h | h | h | h | h | h | h | h | h | h | h | h | h | h | h | h | h |
      h | h | h | h | h
    all_goals
      subst h
      exact congrArg some (nullablePtr_eligible ct.Nullable.1 _ (by decide))
  · intro p hp
    simp only [List.mem_cons, List.mem_singleton, List.not_mem_nil, or_false] at hp
    rcases hp with h | h | h | h
    all_goals
      subst h
      rfl
  · intro k
    exact lookup_isSome_iff TypeMap k

/-! ## The type map of package `pgtypes` -/

/-- C26: `DataTypeMap()` maps every declared type of its vocabulary to a fixed codec
type name, the same for every column descriptor, and has no other keys. -/
theorem C26_postgres_type_map (ct : ColumnType) :
    (∀ p ∈ [("text[]".toList, "pgtypes.StringArray".toList),
        ("varchar[]".toList, "pgtypes.StringArray".toList),
        ("integer[]".toList, "pgtypes.Int32Array".toList),
        ("int4[]".toList, "pgtypes.Int32Array".toList),
        ("int8[]".toList, "pgtypes.Int64Array".toList),
        ("bigint[]".toList, "pgtypes.Int64Array".toList),
        ("bool[]".toList, "pgtypes.BoolArray".toList),
        ("boolean[]".toList, "pgtypes.BoolArray".toList),
        ("uuid[]".toList, "pgtypes.UUIDArray".toList),
        ("float8[]".toList, "pgtypes.Float64Array".toList),
        ("double precision[]".toList, "pgtypes.Float64Array".toList),
        ("timestamptz[]".toList, "pgtypes.TimeArray".toList),
        ("timestamp[]".toList, "pgtypes.TimeArray".toList),
        ("timestamp with time zone[]".toList, "pgtypes.TimeArray".toList),
        ("timestamp without time zone[]".toList, "pgtypes.TimeArray".toList),
        ("interval".toList, "pgtypes.Duration".toList),
        ("interval[]".toList, "pgtypes.DurationArray".toList)],
      (DataTypeMap.lookup p.1).map (fun f => f ct) = some p.2) ∧
    (∀ k f (ct1 ct2 : ColumnType), DataTypeMap.lookup k = some f → f ct1 = f ct2) ∧
    (∀ k, (DataTypeMap.lookup k).isSome = true ↔
      k ∈ ["text[]".toList, "varchar[]".toList, "integer[]".toList, "int4[]".toList,
        "int8[]".toList, "bigint[]".toList, "bool[]".toList, "boolean[]".toList,
        "uuid[]".toList, "float8[]".toList, "double precision[]".toList,
        "timestamptz[]".toList, "timestamp[]".toList, "timestamp with time zone[]".toList,
        "timestamp without time zone[]".toList, "interval".toList, "interval[]".toList]) ∧
    (DataTypeMap.map Prod.fst).length = 17 := by
  refine ⟨?_, ?_, ?_, by rfl⟩
  · intro p hp
    simp only [List.mem_cons, List.mem_singleton, List.not_mem_nil, or_false] at hp
    rcases hp with h | h | h | h | h | h | h | h | h | h | h | h | h | h | h | h | h
    all_goals
      subst h
      rfl
  · intro k f ct1 ct2 hf
    have hmem : f ∈ DataTypeMap.map Prod.snd := by
      have hgen : ∀ (l : List (GoString × (ColumnType → GoString))),
          l.lookup k = some f → f ∈ l.map Prod.snd := by
        intro l
        induction l with
        | nil => intro h; simp at h
        | cons q qs ih =>
          obtain ⟨a, b⟩ := q
          intro h
          rw [List.lookup_cons] at h
          cases hb : (k == a) with
          | true =>
            rw [hb] at h
            simp only [Option.some.injEq] at h
            simp [h]
          | false =>
            rw [hb] at h
            simp [ih h]
      exact hgen DataTypeMap hf
    have hall : ∀ g ∈ DataTypeMap.map Prod.snd, ∃ t, g = use t := by
      intro g hg
      simp only [DataTypeMap, List.map_cons, List.map_nil, List.mem_cons, List.mem_singleton,
        List.not_mem_nil, or_false] at hg
      rcases hg with h | h | h | h | h | h | h | h | h | h | h | h | h | h | h | h | h
      all_goals exact ⟨_, h⟩
    obtain ⟨t, rfl⟩ := hall f hmem
    rfl
  · intro k
    exact lookup_isSome_iff DataTypeMap k

/-- C27: for every codec type, `GormDataType()` is a key of `DataTypeMap()`, and the
resolver stored under it returns `pgtypes.` followed by the name of the type. -/
theorem C27_gorm_data_type_is_key (ct : ColumnType) :
    (DataTypeMap.lookup StringArray.GormDataType).map (fun f => f ct)
      = some "pgtypes.StringArray".toList ∧
    (DataTypeMap.lookup Int32Array.GormDataType).map (fun f => f ct)
      = some "pgtypes.Int32Array".toList ∧
    (DataTypeMap.lookup Int64Array.GormDataType).map (fun f => f ct)
      = some "pgtypes.Int64Array".toList ∧
    (DataTypeMap.lookup BoolArray.GormDataType).map (fun f => f ct)
      = some "pgtypes.BoolArray".toList ∧
    (DataTypeMap.lookup UUIDArray.GormDataType).map (fun f => f ct)
      = some "pgtypes.UUIDArray".toList ∧
    (DataTypeMap.lookup Float64Array.GormDataType).map (fun f => f ct)
      = some "pgtypes.Float64Array".toList ∧
    (DataTypeMap.lookup TimeArray.GormDataType).map (fun f => f ct)
      = some "pgtypes.TimeArray".toList ∧
    (DataTypeMap.lookup Duration.GormDataType).map (fun f => f ct)
      = some "pgtypes.Duration".toList ∧
    (DataTypeMap.lookup DurationArray.GormDataType).map (fun f => f ct)
      = some "pgtypes.DurationArray".toList :=
  ⟨by rfl, by rfl, by rfl, by rfl, by rfl, by rfl, by rfl, by rfl, by rfl⟩

/-! ## Package `main` -/

/-- C28: the resolver that `postgresToGorm` stores under `text` returns the name
given by the domain override table when the full column type of the column is
available and is a key of that table, and `string` in every other case;
this holds whatever `typeMaps` contains, also an entry for `text`. -/
theorem C28_text_resolver (typeMaps domainTypeMaps : GoString → Option GoString)
    (ct : ColumnType) :
    (dtMaps typeMaps domainTypeMaps "text".toList).map (fun f => f ct)
      = some (if ct.ColumnType.2 = true then
          (domainTypeMaps ct.ColumnType.1).getD "string".toList
        else "string".toList) ∧
    (∀ domain, (dtMaps typeMaps domainTypeMaps "text".toList).map (fun f => f ct) = some domain →
      domain ≠ "string".toList →
      ct.ColumnType.2 = true ∧ domainTypeMaps ct.ColumnType.1 = some domain) ∧
    (dtMaps typeMaps (fun _ => none) "text".toList).map (fun f => f ct)
      = some "string".toList := by
  have h1 : (dtMaps typeMaps domainTypeMaps "text".toList).map (fun f => f ct)
      = some (if ct.ColumnType.2 = true then
          (domainTypeMaps ct.ColumnType.1).getD "string".toList
        else "string".toList) := by
    simp only [dtMaps, if_true, Option.map_some']
    cases ct.ColumnType.2 with
    | false => rfl
    | true =>
      cases domainTypeMaps ct.ColumnType.1 <;> rfl
  refine ⟨h1, ?_, ?_⟩
  · intro domain hd hne
    rw [h1] at hd
    cases hok : ct.ColumnType.2 with
    | false =>
      rw [hok] at hd
      simp only [Bool.false_eq_true, if_false, Option.some.injEq] at hd
      exact absurd hd.symm hne
    | true =>
      rw [hok] at hd
      simp only [if_true, Option.some.injEq] at hd
      cases hdm : domainTypeMaps ct.ColumnType.1 with
      | none =>
        rw [hdm] at hd
        exact absurd hd.symm hne
      | some d =>
        rw [hdm] at hd
        simp only [Option.getD_some] at hd
        exact ⟨rfl, congrArg some hd⟩
  · simp only [dtMaps, if_true, Option.map_some']
    cases ct.ColumnType.2 <;> rfl

theorem C28_text_resolver_witness :
    (dtMaps (fun _ => none)
        (fun k => if k = "citext".toList then some "models.CIText".toList else none)
        "text".toList).map
      (fun f => f { ColumnType := ("citext".toList, true), Nullable := (false, true) })
      = some "models.CIText".toList ∧
    (true = true ∧
      (fun k => if k = "citext".toList then some "models.CIText".toList else none)
        "citext".toList = some "models.CIText".toList) :=
  ⟨by rfl,
    (C28_text_resolver (fun _ => none)
      (fun k => if k = "citext".toList then some "models.CIText".toList else none)
      { ColumnType := ("citext".toList, true), Nullable := (false, true) }).2.1
      "models.CIText".toList (by rfl) (by decide)⟩

/-- The index returned by `LastIndex` splits the text at the last occurrence. -/
theorem LastIndex_spec (s : GoString) (sep : Char) :
    (LastIndex s sep = -1 ∧ sep ∉ s) ∨
    (∃ pre suf, s = pre ++ sep :: suf ∧ sep ∉ suf ∧ LastIndex s sep = (pre.length : Int)) := by
  induction s with
  | nil => exact Or.inl ⟨rfl, by simp⟩
  | cons c cs ih =>
    unfold LastIndex
    rcases ih with ⟨h1, h2⟩ | ⟨pre, suf, h1, h2, h3⟩
    · simp only [h1, ne_eq, not_true_eq_false, if_false]
      by_cases hc : c = sep
      · refine Or.inr ⟨[], cs, by rw [hc]; rfl, h2, ?_⟩
        simp [hc]
      · refine Or.inl ⟨by simp [hc], ?_⟩
        intro hm
        rcases List.mem_cons.mp hm with h | h
        · exact hc h.symm
        · exact h2 h
    · have hne : LastIndex cs sep ≠ -1 := by
        rw [h3]
        omega
      refine Or.inr ⟨c :: pre, suf, by rw [h1]; rfl, h2, ?_⟩
      rw [if_pos hne, h3, List.length_cons]
      push_cast
      rfl

/-- The base type of `genRelationField`: the text after the last period. -/
theorem baseType_spec (t : GoString) :
    ('.' ∉ t ∧ (if LastIndex t '.' ≠ -1 then t.drop (LastIndex t '.' + 1).toNat else t) = t) ∨
    (∃ pre suf, t = pre ++ '.' :: suf ∧ '.' ∉ suf ∧
      (if LastIndex t '.' ≠ -1 then t.drop (LastIndex t '.' + 1).toNat else t) = suf) := by
  rcases LastIndex_spec t '.' with ⟨h1, h2⟩ | ⟨pre, suf, h1, h2, h3⟩
  · exact Or.inl ⟨h2, by simp [h1]⟩
  · refine Or.inr ⟨pre, suf, h1, h2, ?_⟩
    have hne : LastIndex t '.' ≠ -1 := by
      rw [h3]
      omega
    have hn : (LastIndex t '.' + 1).toNat = pre.length + 1 := by
      rw [h3]
      omega
    rw [if_pos hne, hn]
    conv_lhs => rw [h1]
    rw [List.drop_append_eq_append_drop]
    simp

theorem genRelationField_Type (ToLowerCamel : GoString → GoString) (ef : ExtraField)
    (fld : Field) :
    (genRelationField ToLowerCamel ef fld).Type_ =
      (if ef.HasMany = true then ['[', ']'] else []) ++ ((if ef.Pointer = true then ['*'] else [])
        ++ (if LastIndex ef.StructPropType '.' ≠ -1 then
            ef.StructPropType.drop (LastIndex ef.StructPropType '.' + 1).toNat
          else ef.StructPropType)) := by
  simp only [genRelationField]
  cases ef.HasMany <;> cases ef.Pointer <;> rfl

/-- The type set by `genRelationField` is the wrapped part after the last period. -/
theorem genRelationField_Type_base (ToLowerCamel : GoString → GoString) (ef : ExtraField) (fld : Field) :
    ∃ base,
      (('.' ∉ ef.StructPropType ∧ base = ef.StructPropType) ∨
        (∃ pre, ef.StructPropType = pre ++ '.' :: base ∧ '.' ∉ base)) ∧
      (genRelationField ToLowerCamel ef fld).Type_ =
        (if ef.HasMany = true then ['[', ']'] else []) ++
          ((if ef.Pointer = true then ['*'] else []) ++ base) := by
  rw [genRelationField_Type]
  rcases baseType_spec ef.StructPropType with ⟨h1, h2⟩ | ⟨pre, suf, h1, h2, h3⟩
  · exact ⟨ef.StructPropType, Or.inl ⟨h1, rfl⟩, by rw [h2]⟩
  · exact ⟨suf, Or.inr ⟨pre, h1, h2⟩, by rw [h3]⟩

/-- C29: `genRelationField` sets `Name` to `StructPropName`; `Type` to the part of
`StructPropType` after its last period (all of it when it has none), with `*`
before it when `Pointer` and `[]` before that when `HasMany`; the relation
kind to has-many when `HasMany` and to has-one otherwise; and the tags
`foreignKey` and `references` to `FkStructPropName` and `RefStructPropName`.
`HasMany`, not `Pointer`, over `models.Child` gives `[]Child`, has-many. -/
theorem C29_genRelationField (ToLowerCamel : GoString → GoString) (ef : ExtraField)
    (fld : Field) :
    (genRelationField ToLowerCamel ef fld).Name = ef.StructPropName ∧
    (∃ base,
      (('.' ∉ ef.StructPropType ∧ base = ef.StructPropType) ∨
        (∃ pre, ef.StructPropType = pre ++ '.' :: base ∧ '.' ∉ base)) ∧
      (genRelationField ToLowerCamel ef fld).Type_ =
        (if ef.HasMany = true then ['[', ']'] else []) ++
          ((if ef.Pointer = true then ['*'] else []) ++ base)) ∧
    (genRelationField ToLowerCamel ef fld).Relation = some
      { relationship :=
          if ef.HasMany = true then RelationshipType.HasMany else RelationshipType.HasOne,
        fieldName := ef.StructPropName, fieldType := ef.StructPropType } ∧
    (genRelationField ToLowerCamel ef fld).GORMTag "foreignKey".toList
      = some [ef.FkStructPropName] ∧
    (genRelationField ToLowerCamel ef fld).GORMTag "references".toList
      = some [ef.RefStructPropName] ∧
    (genRelationField ToLowerCamel ef fld).ColumnName = fld.ColumnName ∧
    (genRelationField ToLowerCamel
      { StructPropName := "Children".toList, StructPropType := "models.Child".toList,
        FkStructPropName := "AllTypesID".toList, RefStructPropName := "ID".toList,
        HasMany := true, Pointer := false } fld).Type_ = "[]Child".toList ∧
    (genRelationField ToLowerCamel
      { StructPropName := "Children".toList, StructPropType := "models.Child".toList,
        FkStructPropName := "AllTypesID".toList, RefStructPropName := "ID".toList,
        HasMany := true, Pointer := false } fld).Relation = some
      { relationship := RelationshipType.HasMany, fieldName := "Children".toList,
        fieldType := "models.Child".toList } := by
  refine ⟨rfl, ?_, ?_, ?_, ?_, rfl, by rfl, by rfl⟩
  · exact genRelationField_Type_base ToLowerCamel ef fld
  · simp only [genRelationField]
  · rfl
  · rfl

/-- C30 (amended): the `Type` set by `genRelationField` is the base name `T` (the
part of `StructPropType` after its last period), `*T`, `[]T` or `[]*T`,
according to the flags `Pointer` and `HasMany`; with both flags it is the
sequence of pointers `[]*T`.  It begins with `[]*` exactly when `HasMany` is
set and either `Pointer` is set or `T` begins with `*`, or when no flag is set
and `T` itself begins with `[]*`. -/
theorem C30_relation_type_forms (ToLowerCamel : GoString → GoString) (ef : ExtraField)
    (fld : Field) :
    ∃ base,
      (('.' ∉ ef.StructPropType ∧ base = ef.StructPropType) ∨
        (∃ pre, ef.StructPropType = pre ++ '.' :: base ∧ '.' ∉ base)) ∧
      (genRelationField ToLowerCamel ef fld).Type_ =
        (if ef.HasMany = true then
          (if ef.Pointer = true then '[' :: ']' :: '*' :: base else '[' :: ']' :: base)
        else (if ef.Pointer = true then '*' :: base else base)) ∧
      (['[', ']', '*'] <+: (genRelationField ToLowerCamel ef fld).Type_ ↔
        (ef.HasMany = true ∧ (ef.Pointer = true ∨ ['*'] <+: base)) ∨
        (ef.HasMany = false ∧ ef.Pointer = false ∧ ['[', ']', '*'] <+: base)) := by
  obtain ⟨base, hb, ht⟩ := (genRelationField_Type_base ToLowerCamel ef fld)
  refine ⟨base, hb, ?_, ?_⟩
  · rw [ht]
    cases ef.HasMany <;> cases ef.Pointer <;> rfl
  · rw [ht]
    cases ef.HasMany <;> cases ef.Pointer <;>
      simp [List.cons_prefix_cons]

/-- C30 (counterexample): with `HasMany` and `Pointer` both set over `models.Child`,
`genRelationField` sets the type `[]*Child`, a sequence of pointers. -/
theorem C30_sequence_of_pointers :
    (genRelationField (fun s => s)
      { StructPropName := "Children".toList, StructPropType := "models.Child".toList,
        FkStructPropName := "AllTypesID".toList, RefStructPropName := "ID".toList,
        HasMany := true, Pointer := true }
      { Name := [], Type_ := [], ColumnName := [], Tag := fun _ => none,
        GORMTag := fun _ => none, Relation := none }).Type_ = "[]*Child".toList ∧
    ['[', ']', '*'] <+: (genRelationField (fun s => s)
      { StructPropName := "Children".toList, StructPropType := "models.Child".toList,
        FkStructPropName := "AllTypesID".toList, RefStructPropName := "ID".toList,
        HasMany := true, Pointer := true }
      { Name := [], Type_ := [], ColumnName := [], Tag := fun _ => none,
        GORMTag := fun _ => none, Relation := none }).Type_ :=
  ⟨by rfl, ⟨"Child".toList, by rfl⟩⟩

/-! ## `Unique`, `Filter`, `IndexOf` and `Contains` -/

theorem elems_appended {α : Type} (l : List α) : elems (appended l) = l := by
  cases l <;> rfl

theorem uniqueLoop_mem {α : Type} [DecidableEq α] : ∀ (l seen : List α) (x : α),
    x ∈ uniqueLoop id l seen ↔ x ∈ l ∧ x ∉ seen := by
  intro l
  induction l with
  | nil => intro seen x; simp [uniqueLoop]
  | cons v vs ih =>
    intro seen x
    unfold uniqueLoop
    by_cases hv : v ∈ seen
    · simp only [id, hv, if_true, ih, List.mem_cons]
      constructor
      · rintro ⟨h1, h2⟩
        exact ⟨Or.inr h1, h2⟩
      · rintro ⟨h1 | h1, h2⟩
        · rw [h1] at h2
          exact absurd hv h2
        · exact ⟨h1, h2⟩
    · simp only [id, hv, if_false, List.mem_cons, ih, not_or]
      constructor
      · rintro (h | ⟨h1, h2, h3⟩)
        · rw [h]
          exact ⟨Or.inl rfl, hv⟩
        · exact ⟨Or.inr h1, h3⟩
      · rintro ⟨h1 | h1, h2⟩
        · exact Or.inl h1
        · by_cases hxv : x = v
          · exact Or.inl hxv
          · exact Or.inr ⟨h1, hxv, h2⟩

theorem uniqueLoop_sublist {α : Type} [DecidableEq α] : ∀ (l seen : List α),
    (uniqueLoop id l seen).Sublist l := by
  intro l
  induction l with
  | nil => intro seen; simp [uniqueLoop]
  | cons v vs ih =>
    intro seen
    unfold uniqueLoop
    split_ifs
    · exact List.Sublist.cons _ (ih seen)
    · exact List.Sublist.cons₂ _ (ih _)

theorem uniqueLoop_nodup {α : Type} [DecidableEq α] : ∀ (l seen : List α),
    (uniqueLoop id l seen).Nodup := by
  intro l
  induction l with
  | nil => intro seen; simp [uniqueLoop]
  | cons v vs ih =>
    intro seen
    unfold uniqueLoop
    split_ifs
    · exact ih seen
    · refine List.nodup_cons.mpr ⟨?_, ih _⟩
      intro hm
      have := ((uniqueLoop_mem vs (id v :: seen) v).mp hm).2
      simp at this

theorem uniqueLoop_order {α : Type} [DecidableEq α] : ∀ (l seen : List α),
    (uniqueLoop id l seen).Pairwise (fun x y => l.indexOf x < l.indexOf y) := by
  intro l
  induction l with
  | nil => intro seen; simp [uniqueLoop]
  | cons v vs ih =>
    intro seen
    unfold uniqueLoop
    by_cases hv : v ∈ seen
    · simp only [id, hv, if_true]
      refine List.Pairwise.imp_of_mem ?_ (ih seen)
      intro x y hx hy hxy
      have hxv : v ≠ x := fun h => ((uniqueLoop_mem vs seen x).mp hx).2 (h ▸ hv)
      have hyv : v ≠ y := fun h => ((uniqueLoop_mem vs seen y).mp hy).2 (h ▸ hv)
      rw [List.indexOf_cons_ne _ hxv, List.indexOf_cons_ne _ hyv]
      omega
    · simp only [id, hv, if_false]
      refine List.pairwise_cons.mpr ⟨?_, ?_⟩
      · intro y hy
        have hyv : v ≠ y := by
          intro h
          have := ((uniqueLoop_mem vs (v :: seen) y).mp hy).2
          simp [h] at this
        rw [List.indexOf_cons_self, List.indexOf_cons_ne _ hyv]
        omega
      · refine List.Pairwise.imp_of_mem ?_ (ih (v :: seen))
        intro x y hx hy hxy
        have hxv : v ≠ x := by
          intro h
          have := ((uniqueLoop_mem vs (v :: seen) x).mp hx).2
          simp [h] at this
        have hyv : v ≠ y := by
          intro h
          have := ((uniqueLoop_mem vs (v :: seen) y).mp hy).2
          simp [h] at this
        rw [List.indexOf_cons_ne _ hxv, List.indexOf_cons_ne _ hyv]
        omega

/-- The loop of `Unique` keeps the first occurrence of every value. -/
theorem uniqueLoop_spec {α : Type} [DecidableEq α] (a : Option (List α)) :
    FirstOccurrences (elems (appended (uniqueLoop id (elems a) []))) (elems a) := by
  rw [elems_appended]
  refine ⟨uniqueLoop_nodup _ _, uniqueLoop_sublist _ _, ?_, uniqueLoop_order _ _⟩
  intro x
  rw [uniqueLoop_mem]
  simp

/-- C31: for every `StringArray`, `Int32Array`, `Int64Array`, `BoolArray`,
`UUIDArray` and `DurationArray` `a`, `a.Unique()` has no duplicates, is a
subsequence of `a`, contains exactly the values that `a` contains, and lists
them in the order of their first occurrence in `a`. -/
theorem C31_unique_first_occurrences (sa : Option (List GoString)) (ia : Option (List Int))
    (ba : Option (List Bool)) (ua : Option (List UUID)) :
    FirstOccurrences (elems (StringArray.Unique sa)) (elems sa) ∧
    FirstOccurrences (elems (Int32Array.Unique ia)) (elems ia) ∧
    FirstOccurrences (elems (Int64Array.Unique ia)) (elems ia) ∧
    FirstOccurrences (elems (BoolArray.Unique ba)) (elems ba) ∧
    FirstOccurrences (elems (UUIDArray.Unique ua)) (elems ua) ∧
    FirstOccurrences (elems (DurationArray.Unique ia)) (elems ia) ∧
    StringArray.Unique (some [['b'], ['a'], ['b'], ['c'], ['a']]) = some [['b'], ['a'], ['c']] ∧
    Int64Array.Unique (some []) = none :=
  ⟨uniqueLoop_spec sa, uniqueLoop_spec ia, uniqueLoop_spec ia, uniqueLoop_spec ba,
    uniqueLoop_spec ua, uniqueLoop_spec ia, by decide, by rfl⟩

theorem filterLoop_eq {α : Type} (f : α → Bool) (l : List α) : filterLoop f l = l.filter f := by
  induction l with
  | nil => rfl
  | cons v vs ih =>
    unfold filterLoop
    cases hf : f v
    · simp only [Bool.false_eq_true, if_false, ih, List.filter_cons_of_neg, hf,
        not_false_eq_true]
    · simp only [if_true, ih, List.filter_cons_of_pos hf]

theorem filterArray_eq {α : Type} (f : α → Bool) (a : Option (List α)) :
    elems (appended (filterLoop f (elems a))) = (elems a).filter f := by
  rw [elems_appended, filterLoop_eq]

theorem filterArray_props {α : Type} [BEq α] [LawfulBEq α] (f : α → Bool)
    (a : Option (List α)) :
    (elems (appended (filterLoop f (elems a)))).Sublist (elems a) ∧
    (∀ x ∈ elems (appended (filterLoop f (elems a))), f x = true) ∧
    (∀ x, f x = true →
      (elems (appended (filterLoop f (elems a)))).count x = (elems a).count x) ∧
    (∀ x, f x = false → x ∉ elems (appended (filterLoop f (elems a)))) := by
  rw [filterArray_eq]
  refine ⟨List.filter_sublist _, ?_, ?_, ?_⟩
  · intro x hx
    exact (List.mem_filter.mp hx).2
  · intro x hx
    exact List.count_filter hx
  · intro x hx hm
    have := (List.mem_filter.mp hm).2
    rw [hx] at this
    exact absurd this (by decide)

/-- C33: for every array `a` of every kind and every predicate `f`, `a.Filter(f)`
holds exactly the elements of `a` that satisfy `f`, in their order in `a` and
as often as they occur in `a`. -/
theorem C33_filter_is_subsequence {F : Type} (sa : Option (List GoString))
    (fs : GoString → Bool) (ia : Option (List Int)) (fi : Int → Bool)
    (ba : Option (List Bool)) (fb : Bool → Bool) (ua : Option (List UUID)) (fu : UUID → Bool)
    (fa : Option (List F)) (ff : F → Bool) (ta : Option (List Time)) (ft : Time → Bool) :
    elems (StringArray.Filter sa fs) = (elems sa).filter fs ∧
    elems (Int32Array.Filter ia fi) = (elems ia).filter fi ∧
    elems (Int64Array.Filter ia fi) = (elems ia).filter fi ∧
    elems (BoolArray.Filter ba fb) = (elems ba).filter fb ∧
    elems (UUIDArray.Filter ua fu) = (elems ua).filter fu ∧
    elems (Float64Array.Filter fa ff) = (elems fa).filter ff ∧
    elems (TimeArray.Filter ta ft) = (elems ta).filter ft ∧
    elems (DurationArray.Filter ia fi) = (elems ia).filter fi ∧
    ((elems (StringArray.Filter sa fs)).Sublist (elems sa) ∧
      (∀ x ∈ elems (StringArray.Filter sa fs), fs x = true) ∧
      (∀ x, fs x = true → (elems (StringArray.Filter sa fs)).count x = (elems sa).count x) ∧
      (∀ x, fs x = false → x ∉ elems (StringArray.Filter sa fs))) ∧
    ((elems (Int64Array.Filter ia fi)).Sublist (elems ia) ∧
      (∀ x ∈ elems (Int64Array.Filter ia fi), fi x = true) ∧
      (∀ x, fi x = true → (elems (Int64Array.Filter ia fi)).count x = (elems ia).count x) ∧
      (∀ x, fi x = false → x ∉ elems (Int64Array.Filter ia fi))) ∧
    Int64Array.Filter (some [3, -1, 4, -1, 5]) (fun x => decide (x < 4))
      = some [3, -1, -1] :=
  ⟨filterArray_eq fs sa, filterArray_eq fi ia, filterArray_eq fi ia, filterArray_eq fb ba,
    filterArray_eq fu ua, filterArray_eq ff fa, filterArray_eq ft ta, filterArray_eq fi ia,
    filterArray_props fs sa, filterArray_props fi ia, by decide⟩

theorem indexOfLoop_spec {α : Type} (eq : α → α → Bool) (val : α) : ∀ (l : List α) (i : Nat),
    (indexOfLoop eq val l i = -1 ∧ ∀ x ∈ l, eq x val = false) ∨
    (∃ k : Nat, indexOfLoop eq val l i = ((i + k : Nat) : Int) ∧
      (∃ x, l[k]? = some x ∧ eq x val = true) ∧
      ∀ j y, j < k → l[j]? = some y → eq y val = false) := by
  intro l
  induction l with
  | nil => intro i; exact Or.inl ⟨rfl, by simp⟩
  | cons x xs ih =>
    intro i
    unfold indexOfLoop
    cases hx : eq x val with
    | true =>
      refine Or.inr ⟨0, by simp, ⟨x, List.getElem?_cons_zero, hx⟩, ?_⟩
      intro j y hj
      omega
    | false =>
      simp only [Bool.false_eq_true, if_false]
      rcases ih (i + 1) with ⟨h1, h2⟩ | ⟨k, h1, ⟨z, hz1, hz2⟩, h3⟩
      · refine Or.inl ⟨h1, ?_⟩
        intro y hy
        rcases List.mem_cons.mp hy with rfl | hy
        · exact hx
        · exact h2 y hy
      · refine Or.inr ⟨k + 1, ?_, ⟨z, by simpa using hz1, hz2⟩, ?_⟩
        · rw [h1]
          congr 1
          omega
        · intro j y hj hy
          cases j with
          | zero =>
            simp only [List.getElem?_cons_zero, Option.some.injEq] at hy
            rw [← hy]
            exact hx
          | succ j =>
            simp only [List.getElem?_cons_succ] at hy
            exact h3 j y (by omega) hy

theorem containsLoop_iff {α : Type} (eq : α → α → Bool) (val : α) : ∀ (l : List α) (i : Nat),
    containsLoop eq val l = true ↔ indexOfLoop eq val l i ≠ -1 := by
  intro l
  induction l with
  | nil => intro i; simp [containsLoop, indexOfLoop]
  | cons x xs ih =>
    intro i
    unfold containsLoop indexOfLoop
    cases hx : eq x val with
    | true =>
      simp only [if_true, true_iff]
      omega
    | false =>
      simp only [Bool.false_eq_true, if_false]
      exact ih (i + 1)

/-- The loops of `IndexOf` and `Contains` meet their specification. -/
theorem indexOf_contains_spec {α : Type} (eq : α → α → Bool) (a : Option (List α)) (val : α) :
    IsFirstIndex eq (elems a) val (indexOfLoop eq val (elems a) 0) ∧
    (containsLoop eq val (elems a) = true ↔ indexOfLoop eq val (elems a) 0 ≠ -1) := by
  refine ⟨?_, containsLoop_iff eq val _ 0⟩
  rcases indexOfLoop_spec eq val (elems a) 0 with h | ⟨k, h1, h2, h3⟩
  · exact Or.inl h
  · exact Or.inr ⟨k, by rw [h1, Nat.zero_add], h2, h3⟩

/-- C35: for every array `a` of every kind and every value `x`, `a.IndexOf(x)` is
the smallest index of an element equal to `x`, or -1 when there is none, and
`a.Contains(x)` is true exactly when `a.IndexOf(x)` is not -1.  Equality is
`==`, and `Equal` for `TimeArray`. -/
theorem C35_index_of_contains {F : Type} (eqF : F → F → Bool) (sa : Option (List GoString))
    (sx : GoString) (ia : Option (List Int)) (ix : Int) (ba : Option (List Bool)) (bx : Bool)
    (ua : Option (List UUID)) (ux : UUID) (fa : Option (List F)) (fx : F)
    (ta : Option (List Time)) (tx : Time) :
    (IsFirstIndex (fun x y => decide (x = y)) (elems sa) sx (StringArray.IndexOf sa sx) ∧
      (StringArray.Contains sa sx = true ↔ StringArray.IndexOf sa sx ≠ -1)) ∧
    (IsFirstIndex (fun x y => decide (x = y)) (elems ia) ix (Int32Array.IndexOf ia ix) ∧
      (Int32Array.Contains ia ix = true ↔ Int32Array.IndexOf ia ix ≠ -1)) ∧
    (IsFirstIndex (fun x y => decide (x = y)) (elems ia) ix (Int64Array.IndexOf ia ix) ∧
      (Int64Array.Contains ia ix = true ↔ Int64Array.IndexOf ia ix ≠ -1)) ∧
    (IsFirstIndex (fun x y => decide (x = y)) (elems ba) bx (BoolArray.IndexOf ba bx) ∧
      (BoolArray.Contains ba bx = true ↔ BoolArray.IndexOf ba bx ≠ -1)) ∧
    (IsFirstIndex (fun x y => decide (x = y)) (elems ua) ux (UUIDArray.IndexOf ua ux) ∧
      (UUIDArray.Contains ua ux = true ↔ UUIDArray.IndexOf ua ux ≠ -1)) ∧
    (IsFirstIndex (fun x y => decide (x = y)) (elems ia) ix (DurationArray.IndexOf ia ix) ∧
      (DurationArray.Contains ia ix = true ↔ DurationArray.IndexOf ia ix ≠ -1)) ∧
    (IsFirstIndex eqF (elems fa) fx (Float64Array.IndexOf eqF fa fx) ∧
      (Float64Array.Contains eqF fa fx = true ↔ Float64Array.IndexOf eqF fa fx ≠ -1)) ∧
    (IsFirstIndex Time.Equal (elems ta) tx (TimeArray.IndexOf ta tx) ∧
      (TimeArray.Contains ta tx = true ↔ TimeArray.IndexOf ta tx ≠ -1)) ∧
    Int64Array.IndexOf (some [7, 5, 7, 5]) 5 = 1 ∧
    Int64Array.IndexOf (some [7, 5, 7, 5]) 6 = -1 ∧
    Int64Array.IndexOf none 6 = -1 :=
  ⟨indexOf_contains_spec _ sa sx, indexOf_contains_spec _ ia ix, indexOf_contains_spec _ ia ix,
    indexOf_contains_spec _ ba bx, indexOf_contains_spec _ ua ux, indexOf_contains_spec _ ia ix,
    indexOf_contains_spec eqF fa fx, indexOf_contains_spec Time.Equal ta tx,
    by decide, by decide, by decide⟩

/-! ## `TimeArray.Unique` -/

/-- C32 (failing input): noon UTC and 13:00 at +01:00 on 2024-01-01 are the same
instant for `Equal`, `Contains` and `IndexOf`, but their texts in the layout
RFC3339Nano differ, so `TimeArray.Unique` keeps both. -/
theorem C32_unique_keeps_equal_instants :
    Time.Equal
      { year := 2024, month := 1, day := 1, hour := 12, minute := 0, second := 0, nsec := 0,
        offset := 0 }
      { year := 2024, month := 1, day := 1, hour := 13, minute := 0, second := 0, nsec := 0,
        offset := 3600 } = true ∧
    Time.Format
      { year := 2024, month := 1, day := 1, hour := 12, minute := 0, second := 0, nsec := 0,
        offset := 0 } = "2024-01-01T12:00:00Z".toList ∧
    Time.Format
      { year := 2024, month := 1, day := 1, hour := 13, minute := 0, second := 0, nsec := 0,
        offset := 3600 } = "2024-01-01T13:00:00+01:00".toList ∧
    TimeArray.Unique (some
      [{ year := 2024, month := 1, day := 1, hour := 12, minute := 0, second := 0, nsec := 0,
         offset := 0 },
       { year := 2024, month := 1, day := 1, hour := 13, minute := 0, second := 0, nsec := 0,
         offset := 3600 }])
      = some
      [{ year := 2024, month := 1, day := 1, hour := 12, minute := 0, second := 0, nsec := 0,
         offset := 0 },
       { year := 2024, month := 1, day := 1, hour := 13, minute := 0, second := 0, nsec := 0,
         offset := 3600 }] ∧
    TimeArray.IndexOf (some
      [{ year := 2024, month := 1, day := 1, hour := 12, minute := 0, second := 0, nsec := 0,
         offset := 0 }])
      { year := 2024, month := 1, day := 1, hour := 13, minute := 0, second := 0, nsec := 0,
        offset := 3600 } = 0 ∧
    TimeArray.Contains (some
      [{ year := 2024, month := 1, day := 1, hour := 12, minute := 0, second := 0, nsec := 0,
         offset := 0 }])
      { year := 2024, month := 1, day := 1, hour := 13, minute := 0, second := 0, nsec := 0,
        offset := 3600 } = true :=
  ⟨by decide, by decide, by decide, by decide, by decide, by decide⟩

/-! ## `Append` -/

theorem sliceAppend_spec {α : Type} (spare : Nat → List α) (s : Slice α) (vals : List α)
    (h : s.len ≤ s.array.length) :
    (sliceAppend spare s vals).1.elems = s.elems ++ vals ∧
    (sliceAppend spare s vals).1.len = s.len + vals.length ∧
    (sliceAppend spare s vals).1.len ≤ (sliceAppend spare s vals).1.array.length ∧
    (sliceAppend spare s vals).2.take s.len = s.elems ∧
    ((sliceAppend spare s vals).1.array = (sliceAppend spare s vals).2 ∨
      (sliceAppend spare s vals).2 = s.array) := by
  have hlen : (s.array.take s.len).length = s.len := by
    rw [List.length_take]
    omega
  have hlen2 : (s.array.take s.len ++ vals).length = s.len + vals.length := by
    rw [List.length_append, hlen]
  unfold sliceAppend Slice.elems
  split_ifs with hc
  · refine ⟨List.take_left' hlen2, rfl, ?_, ?_, Or.inl rfl⟩
    · simp only [List.length_append, hlen, List.length_drop]
      omega
    · simp only [List.append_assoc]
      exact List.take_left' hlen
  · refine ⟨List.take_left' hlen2, rfl, ?_, rfl, Or.inr rfl⟩
    simp only [List.length_append, hlen]
    omega

theorem sliceAppend_AppendSpec {α : Type} (spare : Nat → List α) (s : Slice α) (vals : List α)
    (h : s.len ≤ s.array.length) : AppendSpec s vals (sliceAppend spare s vals) := by
  obtain ⟨h1, -, -, h4, -⟩ := sliceAppend_spec spare s vals h
  refine ⟨h1, ?_, h4⟩
  rw [h1, List.length_append]

theorem appendLoop_spec (spare : Nat → List Int) (n0 : Nat) :
    ∀ (vals : List Int) (a : Slice Int) (orig : List Int) (shared : Bool),
      a.len ≤ a.array.length → n0 ≤ a.len → (shared = true → a.array = orig) →
      (DurationArray.appendLoop spare vals a orig shared).1.elems = a.elems ++ vals ∧
      (DurationArray.appendLoop spare vals a orig shared).2.take n0 = orig.take n0 := by
  intro vals
  induction vals with
  | nil =>
    intro a orig shared _ _ _
    simp [DurationArray.appendLoop]
  | cons v vs ih =>
    intro a orig shared hwf hn hsh
    obtain ⟨h1, h2, h3, h4, h5⟩ := sliceAppend_spec spare a [v] hwf
    have hn2 : n0 ≤ (sliceAppend spare a [v]).1.len := by
      rw [h2]
      omega
    have hstep : (a.elems ++ [v]) ++ vs = a.elems ++ v :: vs := by
      rw [List.append_assoc]
      rfl
    cases shared with
    | true =>
      have ha := hsh rfl
      unfold DurationArray.appendLoop
      by_cases hc : a.len + 1 ≤ a.array.length
      · have hshare : (sliceAppend spare a [v]).1.array = (sliceAppend spare a [v]).2 := by
          unfold sliceAppend
          simp only [List.length_singleton, hc, if_true]
        obtain ⟨r1, r2⟩ := ih (sliceAppend spare a [v]).1 (sliceAppend spare a [v]).2 true
          h3 hn2 (fun _ => hshare)
        rw [if_pos hc, if_pos rfl]
        refine ⟨by rw [r1, h1, hstep], ?_⟩
        rw [r2, ← ha]
        have e1 : List.take n0 (sliceAppend spare a [v]).2
            = List.take n0 (List.take a.len (sliceAppend spare a [v]).2) := by
          rw [List.take_take, min_eq_left hn]
        have e2 : List.take n0 a.array = List.take n0 (List.take a.len a.array) := by
          rw [List.take_take, min_eq_left hn]
        rw [e1, e2, h4]
        rfl
      · obtain ⟨r1, r2⟩ := ih (sliceAppend spare a [v]).1 orig false h3 hn2
          (fun h => absurd h (by decide))
        rw [if_neg hc]
        exact ⟨by rw [r1, h1, hstep], r2⟩
    | false =>
      obtain ⟨r1, r2⟩ := ih (sliceAppend spare a [v]).1 orig false h3 hn2
        (fun h => absurd h (by decide))
      unfold DurationArray.appendLoop
      by_cases hc : a.len + 1 ≤ a.array.length
      · rw [if_pos hc, if_neg (by decide)]
        exact ⟨by rw [r1, h1, hstep], r2⟩
      · rw [if_neg hc]
        exact ⟨by rw [r1, h1, hstep], r2⟩

theorem DurationArray_Append_spec (spare : Nat → List Int) (a : Slice Int) (vals : List Int)
    (h : a.len ≤ a.array.length) : AppendSpec a vals (DurationArray.Append spare a vals) := by
  obtain ⟨h1, h2⟩ := appendLoop_spec spare a.len vals a a.array true h (le_refl _) (fun _ => rfl)
  refine ⟨h1, ?_, h2⟩
  unfold DurationArray.Append
  rw [h1, List.length_append]

/-- C34: for every array `a` of every kind and every list `vals`, `a.Append(vals...)`
returns the elements of `a` followed by `vals`, `len(a) + len(vals)` in
number, and the slice `a` that the caller holds shows the same elements after
the call as before, whether or not the backing array is reused. -/
theorem C34_append_frame {F : Type}
    (spS : Nat → List GoString) (sa : Slice GoString) (sv : List GoString)
    (spI : Nat → List Int) (ia : Slice Int) (iv : List Int)
    (spB : Nat → List Bool) (ba : Slice Bool) (bv : List Bool)
    (spU : Nat → List UUID) (ua : Slice UUID) (uv : List UUID)
    (spF : Nat → List F) (fa : Slice F) (fv : List F)
    (spT : Nat → List Time) (ta : Slice Time) (tv : List Time)
    (hs : sa.len ≤ sa.array.length) (hi : ia.len ≤ ia.array.length)
    (hb : ba.len ≤ ba.array.length) (hu : ua.len ≤ ua.array.length)
    (hf : fa.len ≤ fa.array.length) (ht : ta.len ≤ ta.array.length) :
    AppendSpec sa sv (StringArray.Append spS sa sv) ∧
    AppendSpec ia iv (Int32Array.Append spI ia iv) ∧
    AppendSpec ia iv (Int64Array.Append spI ia iv) ∧
    AppendSpec ba bv (BoolArray.Append spB ba bv) ∧
    AppendSpec ua uv (UUIDArray.Append spU ua uv) ∧
    AppendSpec fa fv (Float64Array.Append spF fa fv) ∧
    AppendSpec ta tv (TimeArray.Append spT ta tv) ∧
    AppendSpec ia iv (DurationArray.Append spI ia iv) :=
  ⟨sliceAppend_AppendSpec spS sa sv hs, sliceAppend_AppendSpec spI ia iv hi,
    sliceAppend_AppendSpec spI ia iv hi, sliceAppend_AppendSpec spB ba bv hb,
    sliceAppend_AppendSpec spU ua uv hu, sliceAppend_AppendSpec spF fa fv hf,
    sliceAppend_AppendSpec spT ta tv ht, DurationArray_Append_spec spI ia iv hi⟩

theorem C34_append_frame_witness :
    (⟨[1, 2, 9, 9], 2⟩ : Slice Int).len ≤ (⟨[1, 2, 9, 9], 2⟩ : Slice Int).array.length ∧
    AppendSpec (⟨[1, 2, 9, 9], 2⟩ : Slice Int) [7, 8, 6]
      (DurationArray.Append (fun _ => [0, 0]) ⟨[1, 2, 9, 9], 2⟩ [7, 8, 6]) ∧
    AppendSpec (⟨[1, 2, 9, 9], 2⟩ : Slice Int) [7, 8, 6]
      (Int64Array.Append (fun _ => [0, 0]) ⟨[1, 2, 9, 9], 2⟩ [7, 8, 6]) :=
  ⟨by decide,
    (C34_append_frame (F := Int) (fun _ => []) ⟨[], 0⟩ [] (fun _ => [0, 0]) ⟨[1, 2, 9, 9], 2⟩
      [7, 8, 6] (fun _ => []) ⟨[], 0⟩ [] (fun _ => []) ⟨[], 0⟩ [] (fun _ => []) ⟨[], 0⟩ []
      (fun _ => []) ⟨[], 0⟩ [] (by decide) (by decide) (by decide) (by decide) (by decide)
      (by decide)).2.2.2.2.2.2.2,
    (C34_append_frame (F := Int) (fun _ => []) ⟨[], 0⟩ [] (fun _ => [0, 0]) ⟨[1, 2, 9, 9], 2⟩
      [7, 8, 6] (fun _ => []) ⟨[], 0⟩ [] (fun _ => []) ⟨[], 0⟩ [] (fun _ => []) ⟨[], 0⟩ []
      (fun _ => []) ⟨[], 0⟩ [] (by decide) (by decide) (by decide) (by decide) (by decide)
      (by decide)).2.2.1⟩

/-! ## `parsePostgresInterval`: totality, hours of 24 and more, fractions -/

/-- C36: `parsePostgresInterval` returns a duration or an error for every input and
never indexes the tokens out of range: text that is not blank has a first
token, and the token at index 2 is read only when there are three tokens. -/
theorem C36_interval_total (s : GoString) :
    (∃ r, parsePostgresInterval s = some r) ∧
    (TrimSpace s ≠ [] → ∃ p, (Fields (TrimSpace s))[0]? = some p) ∧
    ((Fields (TrimSpace s)).length = 3 → ∃ p, (Fields (TrimSpace s))[2]? = some p) := by
  refine ⟨?_, ?_, ?_⟩
  · by_cases hne : TrimSpace s = []
    · exact ⟨_, parsePostgresInterval_blank s hne⟩
    · cases hd : ParseDuration (TrimSpace s) with
      | ok d => exact ⟨_, parsePostgresInterval_literal s d hne hd⟩
      | error e0 =>
        by_cases h3 : (Fields s).length = 3 ∧ (Fields s)[1]? = some ['d', 'a', 'y', 's']
        · obtain ⟨hA, hB, hC⟩ := parsePostgresInterval_days s e0 hne hd h3
          cases hp : ParseDuration ((Fields s)[0]?.getD [] ++ ['2', '4', 'h']) with
          | error e => exact ⟨_, hA e hp⟩
          | ok days =>
            cases hc : parseClock ((Fields s)[2]?.getD []) with
            | error e => exact ⟨_, hB days e hp hc⟩
            | ok t => exact ⟨_, hC days t hp hc⟩
        · obtain ⟨hA, hB⟩ := parsePostgresInterval_first_field s e0 hne hd h3
          cases hc : parseClock ((Fields s)[0]?.getD []) with
          | error e => exact ⟨_, hB e hc⟩
          | ok t => exact ⟨_, hA t hc⟩
  · intro hne
    have hF := Fields_ne_nil s hne
    rw [Fields_TrimSpace]
    cases hp : Fields s with
    | nil => exact absurd hp hF
    | cons p ps => exact ⟨p, List.getElem?_cons_zero⟩
  · intro hlen
    match hp : Fields (TrimSpace s), hlen with
    | [p0, p1, p2], _ => exact ⟨p2, rfl⟩

theorem C36_interval_total_witness :
    TrimSpace [' ', 'x', ' '] ≠ [] ∧ ∃ p, (Fields (TrimSpace [' ', 'x', ' ']))[0]? = some p :=
  ⟨by decide, (C36_interval_total [' ', 'x', ' ']).2.1 (by decide)⟩

/-- On a single token with a colon the result is decided by `time.Parse` alone. -/
theorem parsePostgresInterval_single (s : GoString) (hsp : ∀ c ∈ s, isSpace c = false)
    (hcolon : ':' ∈ s) :
    (∀ e, parseClock s = .error e →
      parsePostgresInterval s = some (.error (.unsupportedInterval s))) ∧
    (∀ t, parseClock s = .ok t →
      parsePostgresInterval s = some (.ok (toInt64 (0 + (t.hour : Int) * Hour
        + (t.minute : Int) * Minute + (t.second : Int) * Second)))) := by
  have hne : s ≠ [] := List.ne_nil_of_mem hcolon
  have htrim : TrimSpace s = s :=
    TrimSpace_eq_self (fun c hc => hsp c (List.mem_of_mem_head? hc))
      (fun c hc => hsp c (List.mem_of_mem_getLast? hc))
  have hF : Fields s = [s] := Fields_no_space s hne hsp
  obtain ⟨e0, hd⟩ := ParseDuration_error_of_mem s ':' hcolon (Or.inr (Or.inr rfl))
  have h3 : ¬ ((Fields s).length = 3 ∧ (Fields s)[1]? = some ['d', 'a', 'y', 's']) := by
    rw [hF]
    simp
  have hd2 : ParseDuration (TrimSpace s) = .error e0 := by rw [htrim]; exact hd
  have hne2 : TrimSpace s ≠ [] := by rw [htrim]; exact hne
  obtain ⟨hA, hB⟩ := parsePostgresInterval_first_field s e0 hne2 hd2 h3
  have h0 : (Fields s)[0]?.getD [] = s := by rw [hF]; rfl
  rw [h0] at hA hB
  rw [htrim] at hB
  exact ⟨hB, hA⟩

theorem foldl_digit_chars_ge (cs : GoString) : ∀ n : Nat,
    n ≤ cs.foldl (fun a c => a * 10 + (digitVal c).getD 0) n := by
  induction cs with
  | nil => intro n; exact le_refl n
  | cons c cs ih =>
    intro n
    exact le_trans (by omega) (ih (n * 10 + (digitVal c).getD 0))

/-- A clock token whose hour digits denote 24 or more is not accepted by
`time.Parse`. -/
theorem parseClock_hour_24 (hh rest : GoString) (hdig : ∀ c ∈ hh, (digitVal c).isSome = true)
    (hv : 24 ≤ hh.foldl (fun a c => a * 10 + (digitVal c).getD 0) 0) :
    ∃ e, parseClock (hh ++ ':' :: rest) = .error e := by
  have hnone : parseHMS (hh ++ ':' :: rest) = none := by
    cases hh with
    | nil => simp at hv
    | cons c0 t0 =>
      obtain ⟨d0, h0⟩ := Option.isSome_iff_exists.mp (hdig c0 (by simp))
      have hd0 := (digitVal_props c0 d0 h0).2.2.2.2.2.2
      cases t0 with
      | nil =>
        simp only [List.foldl_cons, List.foldl_nil, h0, Option.getD_some] at hv
        omega
      | cons c1 t1 =>
        obtain ⟨d1, h1⟩ := Option.isSome_iff_exists.mp (hdig c1 (by simp))
        have hg : getnum (c0 :: c1 :: (t1 ++ ':' :: rest)) false
            = some (d0 * 10 + d1, t1 ++ ':' :: rest) := getnum_two _ _ _ _ _ _ h0 h1
        simp only [List.cons_append, parseHMS, hg]
        by_cases h24 : 24 ≤ d0 * 10 + d1
        · simp only [h24, if_true]
        · simp only [h24, if_false]
          cases t1 with
          | nil =>
            simp only [List.foldl_cons, List.foldl_nil, h0, h1, Option.getD_some] at hv
            omega
          | cons c2 t2 =>
            obtain ⟨d2, h2⟩ := Option.isSome_iff_exists.mp (hdig c2 (by simp))
            have hc2 : c2 ≠ ':' := (digitVal_props c2 d2 h2).2.2.2.2.1
            simp only [List.cons_append]
            split
            · rename_i heq
              simp only [List.cons.injEq] at heq
              exact absurd heq.1 hc2
            · rfl
  unfold parseClock
  rw [hnone]
  exact ⟨_, rfl⟩

/-- C37: a clock time whose hour field is 24 or more is rejected: for every run of
digits `hh` that denotes a number of 24 or more, and every rest without white
space (such as `mm:ss`), `parsePostgresInterval` of `hh:rest` returns the
error "unsupported interval format"; `36:00:00` is an example. -/
theorem C37_hour_24_rejected (hh rest : GoString)
    (hdig : ∀ c ∈ hh, (digitVal c).isSome = true)
    (hv : 24 ≤ hh.foldl (fun a c => a * 10 + (digitVal c).getD 0) 0)
    (hrest : ∀ c ∈ rest, isSpace c = false) :
    parsePostgresInterval (hh ++ ':' :: rest)
      = some (.error (.unsupportedInterval (hh ++ ':' :: rest))) ∧
    parsePostgresInterval "36:00:00".toList
      = some (.error (.unsupportedInterval "36:00:00".toList)) ∧
    parsePostgresInterval "24:00:00".toList
      = some (.error (.unsupportedInterval "24:00:00".toList)) ∧
    parsePostgresInterval "23:59:59".toList = some (.ok (86399 * Second)) := by
  refine ⟨?_, by rfl, by rfl, by rfl⟩
  have hsp : ∀ c ∈ hh ++ ':' :: rest, isSpace c = false := by
    intro c hc
    rcases List.mem_append.mp hc with h | h
    · obtain ⟨d, hd⟩ := Option.isSome_iff_exists.mp (hdig c h)
      exact (digitVal_props c d hd).1
    · rcases List.mem_cons.mp h with rfl | h
      · decide
      · exact hrest c h
  obtain ⟨e, he⟩ := parseClock_hour_24 hh rest hdig hv
  exact (parsePostgresInterval_single _ hsp (by simp)).1 e he

theorem C37_hour_24_rejected_witness :
    (∀ c ∈ "100".toList, (digitVal c).isSome = true) ∧
    parsePostgresInterval ("100".toList ++ ':' :: "00:00".toList)
      = some (.error (.unsupportedInterval ("100".toList ++ ':' :: "00:00".toList))) :=
  ⟨by decide, (C37_hour_24_rejected "100".toList "00:00".toList (by decide) (by decide)
    (by decide)).1⟩

/-- `time.Parse` accepts a fraction of a second after the seconds and stores it
as nanoseconds. -/
theorem parseClock_fraction (c1 c2 c3 c4 c5 c6 sep f0 : Char) (fs : GoString)
    (d1 d2 d3 d4 d5 d6 : Nat)
    (h1 : digitVal c1 = some d1) (h2 : digitVal c2 = some d2) (h3 : digitVal c3 = some d3)
    (h4 : digitVal c4 = some d4) (h5 : digitVal c5 = some d5) (h6 : digitVal c6 = some d6)
    (hH : d1 * 10 + d2 < 24) (hM : d3 * 10 + d4 < 60) (hS : d5 * 10 + d6 < 60)
    (hsep : sep = '.' ∨ sep = ',')
    (hf : ∀ c ∈ f0 :: fs, (digitVal c).isSome = true) :
    parseClock (c1 :: c2 :: ':' :: c3 :: c4 :: ':' :: c5 :: c6 :: sep :: f0 :: fs) =
      .ok { hour := d1 * 10 + d2, minute := d3 * 10 + d4, second := d5 * 10 + d6,
            nsec := parseNanoseconds (f0 :: fs) } := by
  have hhms : parseHMS (c1 :: c2 :: ':' :: c3 :: c4 :: ':' :: c5 :: c6 :: sep :: f0 :: fs)
      = some (d1 * 10 + d2, d3 * 10 + d4, d5 * 10 + d6, sep :: f0 :: fs) := by
    simp only [parseHMS, getnum_two _ _ _ _ _ _ h1 h2, getnum_two _ _ _ _ _ _ h3 h4,
      getnum_two _ _ _ _ _ _ h5 h6, if_neg (Nat.not_le.mpr hH), if_neg (Nat.not_le.mpr hM),
      if_neg (Nat.not_le.mpr hS)]
  have hcp : commaOrPeriod sep = true := by
    rcases hsep with rfl | rfl <;> decide
  have hf0 : (digitVal f0).isSome = true := hf f0 (by simp)
  have htake : (f0 :: fs).takeWhile (fun c => (digitVal c).isSome) = f0 :: fs :=
    List.takeWhile_eq_self_iff.mpr hf
  have hdrop : (f0 :: fs).dropWhile (fun c => (digitVal c).isSome) = [] :=
    dropWhile_all _ hf
  have hskip : skipFraction (sep :: f0 :: fs) = (parseNanoseconds (f0 :: fs), []) := by
    unfold skipFraction
    simp only [hcp, hf0, and_self, if_true, htake, hdrop]
  unfold parseClock
  rw [hhms]
  simp only [hskip, ne_eq, not_true_eq_false, if_false]

/-- C38: the fraction of a second of a clock-time interval is discarded: for every
clock time `HH:MM:SS` followed by a period or comma and one or more digits,
`parsePostgresInterval` succeeds and returns the whole hours, minutes and
seconds, the same value as without the fraction; `00:00:01.5` gives 1s. -/
theorem C38_fraction_discarded (c1 c2 c3 c4 c5 c6 sep f0 : Char) (fs : GoString)
    (d1 d2 d3 d4 d5 d6 : Nat)
    (h1 : digitVal c1 = some d1) (h2 : digitVal c2 = some d2) (h3 : digitVal c3 = some d3)
    (h4 : digitVal c4 = some d4) (h5 : digitVal c5 = some d5) (h6 : digitVal c6 = some d6)
    (hH : d1 * 10 + d2 < 24) (hM : d3 * 10 + d4 < 60) (hS : d5 * 10 + d6 < 60)
    (hsep : sep = '.' ∨ sep = ',')
    (hf : ∀ c ∈ f0 :: fs, (digitVal c).isSome = true) :
    parsePostgresInterval (c1 :: c2 :: ':' :: c3 :: c4 :: ':' :: c5 :: c6 :: sep :: f0 :: fs) =
      some (.ok (((d1 * 10 + d2 : Nat) : Int) * Hour
        + ((d3 * 10 + d4 : Nat) : Int) * Minute + ((d5 * 10 + d6 : Nat) : Int) * Second)) ∧
    parsePostgresInterval (c1 :: c2 :: ':' :: c3 :: c4 :: ':' :: c5 :: c6 :: sep :: f0 :: fs) =
      parsePostgresInterval [c1, c2, ':', c3, c4, ':', c5, c6] ∧
    parsePostgresInterval "00:00:01.5".toList = some (.ok (1 * Second)) ∧
    parseClock "00:00:01.5".toList
      = .ok { hour := 0, minute := 0, second := 1, nsec := 500000000 } := by
  have hsp : ∀ c ∈ c1 :: c2 :: ':' :: c3 :: c4 :: ':' :: c5 :: c6 :: sep :: f0 :: fs,
      isSpace c = false := by
    have hc : isSpace ':' = false := by decide
    intro c hcm
    simp only [List.mem_cons] at hcm
    rcases hcm with rfl | rfl | rfl | rfl | rfl | rfl | rfl | rfl | rfl | h
    · exact (digitVal_props _ _ h1).1
    · exact (digitVal_props _ _ h2).1
    · exact hc
    · exact (digitVal_props _ _ h3).1
    · exact (digitVal_props _ _ h4).1
    · exact hc
    · exact (digitVal_props _ _ h5).1
    · exact (digitVal_props _ _ h6).1
    · rcases hsep with rfl | rfl <;> decide
    · obtain ⟨d, hd⟩ := Option.isSome_iff_exists.mp (hf c (List.mem_cons.mpr h))
      exact (digitVal_props c d hd).1
  have hclock := parseClock_fraction c1 c2 c3 c4 c5 c6 sep f0 fs d1 d2 d3 d4 d5 d6
    h1 h2 h3 h4 h5 h6 hH hM hS hsep hf
  have hval := (parsePostgresInterval_single _ hsp (by simp)).2 _ hclock
  have hplain := parsePostgresInterval_clock c1 c2 c3 c4 c5 c6 d1 d2 d3 d4 d5 d6
    h1 h2 h3 h4 h5 h6 hH hM hS
  have h64 : toInt64 (((d1 * 10 + d2 : Nat) : Int) * Hour
      + ((d3 * 10 + d4 : Nat) : Int) * Minute + ((d5 * 10 + d6 : Nat) : Int) * Second)
      = ((d1 * 10 + d2 : Nat) : Int) * Hour
        + ((d3 * 10 + d4 : Nat) : Int) * Minute + ((d5 * 10 + d6 : Nat) : Int) * Second := by
    unfold toInt64 Hour Minute Second
    push_cast
    omega
  simp only [zero_add] at hval
  refine ⟨?_, ?_, by rfl, by rfl⟩
  · rw [hval, h64]
  · rw [hval, hplain]

theorem C38_fraction_discarded_witness :
    digitVal '2' = some 2 ∧ (∀ c ∈ '9' :: "99".toList, (digitVal c).isSome = true) ∧
    parsePostgresInterval "23:59:59,999".toList
      = some (.ok (((2 * 10 + 3 : Nat) : Int) * Hour
        + ((5 * 10 + 9 : Nat) : Int) * Minute + ((5 * 10 + 9 : Nat) : Int) * Second)) :=
  ⟨by rfl, by decide,
    (C38_fraction_discarded '2' '3' '5' '9' '5' '9' ',' '9' "99".toList 2 3 5 9 5 9
      (by rfl) (by rfl) (by rfl) (by rfl) (by rfl) (by rfl) (by decide) (by decide)
      (by decide) (Or.inr rfl) (by decide)).1⟩

/-! ## `Int32Array`: no wrapping -/

theorem parseUintLoop_value (bitSize : Nat) : ∀ (s : GoString) (n m : Nat),
    parseUintLoop bitSize s n = .ok m → n ≤ 2 ^ bitSize - 1 →
      m = s.foldl (fun a d => a * 10 + (digitVal d).getD 0) n ∧ m ≤ 2 ^ bitSize - 1 := by
  intro s
  induction s with
  | nil =>
    intro n m h hn
    simp only [parseUintLoop, UintResult.ok.injEq] at h
    subst h
    exact ⟨rfl, hn⟩
  | cons c cs ih =>
    intro n m h hn
    unfold parseUintLoop at h
    cases hd : digitVal c with
    | none => simp [hd] at h
    | some d =>
      simp only [hd] at h
      split_ifs at h with h1 h2
      have := ih (n * 10 + d) m h (by omega)
      simp only [List.foldl_cons, hd, Option.getD_some]
      exact this

theorem ParseUint_value (s : GoString) (bitSize m : Nat) (h : ParseUint s bitSize = .ok m) :
    m = s.foldl (fun a d => a * 10 + (digitVal d).getD 0) 0 ∧ m ≤ 2 ^ bitSize - 1 := by
  unfold ParseUint at h
  split_ifs at h
  exact parseUintLoop_value bitSize s 0 m h (Nat.zero_le _)

/-- A text accepted by `ParseInt(.., 10, 32)` denotes the number returned, which
is an `int32`. -/
theorem ParseInt32_value (s : GoString) (v : Int) (h : ParseInt s 32 = .ok v) :
    v = decimalValue s ∧ IsInt32 v := by
  unfold ParseInt at h
  cases s with
  | nil => simp at h
  | cons c cs =>
    simp only at h
    cases hu : ParseUint (if c = '+' ∨ c = '-' then cs else c :: cs) 32 with
    | syntaxErr => simp [hu] at h
    | rangeErr => simp [hu] at h
    | ok un =>
      obtain ⟨hval, -⟩ := ParseUint_value _ _ _ hu
      simp only [hu] at h
      by_cases hm : c = '-'
      · simp only [hm, or_true, if_true] at hval
        simp only [hm, true_and, not_true_eq_false, false_and, if_false, if_true,
          decide_True] at h
        split_ifs at h with hc
        simp only [Except.ok.injEq] at h
        refine ⟨?_, ?_⟩
        · simp only [decimalValue, hm, if_true, ← hval, ← h]
        · rw [← h]
          norm_num at hc
          constructor <;> omega
      · by_cases hp : c = '+'
        · have hpm : ('+' : Char) ≠ '-' := by decide
          simp only [hp, true_or, if_true] at hval
          simp only [hm, decide_False, Bool.false_eq_true, not_false_eq_true, true_and,
            false_and, if_false] at h
          split_ifs at h with hc
          simp only [Except.ok.injEq] at h
          refine ⟨?_, ?_⟩
          · simp only [decimalValue, hp, hpm, if_false, if_true, ← hval, ← h]
          · rw [← h]
            norm_num at hc
            constructor <;> omega
        · simp only [hp, hm, or_self, if_false] at hval
          simp only [hm, decide_False, Bool.false_eq_true, not_false_eq_true, true_and,
            false_and, if_false] at h
          split_ifs at h with hc
          simp only [Except.ok.injEq] at h
          refine ⟨?_, ?_⟩
          · simp only [decimalValue, hp, hm, if_false, ← hval, ← h]
          · rw [← h]
            norm_num at hc
            constructor <;> omega

theorem Int32Array_parseElem_value (p : GoString) (v : Int)
    (h : Int32Array.parseElem p = .ok v) :
    v = decimalValue (TrimSpace p) ∧ IsInt32 v ∧ ParseInt (TrimSpace p) 32 = .ok v := by
  unfold Int32Array.parseElem at h
  cases hp : ParseInt (TrimSpace p) 32 with
  | error e => simp [hp] at h
  | ok val =>
    obtain ⟨h1, h2⟩ := ParseInt32_value _ _ hp
    simp only [hp, Except.ok.injEq] at h
    rw [toInt32_of_IsInt32 val h2] at h
    subst h
    exact ⟨h1, h2, rfl⟩

/-- When the element loop succeeds, every element was parsed, in order. -/
theorem scanLoop_ok_forall {α : Type} (parse : GoString → Except Error α) :
    ∀ (ps : List GoString) (vs : List α), scanLoop parse ps = .ok vs →
      List.Forall₂ (fun p v => parse p = .ok v) ps vs := by
  intro ps
  induction ps with
  | nil =>
    intro vs h
    simp only [scanLoop, Except.ok.injEq] at h
    subst h
    exact List.Forall₂.nil
  | cons p ps ih =>
    intro vs h
    cases hp : parse p with
    | error e => simp [scanLoop, hp] at h
    | ok v =>
      cases hr : scanLoop parse ps with
      | error e => simp [scanLoop, hp, hr] at h
      | ok r =>
        simp only [scanLoop, hp, hr, Except.ok.injEq] at h
        subst h
        exact List.Forall₂.cons hp (ih r hr)

theorem Int32_scanLoop_value (ps : List GoString) (vs : List Int)
    (h : scanLoop Int32Array.parseElem ps = .ok vs) :
    vs = ps.map (fun p => decimalValue (TrimSpace p)) ∧ ∀ v ∈ vs, IsInt32 v := by
  have hall := scanLoop_ok_forall _ ps vs h
  clear h
  induction hall with
  | nil => exact ⟨rfl, by simp⟩
  | cons hpv _ ih =>
    obtain ⟨h1, h2, -⟩ := Int32Array_parseElem_value _ _ hpv
    obtain ⟨i1, i2⟩ := ih
    refine ⟨by rw [List.map_cons, ← h1, ← i1], ?_⟩
    intro v hv
    rcases List.mem_cons.mp hv with rfl | hv
    · exact h2
    · exact i2 v hv

theorem Int32_decode_value (a : Option (List Int)) (ps : List GoString) :
    (∀ r, (match scanLoop Int32Array.parseElem ps with
        | .error e => (a, some e)
        | .ok out => (some out, none)) = (some r, none) →
      r = ps.map (fun p => decimalValue (TrimSpace p)) ∧ ∀ v ∈ r, IsInt32 v) ∧
    (∀ p ∈ ps, ¬ IsInt32 (decimalValue (TrimSpace p)) →
      (match scanLoop Int32Array.parseElem ps with
        | .error e => (a, some e)
        | .ok out => (some out, none)) = (a, (match scanLoop Int32Array.parseElem ps with
        | .error e => (a, some e)
        | .ok out => (some out, none)).2) ∧
      (match scanLoop Int32Array.parseElem ps with
        | .error e => (a, some e)
        | .ok out => (some out, none)).2 ≠ none) := by
  cases hr : scanLoop Int32Array.parseElem ps with
  | error e =>
    refine ⟨?_, ?_⟩
    · intro r h
      simp at h
    · intro p _ _
      exact ⟨rfl, by simp⟩
  | ok vs =>
    obtain ⟨h1, h2⟩ := Int32_scanLoop_value ps vs hr
    refine ⟨?_, ?_⟩
    · intro r h
      simp only [Prod.mk.injEq, Option.some.injEq, and_true] at h
      subst h
      exact ⟨h1, h2⟩
    · intro p hp hbad
      exfalso
      apply hbad
      apply h2
      rw [h1]
      exact List.mem_map.mpr ⟨p, hp, rfl⟩

/-- C39: `Int32Array.Scan` and `Int32Array.UnmarshalText` never wrap a number:
every element they accept is stored with the value its decimal text denotes,
which lies in `[-2^31, 2^31 - 1]`, and an element whose decimal value lies
outside that range makes the call return an error and leaves the receiver
as it was. -/
theorem C39_int32_no_wrap (a : Option (List Int)) (t : GoString) :
    (∀ p v, Int32Array.parseElem p = .ok v → v = decimalValue (TrimSpace p) ∧ IsInt32 v) ∧
    (∀ p, ¬ IsInt32 (decimalValue (TrimSpace p)) → ∃ e, Int32Array.parseElem p = .error e) ∧
    (∀ r, Trim t ['{', '}'] ≠ [] → Int32Array.Scan a (.str t) = (some r, none) →
      r = (Split (Trim t ['{', '}']) ',').map (fun p => decimalValue (TrimSpace p)) ∧
      ∀ v ∈ r, IsInt32 v) ∧
    (∀ p ∈ Split (Trim t ['{', '}']) ',', Trim t ['{', '}'] ≠ [] →
      ¬ IsInt32 (decimalValue (TrimSpace p)) →
      (Int32Array.Scan a (.str t)).1 = a ∧ (Int32Array.Scan a (.str t)).2 ≠ none) ∧
    (∀ r, t ≠ [] → Int32Array.UnmarshalText a t = (some r, none) →
      r = (Split t ',').map (fun p => decimalValue (TrimSpace p)) ∧ ∀ v ∈ r, IsInt32 v) ∧
    (∀ p ∈ Split t ',', t ≠ [] → ¬ IsInt32 (decimalValue (TrimSpace p)) →
      (Int32Array.UnmarshalText a t).1 = a ∧ (Int32Array.UnmarshalText a t).2 ≠ none) ∧
    Int32Array.Scan (some [7]) (.str "{1, 2147483648}".toList)
      = (some [7], some (.numRange "ParseInt" "2147483648".toList)) ∧
    Int32Array.UnmarshalText (some [7]) "4294967296".toList
      = (some [7], some (.numRange "ParseInt" "4294967296".toList)) ∧
    Int32Array.Scan none (.str "{-2147483648,2147483647}".toList)
      = (some [-2147483648, 2147483647], none) := by
  have hscan : Trim t ['{', '}'] ≠ [] → Int32Array.Scan a (.str t) =
      match scanLoop Int32Array.parseElem (Split (Trim t ['{', '}']) ',') with
      | .error e => (a, some e)
      | .ok out => (some out, none) := by
    intro ht
    unfold Int32Array.Scan
    rw [scanArray_str, if_neg ht]
    cases scanLoop Int32Array.parseElem (Split (Trim t ['{', '}']) ',') <;> rfl
  have htext : t ≠ [] → Int32Array.UnmarshalText a t =
      match scanLoop Int32Array.parseElem (Split t ',') with
      | .error e => (a, some e)
      | .ok out => (some out, none) := by
    intro ht
    have hlen : ¬ t.length = 0 := fun h => ht (List.length_eq_zero.mp h)
    unfold Int32Array.UnmarshalText
    rw [if_neg hlen]
  refine ⟨?_, ?_, ?_, ?_, ?_, ?_, by rfl, by rfl, by rfl⟩
  · intro p v h
    exact ⟨(Int32Array_parseElem_value p v h).1, (Int32Array_parseElem_value p v h).2.1⟩
  · intro p hbad
    cases h : Int32Array.parseElem p with
    | error e => exact ⟨e, rfl⟩
    | ok v =>
      obtain ⟨h1, h2, -⟩ := Int32Array_parseElem_value p v h
      rw [← h1] at hbad
      exact absurd h2 hbad
  · intro r ht h
    rw [hscan ht] at h
    exact (Int32_decode_value a _).1 r h
  · intro p hp ht hbad
    rw [hscan ht]
    obtain ⟨h1, h2⟩ := (Int32_decode_value a _).2 p hp hbad
    exact ⟨by rw [h1], h2⟩
  · intro r ht h
    rw [htext ht] at h
    exact (Int32_decode_value a _).1 r h
  · intro p hp ht hbad
    rw [htext ht]
    obtain ⟨h1, h2⟩ := (Int32_decode_value a _).2 p hp hbad
    exact ⟨by rw [h1], h2⟩

/-! ## The JSON-tag override pass -/

theorem overrideJsonTag_spec (ov : GoString → Option GoString) (f : Field) :
    (overrideJsonTag ov f).Name = f.Name ∧
    (overrideJsonTag ov f).Type_ = f.Type_ ∧
    (overrideJsonTag ov f).ColumnName = f.ColumnName ∧
    (overrideJsonTag ov f).GORMTag = f.GORMTag ∧
    (overrideJsonTag ov f).Relation = f.Relation ∧
    (∀ k, k ≠ "json".toList → (overrideJsonTag ov f).Tag k = f.Tag k) ∧
    (overrideJsonTag ov f).Tag "json".toList =
      (match ov f.ColumnName with
        | some t => some t
        | none =>
          match ov f.Name with
          | some t => some t
          | none => f.Tag "json".toList) := by
  unfold overrideJsonTag
  cases h1 : ov f.ColumnName with
  | some t =>
    refine ⟨rfl, rfl, rfl, rfl, rfl, ?_, ?_⟩
    · intro k hk
      simp only [mapSet, hk, if_false]
    · simp only [mapSet, if_true]
  | none =>
    cases h2 : ov f.Name with
    | some t =>
      refine ⟨rfl, rfl, rfl, rfl, rfl, ?_, ?_⟩
      · intro k hk
        simp only [mapSet, hk, if_false]
      · simp only [mapSet, if_true]
    | none => exact ⟨rfl, rfl, rfl, rfl, rfl, fun _ _ => rfl, rfl⟩

/-- C40: in the JSON-tag override pass of a table, the `json` tag of every field
becomes the override stored under the field's column name when there is one,
else the override stored under its struct field name when there is one, and
else stays as it was; no other tag and nothing else of a field changes, the
fields keep their number and order, and the fields of a table without an
override map are not changed at all. -/
theorem C40_json_tag_overrides
    (jsonTagOverridesByTable : GoString → Option (GoString → Option GoString))
    (tableName : GoString) (fields : List Field) :
    (jsonTagOverridesByTable tableName = none →
      jsonTagOverridePass jsonTagOverridesByTable tableName fields = fields) ∧
    (∀ ov, jsonTagOverridesByTable tableName = some ov →
      (jsonTagOverridePass jsonTagOverridesByTable tableName fields).length = fields.length ∧
      ∀ (i : Nat) (f : Field), fields[i]? = some f →
        ∃ g : Field,
          (jsonTagOverridePass jsonTagOverridesByTable tableName fields)[i]? = some g ∧
          g.Name = f.Name ∧ g.Type_ = f.Type_ ∧ g.ColumnName = f.ColumnName ∧
          g.GORMTag = f.GORMTag ∧ g.Relation = f.Relation ∧
          (∀ k, k ≠ "json".toList → g.Tag k = f.Tag k) ∧
          g.Tag "json".toList =
            (match ov f.ColumnName with
              | some t => some t
              | none =>
                match ov f.Name with
                | some t => some t
                | none => f.Tag "json".toList)) := by
  constructor
  · intro h
    simp only [jsonTagOverridePass, h]
  · intro ov h
    simp only [jsonTagOverridePass, h, List.length_map, true_and]
    intro i f hf
    refine ⟨overrideJsonTag ov f, ?_, overrideJsonTag_spec ov f⟩
    rw [List.getElem?_map, hf]
    rfl

theorem C40_json_tag_overrides_witness :
    ∃ g : Field, (jsonTagOverridePass
        (fun tbl => if tbl = "t".toList then
          some (fun k => if k = "col".toList then some "-".toList
            else if k = "Col".toList then some "x".toList else none) else none)
        "t".toList
        [{ Name := "Col".toList, Type_ := "string".toList, ColumnName := "col".toList,
           Tag := fun k => if k = "json".toList then some "col".toList else none,
           GORMTag := fun _ => none, Relation := none }])[0]? = some g ∧
      g.Tag "json".toList = some "-".toList := by
  obtain ⟨g, h1, h2⟩ := ((C40_json_tag_overrides
      (fun tbl => if tbl = "t".toList then
        some (fun k => if k = "col".toList then some "-".toList
          else if k = "Col".toList then some "x".toList else none) else none)
      "t".toList
      [{ Name := "Col".toList, Type_ := "string".toList, ColumnName := "col".toList,
         Tag := fun k => if k = "json".toList then some "col".toList else none,
         GORMTag := fun _ => none, Relation := none }]).2
      (fun k => if k = "col".toList then some "-".toList
        else if k = "Col".toList then some "x".toList else none) (by rfl)).2 0 _ (by rfl)
  exact ⟨g, h1, h2.2.2.2.2.2.2⟩

end PgTypes
